import Mathlib

/-!
# Automata conversion: a shallow embedding of `automataConversion.cpp`

The C++ program works on `std::set`, `std::map`, `std::vector` and `std::queue`.
They are embedded as follows.

* `std::set<State>` / `std::set<Symbol>`: the list of members in ascending order,
  without repetition (the order in which the C++ code iterates the set).
* `std::map<K, V>` that the code iterates or returns (`m_Transitions`,
  `tempTransitions`): the list of bindings in ascending key order.
* `std::map<K, V>` that is only looked up (`stateSetID`, `newStateMapping`,
  `setMapping`, `map`, `pairID`): an association list, most recent binding first.
* `State` is `unsigned int`: a natural number, reduced modulo `2 ^ 32` where the
  code adds an offset to it.
* A `while` loop is iterated on a fuel counter; running out of fuel gives `none`.
* A step whose behaviour C++ leaves undefined (dereferencing `begin()` of an empty
  set, reading the never-assigned `m_InitialState`) gives `none`.
-/

namespace Automata

/-- NFA record of the program (`struct NFA`). -/
structure NFA where
  m_States : List Nat
  m_Alphabet : List Nat
  m_Transitions : List ((Nat × Nat) × List Nat)
  m_InitialState : Nat
  m_FinalStates : List Nat
deriving DecidableEq, Repr

/-- DFA record of the program (`struct DFA`). -/
structure DFA where
  m_States : List Nat
  m_Alphabet : List Nat
  m_Transitions : List ((Nat × Nat) × Nat)
  m_InitialState : Nat
  m_FinalStates : List Nat
deriving DecidableEq, Repr

/-! ## Containers -/

/-- Insertion into a `std::set`: ordered, no duplicate. -/
def setInsert (x : Nat) : List Nat → List Nat
  | [] => [x]
  | y :: ys =>
    if x < y then x :: y :: ys
    else if x = y then y :: ys
    else y :: setInsert x ys

/-- Range insertion `s.insert(first, last)` into a `std::set`. -/
def setInsertAll (xs : List Nat) (s : List Nat) : List Nat :=
  xs.foldl (fun acc x => setInsert x acc) s

/-- Order of `std::pair<State, Symbol>` keys. -/
def keyLt (a b : Nat × Nat) : Bool :=
  decide (a.1 < b.1) || (decide (a.1 = b.1) && decide (a.2 < b.2))

/-- Order of `std::vector<State>` values (lexicographic). -/
def vecLt : List Nat → List Nat → Bool
  | [], [] => false
  | [], _ :: _ => true
  | _ :: _, [] => false
  | x :: xs, y :: ys => decide (x < y) || (decide (x = y) && vecLt xs ys)

/-- Order of `std::pair<std::vector<State>, Symbol>` keys. -/
def vecKeyLt (a b : List Nat × Nat) : Bool :=
  vecLt a.1 b.1 || (decide (a.1 = b.1) && decide (a.2 < b.2))

/-- Lookup `m.find(k)` in a map. -/
def mapFind {K V : Type} [DecidableEq K] (k : K) : List (K × V) → Option V
  | [] => none
  | (k', v) :: rest => if k' = k then some v else mapFind k rest

/-- Assignment `m[k] = v` in a map kept in ascending key order. -/
def mapAssign {K V : Type} [DecidableEq K] (lt : K → K → Bool) (k : K) (v : V) :
    List (K × V) → List (K × V)
  | [] => [(k, v)]
  | (k', v') :: rest =>
    if lt k k' then (k, v) :: (k', v') :: rest
    else if k = k' then (k, v) :: rest
    else (k', v') :: mapAssign lt k v rest

/-- Read `m[k]` of a DFA transition map: `operator[]` inserts the missing key with
the value-initialised state `0`. Returns the value read and the map afterwards. -/
def mapIndex (k : Nat × Nat) (m : List ((Nat × Nat) × Nat)) :
    Nat × List ((Nat × Nat) × Nat) :=
  match mapFind k m with
  | some v => (v, m)
  | none => (0, mapAssign keyLt k 0 m)

/-- Read `m[k]` of a lookup-only map: the value, `0` when the key is missing (the
insertion `operator[]` makes is never observed in such a map). -/
def lookupD {K : Type} [DecidableEq K] (m : List (K × Nat)) (k : K) : Nat :=
  match mapFind k m with
  | some v => v
  | none => 0

/-! ## Languages -/

/-- Adds the targets of state `q` on symbol `a` to the set `acc`
(`tmp.insert(transitionSet->second.begin(), transitionSet->second.end())` when the
transition exists). -/
def NFA.addTargets (n : NFA) (a : Nat) (acc : List Nat) (q : Nat) : List Nat :=
  match mapFind (q, a) n.m_Transitions with
  | some T => setInsertAll T acc
  | none => acc

/-- One step of an NFA on a set of states: the union of the targets. -/
def NFA.stepSet (n : NFA) (S : List Nat) (a : Nat) : List Nat :=
  S.foldl (n.addTargets a) []

/-- The NFA accepts the word: some run from the initial state ends in a final state. -/
def NFA.accepts (n : NFA) (w : List Nat) : Bool :=
  (w.foldl n.stepSet [n.m_InitialState]).any (fun q => decide (q ∈ n.m_FinalStates))

/-- One step of a DFA; a missing transition ends the run. -/
def DFA.step (d : DFA) (q : Option Nat) (a : Nat) : Option Nat :=
  match q with
  | none => none
  | some s => mapFind (s, a) d.m_Transitions

/-- The DFA accepts the word: the run from the initial state exists and ends in a
final state. -/
def DFA.accepts (d : DFA) (w : List Nat) : Bool :=
  match w.foldl d.step (some d.m_InitialState) with
  | some q => decide (q ∈ d.m_FinalStates)
  | none => false

/-! ## minimize -/

/-- The symbol loop of `equivalentWithSet` (lines 53-57). Both reads go through
`operator[]` of `automaton.m_Transitions`, which inserts missing keys. -/
def equivalentSymbols (stateSetID : List (Nat × Nat)) (state first : Nat) :
    List Nat → List ((Nat × Nat) × Nat) → Bool × List ((Nat × Nat) × Nat)
  | [], t => (true, t)
  | symbol :: rest, t =>
    let r1 := mapIndex (state, symbol) t
    let r2 := mapIndex (first, symbol) r1.2
    if lookupD stateSetID r1.1 != lookupD stateSetID r2.1 then (false, r2.2)
    else equivalentSymbols stateSetID state first rest r2.2

/-- Function `equivalentWithSet` (lines 46-60): compares `state` with the first
element of `set`. Returns the verdict and the automaton, whose transition map the
reads may have extended. The set is never empty where the program calls it. -/
def equivalentWithSet (state : Nat) (set : List Nat) (stateSetID : List (Nat × Nat))
    (automaton : DFA) : Bool × DFA :=
  match set with
  | [] => (true, automaton)
  | first :: _ =>
    if state = first then (true, automaton)
    else
      let r := equivalentSymbols stateSetID state first automaton.m_Alphabet
        automaton.m_Transitions
      (r.1, { automaton with m_Transitions := r.2 })

/-- Lines 96-105: the states of `currSet[i]` that are not equivalent with its head,
in ascending order (`tmpEquivalenceSet`). -/
def collectInequivalent (block : List Nat) (stateSetID : List (Nat × Nat)) :
    List Nat → DFA → List Nat × DFA
  | [], aut => ([], aut)
  | state :: rest, aut =>
    let r := equivalentWithSet state block stateSetID aut
    let rs := collectInequivalent block stateSetID rest r.2
    if r.1 then rs else (state :: rs.1, rs.2)

/-- Variables of the refinement loop of `minimize`. -/
structure RefineState where
  currSet : List (List Nat)
  stateSetID : List (Nat × Nat)
  original : DFA
deriving DecidableEq, Repr

/-- Body of the `for i` loop (lines 92-113) for one index. -/
def refineBlock (i : Nat) (st : RefineState) : RefineState :=
  let block := st.currSet.getD i []
  let r := collectInequivalent block st.stateSetID block st.original
  if r.1.isEmpty then { st with original := r.2 }
  else
    { currSet := (st.currSet.set i (block.filter (fun s => !r.1.contains s))) ++ [r.1]
      stateSetID := r.1.foldl (fun ids j => (j, st.currSet.length) :: ids) st.stateSetID
      original := r.2 }

/-- The `for (size_t i = 0; i < currSet.size(); i++)` loop, from index `i`. -/
def refinePass : Nat → Nat → RefineState → Option RefineState
  | 0, _, _ => none
  | fuel + 1, i, st =>
    if i < st.currSet.length then refinePass fuel (i + 1) (refineBlock i st)
    else some st

/-- The `while (currSet != prevSet)` loop (lines 87-115); the guard holds on entry
since `prevSet` starts empty and `currSet` has two elements. -/
def refineLoop (passFuel : Nat) : Nat → RefineState → Option RefineState
  | 0, _ => none
  | fuel + 1, st =>
    match refinePass passFuel 0 st with
    | none => none
    | some st' =>
      if st'.currSet != st.currSet then refineLoop passFuel fuel st' else some st'

/-- Lines 119-128: numbers the blocks; returns `newStateMapping` and `setMapping`. -/
def numberBlocks : Nat → List (List Nat) → List (Nat × Nat) → List (List Nat × Nat) →
    List (Nat × Nat) × List (List Nat × Nat)
  | _, [], nsm, sm => (nsm, sm)
  | counter, set :: rest, nsm, sm =>
    numberBlocks (counter + 1) rest
      (set.foldl (fun m state => (state, counter) :: m) nsm) ((set, counter) :: sm)

/-- The DFA under construction in `minimize`; `m_InitialState` is unassigned
(`none`) until a block containing the original initial state is met. -/
structure Building where
  m_States : List Nat
  m_Transitions : List ((Nat × Nat) × Nat)
  m_InitialState : Option Nat
  m_FinalStates : List Nat
deriving DecidableEq, Repr

/-- Lines 141-146: copies the transitions of the block's first state. -/
def copyTransitions (original : DFA) (newStateMapping : List (Nat × Nat)) (first id : Nat) :
    List Nat → List ((Nat × Nat) × Nat) → List ((Nat × Nat) × Nat)
  | [], t => t
  | symbol :: rest, t =>
    match mapFind (first, symbol) original.m_Transitions with
    | some target =>
      copyTransitions original newStateMapping first id rest
        (mapAssign keyLt (id, symbol) (lookupD newStateMapping target) t)
    | none => copyTransitions original newStateMapping first id rest t

/-- Lines 130-147: builds the quotient automaton block by block. Dereferencing
`set.begin()` of an empty block is undefined: `none`. -/
def buildBlocks (original : DFA) (newStateMapping : List (Nat × Nat))
    (setMapping : List (List Nat × Nat)) : List (List Nat) → Building → Option Building
  | [], b => some b
  | set :: rest, b =>
    let id := lookupD setMapping set
    let init := if original.m_InitialState ∈ set then some id else b.m_InitialState
    match set with
    | [] => none
    | first :: _ =>
      buildBlocks original newStateMapping setMapping rest
        { m_States := setInsert id b.m_States
          m_Transitions :=
            copyTransitions original newStateMapping first id original.m_Alphabet b.m_Transitions
          m_InitialState := init
          m_FinalStates :=
            if first ∈ original.m_FinalStates then setInsert id b.m_FinalStates
            else b.m_FinalStates }

/-- Lines 154-159: the sink test of state `i`; the read `result.m_Transitions[{i, j}]`
inserts a missing key. -/
def isSinkLoop (i : Nat) (finals : List Nat) :
    List Nat → List ((Nat × Nat) × Nat) → Bool × List ((Nat × Nat) × Nat)
  | [], t => (true, t)
  | j :: rest, t =>
    let r := mapIndex (i, j) t
    if r.1 != i || decide (i ∈ finals) then (false, r.2)
    else isSinkLoop i finals rest r.2

/-- Lines 151-174: scans the states in ascending order for the first sink. -/
def sinkScan (alphabet finals : List Nat) :
    List Nat → List ((Nat × Nat) × Nat) → Option Nat × List ((Nat × Nat) × Nat)
  | [], t => (none, t)
  | i :: rest, t =>
    let r := isSinkLoop i finals alphabet t
    if r.1 then (some i, r.2) else sinkScan alphabet finals rest r.2

/-- Lines 180-186: no transition of the initial state leaves it. -/
def restInaccessible (initial : Nat) (alphabet : List Nat)
    (t : List ((Nat × Nat) × Nat)) : Bool :=
  alphabet.all (fun symbol =>
    match mapFind (initial, symbol) t with
    | some target => decide (target = initial)
    | none => true)

/-- Lines 149-201 of `minimize`: sink removal, repair of the initial state,
collapse to the initial state. -/
def pruneResult (alphabet : List Nat) (b : Building) : Option DFA :=
  let scan := sinkScan alphabet b.m_FinalStates b.m_States b.m_Transitions
  let states1 :=
    match scan.1 with
    | some i => b.m_States.filter (fun s => s != i)
    | none => b.m_States
  let trans1 :=
    match scan.1 with
    | some i => scan.2.filter (fun e => e.1.1 != i && e.2 != i)
    | none => scan.2
  match b.m_InitialState with
  | none => none
  | some init0 =>
    let initial? := if init0 ∈ states1 then some init0 else states1.head?
    match initial? with
    | none => none
    | some initial =>
      if restInaccessible initial alphabet trans1 then
        some { m_States := [initial]
               m_Alphabet := alphabet
               m_Transitions := trans1.filter (fun e => e.1.1 = initial)
               m_InitialState := initial
               m_FinalStates := b.m_FinalStates }
      else
        some { m_States := states1
               m_Alphabet := alphabet
               m_Transitions := trans1
               m_InitialState := initial
               m_FinalStates := b.m_FinalStates }

/-- Function `minimize` (lines 62-202). -/
def minimize (original : DFA) : Option DFA :=
  let Q1 := original.m_States.filter (fun s => !original.m_FinalStates.contains s)
  let Q2 := original.m_FinalStates
  let stateSetID :=
    Q2.foldl (fun ids i => (i, 1) :: ids) (Q1.foldl (fun ids i => (i, 0) :: ids) [])
  let n := Q1.length + Q2.length
  match refineLoop (n + 3) (n + 2)
      { currSet := [Q1, Q2], stateSetID := stateSetID, original := original } with
  | none => none
  | some st =>
    let maps := numberBlocks 0 st.currSet [] []
    match buildBlocks st.original maps.1 maps.2 st.currSet
        { m_States := [], m_Transitions := [], m_InitialState := none, m_FinalStates := [] } with
    | none => none
    | some b => pruneResult original.m_Alphabet b

/-- Lines 130-147 with the read of an empty block made explicit: `junk` is the
value that dereferencing `set.begin()` yields on an empty block (lines 137 and
142), which the language leaves undefined. On non-empty blocks this is
`buildBlocks`. -/
def buildBlocksWith (junk : Nat) (original : DFA) (newStateMapping : List (Nat × Nat))
    (setMapping : List (List Nat × Nat)) : List (List Nat) → Building → Building
  | [], b => b
  | set :: rest, b =>
    let id := lookupD setMapping set
    let init := if original.m_InitialState ∈ set then some id else b.m_InitialState
    let first := set.headD junk
    buildBlocksWith junk original newStateMapping setMapping rest
      { m_States := setInsert id b.m_States
        m_Transitions :=
          copyTransitions original newStateMapping first id original.m_Alphabet b.m_Transitions
        m_InitialState := init
        m_FinalStates :=
          if first ∈ original.m_FinalStates then setInsert id b.m_FinalStates
          else b.m_FinalStates }

/-- Function `minimize` (lines 62-202) when the read of an empty block yields
`junk`. -/
def minimizeWith (junk : Nat) (original : DFA) : Option DFA :=
  let Q1 := original.m_States.filter (fun s => !original.m_FinalStates.contains s)
  let Q2 := original.m_FinalStates
  let stateSetID :=
    Q2.foldl (fun ids i => (i, 1) :: ids) (Q1.foldl (fun ids i => (i, 0) :: ids) [])
  let n := Q1.length + Q2.length
  match refineLoop (n + 3) (n + 2)
      { currSet := [Q1, Q2], stateSetID := stateSetID, original := original } with
  | none => none
  | some st =>
    let maps := numberBlocks 0 st.currSet [] []
    pruneResult original.m_Alphabet
      (buildBlocksWith junk st.original maps.1 maps.2 st.currSet
        { m_States := [], m_Transitions := [], m_InitialState := none, m_FinalStates := [] })

/-! ## determine -/

/-- Variables of `determine`. `map` sends a set of NFA states to its DFA state.
`stateCounter` is a `size_t` and is kept unreduced; what is stored from it, in
`map` (values `unsigned int`), in `m_States` and in `m_Transitions` (`State`), is
its value modulo `2 ^ 32`, which a wrap of `size_t` itself does not change. -/
structure DetState where
  result : DFA
  map : List (List Nat × Nat)
  queue : List (List Nat)
  stateCounter : Nat
  sinkStateAdded : Bool
deriving DecidableEq, Repr

/-- Body of the first symbol loop of `determine` (lines 233-268): the transitions
of the initial state. -/
def determineStart (nfa : NFA) (st : DetState) (symbol : Nat) : DetState :=
  match mapFind (nfa.m_InitialState, symbol) nfa.m_Transitions with
  | some target =>
    let st1 : DetState :=
      if (mapFind target st.map).isNone then
        { st with
          queue := st.queue ++ [target]
          map := (target, st.stateCounter % 2 ^ 32) :: st.map
          stateCounter := st.stateCounter + 1
          result := { st.result with
            m_States := setInsert (st.stateCounter % 2 ^ 32) st.result.m_States } }
      else st
    { st1 with
      result := { st1.result with
        m_Transitions :=
          mapAssign keyLt (0, symbol) (lookupD st1.map target) st1.result.m_Transitions } }
  | none =>
    if !st.sinkStateAdded then
      { result := { st.result with
          m_States := setInsert (st.stateCounter % 2 ^ 32) st.result.m_States
          m_Transitions :=
            mapAssign keyLt (0, symbol) (st.stateCounter % 2 ^ 32) st.result.m_Transitions }
        map := ([], st.stateCounter % 2 ^ 32) :: st.map
        queue := st.queue ++ [[]]
        stateCounter := st.stateCounter + 1
        sinkStateAdded := true }
    else
      { st with
        result := { st.result with
          m_Transitions :=
            mapAssign keyLt (0, symbol) (lookupD st.map []) st.result.m_Transitions } }

/-- Lines 284-296: the loop over the states of `nextInQueue` for one symbol, on
the pair (`flag`, `tmp`). -/
def collectTargets (nfa : NFA) (symbol : Nat) (acc : Bool × List Nat) (state : Nat) :
    Bool × List Nat :=
  (acc.1 || decide (state ∈ nfa.m_FinalStates), nfa.addTargets symbol acc.2 state)

/-- Body of the symbol loop inside the worklist loop (lines 280-319), on the
variables and `flag`. -/
def determineSymbol (nfa : NFA) (nextInQueue : List Nat) (acc : DetState × Bool)
    (symbol : Nat) : DetState × Bool :=
  let r := nextInQueue.foldl (collectTargets nfa symbol) (acc.2, [])
  let st := acc.1
  let st1 : DetState :=
    if (mapFind r.2 st.map).isNone then
      { st with
        map := (r.2, st.stateCounter % 2 ^ 32) :: st.map
        stateCounter := st.stateCounter + 1
        queue := st.queue ++ [r.2] }
    else st
  let src := lookupD st1.map nextInQueue
  let tgt := lookupD st1.map r.2
  ({ st1 with
     result := { st1.result with
       m_Transitions := mapAssign keyLt (src, symbol) tgt st1.result.m_Transitions
       m_States := setInsert tgt st1.result.m_States
       m_FinalStates :=
         if r.1 then setInsert src st1.result.m_FinalStates else st1.result.m_FinalStates } },
   r.1)

/-- The worklist loop of `determine` (lines 271-321). The front of the queue is
taken off before its symbols are processed; the program pops it afterwards, and
pushes go to the back. -/
def determineLoop (nfa : NFA) : Nat → DetState → Option DFA
  | 0, _ => none
  | fuel + 1, st =>
    match st.queue with
    | [] => some st.result
    | nextInQueue :: rest =>
      determineLoop nfa fuel
        (nfa.m_Alphabet.foldl (determineSymbol nfa nextInQueue)
          ({ st with queue := rest }, false)).1

/-- State of `determine` before the first symbol loop (lines 206-230). -/
def determineInit (nfa : NFA) : DetState :=
  { result :=
      { m_States := [0]
        m_Alphabet := nfa.m_Alphabet
        m_Transitions := []
        m_InitialState := 0
        m_FinalStates := if nfa.m_InitialState ∈ nfa.m_FinalStates then [0] else [] }
    map := [([nfa.m_InitialState], 0)]
    queue := []
    stateCounter := 1
    sinkStateAdded := false }

/-- Function `determine` (lines 205-324). Every set pushed on the queue is a new
key of `map`, so the worklist loop is given one round per subset of the states. -/
def determine (nfa : NFA) : Option DFA :=
  determineLoop nfa (2 ^ nfa.m_States.length + 1)
    (nfa.m_Alphabet.foldl (determineStart nfa) (determineInit nfa))

/-! ## unifyNFA and unify -/

/-- Value of `state + a.m_States.size()` once stored as a `State`. -/
def offsetState (n state : Nat) : Nat := (state + n) % 2 ^ 32

/-- Statement `m[k].insert(x)` on an NFA transition map. -/
def insertTarget (k : Nat × Nat) (x : Nat) (m : List ((Nat × Nat) × List Nat)) :
    List ((Nat × Nat) × List Nat) :=
  match mapFind k m with
  | some T => mapAssign keyLt k (setInsert x T) m
  | none => mapAssign keyLt k [x] m

/-- Lines 338-351: imports the transitions of one state of `b`. -/
def importTransitions (b : NFA) (n state : Nat) (m : List ((Nat × Nat) × List Nat))
    (symbol : Nat) : List ((Nat × Nat) × List Nat) :=
  match mapFind (state, symbol) b.m_Transitions with
  | some T => T.foldl (fun acc elem => insertTarget (offsetState n state, symbol)
      (offsetState n elem) acc) m
  | none => m

/-- Body of the loop over the states of `b` (lines 332-352). -/
def importState (a b : NFA) (result : NFA) (state : Nat) : NFA :=
  let n := a.m_States.length
  { result with
    m_States := setInsert (offsetState n state) result.m_States
    m_FinalStates :=
      if state ∈ b.m_FinalStates then setInsert (offsetState n state) result.m_FinalStates
      else result.m_FinalStates
    m_Transitions := b.m_Alphabet.foldl (importTransitions b n state) result.m_Transitions }

/-- Body of the last loop of `unifyNFA` (lines 363-377): the transitions of the
new initial state on one symbol. -/
def startTransitions (a b : NFA) (init : Nat) (m : List ((Nat × Nat) × List Nat))
    (symbol : Nat) : List ((Nat × Nat) × List Nat) :=
  let m1 :=
    match mapFind (a.m_InitialState, symbol) a.m_Transitions with
    | some T => mapAssign keyLt (init, symbol) T m
    | none => m
  match mapFind (b.m_InitialState, symbol) b.m_Transitions with
  | some T => T.foldl (fun acc state => insertTarget (init, symbol)
      (offsetState a.m_States.length state) acc) m1
  | none => m1

/-- Function `unifyNFA` (lines 326-380). -/
def unifyNFA (a b : NFA) : NFA :=
  let r0 : NFA := { a with m_Alphabet := setInsertAll b.m_Alphabet a.m_Alphabet }
  let r1 := b.m_States.foldl (importState a b) r0
  let init := r1.m_States.length % 2 ^ 32
  { m_States := setInsert init r1.m_States
    m_Alphabet := r1.m_Alphabet
    m_Transitions := r1.m_Alphabet.foldl (startTransitions a b init) r1.m_Transitions
    m_InitialState := init
    m_FinalStates :=
      if a.m_InitialState ∈ a.m_FinalStates ∨ b.m_InitialState ∈ b.m_FinalStates then
        setInsert init r1.m_FinalStates
      else r1.m_FinalStates }

/-- Function `unify` (lines 382-384). -/
def unify (a b : NFA) : Option DFA :=
  match determine (unifyNFA a b) with
  | some d => minimize d
  | none => none

/-! ## parallelRun and intersect -/

/-- Variables of `parallelRun`. A pair of states is the two-element vector
`[p, q]`, the sink the empty vector. `stateCounter` is a `State`, that is an
`unsigned int`: its increment is reduced modulo `2 ^ 32`. -/
structure ProdState where
  result : DFA
  tempTransitions : List ((List Nat × Nat) × List Nat)
  pairID : List (List Nat × Nat)
  queue : List (List Nat)
  stateCounter : Nat
deriving DecidableEq, Repr

/-- Body of the symbol loop of `parallelRun` (lines 416-445). -/
def parallelSymbol (a b : DFA) (next : List Nat) (st : ProdState) (symbol : Nat) :
    ProdState :=
  match next with
  | [p, q] =>
    match mapFind (p, symbol) a.m_Transitions, mapFind (q, symbol) b.m_Transitions with
    | some ta, some tb =>
      let st1 : ProdState :=
        if (mapFind [p, q] st.pairID).isNone then
          { st with
            pairID := ([p, q], st.stateCounter) :: st.pairID
            stateCounter := (st.stateCounter + 1) % 2 ^ 32
            result := { st.result with
              m_States := setInsert st.stateCounter st.result.m_States
              m_FinalStates :=
                if p ∈ a.m_FinalStates ∧ q ∈ b.m_FinalStates then
                  setInsert st.stateCounter st.result.m_FinalStates
                else st.result.m_FinalStates } }
        else st
      { st1 with
        tempTransitions := mapAssign vecKeyLt ([p, q], symbol) [ta, tb] st1.tempTransitions
        queue :=
          if (mapFind [ta, tb] st1.pairID).isNone then st1.queue ++ [[ta, tb]]
          else st1.queue }
    | _, _ =>
      { st with
        tempTransitions := mapAssign vecKeyLt ([p, q], symbol) [] st.tempTransitions }
  | _ => st

/-- The worklist loop of `parallelRun` (lines 412-446). -/
def parallelLoop (a b : DFA) : Nat → ProdState → Option ProdState
  | 0, _ => none
  | fuel + 1, st =>
    match st.queue with
    | [] => some st
    | next :: rest =>
      parallelLoop a b fuel
        (st.result.m_Alphabet.foldl (parallelSymbol a b next) { st with queue := rest })

/-- Rounds given to the worklist loop of `parallelRun` for `s` symbols and `n`
pairs: `1 + s + ... + s ^ n`. -/
def parallelFuel (s : Nat) : Nat → Nat
  | 0 => 1
  | n + 1 => 1 + s * parallelFuel s n

/-- Function `parallelRun` (lines 386-453). -/
def parallelRun (a b : DFA) : Option DFA :=
  let alphabet := setInsertAll b.m_Alphabet (setInsertAll a.m_Alphabet [])
  let st0 : ProdState :=
    { result :=
        { m_States := [0]
          m_Alphabet := alphabet
          m_Transitions := []
          m_InitialState := 1
          m_FinalStates := [] }
      tempTransitions :=
        alphabet.foldl (fun t symbol => mapAssign vecKeyLt ([], symbol) [] t) []
      pairID := [([], 0)]
      queue := [[a.m_InitialState, b.m_InitialState]]
      stateCounter := 1 }
  match parallelLoop a b
      (parallelFuel alphabet.length (a.m_States.length * b.m_States.length) + 1) st0 with
  | none => none
  | some st =>
    some { st.result with
      m_Transitions :=
        st.tempTransitions.foldl (fun t e =>
          mapAssign keyLt (lookupD st.pairID e.1.1, e.1.2) (lookupD st.pairID e.2) t) [] }

/-- Function `intersect` (lines 455-457). -/
def intersect (a b : NFA) : Option DFA :=
  match determine a, determine b with
  | some da, some db =>
    match parallelRun da db with
    | some p => minimize p
    | none => none
  | _, _ => none

/-- Function `intersect` (lines 455-457) when the read of an empty block in
`minimize` yields `junk`. -/
def intersectWith (junk : Nat) (a b : NFA) : Option DFA :=
  match determine a, determine b with
  | some da, some db =>
    match parallelRun da db with
    | some p => minimizeWith junk p
    | none => none
  | _, _ => none

/-! ## Well-formed inputs and invariants -/

/-- Well-formed NFA: the sets are ascending lists of members, every state the
transitions, the initial state or the accepting set refer to is a state, every
transition symbol is in the alphabet, every target set is non-empty; states fit
`unsigned int`, symbols `uint8_t`. -/
structure NFA.WF (n : NFA) : Prop where
  states_sorted : n.m_States.Sorted (· < ·)
  alphabet_sorted : n.m_Alphabet.Sorted (· < ·)
  finals_sorted : n.m_FinalStates.Sorted (· < ·)
  keys_sorted : (n.m_Transitions.map Prod.fst).Sorted (fun a b => keyLt a b = true)
  initial_mem : n.m_InitialState ∈ n.m_States
  finals_sub : ∀ q ∈ n.m_FinalStates, q ∈ n.m_States
  trans_src : ∀ e ∈ n.m_Transitions, e.1.1 ∈ n.m_States
  trans_sym : ∀ e ∈ n.m_Transitions, e.1.2 ∈ n.m_Alphabet
  trans_nonempty : ∀ e ∈ n.m_Transitions, e.2 ≠ []
  trans_sorted : ∀ e ∈ n.m_Transitions, e.2.Sorted (· < ·)
  trans_tgt : ∀ e ∈ n.m_Transitions, ∀ q ∈ e.2, q ∈ n.m_States
  states_bound : ∀ q ∈ n.m_States, q < 2 ^ 32
  symbols_bound : ∀ a ∈ n.m_Alphabet, a < 256

/-- Well-formed DFA (the transition function may be partial). -/
structure DFA.WF (d : DFA) : Prop where
  states_sorted : d.m_States.Sorted (· < ·)
  alphabet_sorted : d.m_Alphabet.Sorted (· < ·)
  finals_sorted : d.m_FinalStates.Sorted (· < ·)
  keys_sorted : (d.m_Transitions.map Prod.fst).Sorted (fun a b => keyLt a b = true)
  initial_mem : d.m_InitialState ∈ d.m_States
  finals_sub : ∀ q ∈ d.m_FinalStates, q ∈ d.m_States
  trans_src : ∀ e ∈ d.m_Transitions, e.1.1 ∈ d.m_States
  trans_sym : ∀ e ∈ d.m_Transitions, e.1.2 ∈ d.m_Alphabet
  trans_tgt : ∀ e ∈ d.m_Transitions, e.2 ∈ d.m_States
  states_bound : ∀ q ∈ d.m_States, q < 2 ^ 32
  symbols_bound : ∀ a ∈ d.m_Alphabet, a < 256

/-- The references of the DFA are closed: the initial state, the accepting states
and the states named by the transitions are states, and the transition symbols are
in the alphabet. -/
structure DFA.Closed (d : DFA) : Prop where
  initial_mem : d.m_InitialState ∈ d.m_States
  finals_sub : ∀ q ∈ d.m_FinalStates, q ∈ d.m_States
  trans_src : ∀ e ∈ d.m_Transitions, e.1.1 ∈ d.m_States
  trans_sym : ∀ e ∈ d.m_Transitions, e.1.2 ∈ d.m_Alphabet
  trans_tgt : ∀ e ∈ d.m_Transitions, e.2 ∈ d.m_States

/-- Total DFA: every state has a transition on every symbol of the alphabet. -/
def DFA.Total (d : DFA) : Prop :=
  ∀ q ∈ d.m_States, ∀ a ∈ d.m_Alphabet, (mapFind (q, a) d.m_Transitions).isSome = true

/-- The set of NFA states reached on a word. -/
def NFA.run (n : NFA) (w : List Nat) : List Nat := w.foldl n.stepSet [n.m_InitialState]

/-- The set contains an accepting state of the NFA. -/
def NFA.anyFinal (n : NFA) (S : List Nat) : Bool :=
  S.any (fun q => decide (q ∈ n.m_FinalStates))

/-- In `determine`, the set `S` has its transitions on the symbols `syms`
recorded: the target set has an id and the DFA transition leads to it. -/
def Expanded (n : NFA) (st : DetState) (S : List Nat) (syms : List Nat) : Prop :=
  ∀ a ∈ syms, ∃ i, mapFind (n.stepSet S a) st.map = some i ∧
    mapFind (lookupD st.map S, a) st.result.m_Transitions = some i

/-- Invariant of `determine` while the set `cur` is being expanded and the
symbols `syms` are done for it. -/
structure DetInv (n : NFA) (st : DetState) (cur : List Nat) (syms : List Nat) : Prop where
  keys_nodup : (st.map.map Prod.fst).Nodup
  vals_nodup : (st.map.map Prod.snd).Nodup
  vals_lt : ∀ v ∈ st.map.map Prod.snd, v < st.stateCounter
  keys_sub : ∀ S ∈ st.map.map Prod.fst, S.Sublist n.m_States
  init_key : mapFind [n.m_InitialState] st.map = some 0
  cur_key : cur ∈ st.map.map Prod.fst
  cur_queue : cur ∉ st.queue
  init_queue : [n.m_InitialState] ∉ st.queue
  queue_keys : ∀ S ∈ st.queue, S ∈ st.map.map Prod.fst
  queue_nodup : st.queue.Nodup
  alpha_queue : n.m_Alphabet = [] → st.queue = []
  expanded : ∀ S ∈ st.map.map Prod.fst, S ∉ st.queue → S ≠ cur →
    Expanded n st S n.m_Alphabet ∧
      (n.anyFinal S = true → lookupD st.map S ∈ st.result.m_FinalStates)
  cur_expanded : Expanded n st cur syms
  cur_final : cur = [n.m_InitialState] ∨ syms ≠ [] →
    n.anyFinal cur = true → lookupD st.map cur ∈ st.result.m_FinalStates
  fin_sound : ∀ i ∈ st.result.m_FinalStates,
    ∃ S, mapFind S st.map = some i ∧ n.anyFinal S = true
  trans_sym : ∀ e ∈ st.result.m_Transitions, e.1.2 ∈ n.m_Alphabet
  states_iff : ∀ i, i ∈ st.result.m_States ↔ i < st.stateCounter
  initial : st.result.m_InitialState = 0

/-- Relation between the variables of `determine` before and after the transition
of `cur` on `a` is recorded: the target set gets an id, the counter reduced to
`unsigned int`, and is queued when it has none, and the DFA transition is
written. -/
structure Recorded (n : NFA) (st st' : DetState) (cur : List Nat) (a : Nat) : Prop where
  map_eq : st'.map =
    if (mapFind (n.stepSet cur a) st.map).isNone then
      (n.stepSet cur a, st.stateCounter % 2 ^ 32) :: st.map else st.map
  counter_eq : st'.stateCounter =
    if (mapFind (n.stepSet cur a) st.map).isNone then st.stateCounter + 1
    else st.stateCounter
  queue_eq : st'.queue =
    if (mapFind (n.stepSet cur a) st.map).isNone then st.queue ++ [n.stepSet cur a]
    else st.queue
  trans_eq : st'.result.m_Transitions =
    mapAssign keyLt (lookupD st'.map cur, a) (lookupD st'.map (n.stepSet cur a))
      st.result.m_Transitions
  states_eq :
    st'.result.m_States =
        setInsert (lookupD st'.map (n.stepSet cur a)) st.result.m_States ∨
      (st'.result.m_States = st.result.m_States ∧
        (mapFind (n.stepSet cur a) st.map).isNone = false)
  finals_eq :
    st'.result.m_FinalStates = st.result.m_FinalStates ∨
      (st'.result.m_FinalStates = setInsert (lookupD st'.map cur) st.result.m_FinalStates ∧
        n.anyFinal cur = true)
  initial_eq : st'.result.m_InitialState = st.result.m_InitialState

/-- Shape of the DFA under construction in `determine`: the alphabet is that of
the NFA, the sets are ascending, the transition keys ascend, every transition
joins numbered states, every number below `stateCounter` is the id of a set, and
every set with an id is the set of states the NFA reaches on some word. -/
structure DetShape (n : NFA) (st : DetState) : Prop where
  alphabet_eq : st.result.m_Alphabet = n.m_Alphabet
  states_sorted : st.result.m_States.Sorted (· < ·)
  finals_sorted : st.result.m_FinalStates.Sorted (· < ·)
  keys_sorted : (st.result.m_Transitions.map Prod.fst).Sorted (fun a b => keyLt a b = true)
  trans_lt : ∀ e ∈ st.result.m_Transitions, e.1.1 < st.stateCounter ∧ e.2 < st.stateCounter
  vals_cover : ∀ i, i < st.stateCounter → i ∈ st.map.map Prod.snd
  keys_reach : ∀ S ∈ st.map.map Prod.fst,
    ∃ w, (∀ c ∈ w, c ∈ n.m_Alphabet) ∧ n.run w = S

/-- The subset construction on `n` meets at most `2 ^ 32` sets of states, so that
the ids `determine` stores for them fit `unsigned int`. -/
def NFA.FewSubsets (n : NFA) : Prop :=
  ∀ L : List (List Nat), L.Nodup →
    (∀ S ∈ L, ∃ w, (∀ c ∈ w, c ∈ n.m_Alphabet) ∧ n.run w = S) → L.length ≤ 2 ^ 32

/-- Invariant of `determine` that holds whatever the ids are, also once they
repeat: the sets with an id are distinct sets of states, the queue holds sets
with an id, the states of the DFA are the ids in use, every transition leads to
one of them, and every set taken off the queue has a transition on each symbol
at its id (`cur` on the symbols `syms` so far). -/
structure DetKeys (n : NFA) (st : DetState) (cur : List Nat) (syms : List Nat) : Prop where
  keys_nodup : (st.map.map Prod.fst).Nodup
  keys_sub : ∀ S ∈ st.map.map Prod.fst, S.Sublist n.m_States
  init_key : mapFind [n.m_InitialState] st.map = some 0
  cur_key : cur ∈ st.map.map Prod.fst
  cur_queue : cur ∉ st.queue
  queue_keys : ∀ S ∈ st.queue, S ∈ st.map.map Prod.fst
  queue_nodup : st.queue.Nodup
  vals_bound : ∀ v ∈ st.map.map Prod.snd, v < 2 ^ 32
  states_sorted : st.result.m_States.Sorted (· < ·)
  states_vals : ∀ i, i ∈ st.result.m_States ↔ i ∈ st.map.map Prod.snd
  trans_tgt : ∀ e ∈ st.result.m_Transitions, e.2 ∈ st.result.m_States
  done : ∀ S ∈ st.map.map Prod.fst, S ∉ st.queue → S ≠ cur → ∀ a ∈ n.m_Alphabet,
    (mapFind (lookupD st.map S, a) st.result.m_Transitions).isSome = true
  cur_done : ∀ a ∈ syms,
    (mapFind (lookupD st.map cur, a) st.result.m_Transitions).isSome = true
  initial : st.result.m_InitialState = 0

/-- Transition function of a DFA, `0` where the map has no entry (the value
`operator[]` yields). -/
def DFA.delta (d : DFA) (q a : Nat) : Nat := lookupD d.m_Transitions (q, a)

/-- The states `p` and `q` move into the same blocks of `stateSetID` on every symbol
(the test of `equivalentWithSet`). -/
def agreeOn (d : DFA) (stateSetID : List (Nat × Nat)) (p q : Nat) : Bool :=
  d.m_Alphabet.all (fun a =>
    lookupD stateSetID (d.delta p a) == lookupD stateSetID (d.delta q a))

/-- The state `q` fails the test of `equivalentWithSet` against the head `first`. -/
def inequivalent (d : DFA) (stateSetID : List (Nat × Nat)) (first q : Nat) : Bool :=
  !(decide (q = first) || agreeOn d stateSetID q first)

/-- Invariant of the refinement loop of `minimize` on a total DFA `d`: the blocks
are non-empty, cover the states, `stateSetID` gives the index of the block of every
state, no block mixes accepting and non-accepting states, block 0 is not accepting,
and the block sizes add up to `n`. -/
structure PartInv (d : DFA) (n : Nat) (st : RefineState) : Prop where
  orig : st.original = d
  nonempty : ∀ B ∈ st.currSet, B ≠ []
  cover : ∀ q, q ∈ d.m_States ↔ ∃ B ∈ st.currSet, q ∈ B
  ids : ∀ i B, st.currSet[i]? = some B → ∀ q ∈ B, lookupD st.stateSetID q = i
  final_resp : ∀ B ∈ st.currSet, ∀ p ∈ B, ∀ q ∈ B,
    (p ∈ d.m_FinalStates ↔ q ∈ d.m_FinalStates)
  block_zero : ∀ B, st.currSet[0]? = some B → ∀ q ∈ B, q ∉ d.m_FinalStates
  total_len : (st.currSet.map List.length).sum = n
  two : 2 ≤ st.currSet.length

/-- Every state of the block agrees with the head of the block under `stateSetID`. -/
def StableBlock (d : DFA) (stateSetID : List (Nat × Nat)) (B : List Nat) : Prop :=
  ∀ q ∈ B, agreeOn d stateSetID q (B.headD 0) = true

/-- The automaton under construction in `minimize`, read as a DFA. -/
def Building.toDFA (b : Building) (alphabet : List Nat) (initial : Nat) : DFA :=
  { m_States := b.m_States
    m_Alphabet := alphabet
    m_Transitions := b.m_Transitions
    m_InitialState := initial
    m_FinalStates := b.m_FinalStates }

/-- The sink test of `minimize` (lines 152-159) on a state whose transitions all
exist. -/
def isSinkState (alphabet finals : List Nat) (t : List ((Nat × Nat) × Nat)) (i : Nat) :
    Bool :=
  alphabet.all (fun j => lookupD t (i, j) == i && !decide (i ∈ finals))

/-- The state a DFA run is in after a word, `none` once a transition is missing. -/
def DFA.run (d : DFA) (w : List Nat) : Option Nat := w.foldl d.step (some d.m_InitialState)

/-- The NFA transition map `m` lets state `q` move to state `x` on symbol `s`. -/
def edgeIn (m : List ((Nat × Nat) × List Nat)) (q s x : Nat) : Prop :=
  ∃ T, mapFind (q, s) m = some T ∧ x ∈ T

/-- The states of the NFA are named `0 .. |Q| - 1`. -/
def NFA.Contiguous (n : NFA) : Prop := ∀ q ∈ n.m_States, q < n.m_States.length

/-- The set `S` of states of the union is the set `SA` of states of `a` together
with the set `SB` of states of `b` shifted by `n`. -/
def Joined (n : Nat) (S SA SB : List Nat) : Prop :=
  ∀ x, x ∈ S ↔ x ∈ SA ∨ ∃ y ∈ SB, x = y + n

/-- The NFA transition map has ascending keys and non-empty ascending target sets. -/
def TargetsOk (m : List ((Nat × Nat) × List Nat)) : Prop :=
  (m.map Prod.fst).Sorted (fun a b => keyLt a b = true) ∧
    ∀ e ∈ m, e.2 ≠ [] ∧ e.2.Sorted (· < ·)

/-- Target of the pair `x` on symbol `s` in the product: the pair of the two
targets when both automata have the transition, the sink `[]` otherwise. -/
def pairTarget (a b : DFA) (x : List Nat) (s : Nat) : List Nat :=
  match x with
  | [p, q] =>
    match mapFind (p, s) a.m_Transitions, mapFind (q, s) b.m_Transitions with
    | some ta, some tb => [ta, tb]
    | _, _ => []
  | _ => []

/-- The vector `x` is a pair of a state of `a` and a state of `b`. -/
def IsPair (a b : DFA) (x : List Nat) : Prop :=
  ∃ p q, x = [p, q] ∧ p ∈ a.m_States ∧ q ∈ b.m_States

/-- Both components of the pair are accepting. -/
def pairFinal (a b : DFA) (x : List Nat) : Bool :=
  match x with
  | [p, q] => decide (p ∈ a.m_FinalStates ∧ q ∈ b.m_FinalStates)
  | _ => false

/-- Relation between the variables of `parallelRun` before and after the pair `cur`
is processed on the symbol `s`. -/
structure ProdStep (a b : DFA) (st st' : ProdState) (cur : List Nat) (s : Nat) : Prop where
  temp_eq : st'.tempTransitions =
    mapAssign vecKeyLt (cur, s) (pairTarget a b cur s) st.tempTransitions
  pairID_eq : st'.pairID =
    if pairTarget a b cur s ≠ [] ∧ (mapFind cur st.pairID).isNone = true then
      (cur, st.stateCounter) :: st.pairID else st.pairID
  counter_eq : st'.stateCounter =
    if pairTarget a b cur s ≠ [] ∧ (mapFind cur st.pairID).isNone = true then
      (st.stateCounter + 1) % 2 ^ 32 else st.stateCounter
  states_eq : st'.result.m_States =
    if pairTarget a b cur s ≠ [] ∧ (mapFind cur st.pairID).isNone = true then
      setInsert st.stateCounter st.result.m_States else st.result.m_States
  finals_eq : st'.result.m_FinalStates =
    if (pairTarget a b cur s ≠ [] ∧ (mapFind cur st.pairID).isNone = true) ∧
        pairFinal a b cur = true then
      setInsert st.stateCounter st.result.m_FinalStates else st.result.m_FinalStates
  queue_eq : st'.queue =
    if pairTarget a b cur s ≠ [] ∧ (mapFind (pairTarget a b cur s) st'.pairID).isNone = true then
      st.queue ++ [pairTarget a b cur s] else st.queue
  alphabet_eq : st'.result.m_Alphabet = st.result.m_Alphabet
  initial_eq : st'.result.m_InitialState = st.result.m_InitialState

/-- Invariant of `parallelRun` while the pair `cur` is being processed and the
symbols `done` are finished for it (`cur = []` between two rounds): the ids are
distinct and below `stateCounter`, the sink has id 0, every entry of
`tempTransitions` holds the target of its pair, every pair with an id other than
`cur` has all its transitions recorded, and every recorded target has an id, waits
in the queue or is `cur`. -/
structure ProdInv (a b : DFA) (al : List Nat) (st : ProdState) (cur done : List Nat) :
    Prop where
  alphabet_eq : st.result.m_Alphabet = al
  initial : st.result.m_InitialState = 1
  sink_id : mapFind [] st.pairID = some 0
  keys_pair : ∀ x ∈ st.pairID.map Prod.fst, x = [] ∨ IsPair a b x
  keys_nodup : (st.pairID.map Prod.fst).Nodup
  vals_nodup : (st.pairID.map Prod.snd).Nodup
  vals_lt : ∀ v ∈ st.pairID.map Prod.snd, v < st.stateCounter
  vals_cover : ∀ i, i < st.stateCounter → i ∈ st.pairID.map Prod.snd
  queue_pair : ∀ x ∈ st.queue, IsPair a b x
  states_iff : ∀ i, i ∈ st.result.m_States ↔ i < st.stateCounter
  finals_iff : ∀ i, i ∈ st.result.m_FinalStates ↔
    ∃ x, mapFind x st.pairID = some i ∧ pairFinal a b x = true
  temp_entry : ∀ e ∈ st.tempTransitions, e.2 = pairTarget a b e.1.1 e.1.2 ∧ e.1.2 ∈ al ∧
    ((mapFind e.1.1 st.pairID).isSome = true ∨ e.1.1 = cur)
  processed : ∀ x ∈ st.pairID.map Prod.fst, x ≠ cur → ∀ s ∈ al,
    mapFind (x, s) st.tempTransitions = some (pairTarget a b x s) ∧
      ((mapFind (pairTarget a b x s) st.pairID).isSome = true ∨
        pairTarget a b x s ∈ st.queue ∨ pairTarget a b x s = cur)
  cur_processed : ∀ s ∈ done,
    mapFind (cur, s) st.tempTransitions = some (pairTarget a b cur s) ∧
      ((mapFind (pairTarget a b cur s) st.pairID).isSome = true ∨
        pairTarget a b cur s ∈ st.queue ∨ pairTarget a b cur s = cur)
  cur_id : (∃ s ∈ done, pairTarget a b cur s ≠ []) → (mapFind cur st.pairID).isSome = true
  init_id : mapFind [a.m_InitialState, b.m_InitialState] st.pairID = some 1 ∨
    (st.stateCounter = 1 ∧
      (cur = [a.m_InitialState, b.m_InitialState] ∨
        (cur = [] ∧ st.queue = [[a.m_InitialState, b.m_InitialState]])))

/-- Number of pairs that can still get an id in `parallelRun`. -/
def pairRank (a b : DFA) (st : ProdState) : Nat :=
  a.m_States.length * b.m_States.length + 1 - st.pairID.length

/-- Rounds the worklist loop of `parallelRun` can still spend on the queued
vector `x`, for `n` symbols. -/
def pairWeight (n : Nat) (a b : DFA) (st : ProdState) (x : List Nat) : Nat :=
  parallelFuel n (pairRank a b st + if (mapFind x st.pairID).isSome then 1 else 0)

/-- Rounds the worklist loop of `parallelRun` can still spend on its queue. -/
def queueWeight (n : Nat) (a b : DFA) (st : ProdState) : Nat :=
  (st.queue.map (pairWeight n a b st)).sum

/-- Rounds that the `k` symbols left for the pair `cur` can add to the queue. -/
def roundBudget (n : Nat) (a b : DFA) (st : ProdState) (cur : List Nat) (k : Nat) : Nat :=
  k * parallelFuel n
    (if (mapFind cur st.pairID).isSome then pairRank a b st else pairRank a b st - 1)

/-- The transition map `parallelRun` builds from `tempTransitions` and `pairID`
(lines 448-450). -/
def productTransitions (st : ProdState) : List ((Nat × Nat) × Nat) :=
  st.tempTransitions.foldl (fun t e =>
    mapAssign keyLt (lookupD st.pairID e.1.1, e.1.2) (lookupD st.pairID e.2) t) []

/-- The variables of `minimize` when the refinement loop is entered (lines 65-85):
the non-accepting states form block 0, the accepting states block 1. -/
def refineStart (d : DFA) : RefineState :=
  { currSet := [d.m_States.filter (fun s => !d.m_FinalStates.contains s), d.m_FinalStates]
    stateSetID :=
      d.m_FinalStates.foldl (fun ids i => (i, 1) :: ids)
        ((d.m_States.filter (fun s => !d.m_FinalStates.contains s)).foldl
          (fun ids i => (i, 0) :: ids) [])
    original := d }

/-- Number of states the refinement loop of `minimize` counts its rounds by. -/
def refineSize (d : DFA) : Nat :=
  (d.m_States.filter (fun s => !d.m_FinalStates.contains s)).length + d.m_FinalStates.length

/-- The states `x` and `y` lie in a common block. -/
def SameBlock (blocks : List (List Nat)) (x y : Nat) : Prop :=
  ∃ B ∈ blocks, x ∈ B ∧ y ∈ B

/-- Values met in lines 149-188 of `minimize`: the state erased as the sink (if
any), `result.m_InitialState` before and after line 177, and the variable
`restInaccessible` when line 188 tests it. -/
structure PruneTrace where
  sink : Option Nat
  initialBefore : Nat
  initialAfter : Nat
  collapse : Bool
deriving DecidableEq, Repr

/-- The values `pruneResult` meets on its way (same steps as `pruneResult`). -/
def pruneTrace (alphabet : List Nat) (b : Building) : Option PruneTrace :=
  let scan := sinkScan alphabet b.m_FinalStates b.m_States b.m_Transitions
  let states1 :=
    match scan.1 with
    | some i => b.m_States.filter (fun s => s != i)
    | none => b.m_States
  let trans1 :=
    match scan.1 with
    | some i => scan.2.filter (fun e => e.1.1 != i && e.2 != i)
    | none => scan.2
  match b.m_InitialState with
  | none => none
  | some init0 =>
    let initial? := if init0 ∈ states1 then some init0 else states1.head?
    match initial? with
    | none => none
    | some initial =>
      some { sink := scan.1, initialBefore := init0, initialAfter := initial,
             collapse := restInaccessible initial alphabet trans1 }

/-- The values `minimize` meets in its pruning part (same steps as `minimize`). -/
def minimizeTrace (original : DFA) : Option PruneTrace :=
  match refineLoop (refineSize original + 3) (refineSize original + 2)
      (refineStart original) with
  | none => none
  | some st =>
    let maps := numberBlocks 0 st.currSet [] []
    match buildBlocks st.original maps.1 maps.2 st.currSet
        { m_States := [], m_Transitions := [], m_InitialState := none, m_FinalStates := [] } with
    | none => none
    | some b => pruneTrace original.m_Alphabet b

/-- The states `pruneResult` is left with after the sink is erased (lines 151-174),
before the collapse to the initial state (lines 188-198). -/
def pruneKept (alphabet : List Nat) (b : Building) : List Nat :=
  match (sinkScan alphabet b.m_FinalStates b.m_States b.m_Transitions).1 with
  | some i => b.m_States.filter (fun s => s != i)
  | none => b.m_States

/-- The states `minimize` is left with after the sink is erased, before the
collapse (same steps as `minimize`). -/
def minimizeKept (original : DFA) : Option (List Nat) :=
  match refineLoop (refineSize original + 3) (refineSize original + 2)
      (refineStart original) with
  | none => none
  | some st =>
    let maps := numberBlocks 0 st.currSet [] []
    match buildBlocks st.original maps.1 maps.2 st.currSet
        { m_States := [], m_Transitions := [], m_InitialState := none, m_FinalStates := [] } with
    | none => none
    | some b => some (pruneKept original.m_Alphabet b)

/-- The DFA accepts the word when started in state `q`. -/
def DFA.acceptsFrom (d : DFA) (q : Nat) (w : List Nat) : Bool :=
  match w.foldl d.step (some q) with
  | some s => decide (s ∈ d.m_FinalStates)
  | none => false

/-- States of different blocks are told apart by some word. -/
def Separated (d : DFA) (blocks : List (List Nat)) : Prop :=
  ∀ (i j : Nat) (Bi Bj : List Nat), blocks[i]? = some Bi → blocks[j]? = some Bj → i ≠ j →
    ∀ p ∈ Bi, ∀ q ∈ Bj, ∃ w, d.acceptsFrom p w ≠ d.acceptsFrom q w

/-- The variables of `parallelRun b a` mirror those of `parallelRun a b`: the same
states, ids and counter, with every vector of states reversed. -/
structure Mirror (st st' : ProdState) : Prop where
  states_eq : st'.result.m_States = st.result.m_States
  alphabet_eq : st'.result.m_Alphabet = st.result.m_Alphabet
  initial_eq : st'.result.m_InitialState = st.result.m_InitialState
  finals_eq : st'.result.m_FinalStates = st.result.m_FinalStates
  counter_eq : st'.stateCounter = st.stateCounter
  queue_eq : st'.queue = st.queue.map List.reverse
  pairID_eq : st'.pairID = st.pairID.map (fun e => (e.1.reverse, e.2))
  temp_eq : ∀ k s, mapFind (List.reverse k, s) st'.tempTransitions =
    (mapFind (k, s) st.tempTransitions).map List.reverse

/-- Facts on the ids of `parallelRun` while `stateCounter` has not wrapped: the
sink has id 0, the ids are distinct and below `stateCounter`, which is at most the
number of ids, every entry of `tempTransitions` holds the target of its vector,
and a vector with a target other than the sink has an id. -/
structure ProdIds (a b : DFA) (st : ProdState) : Prop where
  sink_id : mapFind [] st.pairID = some 0
  vals_nodup : (st.pairID.map Prod.snd).Nodup
  vals_lt : ∀ v ∈ st.pairID.map Prod.snd, v < st.stateCounter
  counter_le : st.stateCounter ≤ st.pairID.length
  temp_val : ∀ e ∈ st.tempTransitions, e.2 = pairTarget a b e.1.1 e.1.2
  temp_id : ∀ e ∈ st.tempTransitions, e.2 ≠ [] → (mapFind e.1.1 st.pairID).isSome = true

/-- The vectors `parallelRun` works on are pairs of states of the operands: the
keys of `pairID` are distinct, each the sink or a pair, and the queue holds pairs.
The counter and the states of the result fit `unsigned int`. -/
structure ProdKeys (a b : DFA) (al : List Nat) (st : ProdState) : Prop where
  alphabet_eq : st.result.m_Alphabet = al
  keys_pair : ∀ x ∈ st.pairID.map Prod.fst, x = [] ∨ IsPair a b x
  keys_nodup : (st.pairID.map Prod.fst).Nodup
  queue_pair : ∀ x ∈ st.queue, IsPair a b x
  counter_lt : st.stateCounter < 2 ^ 32
  states_lt : ∀ i ∈ st.result.m_States, i < 2 ^ 32

/-- The last of the rounds `0 .. k - 1` whose number is `i` modulo `2 ^ 32`: the
round that wrote last to the key `i` when the set of round `j` has the id
`j % 2 ^ 32`. -/
def lastWriter : Nat → Nat → Option Nat
  | 0, _ => none
  | k + 1, i => if k % 2 ^ 32 = i then some k else lastWriter k i

/-- Id of the set that follows the `k`-th set on a path of `L + 1` sets that
closes from the last set to the set 1. -/
def pathTarget (L k : Nat) : Nat := if k = L then 1 else (k + 1) % 2 ^ 32

/-- Variables of `determine` on an NFA over the single symbol `s` whose subset
construction is a path `S 0, S 1, .., S L` that closes from `S L` to `S 1`, when
the sets before `S k` are expanded: the sets up to `S k` have the ids
`j % 2 ^ 32`, `S k` waits in the queue, and each transition is the one written
last. -/
structure DetPath (n : NFA) (s : Nat) (S : Nat → List Nat) (L k : Nat) (st : DetState) :
    Prop where
  map_find : ∀ j, j ≤ k → j ≤ L → mapFind (S j) st.map = some (j % 2 ^ 32)
  map_keys : ∀ T ∈ st.map.map Prod.fst, ∃ j, j ≤ k ∧ j ≤ L ∧ T = S j
  counter_eq : st.stateCounter = min k L + 1
  queue_eq : st.queue = if k ≤ L then [S k] else []
  trans_find : ∀ i, mapFind (i, s) st.result.m_Transitions = (lastWriter k i).map (pathTarget L)
  trans_sym : ∀ e ∈ st.result.m_Transitions, e.1.2 = s
  states_mem : ∀ j, j ≤ k → j ≤ L → j % 2 ^ 32 ∈ st.result.m_States
  initial : st.result.m_InitialState = 0

/-- Variables of `parallelRun` on DFAs over the single symbol `s` whose product is
the cycle of the `L` pairs `[α j, β j]`, after `k` rounds: the pairs before the
`k`-th have the ids `(j + 1) % 2 ^ 32`, the `k`-th waits in the queue, and
`tempTransitions`, ascending in its keys, holds the step of every pair before the
`k`-th. -/
structure ProdPath (s : Nat) (α β : Nat → Nat) (L k : Nat) (st : ProdState) : Prop where
  pid_find : ∀ j, j < k → mapFind [α j, β j] st.pairID = some ((j + 1) % 2 ^ 32)
  pid_sink : mapFind [] st.pairID = some 0
  pid_keys : ∀ x ∈ st.pairID.map Prod.fst, x = [] ∨ ∃ j, j < k ∧ x = [α j, β j]
  counter_eq : st.stateCounter = (k + 1) % 2 ^ 32
  queue_eq : st.queue = if k < L then [[α k, β k]] else []
  temp_sorted : (st.tempTransitions.map Prod.fst).Sorted (fun x y => vecKeyLt x y = true)
  temp_mem : ∀ e ∈ st.tempTransitions, e = (([], s), []) ∨
    ∃ j, j < k ∧ e = (([α j, β j], s), [α ((j + 1) % L), β ((j + 1) % L)])
  temp_has : ∀ j, j < k →
    (([α j, β j], s), [α ((j + 1) % L), β ((j + 1) % L)]) ∈ st.tempTransitions
  alphabet_eq : st.result.m_Alphabet = [s]

/-! ## Sample automata of `main` -/

/-- NFA `a1` of `main` (symbols `'a'` = 97, `'b'` = 98). -/
def sampleA1 : NFA :=
  { m_States := [0, 1, 2]
    m_Alphabet := [97, 98]
    m_Transitions := [((0, 97), [0, 1]), ((0, 98), [0]), ((1, 97), [2])]
    m_InitialState := 0
    m_FinalStates := [2] }

/-- NFA `a2` of `main`. -/
def sampleA2 : NFA :=
  { m_States := [0, 1, 2]
    m_Alphabet := [97, 98]
    m_Transitions := [((0, 97), [1]), ((1, 97), [2]), ((2, 97), [2]), ((2, 98), [2])]
    m_InitialState := 0
    m_FinalStates := [2] }

/-- DFA `a` of `main`, the result `main` expects of `intersect(a1, a2)`. -/
def sampleA : DFA :=
  { m_States := [0, 1, 2, 3, 4]
    m_Alphabet := [97, 98]
    m_Transitions :=
      [((0, 97), 1), ((1, 97), 2), ((2, 97), 2), ((2, 98), 3), ((3, 97), 4), ((3, 98), 3),
       ((4, 97), 2), ((4, 98), 3)]
    m_InitialState := 0
    m_FinalStates := [2] }

/-- NFA `c1` of `main`. -/
def sampleC1 : NFA :=
  { m_States := [0, 1, 2, 3, 4]
    m_Alphabet := [97, 98]
    m_Transitions :=
      [((0, 97), [1]), ((0, 98), [2]), ((2, 97), [2, 3]), ((2, 98), [2]), ((3, 97), [4])]
    m_InitialState := 0
    m_FinalStates := [1, 4] }

/-- NFA `c2` of `main`. -/
def sampleC2 : NFA :=
  { m_States := [0, 1, 2]
    m_Alphabet := [97, 98]
    m_Transitions := [((0, 97), [0]), ((0, 98), [0, 1]), ((1, 98), [2])]
    m_InitialState := 0
    m_FinalStates := [2] }

/-- DFA `c` of `main`, the result `main` expects of `intersect(c1, c2)`. -/
def sampleC : DFA :=
  { m_States := [0]
    m_Alphabet := [97, 98]
    m_Transitions := []
    m_InitialState := 0
    m_FinalStates := [] }

/-- Product `parallelRun(determine(a1), determine(a2))` that `intersect(a1, a2)`
passes to `minimize` in `main`. -/
def sampleAProduct : DFA :=
  { m_States := [0, 1, 2, 3, 4, 5, 6, 7, 8]
    m_Alphabet := [97, 98]
    m_Transitions :=
      [((0, 97), 0), ((0, 98), 0), ((1, 97), 2), ((1, 98), 3), ((2, 97), 4), ((2, 98), 3),
       ((3, 97), 5), ((3, 98), 3), ((4, 97), 4), ((4, 98), 6), ((5, 97), 7), ((5, 98), 3),
       ((6, 97), 8), ((6, 98), 6), ((7, 97), 7), ((7, 98), 3), ((8, 97), 4), ((8, 98), 6)]
    m_InitialState := 1
    m_FinalStates := [4] }

/-! ## Further inputs -/

/-- A partial DFA accepting exactly the word `a`. -/
def partialDfa : DFA :=
  { m_States := [0, 1]
    m_Alphabet := [97]
    m_Transitions := [((0, 97), 1)]
    m_InitialState := 0
    m_FinalStates := [1] }

/-- A total DFA of the empty language: the initial state 0 is a non-accepting sink,
the accepting state 1 cannot be reached. -/
def trapDfa : DFA :=
  { m_States := [0, 1]
    m_Alphabet := [97]
    m_Transitions := [((0, 97), 0), ((1, 97), 1)]
    m_InitialState := 0
    m_FinalStates := [1] }

/-- A total DFA accepting exactly the word `a`: sink 0, initial state 1, accepting
state 2. -/
def gapDfa : DFA :=
  { m_States := [0, 1, 2]
    m_Alphabet := [97]
    m_Transitions := [((0, 97), 0), ((1, 97), 2), ((2, 97), 0)]
    m_InitialState := 1
    m_FinalStates := [2] }

/-- A one-state DFA without transitions accepting the empty word. -/
def loneDfa : DFA :=
  { m_States := [0]
    m_Alphabet := [97]
    m_Transitions := []
    m_InitialState := 0
    m_FinalStates := [0] }

/-- An NFA over `{a}` accepting exactly the empty word. -/
def onlyEmptyA : NFA :=
  { m_States := [0]
    m_Alphabet := [97]
    m_Transitions := []
    m_InitialState := 0
    m_FinalStates := [0] }

/-- An NFA over `{b}` accepting exactly the empty word. -/
def onlyEmptyB : NFA :=
  { m_States := [0]
    m_Alphabet := [98]
    m_Transitions := []
    m_InitialState := 0
    m_FinalStates := [0] }

/-- An NFA over `{a, b}` accepting exactly the empty word, its single state named 1. -/
def shiftedEmptyWord : NFA :=
  { m_States := [1]
    m_Alphabet := [97, 98]
    m_Transitions := []
    m_InitialState := 1
    m_FinalStates := [1] }

/-- An NFA over `{a, b}` accepting exactly the empty word, its single state named 0. -/
def plainEmptyWord : NFA :=
  { m_States := [0]
    m_Alphabet := [97, 98]
    m_Transitions := []
    m_InitialState := 0
    m_FinalStates := [0] }

/-- An NFA over `{a, b}` accepting no word: state 0 loops on `a` and is not accepting. -/
def loopNoWord : NFA :=
  { m_States := [0]
    m_Alphabet := [97, 98]
    m_Transitions := [((0, 97), [0])]
    m_InitialState := 0
    m_FinalStates := [] }

/-- The total DFA `determine` returns for `onlyEmptyA`: state 1 is the sink. -/
def detOnlyEmptyA : DFA :=
  { m_States := [0, 1]
    m_Alphabet := [97]
    m_Transitions := [((0, 97), 1), ((1, 97), 1)]
    m_InitialState := 0
    m_FinalStates := [0] }

/-- The total DFA `determine` returns for `onlyEmptyB`: state 1 is the sink. -/
def detOnlyEmptyB : DFA :=
  { m_States := [0, 1]
    m_Alphabet := [98]
    m_Transitions := [((0, 98), 1), ((1, 98), 1)]
    m_InitialState := 0
    m_FinalStates := [0] }

/-- A total DFA whose accepting state 1 cannot be reached: the initial state 0 is
accepting and loops, state 2 is the sink. -/
def strayFinalDfa : DFA :=
  { m_States := [0, 1, 2]
    m_Alphabet := [97]
    m_Transitions := [((0, 97), 0), ((1, 97), 2), ((2, 97), 2)]
    m_InitialState := 0
    m_FinalStates := [0, 1] }

/-- An NFA with the states 0 and 2: the initial state 0 is not accepting, state 2 is. -/
def skipNfa : NFA :=
  { m_States := [0, 2]
    m_Alphabet := [97]
    m_Transitions := []
    m_InitialState := 0
    m_FinalStates := [2] }

/-- An NFA with the single state 0, not accepting, and no transition. -/
def voidNfa : NFA :=
  { m_States := [0]
    m_Alphabet := [97]
    m_Transitions := []
    m_InitialState := 0
    m_FinalStates := [] }

/-- An NFA with the states `0 .. 2^32 - 2`, as many as a `State` can name but one,
no transitions and no accepting state. -/
def wideNfa : NFA :=
  { m_States := List.range (2 ^ 32 - 1)
    m_Alphabet := [97]
    m_Transitions := []
    m_InitialState := 0
    m_FinalStates := [] }

/-- The NFA over `{a}` with the initial state 0 and two disjoint cycles, one of the
states 1 to 3 and one of the `n` states 4 to `n + 3`; on `a` the initial state
moves to the first state of both cycles. State 9 is accepting. -/
def twoCycleNfaOf (n : Nat) : NFA :=
  { m_States := List.range (n + 4)
    m_Alphabet := [97]
    m_Transitions :=
      ((0, 97), [1, 4]) :: ((1, 97), [2]) :: ((2, 97), [3]) :: ((3, 97), [1]) ::
        (List.range n).map (fun i => ((i + 4, 97), [(i + 1) % n + 4]))
    m_InitialState := 0
    m_FinalStates := [9] }

/-- The set of states `twoCycleNfaOf n` is in after `k` symbols. -/
def twoCycleSet (n k : Nat) : List Nat :=
  if k = 0 then [0] else [(k - 1) % 3 + 1, (k - 1) % n + 4]

/-- The two-cycle NFA with a long cycle of 1431655766 states: its subset
construction meets `3 * 1431655766 + 1 = 2 ^ 32 + 3` sets. -/
def twoCycleNfa : NFA := twoCycleNfaOf 1431655766

/-- The total DFA over `{a}` whose `m` states `0 .. m - 1` form one cycle, with
the initial state `init` and no accepting state. -/
def cycleDfaOf (m init : Nat) : DFA :=
  { m_States := List.range m
    m_Alphabet := [97]
    m_Transitions := (List.range m).map (fun i => ((i, 97), (i + 1) % m))
    m_InitialState := init
    m_FinalStates := [] }

/-- The cycle of 1431655766 states, entered at state 1. -/
def longCycleDfa : DFA := cycleDfaOf 1431655766 1

/-- The cycle of 3 states, entered at state 0. With `longCycleDfa` it has a product
of `3 * 1431655766 = 2 ^ 32 + 2` pairs, all reached. -/
def threeCycleDfa : DFA := cycleDfaOf 3 0

/-- Rank of a word in the order by length, then by symbols: the value of the word
as a numeral in base 257 with the digits `c + 1` (symbols are below 256). -/
def wordRank (w : List Nat) : Nat := w.foldl (fun r c => r * 257 + c + 1) 0

/-- Order in which `determine` numbers the sets: `u i` is a word on which the NFA
reaches the set with id `i`, the words ascend with the ids, every id but 0 comes
from a set taken off the queue and a symbol, the queue holds the sets in the order
of their ids, and the transition of an expanded set on a symbol leads to a set whose
word is not above the word of the set followed by the symbol. -/
structure DetOrd (n : NFA) (st : DetState) (cur : List Nat) (syms : List Nat)
    (u : Nat → List Nat) : Prop where
  word_run : ∀ S i, mapFind S st.map = some i →
    n.run (u i) = S ∧ ∀ c ∈ u i, c ∈ n.m_Alphabet
  word_zero : u 0 = []
  word_mono : ∀ i j, i < j → j < st.stateCounter → wordRank (u i) < wordRank (u j)
  parent : ∀ j, 0 < j → j < st.stateCounter →
    ∃ S b, S ∈ st.map.map Prod.fst ∧ S ∉ st.queue ∧ b ∈ n.m_Alphabet ∧
      u j = u (lookupD st.map S) ++ [b] ∧ (S = cur → b ∈ syms)
  queue_gt : ∀ S ∈ st.queue, ∀ T ∈ st.map.map Prod.fst, T ∉ st.queue →
    lookupD st.map T < lookupD st.map S
  queue_sorted : st.queue.Pairwise (fun S T => lookupD st.map S < lookupD st.map T)
  cur_max : ∀ T ∈ st.map.map Prod.fst, T ∉ st.queue →
    lookupD st.map T ≤ lookupD st.map cur
  least : ∀ S ∈ st.map.map Prod.fst, S ∉ st.queue → ∀ a ∈ n.m_Alphabet,
    (S = cur → a ∈ syms) →
    ∃ i, mapFind (n.stepSet S a) st.map = some i ∧
      wordRank (u i) ≤ wordRank (u (lookupD st.map S) ++ [a])

/-- The ids of a DFA follow the order of the words: a state below the state reached
on a word is reached on a word of lower rank. -/
def DFA.BfsOrdered (d : DFA) : Prop :=
  ∀ w t s, d.run w = some t → s < t → ∃ v, wordRank v < wordRank w ∧ d.run v = some s

/-- The state `p` of `d1` and the state `q` of `d2` accept the same words. -/
def SameLang (d1 d2 : DFA) (p q : Nat) : Prop :=
  ∀ w, d1.acceptsFrom p w = d2.acceptsFrom q w

/-- Two total DFAs with closed references over one alphabet that accept the same
words, all of whose states are reached, and whose ids follow the order of the
words. -/
structure Twin (d1 d2 : DFA) : Prop where
  closed1 : d1.Closed
  closed2 : d2.Closed
  total1 : d1.Total
  total2 : d2.Total
  alphabet_eq : d1.m_Alphabet = d2.m_Alphabet
  lang_eq : ∀ w, d1.accepts w = d2.accepts w
  reach1 : ∀ q ∈ d1.m_States, ∃ w, d1.run w = some q
  reach2 : ∀ q ∈ d2.m_States, ∃ w, d2.run w = some q
  bfs1 : d1.BfsOrdered
  bfs2 : d2.BfsOrdered

/-- Relation between the refinement loops of `minimize` on two DFAs: as many blocks
on both sides, states that accept the same words lie in blocks of the same index,
and the blocks ascend. -/
structure RefineSim (d1 d2 : DFA) (st1 st2 : RefineState) : Prop where
  length_eq : st1.currSet.length = st2.currSet.length
  same_id : ∀ p ∈ d1.m_States, ∀ q ∈ d2.m_States, SameLang d1 d2 p q →
    lookupD st1.stateSetID p = lookupD st2.stateSetID q
  sorted1 : ∀ B ∈ st1.currSet, B.Sorted (· < ·)
  sorted2 : ∀ B ∈ st2.currSet, B.Sorted (· < ·)

/-- An NFA over `{a, b}` accepting exactly the empty word, with a second state that
is never entered. -/
def spareEmptyWord : NFA :=
  { m_States := [0, 1]
    m_Alphabet := [97, 98]
    m_Transitions := []
    m_InitialState := 0
    m_FinalStates := [0] }

/-- The automaton `aut` is `d` with transitions to state 0 added by the reads of
`equivalentWithSet`: the other fields are those of `d`, the transitions of `d` are
kept, and every added transition leads from a state on a symbol of the alphabet to
state 0. -/
structure AutExt (d aut : DFA) : Prop where
  states_eq : aut.m_States = d.m_States
  alphabet_eq : aut.m_Alphabet = d.m_Alphabet
  initial_eq : aut.m_InitialState = d.m_InitialState
  finals_eq : aut.m_FinalStates = d.m_FinalStates
  keys_sorted : (aut.m_Transitions.map Prod.fst).Sorted (fun a b => keyLt a b = true)
  keep : ∀ k v, mapFind k d.m_Transitions = some v → mapFind k aut.m_Transitions = some v
  added : ∀ k v, mapFind k aut.m_Transitions = some v →
    mapFind k d.m_Transitions = some v ∨ (v = 0 ∧ k.1 ∈ d.m_States ∧ k.2 ∈ d.m_Alphabet)

/-- Every transition of `T` is a transition of `T'`. -/
def TransLe (T T' : List ((Nat × Nat) × Nat)) : Prop :=
  ∀ k v, mapFind k T = some v → mapFind k T' = some v

/-- The map `T` has a transition of state `q` on symbol `a`. -/
def HasKey (T : List ((Nat × Nat) × Nat)) (q a : Nat) : Prop :=
  (mapFind (q, a) T).isSome = true

/-- Every state of the block other than its head agrees with the head under
`stateSetID`, and the transitions of both on every symbol are in the map `T`. -/
def FullBlock (d : DFA) (stateSetID : List (Nat × Nat)) (T : List ((Nat × Nat) × Nat))
    (B : List Nat) : Prop :=
  ∀ q ∈ B, q ≠ B.headD 0 → agreeOn d stateSetID q (B.headD 0) = true ∧
    ∀ a ∈ d.m_Alphabet, HasKey T q a ∧ HasKey T (B.headD 0) a

/-- Invariant of the refinement loop of `minimize` on any DFA `d`: the automaton
the loop reads is `d` with transitions to 0 added, the blocks cover the states,
`stateSetID` gives the index of the block of every state and 0 for every other
number, no block mixes accepting and non-accepting states, the blocks from index 2
on are non-empty, blocks 0 and 1 keep their heads, and the block sizes add up to
`n`. -/
structure GenInv (d : DFA) (n : Nat) (st : RefineState) : Prop where
  ext : AutExt d st.original
  cover : ∀ q, q ∈ d.m_States ↔ ∃ B ∈ st.currSet, q ∈ B
  ids : ∀ i B, st.currSet[i]? = some B → ∀ q ∈ B, lookupD st.stateSetID q = i
  ids_out : ∀ q, q ∉ d.m_States → lookupD st.stateSetID q = 0
  final_resp : ∀ B ∈ st.currSet, ∀ p ∈ B, ∀ q ∈ B,
    (p ∈ d.m_FinalStates ↔ q ∈ d.m_FinalStates)
  late : ∀ i B, st.currSet[i]? = some B → 2 ≤ i → B ≠ []
  head_zero : ∃ B, st.currSet[0]? = some B ∧
    B.head? = (d.m_States.filter (fun s => !d.m_FinalStates.contains s)).head?
  head_one : ∃ B, st.currSet[1]? = some B ∧ B.head? = d.m_FinalStates.head?
  total_len : (st.currSet.map List.length).sum = n
  two : 2 ≤ st.currSet.length

/-- The state a target of the map stands for: a number that is no state of `d` is
read as the state `z`. -/
def repState (d : DFA) (z t : Nat) : Nat := if t ∈ d.m_States then t else z

/-- The states `x` and `y` are told apart by transitions that the map `T` holds:
one of them is accepting and the other is not, or both have a transition on a
symbol and the targets are told apart. -/
inductive Apart (d : DFA) (T : List ((Nat × Nat) × Nat)) (z : Nat) : Nat → Nat → Prop
  | base {x y : Nat} : ¬ (x ∈ d.m_FinalStates ↔ y ∈ d.m_FinalStates) → Apart d T z x y
  | step {x y a x' y' : Nat} : a ∈ d.m_Alphabet → mapFind (x, a) T = some x' →
      mapFind (y, a) T = some y' → Apart d T z (repState d z x') (repState d z y') →
      Apart d T z x y

/-- States with different block indices are told apart. -/
def ApartInv (d : DFA) (z : Nat) (st : RefineState) : Prop :=
  ∀ x ∈ d.m_States, ∀ y ∈ d.m_States, lookupD st.stateSetID x ≠ lookupD st.stateSetID y →
    Apart d st.original.m_Transitions z x y

/-- The automaton `b` is what lines 119-147 of `minimize` build from the blocks of
`st` when the read of an empty block yields `junk`: the states are the indices of
the blocks, a block is accepting when its head is, and its transitions are those
that the map holds for its head, led to the block of the target. -/
structure Quot (d : DFA) (junk : Nat) (st : RefineState) (b : Building) : Prop where
  states_iff : ∀ i, i ∈ b.m_States ↔ i < st.currSet.length
  states_sorted : b.m_States.Sorted (· < ·)
  finals_iff : ∀ i, i ∈ b.m_FinalStates ↔
    ∃ B, st.currSet[i]? = some B ∧ B.headD junk ∈ d.m_FinalStates
  initial_eq : b.m_InitialState = some (lookupD st.stateSetID d.m_InitialState)
  trans_eq : ∀ i B a, st.currSet[i]? = some B → a ∈ d.m_Alphabet →
    mapFind (i, a) b.m_Transitions =
      (mapFind (B.headD junk, a) st.original.m_Transitions).map (lookupD st.stateSetID)
  trans_none : ∀ i a, (st.currSet.length ≤ i ∨ a ∉ d.m_Alphabet) →
    mapFind (i, a) b.m_Transitions = none
  keys_sorted : (b.m_Transitions.map Prod.fst).Sorted (fun a b => keyLt a b = true)

/-! # Theorems -/

/-! ## Facts on the containers -/

theorem mem_setInsert {x y : Nat} {s : List Nat} : x ∈ setInsert y s ↔ x = y ∨ x ∈ s := by
  induction s with
  | nil => simp [setInsert]
  | cons z zs ih =>
    unfold setInsert
    split_ifs with h1 h2
    · simp
    · subst h2; simp
    · simp [ih]; tauto

theorem setInsert_sorted {y : Nat} {s : List Nat} (hs : s.Sorted (· < ·)) :
    (setInsert y s).Sorted (· < ·) := by
  induction s with
  | nil => simp [setInsert]
  | cons z zs ih =>
    unfold setInsert
    split_ifs with h1 h2
    · refine List.sorted_cons.2 ⟨?_, hs⟩
      intro b hb
      rcases List.mem_cons.1 hb with rfl | hb
      · exact h1
      · exact lt_trans h1 (List.rel_of_sorted_cons hs b hb)
    · exact hs
    · refine List.sorted_cons.2 ⟨?_, ih hs.of_cons⟩
      intro b hb
      rcases mem_setInsert.1 hb with rfl | hb
      · omega
      · exact List.rel_of_sorted_cons hs b hb

theorem mem_setInsertAll {x : Nat} {xs s : List Nat} :
    x ∈ setInsertAll xs s ↔ x ∈ xs ∨ x ∈ s := by
  unfold setInsertAll
  induction xs generalizing s with
  | nil => simp
  | cons z zs ih => simp [ih, mem_setInsert]; tauto

theorem setInsertAll_sorted {xs s : List Nat} (hs : s.Sorted (· < ·)) :
    (setInsertAll xs s).Sorted (· < ·) := by
  unfold setInsertAll
  induction xs generalizing s with
  | nil => simpa
  | cons z zs ih => exact ih (setInsert_sorted hs)

theorem sorted_ext {l1 l2 : List Nat} (h1 : l1.Sorted (· < ·)) (h2 : l2.Sorted (· < ·))
    (h : ∀ x, x ∈ l1 ↔ x ∈ l2) : l1 = l2 :=
  List.eq_of_perm_of_sorted ((List.perm_ext_iff_of_nodup h1.nodup h2.nodup).2 h) h1 h2

theorem setInsertAll_nil {xs : List Nat} (h : xs.Sorted (· < ·)) : setInsertAll xs [] = xs :=
  sorted_ext (setInsertAll_sorted List.sorted_nil) h (fun x => by simp [mem_setInsertAll])

theorem mapFind_mapAssign {K V : Type} [DecidableEq K] (lt : K → K → Bool) (k k' : K) (v : V)
    (m : List (K × V)) :
    mapFind k' (mapAssign lt k v m) = if k = k' then some v else mapFind k' m := by
  induction m with
  | nil => simp [mapAssign, mapFind]
  | cons e rest ih =>
    obtain ⟨k1, v1⟩ := e
    by_cases hk : k = k'
    · subst hk
      rw [if_pos rfl] at ih ⊢
      unfold mapAssign
      split_ifs with h1 h2
      · simp [mapFind]
      · simp [mapFind]
      · have : ¬ k1 = k := fun h => h2 h.symm
        simp [mapFind, this, ih]
    · rw [if_neg hk] at ih ⊢
      unfold mapAssign
      split_ifs with h1 h2
      · simp [mapFind, hk]
      · subst h2; simp [mapFind, hk]
      · simp [mapFind, ih]

theorem mem_mapAssign {K V : Type} [DecidableEq K] {lt : K → K → Bool} {k : K} {v : V}
    {m : List (K × V)} {e : K × V} (h : e ∈ mapAssign lt k v m) : e = (k, v) ∨ e ∈ m := by
  induction m with
  | nil => simpa [mapAssign] using h
  | cons e1 rest ih =>
    obtain ⟨k1, v1⟩ := e1
    unfold mapAssign at h
    split_ifs at h with h1 h2
    · simpa using h
    · simp at h; rcases h with h | h <;> simp [h]
    · simp at h; rcases h with h | h
      · simp [h]
      · rcases ih h with h | h <;> simp [h]

theorem mapFind_mem {K V : Type} [DecidableEq K] {k : K} {v : V} {m : List (K × V)}
    (h : mapFind k m = some v) : (k, v) ∈ m := by
  induction m with
  | nil => simp [mapFind] at h
  | cons e rest ih =>
    obtain ⟨k1, v1⟩ := e
    unfold mapFind at h
    split_ifs at h with h1
    · simp at h; simp [h1, h]
    · simp [ih h]

theorem mapFind_none {K V : Type} [DecidableEq K] {k : K} {m : List (K × V)} :
    mapFind k m = none ↔ k ∉ m.map Prod.fst := by
  induction m with
  | nil => simp [mapFind]
  | cons e rest ih =>
    obtain ⟨k1, v1⟩ := e
    unfold mapFind
    split_ifs with h1
    · simp [h1]
    · simp only [ih, List.map_cons, List.mem_cons, not_or]
      exact ⟨fun _ => ⟨fun h => h1 h.symm, ‹_›⟩, fun h => h.2⟩

/-! ## Facts on `determine` -/

theorem mapFind_cons {K V : Type} [DecidableEq K] (k k0 : K) (v : V) (m : List (K × V)) :
    mapFind k ((k0, v) :: m) = if k0 = k then some v else mapFind k m := rfl

theorem mapFind_isSome_of_mem {K V : Type} [DecidableEq K] {k : K} {m : List (K × V)}
    (h : k ∈ m.map Prod.fst) : ∃ v, mapFind k m = some v := by
  cases hf : mapFind k m with
  | none => exact absurd h (mapFind_none.1 hf)
  | some v => exact ⟨v, rfl⟩

theorem mapFind_key_mem {K V : Type} [DecidableEq K] {k : K} {v : V} {m : List (K × V)}
    (h : mapFind k m = some v) : k ∈ m.map Prod.fst :=
  List.mem_map.2 ⟨(k, v), mapFind_mem h, rfl⟩

theorem mapFind_val_mem {K V : Type} [DecidableEq K] {k : K} {v : V} {m : List (K × V)}
    (h : mapFind k m = some v) : v ∈ m.map Prod.snd :=
  List.mem_map.2 ⟨(k, v), mapFind_mem h, rfl⟩

theorem lookupD_of_mapFind {K : Type} [DecidableEq K] {k : K} {v : Nat} {m : List (K × Nat)}
    (h : mapFind k m = some v) : lookupD m k = v := by
  simp [lookupD, h]

theorem mapFind_inj {K V : Type} [DecidableEq K] {m : List (K × V)}
    (hv : (m.map Prod.snd).Nodup) {k k' : K} {v : V}
    (h1 : mapFind k m = some v) (h2 : mapFind k' m = some v) : k = k' := by
  have := List.inj_on_of_nodup_map hv (mapFind_mem h1) (mapFind_mem h2) rfl
  exact (Prod.mk.inj this).1

theorem keyLt_trans {a b c : Nat × Nat} (h1 : keyLt a b = true) (h2 : keyLt b c = true) :
    keyLt a c = true := by
  simp only [keyLt, Bool.or_eq_true, decide_eq_true_eq, Bool.and_eq_true] at *
  omega

theorem keyLt_irrefl (a : Nat × Nat) : keyLt a a = false := by
  simp [keyLt]

theorem keyLt_of_not {a b : Nat × Nat} (h1 : keyLt a b = false) (h2 : a ≠ b) :
    keyLt b a = true := by
  have h3 : a.1 ≠ b.1 ∨ a.2 ≠ b.2 := by
    by_contra hc
    push_neg at hc
    exact h2 (Prod.ext hc.1 hc.2)
  simp only [keyLt, Bool.or_eq_false_iff, decide_eq_false_iff_not, Bool.and_eq_false_iff,
    Bool.or_eq_true, decide_eq_true_eq, Bool.and_eq_true] at *
  omega

theorem mapAssign_keys_sorted {V : Type} (k : Nat × Nat) (v : V)
    (m : List ((Nat × Nat) × V))
    (h : (m.map Prod.fst).Sorted (fun a b => keyLt a b = true)) :
    ((mapAssign keyLt k v m).map Prod.fst).Sorted (fun a b => keyLt a b = true) := by
  induction m with
  | nil => simp [mapAssign]
  | cons e rest ih =>
    obtain ⟨k1, v1⟩ := e
    simp only [List.map_cons, List.sorted_cons] at h
    unfold mapAssign
    split_ifs with h1 h2
    · simp only [List.map_cons, List.sorted_cons, List.mem_cons, forall_eq_or_imp]
      exact ⟨⟨h1, fun b hb => keyLt_trans h1 (h.1 b hb)⟩, h.1, h.2⟩
    · subst h2
      simp only [List.map_cons, List.sorted_cons]
      exact h
    · simp only [List.map_cons, List.sorted_cons]
      refine ⟨fun b hb => ?_, ih h.2⟩
      obtain ⟨e, he, rfl⟩ := List.mem_map.1 hb
      rcases mem_mapAssign he with rfl | he
      · exact keyLt_of_not (by simpa using h1) h2
      · exact h.1 _ (List.mem_map.2 ⟨e, he, rfl⟩)

theorem keys_nodup_of_sorted {V : Type} {m : List ((Nat × Nat) × V)}
    (h : (m.map Prod.fst).Sorted (fun a b => keyLt a b = true)) : (m.map Prod.fst).Nodup := by
  apply List.Pairwise.imp _ h
  intro a b hab hc
  subst hc
  rw [keyLt_irrefl] at hab
  exact absurd hab (by simp)

theorem addTargets_none {n : NFA} {a q : Nat} {acc : List Nat}
    (h : mapFind (q, a) n.m_Transitions = none) : n.addTargets a acc q = acc := by
  simp [NFA.addTargets, h]

theorem addTargets_some {n : NFA} {a q : Nat} {acc T : List Nat}
    (h : mapFind (q, a) n.m_Transitions = some T) :
    n.addTargets a acc q = setInsertAll T acc := by
  simp [NFA.addTargets, h]

theorem foldl_collectTargets (n : NFA) (a : Nat) (S : List Nat) (f : Bool) (T : List Nat) :
    S.foldl (collectTargets n a) (f, T) =
      (f || n.anyFinal S,
       S.foldl (n.addTargets a) T) := by
  induction S generalizing f T with
  | nil => simp [NFA.anyFinal]
  | cons q S ih =>
    simp only [List.foldl_cons, collectTargets, ih, NFA.anyFinal, List.any_cons, Bool.or_assoc]

theorem mem_stepFold (n : NFA) (a : Nat) (S : List Nat) (T0 : List Nat) (x : Nat) :
    x ∈ S.foldl (n.addTargets a) T0 ↔
      x ∈ T0 ∨ ∃ q ∈ S, ∃ T, mapFind (q, a) n.m_Transitions = some T ∧ x ∈ T := by
  induction S generalizing T0 with
  | nil => simp
  | cons q S ih =>
    rw [List.foldl_cons, ih]
    cases hq : mapFind (q, a) n.m_Transitions with
    | none => simp [hq, addTargets_none hq]
    | some T =>
      simp only [addTargets_some hq, mem_setInsertAll, List.mem_cons, exists_eq_or_imp, hq, Option.some.injEq,
        exists_eq_left']
      tauto

theorem mem_stepSet {n : NFA} {a : Nat} {S : List Nat} {x : Nat} :
    x ∈ n.stepSet S a ↔ ∃ q ∈ S, ∃ T, mapFind (q, a) n.m_Transitions = some T ∧ x ∈ T := by
  unfold NFA.stepSet
  rw [mem_stepFold]
  simp

theorem stepFold_sorted (n : NFA) (a : Nat) (S : List Nat) (T0 : List Nat)
    (h : T0.Sorted (· < ·)) :
    (S.foldl (n.addTargets a) T0).Sorted (· < ·) := by
  induction S generalizing T0 with
  | nil => simpa
  | cons q S ih =>
    rw [List.foldl_cons]
    apply ih
    cases hq : mapFind (q, a) n.m_Transitions with
    | none => simpa [addTargets_none hq]
    | some T => rw [addTargets_some hq]; exact setInsertAll_sorted h

theorem stepSet_sorted (n : NFA) (a : Nat) (S : List Nat) : (n.stepSet S a).Sorted (· < ·) :=
  stepFold_sorted n a S [] List.sorted_nil

theorem stepSet_sublist {n : NFA} (hn : n.WF) (a : Nat) (S : List Nat) :
    (n.stepSet S a).Sublist n.m_States := by
  apply List.sublist_of_subperm_of_sorted _ (stepSet_sorted n a S) hn.states_sorted
  apply List.subperm_of_subset (stepSet_sorted n a S).nodup
  intro x hx
  obtain ⟨q, _, T, hT, hxT⟩ := mem_stepSet.1 hx
  exact hn.trans_tgt _ (mapFind_mem hT) x hxT

theorem stepSet_nil (n : NFA) (a : Nat) : n.stepSet [] a = [] := rfl

theorem stepSet_singleton {n : NFA} (hn : n.WF) (q a : Nat) :
    n.stepSet [q] a =
      match mapFind (q, a) n.m_Transitions with
      | some T => T
      | none => [] := by
  unfold NFA.stepSet
  cases hq : mapFind (q, a) n.m_Transitions with
  | none => simp [addTargets_none hq]
  | some T => simp [addTargets_some hq, setInsertAll_nil (hn.trans_sorted _ (mapFind_mem hq))]

theorem stepSet_not_alphabet {n : NFA} (hn : n.WF) {a : Nat} (ha : a ∉ n.m_Alphabet)
    (S : List Nat) : n.stepSet S a = [] := by
  apply List.eq_nil_iff_forall_not_mem.2
  intro x hx
  obtain ⟨q, _, T, hT, _⟩ := mem_stepSet.1 hx
  exact ha (hn.trans_sym _ (mapFind_mem hT))

theorem Recorded.preserves {n : NFA} (hn : n.WF) {st st' : DetState} {cur syms : List Nat}
    {a : Nat} (h : DetInv n st cur syms) (ha : a ∈ n.m_Alphabet)
    (hr : Recorded n st st' cur a)
    (hlt : (mapFind (n.stepSet cur a) st.map).isNone = true → st.stateCounter < 2 ^ 32)
    (hfin : n.anyFinal cur = true → lookupD st'.map cur ∈ st'.result.m_FinalStates) :
    DetInv n st' cur (syms ++ [a]) ∧
      st'.queue.length + st.map.length = st.queue.length + st'.map.length := by
  obtain ⟨hmap, hcnt, hq, htr, hst, hfe, hini⟩ := hr
  replace hmap : st'.map =
      if (mapFind (n.stepSet cur a) st.map).isNone then
        (n.stepSet cur a, st.stateCounter) :: st.map else st.map := by
    rw [hmap]
    split_ifs with hf
    · rw [Nat.mod_eq_of_lt (hlt hf)]
    · rfl
  set tmp := n.stepSet cur a with htmp
  -- old keys keep their ids
  have keep : ∀ S ∈ st.map.map Prod.fst, mapFind S st'.map = mapFind S st.map := by
    intro S hS
    rw [hmap]
    split_ifs with hf
    · rw [mapFind_cons, if_neg]
      rintro rfl
      exact (mapFind_none.1 (Option.isNone_iff_eq_none.1 hf)) hS
    · rfl
  have keepD : ∀ S ∈ st.map.map Prod.fst, lookupD st'.map S = lookupD st.map S := by
    intro S hS; simp [lookupD, keep S hS]
  have keysub : ∀ S ∈ st.map.map Prod.fst, S ∈ st'.map.map Prod.fst := by
    intro S hS
    rw [hmap]; split_ifs
    · simp only [List.map_cons, List.mem_cons]; exact Or.inr hS
    · exact hS
  obtain ⟨j, hj, hjlt⟩ : ∃ j, mapFind tmp st'.map = some j ∧ j < st'.stateCounter := by
    rw [hmap, hcnt]
    split_ifs with hf
    · exact ⟨st.stateCounter, by simp [mapFind_cons], by omega⟩
    · cases hm : mapFind tmp st.map with
      | none => simp [hm] at hf
      | some j => exact ⟨j, rfl, h.vals_lt j (mapFind_val_mem hm)⟩
  have hjD : lookupD st'.map tmp = j := lookupD_of_mapFind hj
  have hcurD : lookupD st'.map cur = lookupD st.map cur := keepD cur h.cur_key
  have keys' : ∀ S ∈ st'.map.map Prod.fst, S = tmp ∨ S ∈ st.map.map Prod.fst := by
    intro S hS
    rw [hmap] at hS; split_ifs at hS
    · simpa using hS
    · exact Or.inr hS
  have queue' : ∀ S ∈ st'.queue, S ∈ st.queue ∨
      (S = tmp ∧ (mapFind tmp st.map).isNone = true) := by
    intro S hS
    rw [hq] at hS; split_ifs at hS with hf
    · rcases List.mem_append.1 hS with h1 | h1
      · exact Or.inl h1
      · exact Or.inr ⟨by simpa using h1, hf⟩
    · exact Or.inl hS
  have queue_sub : ∀ S ∈ st.queue, S ∈ st'.queue := by
    intro S hS; rw [hq]; split_ifs
    · exact List.mem_append_left _ hS
    · exact hS
  have fresh_notkey : (mapFind tmp st.map).isNone = true → tmp ∉ st.map.map Prod.fst :=
    fun hf => mapFind_none.1 (Option.isNone_iff_eq_none.1 hf)
  have vals_nodup' : (st'.map.map Prod.snd).Nodup := by
    rw [hmap]; split_ifs with hf
    · simp only [List.map_cons, List.nodup_cons]
      exact ⟨fun hc => absurd (h.vals_lt _ hc) (lt_irrefl _), h.vals_nodup⟩
    · exact h.vals_nodup
  have fin_sub : ∀ i ∈ st.result.m_FinalStates, i ∈ st'.result.m_FinalStates := by
    intro i hi
    rcases hfe with e | ⟨e, _⟩
    · rw [e]; exact hi
    · rw [e]; exact mem_setInsert.2 (Or.inr hi)
  have trans_find : ∀ k, mapFind k st'.result.m_Transitions =
      if (lookupD st.map cur, a) = k then some j else mapFind k st.result.m_Transitions := by
    intro k; rw [htr, mapFind_mapAssign, hjD, hcurD]
  have exp_keep : ∀ S ∈ st.map.map Prod.fst, S ≠ cur → ∀ syms',
      Expanded n st S syms' → Expanded n st' S syms' := by
    intro S hS hne syms' hE b hb
    obtain ⟨i, hi1, hi2⟩ := hE b hb
    refine ⟨i, ?_, ?_⟩
    · rw [keep _ (mapFind_key_mem hi1)]; exact hi1
    · rw [keepD S hS, trans_find, if_neg]
      · exact hi2
      · intro hk
        have hk1 : lookupD st.map cur = lookupD st.map S := (Prod.mk.inj hk).1
        obtain ⟨ic, hic⟩ := mapFind_isSome_of_mem h.cur_key
        obtain ⟨iS, hiS⟩ := mapFind_isSome_of_mem hS
        rw [lookupD_of_mapFind hic, lookupD_of_mapFind hiS] at hk1
        subst hk1
        exact hne (mapFind_inj h.vals_nodup hiS hic)
  refine ⟨⟨?_, vals_nodup', ?_, ?_, ?_, keysub _ h.cur_key, ?_, ?_, ?_, ?_, ?_, ?_, ?_, ?_, ?_,
    ?_, ?_, ?_⟩, ?_⟩
  · -- keys_nodup
    rw [hmap]; split_ifs with hf
    · simp only [List.map_cons, List.nodup_cons]
      exact ⟨fresh_notkey hf, h.keys_nodup⟩
    · exact h.keys_nodup
  · -- vals_lt
    intro v hv
    rw [hmap, hcnt] at *; split_ifs at hv ⊢ with hf
    · simp only [List.map_cons, List.mem_cons] at hv
      rcases hv with rfl | hv
      · omega
      · have := h.vals_lt v hv; omega
    · exact h.vals_lt v hv
  · -- keys_sub
    intro S hS
    rcases keys' S hS with rfl | hS
    · exact stepSet_sublist hn a cur
    · exact h.keys_sub S hS
  · -- init_key
    rw [keep _ (mapFind_key_mem h.init_key)]; exact h.init_key
  · -- cur_queue
    intro hc
    rcases queue' cur hc with h1 | ⟨h1, hf⟩
    · exact h.cur_queue h1
    · exact fresh_notkey hf (h1 ▸ h.cur_key)
  · -- init_queue
    intro hc
    rcases queue' _ hc with h1 | ⟨h1, hf⟩
    · exact h.init_queue h1
    · exact fresh_notkey hf (h1 ▸ mapFind_key_mem h.init_key)
  · -- queue_keys
    intro S hS
    rcases queue' S hS with h1 | ⟨h1, _⟩
    · exact keysub _ (h.queue_keys S h1)
    · rw [h1]; exact mapFind_key_mem hj
  · -- queue_nodup
    rw [hq]; split_ifs with hf
    · apply List.Nodup.append h.queue_nodup (List.nodup_singleton _)
      intro x hx1 hx2
      rw [List.mem_singleton] at hx2; subst hx2
      exact fresh_notkey hf (h.queue_keys _ hx1)
    · exact h.queue_nodup
  · -- alpha_queue
    intro he; rw [he] at ha; simp at ha
  · -- expanded
    intro S hS hSq hne
    have hSold : S ∈ st.map.map Prod.fst := by
      rcases keys' S hS with rfl | hS
      · by_contra hc
        apply hSq
        rw [hq, if_pos]
        · simp
        · cases hm : mapFind tmp st.map with
          | none => rfl
          | some v => exact absurd (mapFind_key_mem hm) hc
      · exact hS
    obtain ⟨hE, hF⟩ := h.expanded S hSold (fun hc => hSq (queue_sub S hc)) hne
    refine ⟨exp_keep S hSold hne _ hE, fun hfS => ?_⟩
    rw [keepD S hSold]; exact fin_sub _ (hF hfS)
  · -- cur_expanded
    intro b hb
    rcases List.mem_append.1 hb with hb | hb
    · obtain ⟨i, hi1, hi2⟩ := h.cur_expanded b hb
      by_cases hab : a = b
      · subst hab
        exact ⟨j, hj, by rw [hcurD, trans_find, if_pos rfl]⟩
      · refine ⟨i, ?_, ?_⟩
        · rw [keep _ (mapFind_key_mem hi1)]; exact hi1
        · rw [hcurD, trans_find, if_neg]
          · exact hi2
          · intro hk; exact hab (Prod.mk.inj hk).2
    · rw [List.mem_singleton] at hb; subst hb
      exact ⟨j, hj, by rw [hcurD, trans_find, if_pos rfl]⟩
  · -- cur_final
    intro _ hf; exact hfin hf
  · -- fin_sound
    intro i hi
    have old : i ∈ st.result.m_FinalStates → ∃ S, mapFind S st'.map = some i ∧
        n.anyFinal S = true := by
      intro hi
      obtain ⟨S, hS1, hS2⟩ := h.fin_sound i hi
      exact ⟨S, by rw [keep _ (mapFind_key_mem hS1)]; exact hS1, hS2⟩
    rcases hfe with e | ⟨e, hc⟩
    · rw [e] at hi; exact old hi
    · rw [e] at hi
      rcases mem_setInsert.1 hi with rfl | hi
      · obtain ⟨ic, hic⟩ := mapFind_isSome_of_mem h.cur_key
        refine ⟨cur, ?_, hc⟩
        rw [hcurD, lookupD_of_mapFind hic, keep _ h.cur_key]; exact hic
      · exact old hi
  · -- trans_sym
    intro e he
    rw [htr] at he
    rcases mem_mapAssign he with rfl | he
    · exact ha
    · exact h.trans_sym e he
  · -- states_iff
    intro i
    have hjc : (mapFind tmp st.map).isNone = true → j = st.stateCounter := by
      intro hf
      rw [hmap, if_pos hf, mapFind_cons, if_pos rfl] at hj
      exact (Option.some.inj hj).symm
    have hjo : (mapFind tmp st.map).isNone = false → j < st.stateCounter := by
      intro hf
      rw [hcnt, if_neg (by simp [hf])] at hjlt; exact hjlt
    rcases hst with e | ⟨e, hf⟩
    · rw [e, mem_setInsert, h.states_iff, hjD, hcnt]
      split_ifs with hf
      · have := hjc hf; omega
      · have := hjo (Bool.eq_false_iff.2 hf); omega
    · rw [e, h.states_iff, hcnt, if_neg (by simp [hf])]
  · -- initial
    rw [hini]; exact h.initial
  · rw [hq, hmap]
    split_ifs
    · simp only [List.length_append, List.length_cons, List.length_nil]; omega
    · rfl

theorem lookupD_cons_ne {K : Type} [DecidableEq K] {m : List (K × Nat)} {k t : K} {c : Nat}
    (h : t ≠ k) : lookupD ((t, c) :: m) k = lookupD m k := by
  simp [lookupD, mapFind_cons, h]

theorem lookupD_cons_self {K : Type} [DecidableEq K] {m : List (K × Nat)} {t : K} {c : Nat} :
    lookupD ((t, c) :: m) t = c := by
  simp [lookupD, mapFind_cons]

theorem determineSymbol_recorded (n : NFA) (next : List Nat) (st : DetState) (flag : Bool)
    (a : Nat) (hflag : flag = true → n.anyFinal next = true) :
    Recorded n st (determineSymbol n next (st, flag) a).1 next a ∧
      ((determineSymbol n next (st, flag) a).2 = true → n.anyFinal next = true) ∧
      (n.anyFinal next = true →
        lookupD (determineSymbol n next (st, flag) a).1.map next ∈
          (determineSymbol n next (st, flag) a).1.result.m_FinalStates) := by
  have hfold : next.foldl (collectTargets n a) (flag, []) =
      (flag || n.anyFinal next, n.stepSet next a) := foldl_collectTargets n a next flag []
  unfold determineSymbol
  simp only [hfold]
  by_cases hf : (mapFind (n.stepSet next a) st.map).isNone = true
  · simp only [hf, if_true]
    refine ⟨⟨by simp [hf], by simp [hf], by simp [hf], rfl, Or.inl rfl, ?_, rfl⟩, ?_, ?_⟩
    · cases hb : (flag || n.anyFinal next)
      · exact Or.inl (by simp)
      · refine Or.inr ⟨by simp, ?_⟩
        rcases Bool.or_eq_true_iff.1 hb with h1 | h1
        · exact hflag h1
        · exact h1
    · intro hb
      rcases Bool.or_eq_true_iff.1 hb with h1 | h1
      · exact hflag h1
      · exact h1
    · intro h1
      simp only [h1, Bool.or_true, if_true]
      exact mem_setInsert.2 (Or.inl rfl)
  · simp only [hf]
    refine ⟨⟨by simp [hf], by simp [hf], by simp [hf], rfl, Or.inl rfl, ?_, rfl⟩, ?_, ?_⟩
    · cases hb : (flag || n.anyFinal next)
      · exact Or.inl (by simp)
      · refine Or.inr ⟨by simp, ?_⟩
        rcases Bool.or_eq_true_iff.1 hb with h1 | h1
        · exact hflag h1
        · exact h1
    · intro hb
      rcases Bool.or_eq_true_iff.1 hb with h1 | h1
      · exact hflag h1
      · exact h1
    · intro h1
      simp only [h1, Bool.or_true, if_true]
      exact mem_setInsert.2 (Or.inl rfl)

theorem determineStart_recorded {n : NFA} (hn : n.WF) {st : DetState}
    (hinit : mapFind [n.m_InitialState] st.map = some 0) (a : Nat)
    (hs : st.sinkStateAdded = true ↔ [] ∈ st.map.map Prod.fst) :
    Recorded n st (determineStart n st a) [n.m_InitialState] a ∧
      ((determineStart n st a).sinkStateAdded = true ↔
        [] ∈ (determineStart n st a).map.map Prod.fst) ∧
      ((0 ∈ st.result.m_FinalStates) →
        lookupD (determineStart n st a).map [n.m_InitialState] ∈
          (determineStart n st a).result.m_FinalStates) := by
  have hstep := stepSet_singleton hn n.m_InitialState a
  have h0 : lookupD st.map [n.m_InitialState] = 0 := lookupD_of_mapFind hinit
  have hcf : (0 ∈ st.result.m_FinalStates) → 0 ∈ st.result.m_FinalStates := fun hx => hx
  have hkey := mapFind_key_mem hinit
  unfold determineStart
  cases hq : mapFind (n.m_InitialState, a) n.m_Transitions with
  | some T =>
    simp only [hq] at hstep ⊢
    have hT : T ≠ [] := hn.trans_nonempty _ (mapFind_mem hq)
    by_cases hf : (mapFind T st.map).isNone = true
    · have hne : T ≠ [n.m_InitialState] := by
        rintro rfl
        exact mapFind_none.1 (Option.isNone_iff_eq_none.1 hf) hkey
      simp only [hf, if_true]
      refine ⟨⟨by simp [hstep, hf], by simp [hstep, hf], by simp [hstep, hf], ?_, ?_,
        Or.inl rfl, rfl⟩, ?_, ?_⟩
      · simp only [hstep, lookupD_cons_ne hne, h0]
      · exact Or.inl (by simp [hstep, lookupD_cons_self])
      · simp only [List.map_cons, List.mem_cons]
        rw [hs]
        constructor
        · exact fun h1 => Or.inr h1
        · rintro (h1 | h1)
          · exact absurd h1.symm hT
          · exact h1
      · intro hfin
        simp only [lookupD_cons_ne hne, h0]; exact hcf hfin
    · have hf' : (mapFind T st.map).isNone = false := Bool.eq_false_iff.2 hf
      simp only [hf', Bool.false_eq_true, if_false]
      refine ⟨⟨by simp [hstep, hf'], by simp [hstep, hf'], by simp [hstep, hf'], ?_, ?_,
        Or.inl rfl, rfl⟩, hs, ?_⟩
      · simp only [hstep, h0]
      · exact Or.inr ⟨rfl, by simpa [hstep] using hf'⟩
      · intro hfin; simp only [h0]; exact hcf hfin
  | none =>
    simp only [hq] at hstep ⊢
    by_cases hsa : st.sinkStateAdded = true
    · have hk : [] ∈ st.map.map Prod.fst := hs.1 hsa
      have hf : (mapFind ([] : List Nat) st.map).isNone = false := by
        obtain ⟨v, hv⟩ := mapFind_isSome_of_mem hk
        simp [hv]
      simp only [hsa, Bool.not_true, Bool.false_eq_true, if_false]
      refine ⟨⟨by simp [hstep, hf], by simp [hstep, hf], by simp [hstep, hf], ?_, ?_,
        Or.inl rfl, rfl⟩, ?_, ?_⟩
      · simp only [hstep, h0]
      · exact Or.inr ⟨rfl, by simpa [hstep] using hf⟩
      · simp [hsa, hk]
      · intro hfin; simp only [h0]; exact hcf hfin
    · have hk : [] ∉ st.map.map Prod.fst := fun hc => hsa (hs.2 hc)
      have hf : (mapFind ([] : List Nat) st.map).isNone = true := by
        rw [Option.isNone_iff_eq_none]; exact mapFind_none.2 hk
      have hne : ([] : List Nat) ≠ [n.m_InitialState] := by simp
      simp only [hsa, Bool.not_false, if_true]
      refine ⟨⟨by simp [hstep, hf], by simp [hstep, hf], by simp [hstep, hf], ?_, ?_,
        Or.inl rfl, rfl⟩, ?_, ?_⟩
      · simp only [hstep, lookupD_cons_ne hne, h0, lookupD_cons_self]
      · exact Or.inl (by simp [hstep, lookupD_cons_self])
      · simp
      · intro hfin
        simp only [lookupD_cons_ne hne, h0]; exact hcf hfin

theorem determineInit_inv {n : NFA} (hn : n.WF) :
    DetInv n (determineInit n) [n.m_InitialState] [] where
  keys_nodup := by simp [determineInit]
  vals_nodup := by simp [determineInit]
  vals_lt := by simp [determineInit]
  keys_sub := by
    intro S hS
    simp only [determineInit, List.map_cons, List.map_nil, List.mem_singleton] at hS
    subst hS
    exact List.singleton_sublist.2 hn.initial_mem
  init_key := by simp [determineInit, mapFind_cons]
  cur_key := by simp [determineInit]
  cur_queue := by simp [determineInit]
  init_queue := by simp [determineInit]
  queue_keys := by simp [determineInit]
  queue_nodup := by simp [determineInit]
  alpha_queue := by simp [determineInit]
  expanded := by
    intro S hS _ hne
    simp only [determineInit, List.map_cons, List.map_nil, List.mem_singleton] at hS
    exact absurd hS hne
  cur_expanded := by intro a ha; simp at ha
  cur_final := by
    intro _ hf
    simp only [NFA.anyFinal, List.any_cons, List.any_nil, Bool.or_false, decide_eq_true_eq] at hf
    simp [determineInit, lookupD, mapFind_cons, hf]
  fin_sound := by
    intro i hi
    simp only [determineInit] at hi
    split_ifs at hi with hq
    · simp only [List.mem_singleton] at hi
      subst hi
      exact ⟨[n.m_InitialState], by simp [determineInit, mapFind_cons],
        by simp [NFA.anyFinal, hq]⟩
    · simp at hi
  trans_sym := by simp [determineInit]
  states_iff := by intro i; simp [determineInit]
  initial := rfl

theorem DetInv.map_length_le {n : NFA} {st : DetState} {cur syms : List Nat}
    (h : DetInv n st cur syms) : st.map.length ≤ 2 ^ n.m_States.length := by
  have hsub : st.map.map Prod.fst ⊆ n.m_States.sublists := by
    intro S hS
    exact List.mem_sublists.2 (h.keys_sub S hS)
  have := (List.subperm_of_subset h.keys_nodup hsub).length_le
  simpa using this

theorem Recorded.shape {n : NFA} {st st' : DetState} {cur syms : List Nat} {a : Nat}
    (h : DetInv n st cur syms) (ha : a ∈ n.m_Alphabet) (hr : Recorded n st st' cur a)
    (hlt : (mapFind (n.stepSet cur a) st.map).isNone = true → st.stateCounter < 2 ^ 32)
    (halpha : st'.result.m_Alphabet = st.result.m_Alphabet) (hs : DetShape n st) :
    DetShape n st' := by
  obtain ⟨hmap, hcnt, hq, htr, hst, hfe, hini⟩ := hr
  replace hmap : st'.map =
      if (mapFind (n.stepSet cur a) st.map).isNone then
        (n.stepSet cur a, st.stateCounter) :: st.map else st.map := by
    rw [hmap]
    split_ifs with hf
    · rw [Nat.mod_eq_of_lt (hlt hf)]
    · rfl
  obtain ⟨vcur, hvcur⟩ := mapFind_isSome_of_mem h.cur_key
  have hvlt : vcur < st.stateCounter := h.vals_lt _ (mapFind_val_mem hvcur)
  by_cases hf : (mapFind (n.stepSet cur a) st.map).isNone = true
  · simp only [hf, if_true] at hmap hcnt hq
    have hnone : mapFind (n.stepSet cur a) st.map = none := Option.isNone_iff_eq_none.1 hf
    have hne : n.stepSet cur a ≠ cur := by
      intro hc
      rw [hc, hvcur] at hnone
      exact Option.noConfusion hnone
    have hsrc : lookupD st'.map cur = vcur := by
      rw [hmap, lookupD_cons_ne hne]
      exact lookupD_of_mapFind hvcur
    have htgt : lookupD st'.map (n.stepSet cur a) = st.stateCounter := by
      rw [hmap]; exact lookupD_cons_self
    refine ⟨halpha.trans hs.alphabet_eq, ?_, ?_, ?_, ?_, ?_, ?_⟩
    · rcases hst with h1 | ⟨h1, h2⟩
      · rw [h1]; exact setInsert_sorted hs.states_sorted
      · rw [h1]; exact hs.states_sorted
    · rcases hfe with h1 | ⟨h1, _⟩
      · rw [h1]; exact hs.finals_sorted
      · rw [h1]; exact setInsert_sorted hs.finals_sorted
    · rw [htr]; exact mapAssign_keys_sorted _ _ _ hs.keys_sorted
    · intro e he
      rw [htr] at he
      rw [hcnt]
      rcases mem_mapAssign he with h1 | h1
      · rw [h1, hsrc, htgt]
        exact ⟨by show vcur < _; omega, by show st.stateCounter < _; omega⟩
      · have := hs.trans_lt e h1
        omega
    · intro i hi
      rw [hcnt] at hi
      rw [hmap]
      simp only [List.map_cons, List.mem_cons]
      by_cases hic : i = st.stateCounter
      · exact Or.inl hic
      · exact Or.inr (hs.vals_cover i (by omega))
    · intro S hS
      rw [hmap] at hS
      simp only [List.map_cons, List.mem_cons] at hS
      rcases hS with hS | hS
      · obtain ⟨w, hw, hrun⟩ := hs.keys_reach cur h.cur_key
        refine ⟨w ++ [a], ?_, ?_⟩
        · intro c hc
          rcases List.mem_append.1 hc with h1 | h1
          · exact hw c h1
          · rw [List.mem_singleton.1 h1]; exact ha
        · rw [hS]
          simp only [NFA.run, List.foldl_append, List.foldl_cons, List.foldl_nil]
          rw [← hrun]
          rfl
      · exact hs.keys_reach S hS
  · have hf' : (mapFind (n.stepSet cur a) st.map).isNone = false := Bool.eq_false_iff.2 hf
    simp only [hf', Bool.false_eq_true, if_false] at hmap hcnt hq
    obtain ⟨vt, hvt⟩ : ∃ v, mapFind (n.stepSet cur a) st.map = some v := by
      cases hc : mapFind (n.stepSet cur a) st.map with
      | none => simp [hc] at hf'
      | some v => exact ⟨v, rfl⟩
    have hvtlt : vt < st.stateCounter := h.vals_lt _ (mapFind_val_mem hvt)
    have hsrc : lookupD st'.map cur = vcur := by
      rw [hmap]; exact lookupD_of_mapFind hvcur
    have htgt : lookupD st'.map (n.stepSet cur a) = vt := by
      rw [hmap]; exact lookupD_of_mapFind hvt
    refine ⟨halpha.trans hs.alphabet_eq, ?_, ?_, ?_, ?_, ?_, ?_⟩
    · rcases hst with h1 | ⟨h1, h2⟩
      · rw [h1]; exact setInsert_sorted hs.states_sorted
      · rw [h1]; exact hs.states_sorted
    · rcases hfe with h1 | ⟨h1, _⟩
      · rw [h1]; exact hs.finals_sorted
      · rw [h1]; exact setInsert_sorted hs.finals_sorted
    · rw [htr]; exact mapAssign_keys_sorted _ _ _ hs.keys_sorted
    · intro e he
      rw [htr] at he
      rw [hcnt]
      rcases mem_mapAssign he with h1 | h1
      · rw [h1, hsrc, htgt]
        exact ⟨hvlt, hvtlt⟩
      · exact hs.trans_lt e h1
    · intro i hi
      rw [hcnt] at hi
      rw [hmap]
      exact hs.vals_cover i hi
    · rw [hmap]
      exact hs.keys_reach

theorem determineSymbol_alphabet (n : NFA) (next : List Nat) (acc : DetState × Bool)
    (a : Nat) :
    (determineSymbol n next acc a).1.result.m_Alphabet = acc.1.result.m_Alphabet := by
  unfold determineSymbol
  simp only
  split_ifs <;> rfl

theorem determineStart_alphabet (n : NFA) (st : DetState) (a : Nat) :
    (determineStart n st a).result.m_Alphabet = st.result.m_Alphabet := by
  unfold determineStart
  cases mapFind (n.m_InitialState, a) n.m_Transitions with
  | none => simp only; split_ifs <;> rfl
  | some T => simp only; split_ifs <;> rfl

/-- While the NFA meets at most `2 ^ 32` sets, the counter is below `2 ^ 32` when
a set is given an id. -/
theorem DetInv.counter_lt {n : NFA} {st : DetState} {cur syms : List Nat} {a : Nat}
    (h : DetInv n st cur syms) (hs : DetShape n st) (hb : n.FewSubsets)
    (ha : a ∈ n.m_Alphabet)
    (hf : (mapFind (n.stepSet cur a) st.map).isNone = true) : st.stateCounter < 2 ^ 32 := by
  have hnone : n.stepSet cur a ∉ st.map.map Prod.fst :=
    mapFind_none.1 (Option.isNone_iff_eq_none.1 hf)
  have hlen := hb (n.stepSet cur a :: st.map.map Prod.fst)
    (List.nodup_cons.2 ⟨hnone, h.keys_nodup⟩) (by
      intro S hS
      rcases List.mem_cons.1 hS with rfl | hS
      · obtain ⟨w, hw, hrun⟩ := hs.keys_reach cur h.cur_key
        refine ⟨w ++ [a], ?_, ?_⟩
        · intro c hc
          rcases List.mem_append.1 hc with hc | hc
          · exact hw c hc
          · rw [List.mem_singleton.1 hc]; exact ha
        · simp only [NFA.run, List.foldl_append, List.foldl_cons, List.foldl_nil]
          have hrun' : w.foldl n.stepSet [n.m_InitialState] = cur := hrun
          rw [hrun']
      · exact hs.keys_reach S hS)
  have hcov : List.range st.stateCounter ⊆ st.map.map Prod.snd :=
    fun i hi => hs.vals_cover i (List.mem_range.1 hi)
  have := (List.subperm_of_subset (List.nodup_range _) hcov).length_le
  simp only [List.length_range, List.length_map, List.length_cons] at this hlen
  omega

theorem determineSymbols_inv {n : NFA} (hn : n.WF) (hb : n.FewSubsets) (next : List Nat) :
    ∀ (syms2 syms1 : List Nat) (st : DetState) (flag : Bool),
      (∀ a ∈ syms2, a ∈ n.m_Alphabet) → DetInv n st next syms1 →
      (flag = true → n.anyFinal next = true) → DetShape n st →
      DetInv n (syms2.foldl (determineSymbol n next) (st, flag)).1 next (syms1 ++ syms2) ∧
        (syms2.foldl (determineSymbol n next) (st, flag)).1.queue.length + st.map.length =
          st.queue.length + (syms2.foldl (determineSymbol n next) (st, flag)).1.map.length ∧
        DetShape n (syms2.foldl (determineSymbol n next) (st, flag)).1 := by
  intro syms2
  induction syms2 with
  | nil => intro syms1 st flag _ h _ hs; exact ⟨by simpa using h, rfl, hs⟩
  | cons a rest ih =>
    intro syms1 st flag hsub h hflag hs
    obtain ⟨hrec, hflag', hfin⟩ := determineSymbol_recorded n next st flag a hflag
    have hlt := fun hf => h.counter_lt hs hb (hsub a (by simp)) hf
    obtain ⟨hinv, hlen⟩ := Recorded.preserves hn h (hsub a (by simp)) hrec hlt hfin
    have hs' := Recorded.shape h (hsub a (by simp)) hrec hlt
      (determineSymbol_alphabet n next (st, flag) a) hs
    have := ih (syms1 ++ [a]) (determineSymbol n next (st, flag) a).1
      (determineSymbol n next (st, flag) a).2 (fun b hb => hsub b (by simp [hb])) hinv hflag'
      hs'
    simp only [List.foldl_cons, List.append_assoc, List.singleton_append, Prod.mk.eta] at this ⊢
    refine ⟨this.1, ?_, this.2.2⟩
    have := this.2.1
    omega

theorem determineStarts_inv {n : NFA} (hn : n.WF) (hb : n.FewSubsets) :
    ∀ (syms2 syms1 : List Nat) (st : DetState),
      (∀ a ∈ syms2, a ∈ n.m_Alphabet) → DetInv n st [n.m_InitialState] syms1 →
      (st.sinkStateAdded = true ↔ [] ∈ st.map.map Prod.fst) → DetShape n st →
      DetInv n (syms2.foldl (determineStart n) st) [n.m_InitialState] (syms1 ++ syms2) ∧
        (syms2.foldl (determineStart n) st).queue.length + st.map.length =
          st.queue.length + (syms2.foldl (determineStart n) st).map.length ∧
        DetShape n (syms2.foldl (determineStart n) st) := by
  intro syms2
  induction syms2 with
  | nil => intro syms1 st _ h _ hs; exact ⟨by simpa using h, rfl, hs⟩
  | cons a rest ih =>
    intro syms1 st hsub h hsink hs
    obtain ⟨hrec, hsink', hfin⟩ := determineStart_recorded hn h.init_key a hsink
    have hlt := fun hf => h.counter_lt hs hb (hsub a (by simp)) hf
    have hfin' : n.anyFinal [n.m_InitialState] = true →
        lookupD (determineStart n st a).map [n.m_InitialState] ∈
          (determineStart n st a).result.m_FinalStates := by
      intro hf
      have := h.cur_final (Or.inl rfl) hf
      rw [lookupD_of_mapFind h.init_key] at this
      exact hfin this
    obtain ⟨hinv, hlen⟩ := Recorded.preserves hn h (hsub a (by simp)) hrec hlt hfin'
    have hs' := Recorded.shape h (hsub a (by simp)) hrec hlt (determineStart_alphabet n st a) hs
    have := ih (syms1 ++ [a]) (determineStart n st a) (fun b hb => hsub b (by simp [hb]))
      hinv hsink' hs'
    simp only [List.foldl_cons, List.append_assoc, List.singleton_append] at this ⊢
    refine ⟨this.1, ?_, this.2.2⟩
    have := this.2.1
    omega

theorem determineInit_shape (n : NFA) : DetShape n (determineInit n) where
  alphabet_eq := rfl
  states_sorted := by simp [determineInit]
  finals_sorted := by
    simp only [determineInit]
    split_ifs <;> simp
  keys_sorted := by simp [determineInit]
  trans_lt := by simp [determineInit]
  vals_cover := by
    intro i hi
    have : i = 0 := by
      have h1 : (determineInit n).stateCounter = 1 := rfl
      omega
    subst this
    simp [determineInit]
  keys_reach := by
    intro S hS
    simp only [determineInit, List.map_cons, List.map_nil, List.mem_singleton] at hS
    exact ⟨[], fun c hc => absurd hc (List.not_mem_nil c), hS.symm⟩

theorem DetInv.pop {n : NFA} {st : DetState} {next : List Nat} {rest : List (List Nat)}
    (h : DetInv n st [n.m_InitialState] n.m_Alphabet) (hq : st.queue = next :: rest) :
    DetInv n { st with queue := rest } next [] ∧ next ≠ [n.m_InitialState] ∧
      n.m_Alphabet ≠ [] := by
  have hnext : next ∈ st.queue := by rw [hq]; simp
  have hnd := h.queue_nodup
  rw [hq, List.nodup_cons] at hnd
  have hne : next ≠ [n.m_InitialState] := fun hc => h.init_queue (hc ▸ hnext)
  have hsub : ∀ S, S ∈ rest → S ∈ st.queue := fun S hS => by rw [hq]; simp [hS]
  refine ⟨⟨h.keys_nodup, h.vals_nodup, h.vals_lt, h.keys_sub, h.init_key,
    h.queue_keys next hnext, hnd.1, fun hc => h.init_queue (hsub _ hc),
    fun S hS => h.queue_keys S (hsub S hS), hnd.2, ?_, ?_, ?_, ?_, h.fin_sound, h.trans_sym,
    h.states_iff, h.initial⟩, hne, ?_⟩
  · intro he; have := h.alpha_queue he; rw [hq] at this; simp at this
  · intro S hS hSq hSn
    by_cases hS0 : S = [n.m_InitialState]
    · subst hS0
      exact ⟨h.cur_expanded, h.cur_final (Or.inl rfl)⟩
    · apply h.expanded S hS _ hS0
      intro hc
      rw [hq] at hc
      rcases List.mem_cons.1 hc with hc | hc
      · exact hSn hc
      · exact hSq hc
  · intro a ha; simp at ha
  · intro hc
    rcases hc with hc | hc
    · exact absurd hc hne
    · exact absurd rfl hc
  · intro he; have := h.alpha_queue he; rw [hq] at this; simp at this

theorem DetInv.finish {n : NFA} {st : DetState} {next : List Nat}
    (h : DetInv n st next n.m_Alphabet) (hne : next ≠ [n.m_InitialState])
    (ha : n.m_Alphabet ≠ []) : DetInv n st [n.m_InitialState] n.m_Alphabet := by
  have hk0 := mapFind_key_mem h.init_key
  have h0 := h.expanded _ hk0 h.init_queue (Ne.symm hne)
  refine ⟨h.keys_nodup, h.vals_nodup, h.vals_lt, h.keys_sub, h.init_key, hk0, h.init_queue,
    h.init_queue, h.queue_keys, h.queue_nodup, h.alpha_queue, ?_, h0.1, fun _ => h0.2,
    h.fin_sound, h.trans_sym, h.states_iff, h.initial⟩
  intro S hS hSq _
  by_cases hSn : S = next
  · subst hSn
    exact ⟨h.cur_expanded, h.cur_final (Or.inr ha)⟩
  · exact h.expanded S hS hSq hSn

theorem determineLoop_spec {n : NFA} (hn : n.WF) (hb : n.FewSubsets) :
    ∀ (fuel : Nat) (st : DetState), DetInv n st [n.m_InitialState] n.m_Alphabet →
      DetShape n st →
      st.queue.length + 2 ^ n.m_States.length < fuel + st.map.length →
      ∃ st', determineLoop n fuel st = some st'.result ∧
        DetInv n st' [n.m_InitialState] n.m_Alphabet ∧ st'.queue = [] ∧ DetShape n st' := by
  intro fuel
  induction fuel with
  | zero =>
    intro st h _ hlt
    have := h.map_length_le
    omega
  | succ fuel ih =>
    intro st h hs hlt
    unfold determineLoop
    cases hq : st.queue with
    | nil => exact ⟨st, rfl, h, hq, hs⟩
    | cons next rest =>
      obtain ⟨hpop, hne, ha⟩ := h.pop hq
      obtain ⟨hinv, hlen, hshape⟩ := determineSymbols_inv hn hb next n.m_Alphabet []
        { st with queue := rest } false (fun a ha => ha) hpop (by simp)
        ⟨hs.alphabet_eq, hs.states_sorted, hs.finals_sorted, hs.keys_sorted, hs.trans_lt,
          hs.vals_cover, hs.keys_reach⟩
      simp only [List.nil_append] at hinv
      have hfin := hinv.finish hne ha
      apply ih _ hfin hshape
      rw [hq] at hlt
      simp only [List.length_cons] at hlt hlen
      omega

theorem DetInv.run_spec {n : NFA} (hn : n.WF) {st : DetState}
    (h : DetInv n st [n.m_InitialState] n.m_Alphabet) (hq : st.queue = []) (w : List Nat) :
    (∃ i, mapFind (n.run w) st.map = some i ∧
        w.foldl st.result.step (some st.result.m_InitialState) = some i) ∨
      (n.run w = [] ∧ w.foldl st.result.step (some st.result.m_InitialState) = none) := by
  have hexp : ∀ S ∈ st.map.map Prod.fst, Expanded n st S n.m_Alphabet := by
    intro S hS
    by_cases hS0 : S = [n.m_InitialState]
    · subst hS0; exact h.cur_expanded
    · exact (h.expanded S hS (by rw [hq]; simp) hS0).1
  induction w using List.reverseRecOn with
  | nil =>
    left
    exact ⟨0, h.init_key, by simp [h.initial]⟩
  | append_singleton w a ih =>
    simp only [NFA.run, List.foldl_append, List.foldl_cons, List.foldl_nil] at ih ⊢
    rcases ih with ⟨i, hi1, hi2⟩ | ⟨h1, h2⟩
    · by_cases ha : a ∈ n.m_Alphabet
      · obtain ⟨j, hj1, hj2⟩ := hexp _ (mapFind_key_mem hi1) a ha
        left
        refine ⟨j, hj1, ?_⟩
        rw [hi2]
        rw [lookupD_of_mapFind hi1] at hj2
        exact hj2
      · right
        refine ⟨stepSet_not_alphabet hn ha _, ?_⟩
        rw [hi2]
        simp only [DFA.step]
        cases hf : mapFind (i, a) st.result.m_Transitions with
        | none => rfl
        | some v => exact absurd (h.trans_sym _ (mapFind_mem hf)) ha
    · right
      rw [h1, h2]
      exact ⟨rfl, rfl⟩

theorem DetInv.accepts_eq {n : NFA} (hn : n.WF) {st : DetState}
    (h : DetInv n st [n.m_InitialState] n.m_Alphabet) (hq : st.queue = []) (w : List Nat) :
    st.result.accepts w = n.accepts w := by
  have hfinal : ∀ S ∈ st.map.map Prod.fst,
      n.anyFinal S = true → lookupD st.map S ∈ st.result.m_FinalStates := by
    intro S hS
    by_cases hS0 : S = [n.m_InitialState]
    · subst hS0; exact h.cur_final (Or.inl rfl)
    · exact (h.expanded S hS (by rw [hq]; simp) hS0).2
  have hacc : n.accepts w = n.anyFinal (n.run w) := rfl
  rw [hacc]
  unfold DFA.accepts
  rcases h.run_spec hn hq w with ⟨i, hi1, hi2⟩ | ⟨h1, h2⟩
  · rw [hi2]
    simp only
    cases hf : n.anyFinal (n.run w) with
    | true =>
      have := hfinal _ (mapFind_key_mem hi1) hf
      rw [lookupD_of_mapFind hi1] at this
      simp [this]
    | false =>
      simp only [decide_eq_false_iff_not]
      intro hc
      obtain ⟨S, hS1, hS2⟩ := h.fin_sound i hc
      have := mapFind_inj h.vals_nodup hS1 hi1
      subst this
      rw [hf] at hS2
      exact absurd hS2 (by simp)
  · rw [h2, h1]
    rfl

theorem determine_spec {n : NFA} (hn : n.WF) (hb : n.FewSubsets) :
    ∃ st, determine n = some st.result ∧
      DetInv n st [n.m_InitialState] n.m_Alphabet ∧ st.queue = [] ∧ DetShape n st := by
  obtain ⟨hinv, hlen, hshape⟩ := determineStarts_inv hn hb n.m_Alphabet [] (determineInit n)
    (fun a ha => ha) (determineInit_inv hn) (by simp [determineInit]) (determineInit_shape n)
  simp only [List.nil_append] at hinv
  unfold determine
  apply determineLoop_spec hn hb _ _ hinv hshape
  have h1 : (determineInit n).map.length = 1 := rfl
  have h2 : (determineInit n).queue.length = 0 := rfl
  rw [h1, h2] at hlen
  omega

/-! ## Facts on `determine` that hold whatever the ids are -/

theorem Recorded.keeps_keys {n : NFA} (hn : n.WF) {st st' : DetState} {cur syms : List Nat}
    {a : Nat} (h : DetKeys n st cur syms) (hr : Recorded n st st' cur a) :
    DetKeys n st' cur (syms ++ [a]) ∧
      st'.queue.length + st.map.length = st.queue.length + st'.map.length := by
  obtain ⟨hmap, hcnt, hq, htr, hst, hfe, hini⟩ := hr
  set tmp := n.stepSet cur a with htmp
  have hassign : ∀ (k : Nat × Nat),
      (mapFind k st.result.m_Transitions).isSome = true →
      (mapFind k st'.result.m_Transitions).isSome = true := by
    intro k hk
    rw [htr, mapFind_mapAssign]
    split_ifs
    · rfl
    · exact hk
  have hnew : (mapFind (lookupD st'.map cur, a) st'.result.m_Transitions).isSome = true := by
    rw [htr, mapFind_mapAssign, if_pos rfl]; rfl
  by_cases hf : (mapFind tmp st.map).isNone = true
  · simp only [hf, if_true] at hmap hq
    have hnone : tmp ∉ st.map.map Prod.fst := mapFind_none.1 (Option.isNone_iff_eq_none.1 hf)
    have hne : tmp ≠ cur := fun hc => hnone (hc ▸ h.cur_key)
    have keepD : ∀ S ∈ st.map.map Prod.fst, lookupD st'.map S = lookupD st.map S := by
      intro S hS
      rw [hmap, lookupD_cons_ne]
      rintro rfl
      exact hnone hS
    have htgt : lookupD st'.map tmp = st.stateCounter % 2 ^ 32 := by
      rw [hmap]; exact lookupD_cons_self
    have hstates : st'.result.m_States =
        setInsert (st.stateCounter % 2 ^ 32) st.result.m_States := by
      rcases hst with h1 | ⟨-, h2⟩
      · rw [h1, htgt]
      · rw [hf] at h2; exact absurd h2 (by simp)
    have hqmem : ∀ S, S ∈ st'.queue ↔ S ∈ st.queue ∨ S = tmp := by
      intro S; rw [hq]; simp
    refine ⟨⟨?_, ?_, ?_, ?_, ?_, ?_, ?_, ?_, ?_, ?_, ?_, ?_, ?_, hini.trans h.initial⟩, ?_⟩
    · rw [hmap]
      simp only [List.map_cons, List.nodup_cons]
      exact ⟨hnone, h.keys_nodup⟩
    · intro S hS
      rw [hmap] at hS
      simp only [List.map_cons, List.mem_cons] at hS
      rcases hS with rfl | hS
      · exact stepSet_sublist hn a cur
      · exact h.keys_sub S hS
    · rw [hmap, mapFind_cons, if_neg]
      · exact h.init_key
      · intro hc
        exact hnone (hc ▸ mapFind_key_mem h.init_key)
    · rw [hmap]
      simp only [List.map_cons, List.mem_cons]
      exact Or.inr h.cur_key
    · intro hc
      rcases (hqmem cur).1 hc with hc | hc
      · exact h.cur_queue hc
      · exact hne hc.symm
    · intro S hS
      rw [hmap]
      simp only [List.map_cons, List.mem_cons]
      rcases (hqmem S).1 hS with hS | hS
      · exact Or.inr (h.queue_keys S hS)
      · exact Or.inl hS
    · rw [hq]
      refine List.Nodup.append h.queue_nodup (List.nodup_singleton _) ?_
      intro S hS1 hS2
      rw [List.mem_singleton] at hS2
      exact hnone (hS2 ▸ h.queue_keys S hS1)
    · intro v hv
      rw [hmap] at hv
      simp only [List.map_cons, List.mem_cons] at hv
      rcases hv with rfl | hv
      · exact Nat.mod_lt _ (by norm_num)
      · exact h.vals_bound v hv
    · rw [hstates]; exact setInsert_sorted h.states_sorted
    · intro i
      rw [hstates, mem_setInsert, hmap, h.states_vals]
      simp only [List.map_cons, List.mem_cons]
    · intro e he
      rw [htr] at he
      rw [hstates, mem_setInsert]
      rcases mem_mapAssign he with rfl | he
      · left; exact htgt
      · right; exact h.trans_tgt e he
    · intro S hS hSq hSc b hb
      rw [hmap] at hS
      simp only [List.map_cons, List.mem_cons] at hS
      rcases hS with rfl | hS
      · exact absurd ((hqmem _).2 (Or.inr rfl)) hSq
      · rw [keepD S hS]
        exact hassign _ (h.done S hS (fun hc => hSq ((hqmem S).2 (Or.inl hc))) hSc b hb)
    · intro b hb
      rcases List.mem_append.1 hb with hb | hb
      · rw [keepD cur h.cur_key]
        exact hassign _ (h.cur_done b hb)
      · rw [List.mem_singleton.1 hb]; exact hnew
    · rw [hmap, hq]
      simp only [List.length_append, List.length_cons, List.length_nil]
      omega
  · have hf' : (mapFind tmp st.map).isNone = false := Bool.eq_false_iff.2 hf
    simp only [hf', Bool.false_eq_true, if_false] at hmap hq
    obtain ⟨j, hj⟩ : ∃ j, mapFind tmp st.map = some j := by
      cases hm : mapFind tmp st.map with
      | none => simp [hm] at hf
      | some j => exact ⟨j, rfl⟩
    have hjv : j ∈ st.map.map Prod.snd := mapFind_val_mem hj
    have htgt : lookupD st'.map tmp = j := by rw [hmap]; exact lookupD_of_mapFind hj
    have hjs : j ∈ st.result.m_States := (h.states_vals j).2 hjv
    have hmem : ∀ i, i ∈ st'.result.m_States ↔ i ∈ st.result.m_States := by
      intro i
      rcases hst with h1 | ⟨h1, -⟩
      · rw [h1, htgt, mem_setInsert]
        constructor
        · rintro (rfl | hi)
          · exact hjs
          · exact hi
        · exact fun hi => Or.inr hi
      · rw [h1]
    refine ⟨⟨?_, ?_, ?_, ?_, ?_, ?_, ?_, ?_, ?_, ?_, ?_, ?_, ?_, hini.trans h.initial⟩, ?_⟩
    · rw [hmap]; exact h.keys_nodup
    · rw [hmap]; exact h.keys_sub
    · rw [hmap]; exact h.init_key
    · rw [hmap]; exact h.cur_key
    · rw [hq]; exact h.cur_queue
    · rw [hmap, hq]; exact h.queue_keys
    · rw [hq]; exact h.queue_nodup
    · rw [hmap]; exact h.vals_bound
    · rcases hst with h1 | ⟨h1, -⟩
      · rw [h1]; exact setInsert_sorted h.states_sorted
      · rw [h1]; exact h.states_sorted
    · intro i
      rw [hmem, hmap]; exact h.states_vals i
    · intro e he
      rw [htr] at he
      rw [hmem]
      rcases mem_mapAssign he with rfl | he
      · rw [htgt]; exact hjs
      · exact h.trans_tgt e he
    · intro S hS hSq hSc b hb
      rw [hmap] at hS ⊢
      rw [hq] at hSq
      have := h.done S hS hSq hSc b hb
      have h2 := hassign _ this
      exact h2
    · intro b hb
      rcases List.mem_append.1 hb with hb | hb
      · have := hassign _ (h.cur_done b hb)
        rw [hmap]; exact this
      · rw [List.mem_singleton.1 hb]; exact hnew
    · rw [hmap, hq]

theorem determineSymbols_keys {n : NFA} (hn : n.WF) (next : List Nat) :
    ∀ (syms2 syms1 : List Nat) (st : DetState) (flag : Bool),
      DetKeys n st next syms1 → (flag = true → n.anyFinal next = true) →
      DetKeys n (syms2.foldl (determineSymbol n next) (st, flag)).1 next (syms1 ++ syms2) ∧
        (syms2.foldl (determineSymbol n next) (st, flag)).1.queue.length + st.map.length =
          st.queue.length + (syms2.foldl (determineSymbol n next) (st, flag)).1.map.length := by
  intro syms2
  induction syms2 with
  | nil => intro syms1 st flag h _; simpa using h
  | cons a rest ih =>
    intro syms1 st flag h hflag
    obtain ⟨hrec, hflag', -⟩ := determineSymbol_recorded n next st flag a hflag
    obtain ⟨hinv, hlen⟩ := Recorded.keeps_keys hn h hrec
    have := ih (syms1 ++ [a]) (determineSymbol n next (st, flag) a).1
      (determineSymbol n next (st, flag) a).2 hinv hflag'
    simp only [List.foldl_cons, List.append_assoc, List.singleton_append, Prod.mk.eta] at this ⊢
    refine ⟨this.1, ?_⟩
    omega

theorem determineStarts_keys {n : NFA} (hn : n.WF) :
    ∀ (syms2 syms1 : List Nat) (st : DetState),
      DetKeys n st [n.m_InitialState] syms1 →
      (st.sinkStateAdded = true ↔ [] ∈ st.map.map Prod.fst) →
      DetKeys n (syms2.foldl (determineStart n) st) [n.m_InitialState] (syms1 ++ syms2) ∧
        (syms2.foldl (determineStart n) st).queue.length + st.map.length =
          st.queue.length + (syms2.foldl (determineStart n) st).map.length := by
  intro syms2
  induction syms2 with
  | nil => intro syms1 st h _; simpa using h
  | cons a rest ih =>
    intro syms1 st h hs
    obtain ⟨hrec, hs', -⟩ := determineStart_recorded hn h.init_key a hs
    obtain ⟨hinv, hlen⟩ := Recorded.keeps_keys hn h hrec
    have := ih (syms1 ++ [a]) (determineStart n st a) hinv hs'
    simp only [List.foldl_cons, List.append_assoc, List.singleton_append] at this ⊢
    refine ⟨this.1, ?_⟩
    omega

theorem determineInit_keys {n : NFA} (hn : n.WF) :
    DetKeys n (determineInit n) [n.m_InitialState] [] where
  keys_nodup := by simp [determineInit]
  keys_sub := by
    intro S hS
    simp only [determineInit, List.map_cons, List.map_nil, List.mem_singleton] at hS
    subst hS
    exact List.singleton_sublist.2 hn.initial_mem
  init_key := by simp [determineInit, mapFind_cons]
  cur_key := by simp [determineInit]
  cur_queue := by simp [determineInit]
  queue_keys := by simp [determineInit]
  queue_nodup := by simp [determineInit]
  vals_bound := by simp [determineInit]
  states_sorted := by simp [determineInit]
  states_vals := by intro i; simp [determineInit]
  trans_tgt := by simp [determineInit]
  done := by
    intro S hS _ hne
    simp only [determineInit, List.map_cons, List.map_nil, List.mem_singleton] at hS
    exact absurd hS hne
  cur_done := by intro a ha; simp at ha
  initial := rfl

theorem DetKeys.keys_length_le {n : NFA} {st : DetState} {cur syms : List Nat}
    (h : DetKeys n st cur syms) : st.map.length ≤ 2 ^ n.m_States.length := by
  have hsub : st.map.map Prod.fst ⊆ n.m_States.sublists := by
    intro S hS
    exact List.mem_sublists.2 (h.keys_sub S hS)
  have := (List.subperm_of_subset h.keys_nodup hsub).length_le
  simpa using this

theorem DetKeys.pop_keys {n : NFA} {st : DetState} {cur next : List Nat} {rest : List (List Nat)}
    (h : DetKeys n st cur n.m_Alphabet) (hq : st.queue = next :: rest) :
    DetKeys n { st with queue := rest } next [] := by
  have hnext : next ∈ st.queue := by rw [hq]; simp
  have hnd := h.queue_nodup
  rw [hq, List.nodup_cons] at hnd
  have hsub : ∀ S, S ∈ rest → S ∈ st.queue := fun S hS => by rw [hq]; simp [hS]
  refine ⟨h.keys_nodup, h.keys_sub, h.init_key, h.queue_keys next hnext, hnd.1,
    fun S hS => h.queue_keys S (hsub S hS), hnd.2, h.vals_bound, h.states_sorted,
    h.states_vals, h.trans_tgt, ?_, ?_, h.initial⟩
  · intro S hS hSq hSn b hb
    by_cases hSc : S = cur
    · subst hSc
      exact h.cur_done b hb
    · apply h.done S hS _ hSc b hb
      intro hc
      rw [hq] at hc
      rcases List.mem_cons.1 hc with hc | hc
      · exact hSn hc
      · exact hSq hc
  · intro b hb; simp at hb

/-- The worklist loop of `determine` returns once it is given a round for every
subset of the states not yet numbered, whatever the ids are. -/
theorem determineLoop_keys {n : NFA} (hn : n.WF) :
    ∀ (fuel : Nat) (st : DetState) (cur : List Nat), DetKeys n st cur n.m_Alphabet →
      st.queue.length + 2 ^ n.m_States.length < fuel + st.map.length →
      ∃ st' cur', determineLoop n fuel st = some st'.result ∧
        DetKeys n st' cur' n.m_Alphabet ∧ st'.queue = [] := by
  intro fuel
  induction fuel with
  | zero =>
    intro st cur h hlt
    have := h.keys_length_le
    omega
  | succ fuel ih =>
    intro st cur h hlt
    unfold determineLoop
    cases hq : st.queue with
    | nil => exact ⟨st, cur, rfl, h, hq⟩
    | cons next rest =>
      have hpop := h.pop_keys hq
      obtain ⟨hinv, hlen⟩ := determineSymbols_keys hn next n.m_Alphabet []
        { st with queue := rest } false hpop (by simp)
      simp only [List.nil_append] at hinv
      apply ih _ next hinv
      rw [hq] at hlt
      simp only [List.length_cons] at hlt hlen
      omega

/-- On every well-formed NFA `determine` returns, with the invariant that does
not depend on the ids. -/
theorem determine_keys {n : NFA} (hn : n.WF) :
    ∃ st cur, determine n = some st.result ∧ DetKeys n st cur n.m_Alphabet ∧
      st.queue = [] := by
  obtain ⟨hinv, hlen⟩ := determineStarts_keys hn n.m_Alphabet [] (determineInit n)
    (determineInit_keys hn) (by simp [determineInit])
  simp only [List.nil_append] at hinv
  unfold determine
  apply determineLoop_keys hn _ _ _ hinv
  have h1 : (determineInit n).map.length = 1 := rfl
  have h2 : (determineInit n).queue.length = 0 := rfl
  rw [h1, h2] at hlen
  omega

/-- An NFA with at most 32 states meets at most `2 ^ 32` sets. -/
theorem NFA.fewSubsets_of_length {n : NFA} (hn : n.WF) (h : n.m_States.length ≤ 32) :
    n.FewSubsets := by
  intro L hnd hL
  have hsub : L ⊆ n.m_States.sublists := by
    intro S hS
    obtain ⟨w, -, hw⟩ := hL S hS
    rw [List.mem_sublists, ← hw]
    cases w using List.reverseRecOn with
    | nil => exact List.singleton_sublist.2 hn.initial_mem
    | append_singleton w c =>
      simp only [NFA.run, List.foldl_append, List.foldl_cons, List.foldl_nil]
      exact stepSet_sublist hn c _
  have := (List.subperm_of_subset hnd hsub).length_le
  rw [List.length_sublists] at this
  exact this.trans (Nat.pow_le_pow_right (by norm_num) h)

/-! ## Well-formedness of the samples -/

theorem sampleA1_wf : sampleA1.WF :=
  ⟨by decide, by decide, by decide, by decide, by decide, by decide, by decide, by decide,
    by decide, by decide, by decide, by decide, by decide⟩

theorem sampleA2_wf : sampleA2.WF :=
  ⟨by decide, by decide, by decide, by decide, by decide, by decide, by decide, by decide,
    by decide, by decide, by decide, by decide, by decide⟩

theorem sampleC1_wf : sampleC1.WF :=
  ⟨by decide, by decide, by decide, by decide, by decide, by decide, by decide, by decide,
    by decide, by decide, by decide, by decide, by decide⟩

theorem sampleC2_wf : sampleC2.WF :=
  ⟨by decide, by decide, by decide, by decide, by decide, by decide, by decide, by decide,
    by decide, by decide, by decide, by decide, by decide⟩

/-! ## Claims -/

/-- C3, amended: for every well-formed NFA (ascending sets, referenced states and
symbols declared, target sets non-empty) whose subset construction meets at most
`2 ^ 32` sets of states, `determine` returns a DFA, and that DFA accepts a word
exactly when the NFA accepts it. -/
theorem determine_language (n : NFA) (hn : n.WF) (hb : n.FewSubsets) :
    ∃ d, determine n = some d ∧ ∀ w, d.accepts w = n.accepts w := by
  obtain ⟨st, hd, hinv, hq, -⟩ := determine_spec hn hb
  exact ⟨st.result, hd, fun w => hinv.accepts_eq hn hq w⟩

/-- The amended C3 on the NFA `a1` of `main`. -/
theorem determine_language_witness :
    sampleA1.WF ∧ sampleA1.FewSubsets ∧
      ∃ d, determine sampleA1 = some d ∧ ∀ w, d.accepts w = sampleA1.accepts w :=
  ⟨sampleA1_wf, NFA.fewSubsets_of_length sampleA1_wf (by decide),
    determine_language sampleA1 sampleA1_wf
      (NFA.fewSubsets_of_length sampleA1_wf (by decide))⟩

theorem DFA.WF.closed {d : DFA} (h : d.WF) : d.Closed :=
  ⟨h.initial_mem, h.finals_sub, h.trans_src, h.trans_sym, h.trans_tgt⟩

theorem partialDfa_wf : partialDfa.WF :=
  ⟨by decide, by decide, by decide, by decide, by decide, by decide, by decide, by decide,
    by decide, by decide, by decide⟩

theorem trapDfa_wf : trapDfa.WF :=
  ⟨by decide, by decide, by decide, by decide, by decide, by decide, by decide, by decide,
    by decide, by decide, by decide⟩

theorem gapDfa_wf : gapDfa.WF :=
  ⟨by decide, by decide, by decide, by decide, by decide, by decide, by decide, by decide,
    by decide, by decide, by decide⟩

theorem loneDfa_wf : loneDfa.WF :=
  ⟨by decide, by decide, by decide, by decide, by decide, by decide, by decide, by decide,
    by decide, by decide, by decide⟩

theorem sampleAProduct_wf : sampleAProduct.WF :=
  ⟨by decide, by decide, by decide, by decide, by decide, by decide, by decide, by decide,
    by decide, by decide, by decide⟩

theorem onlyEmptyA_wf : onlyEmptyA.WF :=
  ⟨by decide, by decide, by decide, by decide, by decide, by decide, by decide, by decide,
    by decide, by decide, by decide, by decide, by decide⟩

theorem onlyEmptyB_wf : onlyEmptyB.WF :=
  ⟨by decide, by decide, by decide, by decide, by decide, by decide, by decide, by decide,
    by decide, by decide, by decide, by decide, by decide⟩

theorem shiftedEmptyWord_wf : shiftedEmptyWord.WF :=
  ⟨by decide, by decide, by decide, by decide, by decide, by decide, by decide, by decide,
    by decide, by decide, by decide, by decide, by decide⟩

theorem plainEmptyWord_wf : plainEmptyWord.WF :=
  ⟨by decide, by decide, by decide, by decide, by decide, by decide, by decide, by decide,
    by decide, by decide, by decide, by decide, by decide⟩

theorem loopNoWord_wf : loopNoWord.WF :=
  ⟨by decide, by decide, by decide, by decide, by decide, by decide, by decide, by decide,
    by decide, by decide, by decide, by decide, by decide⟩

theorem sampleAProduct_eq :
    (determine sampleA1).bind (fun da => (determine sampleA2).bind (parallelRun da)) =
      some sampleAProduct := by decide

/-- An NFA without transitions accepts a word exactly when the word is empty and
the initial state is accepting. -/
theorem accepts_no_transitions (n : NFA) (h : n.m_Transitions = []) (w : List Nat) :
    n.accepts w = (decide (w = []) && decide (n.m_InitialState ∈ n.m_FinalStates)) := by
  have hstep : ∀ S a, n.stepSet S a = [] := by
    intro S a
    apply List.eq_nil_iff_forall_not_mem.2
    intro x hx
    obtain ⟨q, _, T, hT, _⟩ := mem_stepSet.1 hx
    rw [h] at hT
    simp [mapFind] at hT
  have hrun : ∀ (w : List Nat), w.foldl n.stepSet [] = [] := by
    intro w
    induction w with
    | nil => rfl
    | cons a w ih => rw [List.foldl_cons, hstep, ih]
  cases w with
  | nil => simp [NFA.accepts]
  | cons a w =>
    simp only [NFA.accepts, List.foldl_cons, hstep, hrun]
    simp

/-- C1, evaluated on the code: `unify` of an NFA accepting only the empty word, whose
state is named 1, and an NFA accepting nothing returns a DFA that accepts the word
`a`, which neither NFA accepts. -/
theorem unify_shifted_accepts_extra :
    unify shiftedEmptyWord loopNoWord =
        some { m_States := [1], m_Alphabet := [97, 98], m_Transitions := [((1, 97), 1)],
               m_InitialState := 1, m_FinalStates := [1] } ∧
      (unify shiftedEmptyWord loopNoWord).map (fun d => DFA.accepts d [97]) = some true ∧
      shiftedEmptyWord.accepts [97] = false ∧ loopNoWord.accepts [97] = false := by
  decide

/-- C2, evaluated on the code: two NFAs over the disjoint alphabets `{a}` and `{b}`
both accept the empty word, but the product of their determinizations has initial
state 1 outside its state set `{0}` and no accepting state, and `intersect` has no
defined result. -/
theorem intersect_disjoint_alphabets :
    onlyEmptyA.accepts [] = true ∧ onlyEmptyB.accepts [] = true ∧
      ((determine onlyEmptyA).bind fun da => (determine onlyEmptyB).bind (parallelRun da)) =
        some { m_States := [0], m_Alphabet := [97, 98],
               m_Transitions := [((0, 97), 0), ((0, 98), 0)],
               m_InitialState := 1, m_FinalStates := [] } ∧
      intersect onlyEmptyA onlyEmptyB = none := by
  decide

/-- C4, evaluated on the code: `minimize` of the partial DFA accepting only `a`
returns a DFA with the added transition `(1, a) → 0`, which accepts `aaa`; and
`minimize` of a total DFA of the empty language whose initial state is a sink
returns a DFA accepting the empty word. -/
theorem minimize_changes_language :
    minimize partialDfa =
        some { m_States := [0, 1], m_Alphabet := [97],
               m_Transitions := [((0, 97), 1), ((1, 97), 0)],
               m_InitialState := 0, m_FinalStates := [1] } ∧
      partialDfa.accepts [97, 97, 97] = false ∧
      (minimize partialDfa).map (fun d => DFA.accepts d [97, 97, 97]) = some true ∧
      minimize trapDfa =
        some { m_States := [1], m_Alphabet := [97], m_Transitions := [((1, 97), 1)],
               m_InitialState := 1, m_FinalStates := [1] } ∧
      trapDfa.accepts [] = false ∧
      (minimize trapDfa).map (fun d => DFA.accepts d []) = some true := by
  decide

/-- C5, evaluated on the code: in `unifyNFA` the state 0 of the second NFA, moved by
the offset 1, and the new initial state 1 both coincide with the state 1 of the
first NFA; the result accepts `a`, which neither NFA accepts. -/
theorem unifyNFA_collision :
    unifyNFA shiftedEmptyWord loopNoWord =
        { m_States := [1], m_Alphabet := [97, 98], m_Transitions := [((1, 97), [1])],
          m_InitialState := 1, m_FinalStates := [1] } ∧
      (unifyNFA shiftedEmptyWord loopNoWord).accepts [97] = true ∧
      shiftedEmptyWord.accepts [97] = false ∧ loopNoWord.accepts [97] = false := by
  decide

/-- C6, evaluated on the code: the DFA with one accepting state and no transition
accepts the empty word, but `parallelRun` of it with itself returns a DFA with
initial state 1 outside its state set `{0}` that rejects the empty word; the same
happens for the two total DFAs that `determine` returns for NFAs over the disjoint
alphabets `{a}` and `{b}`. -/
theorem parallelRun_loses_initial_pair :
    parallelRun loneDfa loneDfa =
        some { m_States := [0], m_Alphabet := [97], m_Transitions := [((0, 97), 0)],
               m_InitialState := 1, m_FinalStates := [] } ∧
      loneDfa.accepts [] = true ∧
      (parallelRun loneDfa loneDfa).map (fun d => DFA.accepts d []) = some false ∧
      determine onlyEmptyA = some detOnlyEmptyA ∧ determine onlyEmptyB = some detOnlyEmptyB ∧
      parallelRun detOnlyEmptyA detOnlyEmptyB =
        some { m_States := [0], m_Alphabet := [97, 98],
               m_Transitions := [((0, 97), 0), ((0, 98), 0)],
               m_InitialState := 1, m_FinalStates := [] } ∧
      detOnlyEmptyA.accepts [] = true ∧ detOnlyEmptyB.accepts [] = true ∧
      (parallelRun detOnlyEmptyA detOnlyEmptyB).map (fun d => DFA.accepts d []) =
        some false := by
  decide

/-- C8, evaluated on the code: for the sample `intersect(a1, a2)` of `main`,
`minimize` returns five states named 1 to 5, where `main` expects 0 to 4. -/
theorem minimize_sampleA_states :
    (minimize sampleAProduct).map DFA.m_States = some [1, 2, 3, 4, 5] ∧
      (intersect sampleA1 sampleA2).map DFA.m_States = some [1, 2, 3, 4, 5] ∧
      sampleA.m_States = List.range 5 ∧ [1, 2, 3, 4, 5] ≠ List.range 5 := by
  decide

/-- C9, evaluated on the code: `minimize` applied to its own result on `gapDfa`
returns a different DFA, which moreover accepts `aaa` where the first result does
not. -/
theorem minimize_not_idempotent :
    minimize gapDfa =
        some { m_States := [1, 2], m_Alphabet := [97], m_Transitions := [((2, 97), 1)],
               m_InitialState := 2, m_FinalStates := [1] } ∧
      (minimize gapDfa).bind minimize =
        some { m_States := [0, 1], m_Alphabet := [97],
               m_Transitions := [((0, 97), 1), ((1, 97), 0)],
               m_InitialState := 0, m_FinalStates := [1] } ∧
      (minimize gapDfa).bind minimize ≠ minimize gapDfa ∧
      (minimize gapDfa).map (fun d => DFA.accepts d [97, 97, 97]) = some false ∧
      ((minimize gapDfa).bind minimize).map (fun d => DFA.accepts d [97, 97, 97]) =
        some true := by
  decide

/-- C10, evaluated on the code: two NFAs with the same alphabet that both accept
exactly the empty word, one with its state named 0 and one with its state named 1,
give different DFAs when united with the same third NFA. -/
theorem unify_not_canonical :
    (∀ w, plainEmptyWord.accepts w = shiftedEmptyWord.accepts w) ∧
      plainEmptyWord.m_Alphabet = shiftedEmptyWord.m_Alphabet ∧
      unify plainEmptyWord loopNoWord =
        some { m_States := [1], m_Alphabet := [97, 98], m_Transitions := [],
               m_InitialState := 1, m_FinalStates := [1] } ∧
      unify shiftedEmptyWord loopNoWord =
        some { m_States := [1], m_Alphabet := [97, 98], m_Transitions := [((1, 97), 1)],
               m_InitialState := 1, m_FinalStates := [1] } ∧
      unify plainEmptyWord loopNoWord ≠ unify shiftedEmptyWord loopNoWord := by
  refine ⟨fun w => ?_, by decide, by decide, by decide, by decide⟩
  rw [accepts_no_transitions plainEmptyWord rfl, accepts_no_transitions shiftedEmptyWord rfl]
  rfl

/-! ## Facts on `minimize` -/

theorem mapIndex_of_some {k : Nat × Nat} {m : List ((Nat × Nat) × Nat)} {v : Nat}
    (h : mapFind k m = some v) : mapIndex k m = (v, m) := by
  simp [mapIndex, h]

theorem lookupD_foldl_cons {K : Type} [DecidableEq K] (xs : List K) (c : Nat)
    (ids : List (K × Nat)) (q : K) :
    lookupD (xs.foldl (fun ids j => (j, c) :: ids) ids) q =
      if q ∈ xs then c else lookupD ids q := by
  induction xs generalizing ids with
  | nil => simp
  | cons x xs ih =>
    rw [List.foldl_cons, ih]
    by_cases hq : q ∈ xs
    · simp [hq]
    · by_cases hx : x = q
      · subst hx; simp [hq, lookupD_cons_self]
      · have : q ≠ x := fun h => hx h.symm
        simp [hq, this, lookupD_cons_ne hx]

theorem DFA.Total.find {d : DFA} (h : d.Total) {q a : Nat} (hq : q ∈ d.m_States)
    (ha : a ∈ d.m_Alphabet) : mapFind (q, a) d.m_Transitions = some (d.delta q a) := by
  have := h q hq a ha
  cases hf : mapFind (q, a) d.m_Transitions with
  | none => simp [hf] at this
  | some v => simp [DFA.delta, lookupD, hf]

theorem equivalentSymbols_total (d : DFA) (ids : List (Nat × Nat)) (state first : Nat)
    (syms : List Nat)
    (h : ∀ a ∈ syms, mapFind (state, a) d.m_Transitions = some (d.delta state a) ∧
      mapFind (first, a) d.m_Transitions = some (d.delta first a)) :
    equivalentSymbols ids state first syms d.m_Transitions =
      (syms.all (fun a => lookupD ids (d.delta state a) == lookupD ids (d.delta first a)),
       d.m_Transitions) := by
  induction syms with
  | nil => rfl
  | cons a rest ih =>
    have h1 := (h a (by simp)).1
    have h2 := (h a (by simp)).2
    unfold equivalentSymbols
    simp only [mapIndex_of_some h1, mapIndex_of_some h2]
    rw [ih (fun b hb => h b (by simp [hb]))]
    by_cases he : lookupD ids (d.delta state a) = lookupD ids (d.delta first a)
    · simp [he]
    · simp [he]

theorem equivalentWithSet_total {d : DFA} (ht : d.Total) (ids : List (Nat × Nat))
    (state first : Nat) (tl : List Nat) (hs : state ∈ d.m_States) (hf : first ∈ d.m_States) :
    equivalentWithSet state (first :: tl) ids d =
      (decide (state = first) || agreeOn d ids state first, d) := by
  unfold equivalentWithSet
  by_cases h : state = first
  · simp [h]
  · simp only [h, if_false, decide_False, Bool.false_or]
    rw [equivalentSymbols_total d ids state first d.m_Alphabet
      (fun a ha => ⟨ht.find hs ha, ht.find hf ha⟩)]
    rfl

theorem collectInequivalent_total {d : DFA} (ht : d.Total) (ids : List (Nat × Nat))
    (first : Nat) (tl : List Nat) (hf : first ∈ d.m_States) (xs : List Nat)
    (hxs : ∀ q ∈ xs, q ∈ d.m_States) :
    collectInequivalent (first :: tl) ids xs d = (xs.filter (inequivalent d ids first), d) := by
  induction xs with
  | nil => rfl
  | cons x xs ih =>
    unfold collectInequivalent
    simp only [equivalentWithSet_total ht ids x first tl (hxs x (by simp)) hf]
    rw [ih (fun q hq => hxs q (by simp [hq]))]
    have e : (decide (x = first) || agreeOn d ids x first) = !inequivalent d ids first x := by
      simp [inequivalent]
    rw [e]
    cases hx : inequivalent d ids first x
    · simp [List.filter_cons, hx]
    · simp [List.filter_cons, hx]

theorem getElem?_set_append {α : Type} (l : List α) (i : Nat) (keep tmp : α) (hi : i < l.length)
    (j : Nat) :
    (l.set i keep ++ [tmp])[j]? =
      if j = l.length then some tmp else if j = i then some keep else l[j]? := by
  by_cases hj : j < l.length
  · rw [List.getElem?_append_left (by simpa using hj), if_neg (by omega), List.getElem?_set]
    by_cases hji : j = i
    · subst hji; simp [hi]
    · rw [if_neg (fun h => hji h.symm), if_neg hji]
  · by_cases hj2 : j = l.length
    · subst hj2
      rw [if_pos rfl]
      simp
    · rw [if_neg hj2, if_neg (by omega)]
      rw [List.getElem?_eq_none (by simp; omega), List.getElem?_eq_none (by omega)]

theorem sum_length_set (l : List (List Nat)) (i : Nat) (B keep : List Nat)
    (h : l[i]? = some B) :
    ((l.set i keep).map List.length).sum + B.length = (l.map List.length).sum + keep.length := by
  induction l generalizing i with
  | nil => simp at h
  | cons x xs ih =>
    cases i with
    | zero =>
      simp only [List.getElem?_cons_zero, Option.some.injEq] at h
      subst h
      simp only [List.set_cons_zero, List.map_cons, List.sum_cons]
      omega
    | succ i =>
      simp only [List.getElem?_cons_succ] at h
      have := ih i h
      simp only [List.set_cons_succ, List.map_cons, List.sum_cons]
      omega

theorem length_filter_split (B : List Nat) (p : Nat → Bool) :
    (B.filter p).length + (B.filter (fun x => !p x)).length = B.length := by
  induction B with
  | nil => rfl
  | cons x xs ih =>
    cases hx : p x <;> simp [List.filter_cons, hx] <;> omega

theorem agreeOn_self (d : DFA) (ids : List (Nat × Nat)) (q : Nat) : agreeOn d ids q q = true := by
  simp [agreeOn]

theorem inequivalent_first (d : DFA) (ids : List (Nat × Nat)) (first : Nat) :
    inequivalent d ids first first = false := by
  simp [inequivalent]

theorem length_le_sum_of_nonempty (l : List (List Nat)) (h : ∀ B ∈ l, B ≠ []) :
    l.length ≤ (l.map List.length).sum := by
  induction l with
  | nil => simp
  | cons x xs ih =>
    have hx : x ≠ [] := h x (by simp)
    have := ih (fun B hB => h B (by simp [hB]))
    have : 1 ≤ x.length := List.length_pos.2 hx
    simp only [List.length_cons, List.map_cons, List.sum_cons]
    omega

theorem PartInv.mem_states {d : DFA} {n : Nat} {st : RefineState} (h : PartInv d n st)
    {i : Nat} {B : List Nat} (hi : st.currSet[i]? = some B) {q : Nat} (hq : q ∈ B) :
    q ∈ d.m_States :=
  (h.cover q).2 ⟨B, List.mem_iff_getElem?.2 ⟨i, hi⟩, hq⟩

theorem PartInv.length_le {d : DFA} {n : Nat} {st : RefineState} (h : PartInv d n st) :
    st.currSet.length ≤ n := by
  have := length_le_sum_of_nonempty st.currSet h.nonempty
  rw [h.total_len] at this
  exact this

theorem refineBlock_eq {d : DFA} (ht : d.Total) {n : Nat} {st : RefineState}
    (h : PartInv d n st) {i : Nat} {first : Nat} {tl : List Nat}
    (hi : st.currSet[i]? = some (first :: tl)) :
    refineBlock i st =
      if ((first :: tl).filter (inequivalent d st.stateSetID first)).isEmpty then st
      else
        { currSet :=
            (st.currSet.set i ((first :: tl).filter (fun s =>
              !((first :: tl).filter (inequivalent d st.stateSetID first)).contains s))) ++
              [(first :: tl).filter (inequivalent d st.stateSetID first)]
          stateSetID :=
            ((first :: tl).filter (inequivalent d st.stateSetID first)).foldl
              (fun ids j => (j, st.currSet.length) :: ids) st.stateSetID
          original := d } := by
  have hblock : st.currSet.getD i [] = first :: tl := by
    rw [List.getD_eq_getElem?_getD, hi]; rfl
  have hmem : ∀ q ∈ first :: tl, q ∈ d.m_States := fun q hq => h.mem_states hi hq
  unfold refineBlock
  simp only [hblock, h.orig]
  rw [collectInequivalent_total ht st.stateSetID first tl (hmem first (by simp)) _ hmem]
  simp only
  split_ifs
  · cases st; simp only [RefineState.mk.injEq, true_and]; exact h.orig.symm
  · rfl

theorem refineBlock_inv {d : DFA} (ht : d.Total) {n : Nat} {st : RefineState}
    (h : PartInv d n st) {i : Nat} {B : List Nat} (hi : st.currSet[i]? = some B) :
    PartInv d n (refineBlock i st) ∧
      st.currSet.length ≤ (refineBlock i st).currSet.length ∧
      ((refineBlock i st).currSet.length = st.currSet.length →
        refineBlock i st = st ∧ StableBlock d st.stateSetID B) := by
  have hBne : B ≠ [] := h.nonempty B (List.mem_iff_getElem?.2 ⟨i, hi⟩)
  obtain ⟨first, tl, rfl⟩ := List.exists_cons_of_ne_nil hBne
  have hilt : i < st.currSet.length := (List.getElem?_eq_some_iff.1 hi).1
  rw [refineBlock_eq ht h hi]
  set tmp := (first :: tl).filter (inequivalent d st.stateSetID first) with htmp
  set keep := (first :: tl).filter (fun s => !tmp.contains s) with hkeep
  by_cases he : tmp.isEmpty = true
  · rw [if_pos he]
    refine ⟨h, le_refl _, fun _ => ⟨rfl, ?_⟩⟩
    intro q hq
    have hnil : tmp = [] := List.isEmpty_iff.1 he
    have := (List.filter_eq_nil_iff.1 hnil) q hq
    simp only [inequivalent, Bool.not_eq_true', Bool.not_eq_false, Bool.or_eq_true,
      decide_eq_true_eq] at this
    rcases this with rfl | h1
    · exact agreeOn_self d _ _
    · exact h1
  · rw [if_neg he]
    have htne : tmp ≠ [] := fun hc => he (List.isEmpty_iff.2 hc)
    have mem_tmp : ∀ q, q ∈ tmp → q ∈ first :: tl := fun q hq => (List.mem_filter.1 hq).1
    have first_not_tmp : first ∉ tmp := by
      intro hc
      have := (List.mem_filter.1 hc).2
      rw [inequivalent_first] at this
      exact absurd this (by simp)
    have mem_keep : ∀ q, q ∈ keep ↔ q ∈ first :: tl ∧ q ∉ tmp := by
      intro q
      simp only [hkeep, List.mem_filter, Bool.not_eq_true', List.contains_eq_any_beq,
        List.any_eq_false, beq_iff_eq]
      constructor
      · rintro ⟨h1, h2⟩
        exact ⟨h1, fun hc => h2 q hc rfl⟩
      · rintro ⟨h1, h2⟩
        exact ⟨h1, fun x hx hxq => h2 (hxq ▸ hx)⟩
    have first_keep : first ∈ keep := (mem_keep first).2 ⟨by simp, first_not_tmp⟩
    have hget := getElem?_set_append st.currSet i keep tmp hilt
    have hlen : (st.currSet.set i keep ++ [tmp]).length = st.currSet.length + 1 := by simp
    -- every new block lies inside an old block
    have inside : ∀ j B', (st.currSet.set i keep ++ [tmp])[j]? = some B' →
        (j = st.currSet.length ∧ B' = tmp) ∨ (j = i ∧ B' = keep) ∨
          (j ≠ i ∧ st.currSet[j]? = some B') := by
      intro j B' hj
      rw [hget] at hj
      split_ifs at hj with h1 h2
      · exact Or.inl ⟨h1, (Option.some.inj hj).symm⟩
      · exact Or.inr (Or.inl ⟨h2, (Option.some.inj hj).symm⟩)
      · exact Or.inr (Or.inr ⟨h2, hj⟩)
    have inside_old : ∀ B' ∈ st.currSet.set i keep ++ [tmp],
        ∃ B0 ∈ st.currSet, ∀ q ∈ B', q ∈ B0 := by
      intro B' hB'
      obtain ⟨j, hj⟩ := List.mem_iff_getElem?.1 hB'
      have hold : first :: tl ∈ st.currSet := List.mem_iff_getElem?.2 ⟨i, hi⟩
      rcases inside j B' hj with ⟨_, rfl⟩ | ⟨_, rfl⟩ | ⟨_, h2⟩
      · exact ⟨_, hold, mem_tmp⟩
      · exact ⟨_, hold, fun q hq => ((mem_keep q).1 hq).1⟩
      · exact ⟨B', List.mem_iff_getElem?.2 ⟨j, h2⟩, fun q hq => hq⟩
    refine ⟨⟨rfl, ?_, ?_, ?_, ?_, ?_, ?_, ?_⟩, by simp, fun hc => ?_⟩
    · -- nonempty
      intro B' hB'
      obtain ⟨j, hj⟩ := List.mem_iff_getElem?.1 hB'
      rcases inside j B' hj with ⟨_, rfl⟩ | ⟨_, rfl⟩ | ⟨_, h2⟩
      · exact htne
      · exact List.ne_nil_of_mem first_keep
      · exact h.nonempty B' (List.mem_iff_getElem?.2 ⟨j, h2⟩)
    · -- cover
      intro q
      constructor
      · intro hq
        obtain ⟨B0, hB0, hqB0⟩ := (h.cover q).1 hq
        obtain ⟨j, hj⟩ := List.mem_iff_getElem?.1 hB0
        have hjlt : j < st.currSet.length := (List.getElem?_eq_some_iff.1 hj).1
        by_cases hji : j = i
        · subst hji
          rw [hi] at hj
          have hB0' : B0 = first :: tl := (Option.some.inj hj).symm
          subst hB0'
          by_cases hqt : q ∈ tmp
          · exact ⟨tmp, by simp, hqt⟩
          · refine ⟨keep, List.mem_iff_getElem?.2 ⟨j, ?_⟩, (mem_keep q).2 ⟨hqB0, hqt⟩⟩
            rw [hget, if_neg (by omega), if_pos rfl]
        · refine ⟨B0, List.mem_iff_getElem?.2 ⟨j, ?_⟩, hqB0⟩
          rw [hget, if_neg (by omega), if_neg hji, hj]
      · rintro ⟨B', hB', hq⟩
        obtain ⟨B0, hB0, hsub⟩ := inside_old B' hB'
        exact (h.cover q).2 ⟨B0, hB0, hsub q hq⟩
    · -- ids
      intro j B' hj q hq
      rw [lookupD_foldl_cons]
      rcases inside j B' hj with ⟨h1, rfl⟩ | ⟨h1, rfl⟩ | ⟨h1, h2⟩
      · rw [if_pos hq, h1]
      · rw [if_neg ((mem_keep q).1 hq).2, h1]
        exact h.ids i _ hi q ((mem_keep q).1 hq).1
      · have hqt : q ∉ tmp := by
          intro hc
          have e1 := h.ids i _ hi q (mem_tmp q hc)
          have e2 := h.ids j _ h2 q hq
          exact h1 (by omega)
        rw [if_neg hqt]
        exact h.ids j _ h2 q hq
    · -- final_resp
      intro B' hB' p hp q hq
      obtain ⟨B0, hB0, hsub⟩ := inside_old B' hB'
      exact h.final_resp B0 hB0 p (hsub p hp) q (hsub q hq)
    · -- block_zero
      intro B' hB' q hq
      have h0 := h.two
      rcases inside 0 B' hB' with ⟨h1, _⟩ | ⟨h1, rfl⟩ | ⟨_, h2⟩
      · omega
      · exact h.block_zero _ (h1 ▸ hi) q ((mem_keep q).1 hq).1
      · exact h.block_zero _ h2 q hq
    · -- total_len
      have h1 := sum_length_set st.currSet i (first :: tl) keep hi
      have h3 : keep = (first :: tl).filter (fun x => !inequivalent d st.stateSetID first x) := by
        apply List.filter_congr
        intro x hx
        congr 1
        by_cases hxt : x ∈ tmp
        · have := (List.mem_filter.1 hxt).2
          simp [this, hxt]
        · have : inequivalent d st.stateSetID first x = false := by
            by_contra hc
            exact hxt (List.mem_filter.2 ⟨hx, by simpa using hc⟩)
          simp [this, hxt]
      have ht' := h.total_len
      have h2 : tmp.length + keep.length = (first :: tl).length := by
        rw [h3]; exact length_filter_split (first :: tl) (inequivalent d st.stateSetID first)
      simp only [List.map_append, List.sum_append, List.map_cons, List.map_nil, List.sum_cons,
        List.sum_nil, add_zero]
      omega
    · -- two
      have := h.two
      simp only [List.length_append, List.length_set, List.length_cons, List.length_nil]
      omega
    · simp at hc

theorem refinePass_spec {d : DFA} (ht : d.Total) {n : Nat} :
    ∀ (fuel i : Nat) (st : RefineState), PartInv d n st → i ≤ st.currSet.length →
      n < fuel + i →
      ∃ st', refinePass fuel i st = some st' ∧ PartInv d n st' ∧
        st.currSet.length ≤ st'.currSet.length ∧
        (st'.currSet.length = st.currSet.length →
          st' = st ∧ ∀ j B, i ≤ j → st.currSet[j]? = some B →
            StableBlock d st.stateSetID B) := by
  intro fuel
  induction fuel with
  | zero =>
    intro i st h hi hlt
    have := h.length_le
    omega
  | succ fuel ih =>
    intro i st h hi hlt
    unfold refinePass
    by_cases hil : i < st.currSet.length
    · rw [if_pos hil]
      obtain ⟨B, hB⟩ : ∃ B, st.currSet[i]? = some B :=
        ⟨st.currSet[i], List.getElem?_eq_some_iff.2 ⟨hil, rfl⟩⟩
      obtain ⟨hinv, hle, hsame⟩ := refineBlock_inv ht h hB
      obtain ⟨st', hst', hinv', hle', hsame'⟩ :=
        ih (i + 1) (refineBlock i st) hinv (by omega) (by omega)
      refine ⟨st', hst', hinv', by omega, fun heq => ?_⟩
      have h1 : (refineBlock i st).currSet.length = st.currSet.length := by omega
      obtain ⟨e1, hstab⟩ := hsame h1
      rw [e1] at hsame'
      obtain ⟨e2, hrest⟩ := hsame' heq
      refine ⟨e2, fun j B' hj hB' => ?_⟩
      by_cases hji : j = i
      · subst hji
        rw [hB] at hB'
        rw [← Option.some.inj hB']
        exact hstab
      · exact hrest j B' (by omega) hB'
    · rw [if_neg hil]
      refine ⟨st, rfl, h, le_refl _, fun _ => ⟨rfl, fun j B hj hB => ?_⟩⟩
      have := (List.getElem?_eq_some_iff.1 hB).1
      omega

theorem refineLoop_spec {d : DFA} (ht : d.Total) {n : Nat} :
    ∀ (fuel : Nat) (st : RefineState), PartInv d n st → n < fuel + st.currSet.length →
      ∃ st', refineLoop (n + 3) fuel st = some st' ∧ PartInv d n st' ∧
        ∀ B ∈ st'.currSet, StableBlock d st'.stateSetID B := by
  intro fuel
  induction fuel with
  | zero =>
    intro st h hlt
    have := h.length_le
    omega
  | succ fuel ih =>
    intro st h hlt
    unfold refineLoop
    obtain ⟨st1, hst1, hinv1, hle1, hsame1⟩ :=
      refinePass_spec ht (n + 3) 0 st h (Nat.zero_le _) (by omega)
    simp only [hst1]
    by_cases hne : (st1.currSet != st.currSet) = true
    · rw [if_pos hne]
      apply ih st1 hinv1
      have hlen : st1.currSet.length ≠ st.currSet.length := by
        intro hc
        have := (hsame1 hc).1
        rw [this] at hne
        simp at hne
      omega
    · rw [if_neg hne]
      have heq : st1.currSet = st.currSet := by simpa using hne
      obtain ⟨e, hstab⟩ := hsame1 (by rw [heq])
      refine ⟨st1, rfl, hinv1, fun B hB => ?_⟩
      rw [e] at hB ⊢
      obtain ⟨j, hj⟩ := List.mem_iff_getElem?.1 hB
      exact hstab j B (Nat.zero_le _) hj

theorem partInv_init {d : DFA} (hd : d.Closed)
    (hnf : ∃ q ∈ d.m_States, q ∉ d.m_FinalStates) (hf : d.m_FinalStates ≠ []) :
    PartInv d
      ((d.m_States.filter (fun s => !d.m_FinalStates.contains s)).length +
        d.m_FinalStates.length)
      { currSet := [d.m_States.filter (fun s => !d.m_FinalStates.contains s), d.m_FinalStates]
        stateSetID :=
          d.m_FinalStates.foldl (fun ids i => (i, 1) :: ids)
            ((d.m_States.filter (fun s => !d.m_FinalStates.contains s)).foldl
              (fun ids i => (i, 0) :: ids) [])
        original := d } := by
  have memQ1 : ∀ q, q ∈ d.m_States.filter (fun s => !d.m_FinalStates.contains s) ↔
      q ∈ d.m_States ∧ q ∉ d.m_FinalStates := by
    intro q; simp [List.mem_filter]
  refine ⟨rfl, ?_, ?_, ?_, ?_, ?_, ?_, by simp⟩
  · intro B hB
    simp only [List.mem_cons, List.mem_singleton, List.not_mem_nil, or_false] at hB
    rcases hB with rfl | rfl
    · obtain ⟨q, hq1, hq2⟩ := hnf
      exact List.ne_nil_of_mem ((memQ1 q).2 ⟨hq1, hq2⟩)
    · exact hf
  · intro q
    simp only [List.mem_cons, List.mem_singleton, List.not_mem_nil, or_false, exists_eq_or_imp,
      exists_eq_left, memQ1]
    constructor
    · intro hq
      by_cases hqf : q ∈ d.m_FinalStates
      · exact Or.inr hqf
      · exact Or.inl ⟨hq, hqf⟩
    · rintro (⟨h1, _⟩ | h1)
      · exact h1
      · exact hd.finals_sub q h1
  · intro i B hi q hq
    rw [lookupD_foldl_cons, lookupD_foldl_cons]
    match i, hi with
    | 0, hi =>
      simp only [List.getElem?_cons_zero, Option.some.injEq] at hi
      subst hi
      rw [if_neg ((memQ1 q).1 hq).2, if_pos hq]
    | 1, hi =>
      simp only [List.getElem?_cons_succ, List.getElem?_cons_zero, Option.some.injEq] at hi
      subst hi
      rw [if_pos hq]
    | (k + 2), hi => simp at hi
  · intro B hB p hp q hq
    simp only [List.mem_cons, List.mem_singleton, List.not_mem_nil, or_false] at hB
    rcases hB with rfl | rfl
    · simp [((memQ1 p).1 hp).2, ((memQ1 q).1 hq).2]
    · simp [hp, hq]
  · intro B hB q hq
    simp only [List.getElem?_cons_zero, Option.some.injEq] at hB
    subst hB
    exact ((memQ1 q).1 hq).2
  · simp

theorem numberBlocks_spec (blocks : List (List Nat)) :
    ∀ (c : Nat) (nsm : List (Nat × Nat)) (sm : List (List Nat × Nat)),
      blocks.Pairwise (fun B B' => ∀ q, q ∈ B → q ∉ B') → (∀ B ∈ blocks, B ≠ []) →
      (∀ j B, blocks[j]? = some B →
        lookupD (numberBlocks c blocks nsm sm).2 B = c + j ∧
          ∀ q ∈ B, lookupD (numberBlocks c blocks nsm sm).1 q = c + j) ∧
      (∀ q, (∀ B ∈ blocks, q ∉ B) →
        lookupD (numberBlocks c blocks nsm sm).1 q = lookupD nsm q) ∧
      (∀ B', B' ∉ blocks → lookupD (numberBlocks c blocks nsm sm).2 B' = lookupD sm B') := by
  induction blocks with
  | nil =>
    intro c nsm sm _ _
    refine ⟨fun j B hj => by simp at hj, fun q _ => rfl, fun B' _ => rfl⟩
  | cons B rest ih =>
    intro c nsm sm hp hne
    have hp' := List.pairwise_cons.1 hp
    obtain ⟨h1, h2, h3⟩ := ih (c + 1) (B.foldl (fun m state => (state, c) :: m) nsm)
      ((B, c) :: sm) hp'.2 (fun B' hB' => hne B' (by simp [hB']))
    have hBne : B ≠ [] := hne B (by simp)
    obtain ⟨q0, hq0⟩ := List.exists_mem_of_ne_nil B hBne
    have hBrest : B ∉ rest := fun hc => hp'.1 B hc q0 hq0 hq0
    unfold numberBlocks
    refine ⟨fun j B' hj => ?_, fun q hq => ?_, fun B' hB' => ?_⟩
    · cases j with
      | zero =>
        simp only [List.getElem?_cons_zero, Option.some.injEq] at hj
        subst hj
        refine ⟨?_, fun q hq => ?_⟩
        · rw [h3 B hBrest, lookupD_cons_self]; rfl
        · rw [h2 q (fun B' hB' hc => hp'.1 B' hB' q hq hc), lookupD_foldl_cons, if_pos hq]; rfl
      | succ j =>
        simp only [List.getElem?_cons_succ] at hj
        have := h1 j B' hj
        refine ⟨by rw [this.1]; omega, fun q hq => by rw [this.2 q hq]; omega⟩
    · rw [h2 q (fun B' hB' => hq B' (by simp [hB'])), lookupD_foldl_cons,
        if_neg (hq B (by simp))]
    · have hB'1 : B' ≠ B := fun hc => hB' (by simp [hc])
      rw [h3 B' (fun hc => hB' (by simp [hc])), lookupD_cons_ne (Ne.symm hB'1)]

theorem copyTransitions_spec (d : DFA) (nsm : List (Nat × Nat)) (first id : Nat) :
    ∀ (syms : List Nat) (t : List ((Nat × Nat) × Nat)),
      (∀ a ∈ syms, mapFind (first, a) d.m_Transitions = some (d.delta first a)) →
      (∀ i a, mapFind (i, a) (copyTransitions d nsm first id syms t) =
        if i = id ∧ a ∈ syms then some (lookupD nsm (d.delta first a)) else mapFind (i, a) t) ∧
      ((t.map Prod.fst).Sorted (fun a b => keyLt a b = true) →
        ((copyTransitions d nsm first id syms t).map Prod.fst).Sorted
          (fun a b => keyLt a b = true)) ∧
      (∀ e ∈ copyTransitions d nsm first id syms t, e ∈ t ∨ (e.1.1 = id ∧ e.1.2 ∈ syms)) := by
  intro syms
  induction syms with
  | nil => intro t _; exact ⟨fun i a => by simp [copyTransitions], fun h => h, fun e he => Or.inl he⟩
  | cons a0 rest ih =>
    intro t h
    have h0 := h a0 (by simp)
    obtain ⟨ih1, ih2, ih3⟩ := ih (mapAssign keyLt (id, a0) (lookupD nsm (d.delta first a0)) t)
      (fun a ha => h a (by simp [ha]))
    unfold copyTransitions
    simp only [h0]
    refine ⟨fun i a => ?_, fun hs => ih2 (mapAssign_keys_sorted _ _ _ hs), fun e he => ?_⟩
    · rw [ih1, mapFind_mapAssign]
      by_cases hi : i = id
      · subst hi
        by_cases ha : a ∈ rest
        · simp [ha]
        · by_cases ha0 : a0 = a
          · subst ha0; simp
          · have : a ≠ a0 := fun hc => ha0 hc.symm
            simp [ha, ha0, this]
      · have : (id, a0) ≠ (i, a) := fun hc => hi (Prod.mk.inj hc).1.symm
        simp [hi, this]
    · rcases ih3 e he with h1 | h1
      · rcases mem_mapAssign h1 with rfl | h1
        · exact Or.inr ⟨rfl, by simp⟩
        · exact Or.inl h1
      · exact Or.inr ⟨h1.1, by simp [h1.2]⟩

theorem buildBlocks_spec (d : DFA) (ht : d.Total) (nsm : List (Nat × Nat))
    (sm : List (List Nat × Nat)) :
    ∀ (blocks : List (List Nat)) (b : Building),
      (∀ B ∈ blocks, B ≠ []) → (∀ B ∈ blocks, ∀ q ∈ B, q ∈ d.m_States) →
      blocks.Pairwise (fun B B' => lookupD sm B ≠ lookupD sm B') →
      ∃ b', buildBlocks d nsm sm blocks b = some b' ∧
        (∀ i, i ∈ b'.m_States ↔ i ∈ b.m_States ∨ ∃ B ∈ blocks, lookupD sm B = i) ∧
        (∀ i, i ∈ b'.m_FinalStates ↔ i ∈ b.m_FinalStates ∨
          ∃ B ∈ blocks, lookupD sm B = i ∧ B.headD 0 ∈ d.m_FinalStates) ∧
        ((∃ B ∈ blocks, d.m_InitialState ∈ B ∧ b'.m_InitialState = some (lookupD sm B)) ∨
          ((∀ B ∈ blocks, d.m_InitialState ∉ B) ∧ b'.m_InitialState = b.m_InitialState)) ∧
        (∀ B ∈ blocks, ∀ a ∈ d.m_Alphabet,
          mapFind (lookupD sm B, a) b'.m_Transitions =
            some (lookupD nsm (d.delta (B.headD 0) a))) ∧
        (∀ i a, ((∀ B ∈ blocks, lookupD sm B ≠ i) ∨ a ∉ d.m_Alphabet) →
          mapFind (i, a) b'.m_Transitions = mapFind (i, a) b.m_Transitions) ∧
        ((b.m_Transitions.map Prod.fst).Sorted (fun a b => keyLt a b = true) →
          (b'.m_Transitions.map Prod.fst).Sorted (fun a b => keyLt a b = true)) ∧
        (∀ e ∈ b'.m_Transitions, e ∈ b.m_Transitions ∨ e.1.2 ∈ d.m_Alphabet) := by
  intro blocks
  induction blocks with
  | nil =>
    intro b _ _ _
    exact ⟨b, rfl, by simp, by simp, Or.inr ⟨by simp, rfl⟩, by simp, fun _ _ _ => rfl,
      fun h => h, fun e he => Or.inl he⟩
  | cons B rest ih =>
    intro b hne hmem hp
    have hBne := hne B (by simp)
    obtain ⟨first, tl, rfl⟩ := List.exists_cons_of_ne_nil hBne
    have hp' := List.pairwise_cons.1 hp
    have hfirst : first ∈ d.m_States :=
      hmem (first :: tl) (List.mem_cons_self _ _) first (List.mem_cons_self _ _)
    obtain ⟨c1, c2, c3⟩ := copyTransitions_spec d nsm first (lookupD sm (first :: tl))
      d.m_Alphabet b.m_Transitions (fun a ha => ht.find hfirst ha)
    obtain ⟨b', hb', s1, s2, s3, s4, s5, s6, s7⟩ := ih
      { m_States := setInsert (lookupD sm (first :: tl)) b.m_States
        m_Transitions :=
          copyTransitions d nsm first (lookupD sm (first :: tl)) d.m_Alphabet b.m_Transitions
        m_InitialState :=
          if d.m_InitialState ∈ first :: tl then some (lookupD sm (first :: tl))
          else b.m_InitialState
        m_FinalStates :=
          if first ∈ d.m_FinalStates then setInsert (lookupD sm (first :: tl)) b.m_FinalStates
          else b.m_FinalStates }
      (fun B' hB' => hne B' (by simp [hB'])) (fun B' hB' => hmem B' (by simp [hB'])) hp'.2
    refine ⟨b', ?_, ?_, ?_, ?_, ?_, ?_, ?_, ?_⟩
    · rw [← hb']; rfl
    · intro i
      rw [s1, mem_setInsert]
      simp only [List.mem_cons, exists_eq_or_imp]
      constructor
      · rintro ((h1 | h1) | h1)
        · exact Or.inr (Or.inl h1.symm)
        · exact Or.inl h1
        · exact Or.inr (Or.inr h1)
      · rintro (h1 | h1 | h1)
        · exact Or.inl (Or.inr h1)
        · exact Or.inl (Or.inl h1.symm)
        · exact Or.inr h1
    · intro i
      rw [s2]
      simp only [List.mem_cons, exists_eq_or_imp, List.headD_cons]
      by_cases hf : first ∈ d.m_FinalStates
      · simp only [hf, if_true, mem_setInsert, and_true]
        constructor
        · rintro ((h1 | h1) | h1)
          · exact Or.inr (Or.inl h1.symm)
          · exact Or.inl h1
          · exact Or.inr (Or.inr h1)
        · rintro (h1 | h1 | h1)
          · exact Or.inl (Or.inr h1)
          · exact Or.inl (Or.inl h1.symm)
          · exact Or.inr h1
      · simp only [hf, if_false, and_false, false_or]
    · rcases s3 with ⟨B', hB', h1, h2⟩ | ⟨h1, h2⟩
      · exact Or.inl ⟨B', by simp [hB'], h1, h2⟩
      · by_cases hin : d.m_InitialState ∈ first :: tl
        · refine Or.inl ⟨first :: tl, by simp, hin, ?_⟩
          rw [h2, if_pos hin]
        · refine Or.inr ⟨?_, ?_⟩
          · intro B' hB'
            rcases List.mem_cons.1 hB' with rfl | hB'
            · exact hin
            · exact h1 B' hB'
          · rw [h2, if_neg hin]
    · intro B' hB' a ha
      rcases List.mem_cons.1 hB' with rfl | hB'
      · rw [s5 _ a (Or.inl (fun B'' hB'' hc => hp'.1 B'' hB'' hc.symm))]
        simp only
        rw [c1, if_pos ⟨rfl, ha⟩]
        rfl
      · exact s4 B' hB' a ha
    · intro i a hia
      rw [s5 i a (by
        rcases hia with h1 | h1
        · exact Or.inl (fun B' hB' => h1 B' (by simp [hB']))
        · exact Or.inr h1)]
      simp only
      rw [c1, if_neg]
      rintro ⟨h1, h2⟩
      rcases hia with h3 | h3
      · exact h3 _ (by simp) h1.symm
      · exact h3 h2
    · intro hs
      exact s6 (c2 hs)
    · intro e he
      rcases s7 e he with h1 | h1
      · rcases c3 e h1 with h2 | h2
        · exact Or.inl h2
        · exact Or.inr h2.2
      · exact Or.inr h1

theorem mapFind_filter_of_nodup {K V : Type} [DecidableEq K] (p : K × V → Bool) (k : K) :
    ∀ (m : List (K × V)), (m.map Prod.fst).Nodup →
      mapFind k (m.filter p) =
        match mapFind k m with
        | some v => if p (k, v) = true then some v else none
        | none => none := by
  intro m
  induction m with
  | nil => intro _; rfl
  | cons e rest ih =>
    intro hnd
    obtain ⟨k1, v1⟩ := e
    simp only [List.map_cons, List.nodup_cons] at hnd
    by_cases hk : k1 = k
    · subst hk
      have hnone : mapFind k1 rest = none := mapFind_none.2 hnd.1
      have hnone' : mapFind k1 (rest.filter p) = none := by
        apply mapFind_none.2
        intro hc
        obtain ⟨e, he, rfl⟩ := List.mem_map.1 hc
        exact hnd.1 (List.mem_map.2 ⟨e, (List.mem_filter.1 he).1, rfl⟩)
      cases hp : p (k1, v1)
      · simp [List.filter_cons, hp, mapFind_cons, hnone']
      · simp [List.filter_cons, hp, mapFind_cons]
    · cases hp : p (k1, v1)
      · simp only [List.filter_cons, hp, mapFind_cons, if_neg hk]
        exact ih hnd.2
      · simp only [List.filter_cons, hp, mapFind_cons, if_neg hk, if_true]
        exact ih hnd.2

theorem mapFind_filter_key {K V : Type} [DecidableEq K] (p : K → Bool) (k : K) :
    ∀ (m : List (K × V)),
      mapFind k (m.filter (fun e => p e.1)) = if p k = true then mapFind k m else none := by
  intro m
  induction m with
  | nil => simp [mapFind]
  | cons e rest ih =>
    obtain ⟨k1, v1⟩ := e
    by_cases hk : k1 = k
    · subst hk
      cases hp : p k1
      · simp [List.filter_cons, hp, ih]
      · simp [List.filter_cons, hp, mapFind_cons]
    · cases hp : p k1
      · simp only [List.filter_cons, hp, mapFind_cons, if_neg hk]
        exact ih
      · simp only [List.filter_cons, hp, mapFind_cons, if_neg hk, if_true]
        exact ih

theorem isSinkLoop_total (i : Nat) (finals : List Nat) (t : List ((Nat × Nat) × Nat)) :
    ∀ (syms : List Nat), (∀ j ∈ syms, (mapFind (i, j) t).isSome = true) →
      isSinkLoop i finals syms t =
        (syms.all (fun j => lookupD t (i, j) == i && !decide (i ∈ finals)), t) := by
  intro syms
  induction syms with
  | nil => intro _; rfl
  | cons j rest ih =>
    intro h
    have hj := h j (by simp)
    obtain ⟨v, hv⟩ := Option.isSome_iff_exists.1 hj
    unfold isSinkLoop
    simp only [mapIndex_of_some hv, List.all_cons, lookupD_of_mapFind hv]
    rw [ih (fun j' hj' => h j' (by simp [hj']))]
    by_cases h1 : v = i
    · by_cases h2 : i ∈ finals
      · simp [h1, h2]
      · simp [h1, h2]
    · simp [h1]

theorem sinkScan_total (alphabet finals : List Nat) (t : List ((Nat × Nat) × Nat)) :
    ∀ (states : List Nat),
      (∀ i ∈ states, ∀ j ∈ alphabet, (mapFind (i, j) t).isSome = true) →
      sinkScan alphabet finals states t = (states.find? (isSinkState alphabet finals t), t) := by
  intro states
  induction states with
  | nil => intro _; rfl
  | cons i rest ih =>
    intro h
    unfold sinkScan
    simp only [isSinkLoop_total i finals t alphabet (h i (by simp))]
    rw [ih (fun i' hi' => h i' (by simp [hi']))]
    have e : (alphabet.all fun j => lookupD t (i, j) == i && !decide (i ∈ finals)) =
        isSinkState alphabet finals t i := rfl
    rw [e]
    cases hs : isSinkState alphabet finals t i
    · simp [List.find?_cons, hs]
    · simp [List.find?_cons, hs]

theorem DFA.accepts_eq_run (d : DFA) (w : List Nat) :
    d.accepts w =
      match d.run w with
      | some q => decide (q ∈ d.m_FinalStates)
      | none => false := rfl

theorem DFA.run_nil (d : DFA) : d.run [] = some d.m_InitialState := rfl

theorem DFA.run_append_singleton (d : DFA) (w : List Nat) (a : Nat) :
    d.run (w ++ [a]) = d.step (d.run w) a := by
  simp [DFA.run, List.foldl_append]

theorem DFA.step_none (d : DFA) (a : Nat) : d.step none a = none := rfl

theorem DFA.step_some (d : DFA) (q a : Nat) :
    d.step (some q) a = mapFind (q, a) d.m_Transitions := rfl

theorem DFA.run_absorbing (x : DFA) (i : Nat)
    (habs : ∀ a, mapFind (i, a) x.m_Transitions = some i ∨ mapFind (i, a) x.m_Transitions = none)
    (w : List Nat) :
    ∀ s : Option Nat, (s = some i ∨ s = none) →
      (w.foldl x.step s = some i ∨ w.foldl x.step s = none) := by
  induction w with
  | nil => intro s hs; exact hs
  | cons a w ih =>
    intro s hs
    rw [List.foldl_cons]
    apply ih
    rcases hs with rfl | rfl
    · exact habs a
    · exact Or.inr rfl

theorem accepts_remove_sink (x y : DFA) (i : Nat)
    (htrans : y.m_Transitions = x.m_Transitions.filter (fun e => e.1.1 != i && e.2 != i))
    (hinit : y.m_InitialState = x.m_InitialState) (hfin : y.m_FinalStates = x.m_FinalStates)
    (hnd : (x.m_Transitions.map Prod.fst).Nodup)
    (habs : ∀ a, mapFind (i, a) x.m_Transitions = some i ∨ mapFind (i, a) x.m_Transitions = none)
    (hnf : i ∉ x.m_FinalStates) (hne : x.m_InitialState ≠ i) (w : List Nat) :
    y.accepts w = x.accepts w := by
  have hfind : ∀ q a, mapFind (q, a) y.m_Transitions =
      match mapFind (q, a) x.m_Transitions with
      | some v => if (q != i && v != i) = true then some v else none
      | none => none := by
    intro q a
    rw [htrans, mapFind_filter_of_nodup _ _ _ hnd]
    cases mapFind (q, a) x.m_Transitions <;> rfl
  have hrun : (∃ q, q ≠ i ∧ x.run w = some q ∧ y.run w = some q) ∨
      ((x.run w = some i ∨ x.run w = none) ∧ y.run w = none) := by
    induction w using List.reverseRecOn with
    | nil => exact Or.inl ⟨x.m_InitialState, hne, rfl, by rw [DFA.run_nil, hinit]⟩
    | append_singleton w a ih =>
      rw [DFA.run_append_singleton, DFA.run_append_singleton]
      rcases ih with ⟨q, hq, hx, hy⟩ | ⟨hx, hy⟩
      · rw [hx, hy, DFA.step_some, DFA.step_some, hfind]
        cases hf : mapFind (q, a) x.m_Transitions with
        | none => exact Or.inr ⟨Or.inr rfl, rfl⟩
        | some v =>
          by_cases hv : v = i
          · subst hv
            exact Or.inr ⟨Or.inl rfl, by simp⟩
          · exact Or.inl ⟨v, hv, rfl, by simp [hq, hv]⟩
      · rw [hy, DFA.step_none]
        refine Or.inr ⟨?_, rfl⟩
        rcases hx with hx | hx
        · rw [hx, DFA.step_some]; exact habs a
        · rw [hx, DFA.step_none]; exact Or.inr rfl
  rw [DFA.accepts_eq_run, DFA.accepts_eq_run]
  rcases hrun with ⟨q, _, hx, hy⟩ | ⟨hx, hy⟩
  · rw [hx, hy, hfin]
  · rw [hy]
    rcases hx with hx | hx
    · rw [hx]; simp [hnf]
    · rw [hx]

theorem accepts_collapse (y z : DFA)
    (htrans : z.m_Transitions =
      y.m_Transitions.filter (fun e => decide (e.1.1 = y.m_InitialState)))
    (hinit : z.m_InitialState = y.m_InitialState) (hfin : z.m_FinalStates = y.m_FinalStates)
    (hrest : ∀ a, mapFind (y.m_InitialState, a) y.m_Transitions = some y.m_InitialState ∨
      mapFind (y.m_InitialState, a) y.m_Transitions = none) (w : List Nat) :
    z.accepts w = y.accepts w := by
  have hfind : ∀ a, mapFind (y.m_InitialState, a) z.m_Transitions =
      mapFind (y.m_InitialState, a) y.m_Transitions := by
    intro a
    have := mapFind_filter_key (fun k : Nat × Nat => decide (k.1 = y.m_InitialState))
      (y.m_InitialState, a) y.m_Transitions
    rw [htrans, this]
    simp
  have hrun : z.run w = y.run w ∧ (y.run w = some y.m_InitialState ∨ y.run w = none) := by
    induction w using List.reverseRecOn with
    | nil => exact ⟨by rw [DFA.run_nil, DFA.run_nil, hinit], Or.inl rfl⟩
    | append_singleton w a ih =>
      rw [DFA.run_append_singleton, DFA.run_append_singleton, ih.1]
      rcases ih.2 with h | h
      · rw [h, DFA.step_some, DFA.step_some, hfind]
        exact ⟨rfl, hrest a⟩
      · rw [h]
        exact ⟨rfl, Or.inr rfl⟩
  rw [DFA.accepts_eq_run, DFA.accepts_eq_run, hrun.1, hfin]

theorem restInaccessible_iff (initial : Nat) (alphabet : List Nat)
    (t : List ((Nat × Nat) × Nat)) :
    restInaccessible initial alphabet t = true ↔
      ∀ a ∈ alphabet, mapFind (initial, a) t = some initial ∨ mapFind (initial, a) t = none := by
  unfold restInaccessible
  rw [List.all_eq_true]
  constructor
  · intro h a ha
    have := h a ha
    cases hf : mapFind (initial, a) t with
    | none => exact Or.inr rfl
    | some v =>
      rw [hf] at this
      simp only [decide_eq_true_eq] at this
      exact Or.inl (by rw [this])
  · intro h a ha
    rcases h a ha with h1 | h1
    · rw [h1]; simp
    · rw [h1]

theorem accepts_collapse_or_not (states alphabet : List Nat) (t : List ((Nat × Nat) × Nat))
    (i0 : Nat) (finals : List Nat) (hsym : ∀ e ∈ t, e.1.2 ∈ alphabet) (w : List Nat) :
    (if restInaccessible i0 alphabet t = true then
        ({ m_States := [i0], m_Alphabet := alphabet,
           m_Transitions := t.filter (fun e => decide (e.1.1 = i0)),
           m_InitialState := i0, m_FinalStates := finals } : DFA)
      else
        { m_States := states, m_Alphabet := alphabet, m_Transitions := t,
          m_InitialState := i0, m_FinalStates := finals }).accepts w =
      ({ m_States := states, m_Alphabet := alphabet, m_Transitions := t,
         m_InitialState := i0, m_FinalStates := finals } : DFA).accepts w := by
  split_ifs with h
  · apply accepts_collapse
      ({ m_States := states, m_Alphabet := alphabet, m_Transitions := t,
         m_InitialState := i0, m_FinalStates := finals } : DFA)
      ({ m_States := [i0], m_Alphabet := alphabet,
         m_Transitions := t.filter (fun e => decide (e.1.1 = i0)),
         m_InitialState := i0, m_FinalStates := finals } : DFA) rfl rfl rfl
    intro a
    by_cases ha : a ∈ alphabet
    · exact (restInaccessible_iff i0 alphabet t).1 h a ha
    · right
      cases hf : mapFind (i0, a) t with
      | none => rfl
      | some v => exact absurd (hsym _ (mapFind_mem hf)) ha
  · rfl

theorem pruneResult_spec (alphabet : List Nat) (b : Building) (i0 : Nat)
    (hinit : b.m_InitialState = some i0) (hi0 : i0 ∈ b.m_States)
    (htotal : ∀ i ∈ b.m_States, ∀ a ∈ alphabet, (mapFind (i, a) b.m_Transitions).isSome = true)
    (hsym : ∀ e ∈ b.m_Transitions, e.1.2 ∈ alphabet)
    (hsorted : (b.m_Transitions.map Prod.fst).Sorted (fun a b => keyLt a b = true))
    (hα : alphabet = [] → ∀ i, b.m_States.head? = some i → i ∉ b.m_FinalStates)
    (hlang : ∃ w, (b.toDFA alphabet i0).accepts w = true) :
    ∃ D', pruneResult alphabet b = some D' ∧
      (∀ w, D'.accepts w = (b.toDFA alphabet i0).accepts w) ∧
      ∃ t, pruneTrace alphabet b = some t ∧ t.initialBefore = i0 ∧ t.initialAfter = i0 ∧
        t.sink ≠ some i0 ∧ D'.m_InitialState = i0 := by
  unfold pruneResult
  simp only [sinkScan_total alphabet b.m_FinalStates b.m_Transitions b.m_States htotal, hinit]
  cases hs : b.m_States.find? (isSinkState alphabet b.m_FinalStates b.m_Transitions) with
  | none =>
    simp only [hi0, if_true]
    refine ⟨_, (apply_ite some _ _ _).symm, fun w => ?_, ?_⟩
    · exact accepts_collapse_or_not b.m_States alphabet b.m_Transitions i0 b.m_FinalStates
        hsym w
    · refine ⟨{ sink := none, initialBefore := i0, initialAfter := i0,
                collapse := restInaccessible i0 alphabet b.m_Transitions }, ?_, rfl, rfl, ?_, ?_⟩
      · unfold pruneTrace
        simp only [sinkScan_total alphabet b.m_FinalStates b.m_Transitions b.m_States htotal,
          hinit, hs, hi0, if_true]
      · simp
      · split_ifs <;> rfl
  | some i =>
    have hmem : i ∈ b.m_States := List.mem_of_find?_eq_some hs
    have hsink : isSinkState alphabet b.m_FinalStates b.m_Transitions i = true :=
      List.find?_some hs
    simp only [isSinkState, List.all_eq_true, Bool.and_eq_true, beq_iff_eq, Bool.not_eq_true',
      decide_eq_false_iff_not] at hsink
    have hnf : i ∉ b.m_FinalStates := by
      by_cases he : alphabet = []
      · apply hα he
        subst he
        cases hst : b.m_States with
        | nil => rw [hst] at hs; simp at hs
        | cons x xs =>
          rw [hst] at hs
          simp only [List.find?, isSinkState, List.all_nil, Option.some.injEq] at hs
          rw [hs]; rfl
      · obtain ⟨a0, ha0⟩ := List.exists_mem_of_ne_nil alphabet he
        exact (hsink a0 ha0).2
    have habs : ∀ a, mapFind (i, a) b.m_Transitions = some i ∨
        mapFind (i, a) b.m_Transitions = none := by
      intro a
      by_cases ha : a ∈ alphabet
      · left
        obtain ⟨v, hv⟩ := Option.isSome_iff_exists.1 (htotal i hmem a ha)
        have := (hsink a ha).1
        rw [lookupD_of_mapFind hv] at this
        rw [hv, this]
      · right
        cases hf : mapFind (i, a) b.m_Transitions with
        | none => rfl
        | some v => exact absurd (hsym _ (mapFind_mem hf)) ha
    have hne : i0 ≠ i := by
      rintro rfl
      obtain ⟨w, hw⟩ := hlang
      rw [DFA.accepts_eq_run] at hw
      have := DFA.run_absorbing (b.toDFA alphabet i0) i0 habs w (some i0) (Or.inl rfl)
      have hrun : (b.toDFA alphabet i0).run w = w.foldl (b.toDFA alphabet i0).step (some i0) :=
        rfl
      rw [hrun] at hw
      rcases this with h1 | h1
      · rw [h1] at hw
        have hfin : (b.toDFA alphabet i0).m_FinalStates = b.m_FinalStates := rfl
        simp [hfin, hnf] at hw
      · rw [h1] at hw
        simp at hw
    have hi0' : i0 ∈ b.m_States.filter (fun s => s != i) := by
      simp [List.mem_filter, hi0, hne]
    simp only [hi0', if_true]
    refine ⟨_, (apply_ite some _ _ _).symm, fun w => ?_, ?_⟩
    · rw [accepts_collapse_or_not (b.m_States.filter (fun s => s != i)) alphabet
        (b.m_Transitions.filter (fun e => e.1.1 != i && e.2 != i)) i0 b.m_FinalStates
        (fun e he => hsym e (List.mem_filter.1 he).1) w]
      exact accepts_remove_sink (b.toDFA alphabet i0)
        ({ m_States := b.m_States.filter (fun s => s != i), m_Alphabet := alphabet,
           m_Transitions := b.m_Transitions.filter (fun e => e.1.1 != i && e.2 != i),
           m_InitialState := i0, m_FinalStates := b.m_FinalStates } : DFA) i rfl rfl rfl
        (keys_nodup_of_sorted hsorted) habs hnf hne w
    · refine ⟨{ sink := some i, initialBefore := i0, initialAfter := i0,
                collapse := restInaccessible i0 alphabet
                  (b.m_Transitions.filter (fun e => e.1.1 != i && e.2 != i)) },
        ?_, rfl, rfl, ?_, ?_⟩
      · unfold pruneTrace
        simp only [sinkScan_total alphabet b.m_FinalStates b.m_Transitions b.m_States htotal,
          hinit, hs, hi0', if_true]
      · simp only [ne_eq, Option.some.injEq]
        exact fun hc => hne hc.symm
      · split_ifs <;> rfl

theorem pairwise_of_index {α : Type} {R : α → α → Prop} {l : List α}
    (h : ∀ (i j : Nat) (a b : α), l[i]? = some a → l[j]? = some b → i < j → R a b) :
    l.Pairwise R := by
  rw [List.pairwise_iff_getElem]
  intro i j hi hj hij
  exact h i j _ _ (List.getElem?_eq_some_iff.2 ⟨hi, rfl⟩) (List.getElem?_eq_some_iff.2 ⟨hj, rfl⟩)
    hij

theorem headD_mem {B : List Nat} (h : B ≠ []) : B.headD 0 ∈ B := by
  cases B with
  | nil => exact absurd rfl h
  | cons x xs => simp

theorem PartInv.disjoint {d : DFA} {n : Nat} {st : RefineState} (h : PartInv d n st) :
    st.currSet.Pairwise (fun B B' => ∀ q, q ∈ B → q ∉ B') := by
  apply pairwise_of_index
  intro i j a b hi hj hij q hqa hqb
  have e1 := h.ids i a hi q hqa
  have e2 := h.ids j b hj q hqb
  omega

/-- Language of the quotient automaton built by `buildBlocks` from a stable
partition. -/
theorem quotient_accepts {d : DFA} (hd : d.Closed) (ht : d.Total) {n : Nat} {st : RefineState}
    (h : PartInv d n st) (hstab : ∀ B ∈ st.currSet, StableBlock d st.stateSetID B)
    (nsm : List (Nat × Nat)) (sm : List (List Nat × Nat)) (b' : Building) (i0 : Nat)
    (hsm : ∀ j B, st.currSet[j]? = some B → lookupD sm B = j)
    (hnsm : ∀ j B, st.currSet[j]? = some B → ∀ q ∈ B, lookupD nsm q = j)
    (hfin : ∀ i, i ∈ b'.m_FinalStates ↔
      ∃ B ∈ st.currSet, lookupD sm B = i ∧ B.headD 0 ∈ d.m_FinalStates)
    (hi0 : i0 = lookupD nsm d.m_InitialState)
    (htr : ∀ B ∈ st.currSet, ∀ a ∈ d.m_Alphabet,
      mapFind (lookupD sm B, a) b'.m_Transitions =
        some (lookupD nsm (d.delta (B.headD 0) a)))
    (htr' : ∀ i a, a ∉ d.m_Alphabet → mapFind (i, a) b'.m_Transitions = none)
    (w : List Nat) :
    (b'.toDFA d.m_Alphabet i0).accepts w = d.accepts w := by
  -- block of a state
  have block_of : ∀ q ∈ d.m_States, ∃ (j : Nat) (B : List Nat),
      st.currSet[j]? = some B ∧ q ∈ B := by
    intro q hq
    obtain ⟨B, hB, hqB⟩ := (h.cover q).1 hq
    obtain ⟨j, hj⟩ := List.mem_iff_getElem?.1 hB
    exact ⟨j, B, hj, hqB⟩
  have ids_eq : ∀ q ∈ d.m_States, lookupD st.stateSetID q = lookupD nsm q := by
    intro q hq
    obtain ⟨j, B, hj, hqB⟩ := block_of q hq
    rw [h.ids j B hj q hqB, hnsm j B hj q hqB]
  have delta_mem : ∀ q ∈ d.m_States, ∀ a ∈ d.m_Alphabet, d.delta q a ∈ d.m_States := by
    intro q hq a ha
    exact hd.trans_tgt _ (mapFind_mem (ht.find hq ha))
  have hrun : (∃ q ∈ d.m_States, d.run w = some q ∧
        (b'.toDFA d.m_Alphabet i0).run w = some (lookupD nsm q)) ∨
      (d.run w = none ∧ (b'.toDFA d.m_Alphabet i0).run w = none) := by
    induction w using List.reverseRecOn with
    | nil =>
      left
      exact ⟨d.m_InitialState, hd.initial_mem, rfl, by rw [DFA.run_nil]; simp [Building.toDFA, hi0]⟩
    | append_singleton w a ih =>
      rw [DFA.run_append_singleton, DFA.run_append_singleton]
      rcases ih with ⟨q, hq, h1, h2⟩ | ⟨h1, h2⟩
      · rw [h1, h2, DFA.step_some, DFA.step_some]
        have e : (b'.toDFA d.m_Alphabet i0).m_Transitions = b'.m_Transitions := rfl
        rw [e]
        by_cases ha : a ∈ d.m_Alphabet
        · left
          obtain ⟨j, B, hj, hqB⟩ := block_of q hq
          have hBmem : B ∈ st.currSet := List.mem_iff_getElem?.2 ⟨j, hj⟩
          have hhead : B.headD 0 ∈ B := headD_mem (h.nonempty B hBmem)
          have hheadS : B.headD 0 ∈ d.m_States := h.mem_states hj hhead
          refine ⟨d.delta q a, delta_mem q hq a ha, ht.find hq ha, ?_⟩
          rw [hnsm j B hj q hqB, ← hsm j B hj, htr B hBmem a ha]
          have hag := hstab B hBmem q hqB
          simp only [agreeOn, List.all_eq_true, beq_iff_eq] at hag
          have := hag a ha
          rw [ids_eq _ (delta_mem q hq a ha), ids_eq _ (delta_mem _ hheadS a ha)] at this
          rw [this]
        · right
          refine ⟨?_, htr' _ a ha⟩
          cases hf : mapFind (q, a) d.m_Transitions with
          | none => rfl
          | some v => exact absurd (hd.trans_sym _ (mapFind_mem hf)) ha
      · right
        rw [h1, h2]
        exact ⟨rfl, rfl⟩
  rw [DFA.accepts_eq_run, DFA.accepts_eq_run]
  rcases hrun with ⟨q, hq, h1, h2⟩ | ⟨h1, h2⟩
  · rw [h1, h2]
    have e : (b'.toDFA d.m_Alphabet i0).m_FinalStates = b'.m_FinalStates := rfl
    simp only [e]
    obtain ⟨j, B, hj, hqB⟩ := block_of q hq
    have hBmem : B ∈ st.currSet := List.mem_iff_getElem?.2 ⟨j, hj⟩
    have hhead : B.headD 0 ∈ B := headD_mem (h.nonempty B hBmem)
    have hiff : lookupD nsm q ∈ b'.m_FinalStates ↔ q ∈ d.m_FinalStates := by
      rw [hfin]
      constructor
      · rintro ⟨B', hB', h3, h4⟩
        obtain ⟨j', hj'⟩ := List.mem_iff_getElem?.1 hB'
        have e1 := hsm j' B' hj'
        have e2 := hnsm j B hj q hqB
        have hjj : j' = j := by omega
        subst hjj
        rw [hj] at hj'
        have hBB : B = B' := Option.some.inj hj'
        subst hBB
        exact (h.final_resp B hBmem _ hhead q hqB).1 h4
      · intro hqf
        exact ⟨B, hBmem, by rw [hsm j B hj, hnsm j B hj q hqB],
          (h.final_resp B hBmem q hqB _ hhead).1 hqf⟩
    by_cases hqf : q ∈ d.m_FinalStates
    · simp [hqf, hiff.2 hqf]
    · have : lookupD nsm q ∉ b'.m_FinalStates := fun hc => hqf (hiff.1 hc)
      simp [hqf, this]
  · rw [h1, h2]

theorem finals_ne_nil_of_accepts {d : DFA} {w : List Nat} (h : d.accepts w = true) :
    d.m_FinalStates ≠ [] := by
  rw [DFA.accepts_eq_run] at h
  cases hr : d.run w with
  | none => rw [hr] at h; simp at h
  | some q =>
    rw [hr] at h
    simp only [decide_eq_true_eq] at h
    exact List.ne_nil_of_mem h

/-- The states of the automaton built by `buildBlocks` stay in ascending order. -/
theorem buildBlocks_states_sorted (d : DFA) (nsm : List (Nat × Nat))
    (sm : List (List Nat × Nat)) :
    ∀ (blocks : List (List Nat)) (b b' : Building),
      buildBlocks d nsm sm blocks b = some b' → b.m_States.Sorted (· < ·) →
      b'.m_States.Sorted (· < ·) := by
  intro blocks
  induction blocks with
  | nil =>
    intro b b' h hs
    simp only [buildBlocks, Option.some.injEq] at h
    rw [← h]; exact hs
  | cons B rest ih =>
    intro b b' h hs
    cases B with
    | nil => simp [buildBlocks] at h
    | cons first tl =>
      simp only [buildBlocks] at h
      exact ih _ _ h (setInsert_sorted hs)

/-- On a total DFA with closed references, a non-accepting state and a non-empty
language, `minimize` returns a DFA of the same language; the sink it removes is not
the initial state, which the repair of the initial state leaves as it is. -/
theorem minimize_spec {d : DFA} (hd : d.Closed) (ht : d.Total)
    (hnf : ∃ q ∈ d.m_States, q ∉ d.m_FinalStates) (hacc : ∃ w, d.accepts w = true) :
    ∃ D', minimize d = some D' ∧ (∀ w, D'.accepts w = d.accepts w) ∧
      ∃ t, minimizeTrace d = some t ∧ t.sink ≠ some t.initialBefore ∧
        t.initialAfter = t.initialBefore ∧ D'.m_InitialState = t.initialBefore := by
  obtain ⟨w0, hw0⟩ := hacc
  have hf : d.m_FinalStates ≠ [] := finals_ne_nil_of_accepts hw0
  have hinit := partInv_init hd hnf hf
  obtain ⟨st, hst, hinv, hstab⟩ := refineLoop_spec ht
    ((d.m_States.filter (fun s => !d.m_FinalStates.contains s)).length +
      d.m_FinalStates.length + 2) _ hinit (by simp only [List.length_cons, List.length_nil]; omega)
  obtain ⟨n1, n2, n3⟩ := numberBlocks_spec st.currSet 0 [] [] hinv.disjoint hinv.nonempty
  have hsm : ∀ j B, st.currSet[j]? = some B →
      lookupD (numberBlocks 0 st.currSet [] []).2 B = j := by
    intro j B hj; rw [(n1 j B hj).1]; omega
  have hnsm : ∀ j B, st.currSet[j]? = some B → ∀ q ∈ B,
      lookupD (numberBlocks 0 st.currSet [] []).1 q = j := by
    intro j B hj q hq; rw [(n1 j B hj).2 q hq]; omega
  have hpair : st.currSet.Pairwise (fun B B' =>
      lookupD (numberBlocks 0 st.currSet [] []).2 B ≠
        lookupD (numberBlocks 0 st.currSet [] []).2 B') := by
    apply pairwise_of_index
    intro i j a b hi hj hij
    rw [hsm i a hi, hsm j b hj]
    omega
  obtain ⟨b', hb', s1, s2, s3, s4, s5, s6, s7⟩ := buildBlocks_spec d ht
    (numberBlocks 0 st.currSet [] []).1 (numberBlocks 0 st.currSet [] []).2 st.currSet
    { m_States := [], m_Transitions := [], m_InitialState := none, m_FinalStates := [] }
    hinv.nonempty (fun B hB q hq => (hinv.cover q).2 ⟨B, hB, hq⟩) hpair
  -- the block of the initial state
  obtain ⟨B0, hB0, hqB0⟩ := (hinv.cover d.m_InitialState).1 hd.initial_mem
  obtain ⟨j0, hj0⟩ := List.mem_iff_getElem?.1 hB0
  have hb'init : b'.m_InitialState =
      some (lookupD (numberBlocks 0 st.currSet [] []).1 d.m_InitialState) := by
    rcases s3 with ⟨B, hB, h1, h2⟩ | ⟨h1, _⟩
    · obtain ⟨j, hj⟩ := List.mem_iff_getElem?.1 hB
      rw [h2, hsm j B hj, hnsm j B hj _ h1]
    · exact absurd hqB0 (h1 B0 hB0)
  have hquot : ∀ w, (b'.toDFA d.m_Alphabet
      (lookupD (numberBlocks 0 st.currSet [] []).1 d.m_InitialState)).accepts w =
        d.accepts w := by
    intro w
    apply quotient_accepts hd ht hinv hstab _ _ b' _ hsm hnsm _ rfl s4
    · intro i a ha
      rw [s5 i a (Or.inr ha)]
      rfl
    · intro i
      rw [s2]
      simp
  obtain ⟨D', hD', hlang, t, ht1, ht2, ht3, ht4, ht5⟩ := pruneResult_spec d.m_Alphabet b'
    (lookupD (numberBlocks 0 st.currSet [] []).1 d.m_InitialState) hb'init
    (by
      rw [s1]
      exact Or.inr ⟨B0, hB0, by rw [hsm j0 B0 hj0, hnsm j0 B0 hj0 _ hqB0]⟩)
    (by
      intro i hi a ha
      rw [s1] at hi
      rcases hi with hi | ⟨B, hB, rfl⟩
      · simp at hi
      · rw [s4 B hB a ha]; rfl)
    (by
      intro e he
      rcases s7 e he with h1 | h1
      · simp at h1
      · exact h1)
    (s6 (by simp))
    (by
      intro _ i hi
      have hsorted := buildBlocks_states_sorted d _ _ _ _ _ hb' List.sorted_nil
      obtain ⟨Bz, hBz⟩ : ∃ Bz, st.currSet[0]? = some Bz := by
        have := hinv.two
        exact ⟨st.currSet[0], List.getElem?_eq_getElem (by omega)⟩
      have hBzm : Bz ∈ st.currSet := List.mem_iff_getElem?.2 ⟨0, hBz⟩
      have h0 : 0 ∈ b'.m_States := by
        rw [s1]
        exact Or.inr ⟨Bz, hBzm, hsm 0 Bz hBz⟩
      have hi0 : i = 0 := by
        cases hst : b'.m_States with
        | nil => rw [hst] at h0; simp at h0
        | cons x xs =>
          rw [hst] at hi h0 hsorted
          simp only [List.head?_cons, Option.some.injEq] at hi
          subst hi
          rcases List.mem_cons.1 h0 with h | h
          · exact h.symm
          · have := List.rel_of_sorted_cons hsorted 0 h
            omega
      subst hi0
      rw [s2]
      rintro (h | ⟨B, hB, hid, hfin⟩)
      · simp at h
      · obtain ⟨j, hj⟩ := List.mem_iff_getElem?.1 hB
        have hj0 : j = 0 := by rw [← hsm j B hj]; exact hid
        subst hj0
        exact hinv.block_zero B hj _ (headD_mem (hinv.nonempty B hB)) hfin)
    ⟨w0, by rw [hquot]; exact hw0⟩
  have hst2 : refineLoop (refineSize d + 3) (refineSize d + 2) (refineStart d) = some st := hst
  refine ⟨D', ?_, fun w => by rw [hlang, hquot], t, ?_, by rw [ht2]; exact ht4,
    by rw [ht3, ht2], by rw [ht5, ht2]⟩
  · unfold minimize
    simp only [hst, hinv.orig, hb', hD']
  · unfold minimizeTrace
    simp only [hst2, hinv.orig, hb', ht1]

/-! ## Facts on `unifyNFA` -/

theorem mem_stepSet_edge {n : NFA} {a : Nat} {S : List Nat} {x : Nat} :
    x ∈ n.stepSet S a ↔ ∃ q ∈ S, edgeIn n.m_Transitions q a x := mem_stepSet

theorem edgeIn_insertTarget (k : Nat × Nat) (y : Nat) (m : List ((Nat × Nat) × List Nat))
    (q s x : Nat) :
    edgeIn (insertTarget k y m) q s x ↔ edgeIn m q s x ∨ ((q, s) = k ∧ x = y) := by
  unfold insertTarget edgeIn
  cases hk : mapFind k m with
  | none =>
    simp only [mapFind_mapAssign]
    by_cases h : k = (q, s)
    · subst h
      simp [hk]
    · have h' : (q, s) ≠ k := fun hc => h hc.symm
      simp [h, h']
  | some T =>
    simp only [mapFind_mapAssign]
    by_cases h : k = (q, s)
    · subst h
      simp only [if_true, Option.some.injEq, exists_eq_left', mem_setInsert, hk, true_and]
      tauto
    · have h' : (q, s) ≠ k := fun hc => h hc.symm
      simp [h, h']

theorem edgeIn_foldl_insertTarget (k : Nat × Nat) (f : Nat → Nat) (T : List Nat)
    (m : List ((Nat × Nat) × List Nat)) (q s x : Nat) :
    edgeIn (T.foldl (fun acc e => insertTarget k (f e) acc) m) q s x ↔
      edgeIn m q s x ∨ ((q, s) = k ∧ ∃ e ∈ T, x = f e) := by
  induction T generalizing m with
  | nil => simp
  | cons e T ih =>
    rw [List.foldl_cons, ih, edgeIn_insertTarget]
    simp only [List.mem_cons, exists_eq_or_imp]
    tauto

theorem edgeIn_importTransitions (b : NFA) (n state : Nat)
    (m : List ((Nat × Nat) × List Nat)) (sym q s x : Nat) :
    edgeIn (importTransitions b n state m sym) q s x ↔
      edgeIn m q s x ∨
        (q = offsetState n state ∧ s = sym ∧
          ∃ e, edgeIn b.m_Transitions state sym e ∧ x = offsetState n e) := by
  unfold importTransitions
  cases hf : mapFind (state, sym) b.m_Transitions with
  | none =>
    simp only [edgeIn, hf]
    simp
  | some T =>
    simp only
    rw [edgeIn_foldl_insertTarget (offsetState n state, sym) (offsetState n) T m q s x]
    simp only [edgeIn, hf, Option.some.injEq, exists_eq_left', Prod.mk.injEq]
    constructor
    · rintro (h | ⟨⟨h1, h2⟩, e, he, hx⟩)
      · exact Or.inl h
      · exact Or.inr ⟨h1, h2, e, he, hx⟩
    · rintro (h | ⟨h1, h2, e, he, hx⟩)
      · exact Or.inl h
      · exact Or.inr ⟨⟨h1, h2⟩, e, he, hx⟩

theorem edgeIn_foldl_importTransitions (b : NFA) (n state : Nat) (syms : List Nat)
    (m : List ((Nat × Nat) × List Nat)) (q s x : Nat) :
    edgeIn (syms.foldl (importTransitions b n state) m) q s x ↔
      edgeIn m q s x ∨
        (q = offsetState n state ∧ s ∈ syms ∧
          ∃ e, edgeIn b.m_Transitions state s e ∧ x = offsetState n e) := by
  induction syms generalizing m with
  | nil => simp
  | cons sym syms ih =>
    rw [List.foldl_cons, ih, edgeIn_importTransitions]
    simp only [List.mem_cons]
    constructor
    · rintro ((h | ⟨h1, h2, h3⟩) | ⟨h1, h2, h3⟩)
      · exact Or.inl h
      · exact Or.inr ⟨h1, Or.inl h2, by rw [h2]; exact h3⟩
      · exact Or.inr ⟨h1, Or.inr h2, h3⟩
    · rintro (h | ⟨h1, h2 | h2, h3⟩)
      · exact Or.inl (Or.inl h)
      · exact Or.inl (Or.inr ⟨h1, h2, by rw [← h2]; exact h3⟩)
      · exact Or.inr ⟨h1, h2, h3⟩

/-- The state set, the accepting set and the edges after the import loop of
`unifyNFA`. -/
theorem foldl_importState (a b : NFA) (states : List Nat) (r : NFA) :
    (∀ x, x ∈ (states.foldl (importState a b) r).m_States ↔
      x ∈ r.m_States ∨ ∃ q ∈ states, x = offsetState a.m_States.length q) ∧
    (∀ x, x ∈ (states.foldl (importState a b) r).m_FinalStates ↔
      x ∈ r.m_FinalStates ∨
        ∃ q ∈ states, q ∈ b.m_FinalStates ∧ x = offsetState a.m_States.length q) ∧
    (∀ q s x, edgeIn (states.foldl (importState a b) r).m_Transitions q s x ↔
      edgeIn r.m_Transitions q s x ∨
        ∃ q' ∈ states, q = offsetState a.m_States.length q' ∧ s ∈ b.m_Alphabet ∧
          ∃ e, edgeIn b.m_Transitions q' s e ∧ x = offsetState a.m_States.length e) ∧
    (states.foldl (importState a b) r).m_Alphabet = r.m_Alphabet ∧
    (r.m_States.Sorted (· < ·) →
      (states.foldl (importState a b) r).m_States.Sorted (· < ·)) := by
  induction states generalizing r with
  | nil => simp
  | cons st states ih =>
    rw [List.foldl_cons]
    obtain ⟨h1, h2, h3, h4, h5⟩ := ih (importState a b r st)
    refine ⟨fun x => ?_, fun x => ?_, fun q s x => ?_, ?_, fun hs => ?_⟩
    · rw [h1]
      simp only [importState, mem_setInsert, List.mem_cons, exists_eq_or_imp]
      tauto
    · rw [h2]
      simp only [importState, List.mem_cons, exists_eq_or_imp]
      by_cases hf : st ∈ b.m_FinalStates
      · simp only [hf, if_true, mem_setInsert, true_and]
        tauto
      · simp only [hf, if_false, false_and, false_or]
    · rw [h3]
      simp only [importState, edgeIn_foldl_importTransitions, List.mem_cons, exists_eq_or_imp]
      constructor
      · rintro ((h | h) | h)
        · exact Or.inl h
        · exact Or.inr (Or.inl h)
        · exact Or.inr (Or.inr h)
      · rintro (h | h | h)
        · exact Or.inl (Or.inl h)
        · exact Or.inl (Or.inr h)
        · exact Or.inr h
    · rw [h4]; rfl
    · exact h5 (setInsert_sorted hs)

theorem edgeIn_mapAssign (k : Nat × Nat) (T : List Nat) (m : List ((Nat × Nat) × List Nat))
    (hfresh : ∀ x, ¬ edgeIn m k.1 k.2 x) (q s x : Nat) :
    edgeIn (mapAssign keyLt k T m) q s x ↔ edgeIn m q s x ∨ ((q, s) = k ∧ x ∈ T) := by
  unfold edgeIn
  simp only [mapFind_mapAssign]
  by_cases h : k = (q, s)
  · subst h
    simp only [if_true, Option.some.injEq, exists_eq_left', true_and]
    constructor
    · exact fun h => Or.inr h
    · rintro (⟨T', h1, h2⟩ | h)
      · exact absurd ⟨T', h1, h2⟩ (hfresh x)
      · exact h
  · have h' : (q, s) ≠ k := fun hc => h hc.symm
    simp [h, h']

theorem edgeIn_startTransitions (a b : NFA) (init : Nat) (m : List ((Nat × Nat) × List Nat))
    (sym : Nat) (hfresh : ∀ x, ¬ edgeIn m init sym x) (q s x : Nat) :
    edgeIn (startTransitions a b init m sym) q s x ↔
      edgeIn m q s x ∨
        (q = init ∧ s = sym ∧
          (edgeIn a.m_Transitions a.m_InitialState sym x ∨
            ∃ e, edgeIn b.m_Transitions b.m_InitialState sym e ∧
              x = offsetState a.m_States.length e)) := by
  have second : ∀ m1 : List ((Nat × Nat) × List Nat),
      (edgeIn m1 q s x ↔
        edgeIn m q s x ∨ (q = init ∧ s = sym ∧ edgeIn a.m_Transitions a.m_InitialState sym x)) →
      (edgeIn (match mapFind (b.m_InitialState, sym) b.m_Transitions with
        | some T => T.foldl (fun acc state => insertTarget (init, sym)
            (offsetState a.m_States.length state) acc) m1
        | none => m1) q s x ↔
      edgeIn m q s x ∨
        (q = init ∧ s = sym ∧
          (edgeIn a.m_Transitions a.m_InitialState sym x ∨
            ∃ e, edgeIn b.m_Transitions b.m_InitialState sym e ∧
              x = offsetState a.m_States.length e))) := by
    intro m1 step1
    cases hg : mapFind (b.m_InitialState, sym) b.m_Transitions with
    | none =>
      simp only
      rw [step1]
      have he : ∀ e, ¬ edgeIn b.m_Transitions b.m_InitialState sym e := by
        intro e; simp [edgeIn, hg]
      simp only [he, false_and, exists_false, or_false]
    | some T =>
      simp only
      rw [edgeIn_foldl_insertTarget (init, sym) (offsetState a.m_States.length) T, step1]
      have he : ∀ e, edgeIn b.m_Transitions b.m_InitialState sym e ↔ e ∈ T := by
        intro e; simp [edgeIn, hg]
      simp only [Prod.mk.injEq, he]
      constructor
      · rintro ((h | ⟨h1, h2, h3⟩) | ⟨⟨h1, h2⟩, e, he, hx⟩)
        · exact Or.inl h
        · exact Or.inr ⟨h1, h2, Or.inl h3⟩
        · exact Or.inr ⟨h1, h2, Or.inr ⟨e, he, hx⟩⟩
      · rintro (h | ⟨h1, h2, h3 | ⟨e, he, hx⟩⟩)
        · exact Or.inl (Or.inl h)
        · exact Or.inl (Or.inr ⟨h1, h2, h3⟩)
        · exact Or.inr ⟨⟨h1, h2⟩, e, he, hx⟩
  unfold startTransitions
  cases hf : mapFind (a.m_InitialState, sym) a.m_Transitions with
  | none =>
    simp only
    apply second
    have he : ¬ edgeIn a.m_Transitions a.m_InitialState sym x := by simp [edgeIn, hf]
    simp only [he, and_false, or_false]
  | some T =>
    simp only
    apply second
    rw [edgeIn_mapAssign (init, sym) T m hfresh]
    have he : edgeIn a.m_Transitions a.m_InitialState sym x ↔ x ∈ T := by
      simp [edgeIn, hf]
    rw [he]
    simp only [Prod.mk.injEq, and_assoc]

theorem edgeIn_foldl_startTransitions (a b : NFA) (init : Nat) (syms : List Nat)
    (hnd : syms.Nodup) (m : List ((Nat × Nat) × List Nat))
    (hfresh : ∀ s ∈ syms, ∀ x, ¬ edgeIn m init s x) (q s x : Nat) :
    edgeIn (syms.foldl (startTransitions a b init) m) q s x ↔
      edgeIn m q s x ∨
        (q = init ∧ s ∈ syms ∧
          (edgeIn a.m_Transitions a.m_InitialState s x ∨
            ∃ e, edgeIn b.m_Transitions b.m_InitialState s e ∧
              x = offsetState a.m_States.length e)) := by
  induction syms generalizing m with
  | nil => simp
  | cons sym syms ih =>
    have hnd' := List.nodup_cons.1 hnd
    have hstep := edgeIn_startTransitions a b init m sym (hfresh sym (by simp))
    rw [List.foldl_cons, ih hnd'.2, hstep]
    · simp only [List.mem_cons]
      constructor
      · rintro ((h | ⟨h1, h2, h3⟩) | ⟨h1, h2, h3⟩)
        · exact Or.inl h
        · exact Or.inr ⟨h1, Or.inl h2, by rw [h2]; exact h3⟩
        · exact Or.inr ⟨h1, Or.inr h2, h3⟩
      · rintro (h | ⟨h1, h2 | h2, h3⟩)
        · exact Or.inl (Or.inl h)
        · exact Or.inl (Or.inr ⟨h1, h2, by rw [← h2]; exact h3⟩)
        · exact Or.inr ⟨h1, h2, h3⟩
    · intro s hs x hc
      rw [edgeIn_startTransitions a b init m sym (hfresh sym (by simp))] at hc
      rcases hc with hc | ⟨_, h2, _⟩
      · exact hfresh s (by simp [hs]) x hc
      · exact hnd'.1 (h2 ▸ hs)

theorem length_setInsert_of_not_mem {x : Nat} {s : List Nat} (h : x ∉ s) :
    (setInsert x s).length = s.length + 1 := by
  induction s with
  | nil => rfl
  | cons y ys ih =>
    unfold setInsert
    have hxy : x ≠ y := fun hc => h (by simp [hc])
    have hys : x ∉ ys := fun hc => h (by simp [hc])
    split_ifs with h1
    · simp
    · simp [ih hys]

theorem length_foldl_importState (a b : NFA) (states : List Nat) (hnd : states.Nodup)
    (r : NFA)
    (hinj : ∀ q ∈ states, ∀ q' ∈ states,
      offsetState a.m_States.length q = offsetState a.m_States.length q' → q = q')
    (hfresh : ∀ q ∈ states, offsetState a.m_States.length q ∉ r.m_States) :
    (states.foldl (importState a b) r).m_States.length = r.m_States.length + states.length := by
  induction states generalizing r with
  | nil => simp
  | cons st states ih =>
    have hnd' := List.nodup_cons.1 hnd
    rw [List.foldl_cons, ih hnd'.2 (importState a b r st)
      (fun q hq q' hq' => hinj q (by simp [hq]) q' (by simp [hq']))]
    · have : (importState a b r st).m_States.length = r.m_States.length + 1 :=
        length_setInsert_of_not_mem (hfresh st (by simp))
      rw [this]
      simp only [List.length_cons]
      omega
    · intro q hq hc
      have hc' : offsetState a.m_States.length q ∈
          setInsert (offsetState a.m_States.length st) r.m_States := hc
      rcases mem_setInsert.1 hc' with h1 | h1
      · have := hinj q (by simp [hq]) st (by simp) h1
        exact hnd'.1 (this ▸ hq)
      · exact hfresh q (by simp [hq]) h1

theorem NFA.WF.edge {n : NFA} (hn : n.WF) {q s x : Nat} (h : edgeIn n.m_Transitions q s x) :
    q ∈ n.m_States ∧ s ∈ n.m_Alphabet ∧ x ∈ n.m_States := by
  obtain ⟨T, hT, hx⟩ := h
  have hm := mapFind_mem hT
  exact ⟨hn.trans_src _ hm, hn.trans_sym _ hm, hn.trans_tgt _ hm x hx⟩

theorem offsetState_eq {n q : Nat} (h : q + n < 2 ^ 32) : offsetState n q = q + n :=
  Nat.mod_eq_of_lt h

/-- Shape of `unifyNFA a b` when both operands name their states `0 .. |Q| - 1`:
the states of `b` are shifted by `|Q_a|`, the new initial state is
`|Q_a| + |Q_b|`, and the transitions are those of `a`, the shifted ones of `b`
and the copies of the transitions of both initial states. -/
theorem unifyNFA_spec {a b : NFA} (ha : a.WF) (hb : b.WF) (hca : a.Contiguous)
    (hcb : b.Contiguous) (hbound : a.m_States.length + b.m_States.length < 2 ^ 32) :
    (unifyNFA a b).m_InitialState = a.m_States.length + b.m_States.length ∧
    (∀ x, x ∈ (unifyNFA a b).m_States ↔
      x ∈ a.m_States ∨ (∃ q ∈ b.m_States, x = q + a.m_States.length) ∨
        x = a.m_States.length + b.m_States.length) ∧
    (∀ x, x ∈ (unifyNFA a b).m_FinalStates ↔
      x ∈ a.m_FinalStates ∨ (∃ q ∈ b.m_FinalStates, x = q + a.m_States.length) ∨
        (x = a.m_States.length + b.m_States.length ∧
          (a.m_InitialState ∈ a.m_FinalStates ∨ b.m_InitialState ∈ b.m_FinalStates))) ∧
    (∀ q s x, edgeIn (unifyNFA a b).m_Transitions q s x ↔
      edgeIn a.m_Transitions q s x ∨
        (∃ q' x', edgeIn b.m_Transitions q' s x' ∧ q = q' + a.m_States.length ∧
          x = x' + a.m_States.length) ∨
        (q = a.m_States.length + b.m_States.length ∧
          (edgeIn a.m_Transitions a.m_InitialState s x ∨
            ∃ x', edgeIn b.m_Transitions b.m_InitialState s x' ∧
              x = x' + a.m_States.length))) ∧
    (∀ s, s ∈ (unifyNFA a b).m_Alphabet ↔ s ∈ a.m_Alphabet ∨ s ∈ b.m_Alphabet) := by
  have hoff : ∀ q ∈ b.m_States, offsetState a.m_States.length q = q + a.m_States.length := by
    intro q hq
    have := hcb q hq
    exact offsetState_eq (by omega)
  obtain ⟨h1, h2, h3, h4, -⟩ := foldl_importState a b b.m_States
    { a with m_Alphabet := setInsertAll b.m_Alphabet a.m_Alphabet }
  have hlen := length_foldl_importState a b b.m_States hb.states_sorted.nodup
    { a with m_Alphabet := setInsertAll b.m_Alphabet a.m_Alphabet }
    (by
      intro q hq q' hq' he
      rw [hoff q hq, hoff q' hq'] at he
      omega)
    (by
      intro q hq hc
      rw [hoff q hq] at hc
      have := hca _ hc
      omega)
  simp only at h1 h2 h3 h4 hlen
  have hinit : (unifyNFA a b).m_InitialState = a.m_States.length + b.m_States.length := by
    show (b.m_States.foldl (importState a b) _).m_States.length % 2 ^ 32 = _
    rw [hlen]
    exact Nat.mod_eq_of_lt hbound
  have hinit' : (b.m_States.foldl (importState a b)
      { a with m_Alphabet := setInsertAll b.m_Alphabet a.m_Alphabet }).m_States.length % 2 ^ 32 =
      a.m_States.length + b.m_States.length := hinit
  have halpha : ∀ s, s ∈ (unifyNFA a b).m_Alphabet ↔ s ∈ a.m_Alphabet ∨ s ∈ b.m_Alphabet := by
    intro s
    show s ∈ (b.m_States.foldl (importState a b) _).m_Alphabet ↔ _
    rw [h4]
    simp only [mem_setInsertAll]
    tauto
  refine ⟨hinit, fun x => ?_, fun x => ?_, fun q s x => ?_, halpha⟩
  · show x ∈ setInsert _ (b.m_States.foldl (importState a b) _).m_States ↔ _
    rw [mem_setInsert, h1, hinit']
    constructor
    · rintro (h | h | ⟨q, hq, h⟩)
      · exact Or.inr (Or.inr h)
      · exact Or.inl h
      · exact Or.inr (Or.inl ⟨q, hq, by rw [h, hoff q hq]⟩)
    · rintro (h | ⟨q, hq, h⟩ | h)
      · exact Or.inr (Or.inl h)
      · exact Or.inr (Or.inr ⟨q, hq, by rw [h, hoff q hq]⟩)
      · exact Or.inl h
  · have hfin : ∀ x, x ∈ (b.m_States.foldl (importState a b)
        { a with m_Alphabet := setInsertAll b.m_Alphabet a.m_Alphabet }).m_FinalStates ↔
        x ∈ a.m_FinalStates ∨ ∃ q ∈ b.m_FinalStates, x = q + a.m_States.length := by
      intro x
      rw [h2]
      constructor
      · rintro (h | ⟨q, hq, hf, h⟩)
        · exact Or.inl h
        · exact Or.inr ⟨q, hf, by rw [h, hoff q hq]⟩
      · rintro (h | ⟨q, hf, h⟩)
        · exact Or.inl h
        · exact Or.inr ⟨q, hb.finals_sub q hf, hf, by rw [h, hoff q (hb.finals_sub q hf)]⟩
    show x ∈ (if a.m_InitialState ∈ a.m_FinalStates ∨ b.m_InitialState ∈ b.m_FinalStates then
      setInsert _ (b.m_States.foldl (importState a b) _).m_FinalStates
      else (b.m_States.foldl (importState a b) _).m_FinalStates) ↔ _
    by_cases hc : a.m_InitialState ∈ a.m_FinalStates ∨ b.m_InitialState ∈ b.m_FinalStates
    · rw [if_pos hc, mem_setInsert, hfin, hinit']
      constructor
      · rintro (h | h | h)
        · exact Or.inr (Or.inr ⟨h, hc⟩)
        · exact Or.inl h
        · exact Or.inr (Or.inl h)
      · rintro (h | h | ⟨h, -⟩)
        · exact Or.inr (Or.inl h)
        · exact Or.inr (Or.inr h)
        · exact Or.inl h
    · rw [if_neg hc, hfin]
      simp only [hc, and_false, or_false]
  · have hedge : ∀ q s x, edgeIn (b.m_States.foldl (importState a b)
        { a with m_Alphabet := setInsertAll b.m_Alphabet a.m_Alphabet }).m_Transitions q s x ↔
        edgeIn a.m_Transitions q s x ∨
          ∃ q' x', edgeIn b.m_Transitions q' s x' ∧ q = q' + a.m_States.length ∧
            x = x' + a.m_States.length := by
      intro q s x
      rw [h3]
      constructor
      · rintro (h | ⟨q', hq', hq, -, e, he, hx⟩)
        · exact Or.inl h
        · exact Or.inr ⟨q', e, he, by rw [hq, hoff q' hq'],
            by rw [hx, hoff e (hb.edge he).2.2]⟩
      · rintro (h | ⟨q', e, he, hq, hx⟩)
        · exact Or.inl h
        · obtain ⟨e1, e2, e3⟩ := hb.edge he
          exact Or.inr ⟨q', e1, by rw [hq, hoff q' e1], e2, e, he, by rw [hx, hoff e e3]⟩
    have hsorted : (b.m_States.foldl (importState a b)
        { a with m_Alphabet := setInsertAll b.m_Alphabet a.m_Alphabet }).m_Alphabet.Nodup := by
      rw [h4]
      exact (setInsertAll_sorted ha.alphabet_sorted).nodup
    show edgeIn ((b.m_States.foldl (importState a b) _).m_Alphabet.foldl
      (startTransitions a b _) (b.m_States.foldl (importState a b) _).m_Transitions) q s x ↔ _
    rw [edgeIn_foldl_startTransitions a b _ _ hsorted, hedge, hinit']
    · have hs : ∀ s, s ∈ (b.m_States.foldl (importState a b)
          { a with m_Alphabet := setInsertAll b.m_Alphabet a.m_Alphabet }).m_Alphabet ↔
          s ∈ a.m_Alphabet ∨ s ∈ b.m_Alphabet := halpha
      constructor
      · rintro ((h | h) | ⟨hq, -, h | ⟨e, he, hx⟩⟩)
        · exact Or.inl h
        · exact Or.inr (Or.inl h)
        · exact Or.inr (Or.inr ⟨hq, Or.inl h⟩)
        · exact Or.inr (Or.inr ⟨hq, Or.inr ⟨e, he, by rw [hx, hoff e (hb.edge he).2.2]⟩⟩)
      · rintro (h | h | ⟨hq, h | ⟨e, he, hx⟩⟩)
        · exact Or.inl (Or.inl h)
        · exact Or.inl (Or.inr h)
        · exact Or.inr ⟨hq, (hs s).2 (Or.inl (ha.edge h).2.1), Or.inl h⟩
        · exact Or.inr ⟨hq, (hs s).2 (Or.inr (hb.edge he).2.1),
            Or.inr ⟨e, he, by rw [hx, hoff e (hb.edge he).2.2]⟩⟩
    · intro s _ x hc
      rw [hinit', hedge] at hc
      rcases hc with hc | ⟨q', x', he, hq, -⟩
      · have := hca _ (ha.edge hc).1
        omega
      · have := hcb _ (hb.edge he).1
        omega

theorem stepSet_states {n : NFA} (hn : n.WF) (S : List Nat) (c : Nat) :
    ∀ x ∈ n.stepSet S c, x ∈ n.m_States := by
  intro x hx
  obtain ⟨q, _, he⟩ := mem_stepSet_edge.1 hx
  exact (hn.edge he).2.2

theorem Joined.step {a b : NFA} (ha : a.WF) (hb : b.WF) (hca : a.Contiguous)
    (hcb : b.Contiguous) (hbound : a.m_States.length + b.m_States.length < 2 ^ 32)
    {S SA SB : List Nat} (hJ : Joined a.m_States.length S SA SB)
    (hA : ∀ x ∈ SA, x ∈ a.m_States) (hB : ∀ x ∈ SB, x ∈ b.m_States) (c : Nat) :
    Joined a.m_States.length ((unifyNFA a b).stepSet S c) (a.stepSet SA c) (b.stepSet SB c) := by
  obtain ⟨-, -, -, hedge, -⟩ := unifyNFA_spec ha hb hca hcb hbound
  intro x
  simp only [mem_stepSet_edge, hedge]
  constructor
  · rintro ⟨q, hq, h | ⟨q', x', he, hq', hx⟩ | ⟨hq', -⟩⟩
    · rcases (hJ q).1 hq with h1 | ⟨y, hy, h1⟩
      · exact Or.inl ⟨q, h1, h⟩
      · have := hca _ (ha.edge h).1
        omega
    · rcases (hJ q).1 hq with h1 | ⟨y, hy, h1⟩
      · have := hca _ (hA _ h1)
        omega
      · have : y = q' := by omega
        subst this
        exact Or.inr ⟨x', ⟨y, hy, he⟩, hx⟩
    · rcases (hJ q).1 hq with h1 | ⟨y, hy, h1⟩
      · have := hca _ (hA _ h1)
        omega
      · have := hcb _ (hB _ hy)
        omega
  · rintro (⟨q, hq, h⟩ | ⟨y, ⟨q, hq, h⟩, hx⟩)
    · exact ⟨q, (hJ q).2 (Or.inl hq), Or.inl h⟩
    · exact ⟨q + a.m_States.length, (hJ _).2 (Or.inr ⟨q, hq, rfl⟩),
        Or.inr (Or.inl ⟨q, y, h, rfl, hx⟩)⟩

theorem Joined.foldl {a b : NFA} (ha : a.WF) (hb : b.WF) (hca : a.Contiguous)
    (hcb : b.Contiguous) (hbound : a.m_States.length + b.m_States.length < 2 ^ 32)
    (w : List Nat) : ∀ {S SA SB : List Nat}, Joined a.m_States.length S SA SB →
    (∀ x ∈ SA, x ∈ a.m_States) → (∀ x ∈ SB, x ∈ b.m_States) →
    Joined a.m_States.length (w.foldl (unifyNFA a b).stepSet S) (w.foldl a.stepSet SA)
        (w.foldl b.stepSet SB) ∧
      (∀ x ∈ w.foldl a.stepSet SA, x ∈ a.m_States) ∧
      (∀ x ∈ w.foldl b.stepSet SB, x ∈ b.m_States) := by
  induction w with
  | nil => intro S SA SB hJ hA hB; exact ⟨hJ, hA, hB⟩
  | cons c w ih =>
    intro S SA SB hJ hA hB
    simp only [List.foldl_cons]
    exact ih (Joined.step ha hb hca hcb hbound hJ hA hB c) (stepSet_states ha SA c)
      (stepSet_states hb SB c)

theorem Joined.start {a b : NFA} (ha : a.WF) (hb : b.WF) (hca : a.Contiguous)
    (hcb : b.Contiguous) (hbound : a.m_States.length + b.m_States.length < 2 ^ 32) (c : Nat) :
    Joined a.m_States.length ((unifyNFA a b).stepSet [(unifyNFA a b).m_InitialState] c)
      (a.stepSet [a.m_InitialState] c) (b.stepSet [b.m_InitialState] c) := by
  obtain ⟨hinit, -, -, hedge, -⟩ := unifyNFA_spec ha hb hca hcb hbound
  intro x
  simp only [mem_stepSet_edge, hedge, List.mem_singleton, exists_eq_left, hinit]
  constructor
  · rintro (h | ⟨q', x', he, hq', hx⟩ | ⟨-, h | ⟨x', he, hx⟩⟩)
    · have := hca _ (ha.edge h).1
      omega
    · have := hcb _ (hb.edge he).1
      omega
    · exact Or.inl h
    · exact Or.inr ⟨x', he, hx⟩
  · rintro (h | ⟨x', he, hx⟩)
    · exact Or.inr (Or.inr ⟨trivial, Or.inl h⟩)
    · exact Or.inr (Or.inr ⟨trivial, Or.inr ⟨x', he, hx⟩⟩)

/-- For operands whose states are named `0 .. |Q| - 1`, `unifyNFA a b` accepts
exactly the words that `a` or `b` accepts. -/
theorem unifyNFA_accepts {a b : NFA} (ha : a.WF) (hb : b.WF) (hca : a.Contiguous)
    (hcb : b.Contiguous) (hbound : a.m_States.length + b.m_States.length < 2 ^ 32)
    (w : List Nat) :
    (unifyNFA a b).accepts w = (a.accepts w || b.accepts w) := by
  obtain ⟨hinit, -, hfin, -, -⟩ := unifyNFA_spec ha hb hca hcb hbound
  rw [Bool.eq_iff_iff]
  simp only [NFA.accepts, Bool.or_eq_true, List.any_eq_true, decide_eq_true_eq]
  cases w with
  | nil =>
    simp only [List.foldl_nil, List.mem_singleton, exists_eq_left, hfin, hinit]
    constructor
    · rintro (h | ⟨q, hq, h⟩ | ⟨-, h⟩)
      · have := hca _ (ha.finals_sub _ h)
        omega
      · have := hcb _ (hb.finals_sub _ hq)
        omega
      · exact h
    · intro h
      exact Or.inr (Or.inr ⟨trivial, h⟩)
  | cons c w =>
    simp only [List.foldl_cons]
    obtain ⟨hJ, hA, hB⟩ := Joined.foldl ha hb hca hcb hbound w
      (Joined.start ha hb hca hcb hbound c) (stepSet_states ha _ c) (stepSet_states hb _ c)
    constructor
    · rintro ⟨x, hx, hf⟩
      rcases (hfin x).1 hf with h | ⟨q, hq, h⟩ | ⟨h, -⟩
      · rcases (hJ x).1 hx with h1 | ⟨y, hy, h1⟩
        · exact Or.inl ⟨x, h1, h⟩
        · have := hca _ (ha.finals_sub _ h)
          omega
      · rcases (hJ x).1 hx with h1 | ⟨y, hy, h1⟩
        · have := hca _ (hA _ h1)
          omega
        · have : y = q := by omega
          subst this
          exact Or.inr ⟨y, hy, hq⟩
      · rcases (hJ x).1 hx with h1 | ⟨y, hy, h1⟩
        · have := hca _ (hA _ h1)
          omega
        · have := hcb _ (hB _ hy)
          omega
    · rintro (⟨x, hx, hf⟩ | ⟨x, hx, hf⟩)
      · exact ⟨x, (hJ x).2 (Or.inl hx), (hfin x).2 (Or.inl hf)⟩
      · exact ⟨x + a.m_States.length, (hJ _).2 (Or.inr ⟨x, hx, rfl⟩),
          (hfin _).2 (Or.inr (Or.inl ⟨x, hf, rfl⟩))⟩

/-! ## Language of `minimize` and of `unifyNFA` under their working assumptions -/

/-- For every well-formed total DFA that has a non-accepting state
and accepts at least one word, `minimize` returns a DFA, and the DFA returned
accepts exactly the words the input accepts. -/
theorem minimize_language (d : DFA) (hd : d.WF) (ht : d.Total)
    (hnf : ∃ q ∈ d.m_States, q ∉ d.m_FinalStates) (hacc : ∃ w, d.accepts w = true) :
    ∃ D', minimize d = some D' ∧ ∀ w, D'.accepts w = d.accepts w := by
  obtain ⟨D', hD', hl, -⟩ := minimize_spec hd.closed ht hnf hacc
  exact ⟨D', hD', hl⟩

/-- The language theorem of `minimize` applies to the total DFA accepting exactly
the word `a`. -/
theorem minimize_language_witness :
    gapDfa.WF ∧ gapDfa.Total ∧ (∃ q ∈ gapDfa.m_States, q ∉ gapDfa.m_FinalStates) ∧
      (∃ w, gapDfa.accepts w = true) ∧
      ∃ D', minimize gapDfa = some D' ∧ ∀ w, D'.accepts w = gapDfa.accepts w :=
  ⟨gapDfa_wf, by unfold DFA.Total; decide, ⟨0, by decide, by decide⟩, ⟨[97], by decide⟩,
    minimize_language gapDfa gapDfa_wf (by unfold DFA.Total; decide)
      ⟨0, by decide, by decide⟩ ⟨[97], by decide⟩⟩

/-- C5, amended: for well-formed NFAs whose states are named `0 .. |Q| - 1` (and
`|Q_a| + |Q_b| < 2^32`), `unifyNFA a b` accepts a word exactly when `a` or `b`
accepts it; the states imported from `b` and the new initial state are no states
of `a`, and the new initial state is no imported state. -/
theorem unifyNFA_language (a b : NFA) (ha : a.WF) (hb : b.WF) (hca : a.Contiguous)
    (hcb : b.Contiguous) (hbound : a.m_States.length + b.m_States.length < 2 ^ 32) :
    (∀ w, (unifyNFA a b).accepts w = (a.accepts w || b.accepts w)) ∧
      (∀ q ∈ b.m_States, offsetState a.m_States.length q ∉ a.m_States) ∧
      (unifyNFA a b).m_InitialState ∉ a.m_States ∧
      (∀ q ∈ b.m_States, (unifyNFA a b).m_InitialState ≠ offsetState a.m_States.length q) := by
  have hoff : ∀ q ∈ b.m_States, offsetState a.m_States.length q = q + a.m_States.length := by
    intro q hq
    have := hcb q hq
    exact offsetState_eq (by omega)
  obtain ⟨hinit, -, -, -, -⟩ := unifyNFA_spec ha hb hca hcb hbound
  refine ⟨unifyNFA_accepts ha hb hca hcb hbound, ?_, ?_, ?_⟩
  · intro q hq hc
    rw [hoff q hq] at hc
    have := hca _ hc
    omega
  · intro hc
    rw [hinit] at hc
    have := hca _ hc
    omega
  · intro q hq hc
    rw [hinit, hoff q hq] at hc
    have := hcb q hq
    omega

/-- The amended C5 applies to the NFAs `a1` and `a2` of `main`. -/
theorem unifyNFA_language_witness :
    sampleA1.WF ∧ sampleA2.WF ∧ sampleA1.Contiguous ∧ sampleA2.Contiguous ∧
      sampleA1.m_States.length + sampleA2.m_States.length < 2 ^ 32 ∧
      (∀ w, (unifyNFA sampleA1 sampleA2).accepts w =
        (sampleA1.accepts w || sampleA2.accepts w)) ∧
      (∀ q ∈ sampleA2.m_States, offsetState sampleA1.m_States.length q ∉ sampleA1.m_States) ∧
      (unifyNFA sampleA1 sampleA2).m_InitialState ∉ sampleA1.m_States ∧
      (∀ q ∈ sampleA2.m_States,
        (unifyNFA sampleA1 sampleA2).m_InitialState ≠ offsetState sampleA1.m_States.length q) :=
  ⟨sampleA1_wf, sampleA2_wf, by unfold NFA.Contiguous; decide,
    by unfold NFA.Contiguous; decide, by decide,
    unifyNFA_language sampleA1 sampleA2 sampleA1_wf sampleA2_wf
      (by unfold NFA.Contiguous; decide) (by unfold NFA.Contiguous; decide) (by decide)⟩

theorem mapFind_of_mem_nodup {K V : Type} [DecidableEq K] {m : List (K × V)}
    (hnd : (m.map Prod.fst).Nodup) {e : K × V} (he : e ∈ m) : mapFind e.1 m = some e.2 := by
  induction m with
  | nil => simp at he
  | cons e1 rest ih =>
    obtain ⟨k1, v1⟩ := e1
    simp only [List.map_cons, List.nodup_cons] at hnd
    rw [mapFind_cons]
    rcases List.mem_cons.1 he with h | h
    · subst h; simp
    · have hne : k1 ≠ e.1 := by
        intro hc
        exact hnd.1 (hc ▸ List.mem_map.2 ⟨e, h, rfl⟩)
      rw [if_neg hne]
      exact ih hnd.2 h

theorem TargetsOk.mapAssign {m : List ((Nat × Nat) × List Nat)} (h : TargetsOk m)
    (k : Nat × Nat) {T : List Nat} (hT : T ≠ []) (hs : T.Sorted (· < ·)) :
    TargetsOk (mapAssign keyLt k T m) := by
  refine ⟨mapAssign_keys_sorted k T m h.1, fun e he => ?_⟩
  rcases mem_mapAssign he with h1 | h1
  · rw [h1]; exact ⟨hT, hs⟩
  · exact h.2 e h1

theorem TargetsOk.insertTarget {m : List ((Nat × Nat) × List Nat)} (h : TargetsOk m)
    (k : Nat × Nat) (x : Nat) : TargetsOk (insertTarget k x m) := by
  unfold Automata.insertTarget
  cases hf : mapFind k m with
  | none =>
    exact h.mapAssign k (by simp) (by simp)
  | some T =>
    have hT := (h.2 _ (mapFind_mem hf)).2
    refine h.mapAssign k ?_ (setInsert_sorted hT)
    intro hc
    have : x ∈ setInsert x T := mem_setInsert.2 (Or.inl rfl)
    rw [hc] at this
    simp at this

theorem TargetsOk.foldl_insertTarget (k : Nat × Nat) (f : Nat → Nat) (T : List Nat) :
    ∀ {m : List ((Nat × Nat) × List Nat)}, TargetsOk m →
      TargetsOk (T.foldl (fun acc e => Automata.insertTarget k (f e) acc) m) := by
  induction T with
  | nil => intro m h; exact h
  | cons e T ih => intro m h; exact ih (h.insertTarget k (f e))

theorem TargetsOk.importTransitions (b : NFA) (n state : Nat)
    {m : List ((Nat × Nat) × List Nat)} (h : TargetsOk m) (sym : Nat) :
    TargetsOk (importTransitions b n state m sym) := by
  unfold Automata.importTransitions
  cases mapFind (state, sym) b.m_Transitions with
  | none => exact h
  | some T => exact TargetsOk.foldl_insertTarget _ (offsetState n) T h

theorem TargetsOk.foldl_importTransitions (b : NFA) (n state : Nat) (syms : List Nat) :
    ∀ {m : List ((Nat × Nat) × List Nat)}, TargetsOk m →
      TargetsOk (syms.foldl (Automata.importTransitions b n state) m) := by
  induction syms with
  | nil => intro m h; exact h
  | cons s syms ih => intro m h; exact ih (h.importTransitions b n state s)

theorem foldl_importState_sorted (a b : NFA) (states : List Nat) :
    ∀ (r : NFA), r.m_FinalStates.Sorted (· < ·) → TargetsOk r.m_Transitions →
      (states.foldl (importState a b) r).m_FinalStates.Sorted (· < ·) ∧
        TargetsOk (states.foldl (importState a b) r).m_Transitions := by
  induction states with
  | nil => intro r h1 h2; exact ⟨h1, h2⟩
  | cons st states ih =>
    intro r h1 h2
    rw [List.foldl_cons]
    apply ih
    · show (if st ∈ b.m_FinalStates then _ else _ : List Nat).Sorted (· < ·)
      split_ifs
      · exact setInsert_sorted h1
      · exact h1
    · exact TargetsOk.foldl_importTransitions b _ st b.m_Alphabet h2

theorem TargetsOk.startTransitions {a : NFA} (ha : a.WF) (b : NFA) (init : Nat)
    {m : List ((Nat × Nat) × List Nat)} (h : TargetsOk m) (sym : Nat) :
    TargetsOk (startTransitions a b init m sym) := by
  have second : ∀ m1 : List ((Nat × Nat) × List Nat), TargetsOk m1 →
      TargetsOk (match mapFind (b.m_InitialState, sym) b.m_Transitions with
        | some T => T.foldl (fun acc state => Automata.insertTarget (init, sym)
            (offsetState a.m_States.length state) acc) m1
        | none => m1) := by
    intro m1 h1
    cases mapFind (b.m_InitialState, sym) b.m_Transitions with
    | none => exact h1
    | some T => exact TargetsOk.foldl_insertTarget _ (offsetState a.m_States.length) T h1
  unfold Automata.startTransitions
  cases hf : mapFind (a.m_InitialState, sym) a.m_Transitions with
  | none => exact second _ h
  | some T =>
    have hm := mapFind_mem hf
    exact second _ (h.mapAssign _ (ha.trans_nonempty _ hm) (ha.trans_sorted _ hm))

theorem TargetsOk.foldl_startTransitions {a : NFA} (ha : a.WF) (b : NFA) (init : Nat)
    (syms : List Nat) :
    ∀ {m : List ((Nat × Nat) × List Nat)}, TargetsOk m →
      TargetsOk (syms.foldl (Automata.startTransitions a b init) m) := by
  induction syms with
  | nil => intro m h; exact h
  | cons s syms ih => intro m h; exact ih (h.startTransitions ha b init s)

/-- For operands whose states are named `0 .. |Q| - 1`, `unifyNFA a b` is a
well-formed NFA. -/
theorem unifyNFA_wf {a b : NFA} (ha : a.WF) (hb : b.WF) (hca : a.Contiguous)
    (hcb : b.Contiguous) (hbound : a.m_States.length + b.m_States.length < 2 ^ 32) :
    (unifyNFA a b).WF := by
  obtain ⟨hinit, hstates, hfin, hedge, halpha⟩ := unifyNFA_spec ha hb hca hcb hbound
  obtain ⟨-, -, -, h4, h5⟩ := foldl_importState a b b.m_States
    { a with m_Alphabet := setInsertAll b.m_Alphabet a.m_Alphabet }
  obtain ⟨hfs, hto⟩ := foldl_importState_sorted a b b.m_States
    { a with m_Alphabet := setInsertAll b.m_Alphabet a.m_Alphabet } ha.finals_sorted
    ⟨ha.keys_sorted, fun e he => ⟨ha.trans_nonempty e he, ha.trans_sorted e he⟩⟩
  have hok : TargetsOk (unifyNFA a b).m_Transitions :=
    TargetsOk.foldl_startTransitions ha b _ _ hto
  have hentry : ∀ e ∈ (unifyNFA a b).m_Transitions, ∀ x ∈ e.2,
      edgeIn (unifyNFA a b).m_Transitions e.1.1 e.1.2 x := by
    intro e he x hx
    exact ⟨e.2, mapFind_of_mem_nodup (keys_nodup_of_sorted hok.1) he, hx⟩
  have hedge_wf : ∀ q s x, edgeIn (unifyNFA a b).m_Transitions q s x →
      q ∈ (unifyNFA a b).m_States ∧ s ∈ (unifyNFA a b).m_Alphabet ∧
        x ∈ (unifyNFA a b).m_States := by
    intro q s x h
    rw [hstates, hstates, halpha]
    rcases (hedge q s x).1 h with h1 | ⟨q', x', h1, hq, hx⟩ | ⟨hq, h1 | ⟨x', h1, hx⟩⟩
    · obtain ⟨e1, e2, e3⟩ := ha.edge h1
      exact ⟨Or.inl e1, Or.inl e2, Or.inl e3⟩
    · obtain ⟨e1, e2, e3⟩ := hb.edge h1
      exact ⟨Or.inr (Or.inl ⟨q', e1, hq⟩), Or.inr e2, Or.inr (Or.inl ⟨x', e3, hx⟩)⟩
    · obtain ⟨e1, e2, e3⟩ := ha.edge h1
      exact ⟨Or.inr (Or.inr hq), Or.inl e2, Or.inl e3⟩
    · obtain ⟨e1, e2, e3⟩ := hb.edge h1
      exact ⟨Or.inr (Or.inr hq), Or.inr e2, Or.inr (Or.inl ⟨x', e3, hx⟩)⟩
  have hhead : ∀ e ∈ (unifyNFA a b).m_Transitions, ∃ x, x ∈ e.2 := by
    intro e he
    exact List.exists_mem_of_ne_nil _ (hok.2 e he).1
  refine ⟨?_, ?_, ?_, hok.1, ?_, ?_, ?_, ?_, fun e he => (hok.2 e he).1,
    fun e he => (hok.2 e he).2, ?_, ?_, ?_⟩
  · exact setInsert_sorted (h5 ha.states_sorted)
  · show (b.m_States.foldl (importState a b) _).m_Alphabet.Sorted (· < ·)
    rw [h4]
    exact setInsertAll_sorted ha.alphabet_sorted
  · show (if a.m_InitialState ∈ a.m_FinalStates ∨ b.m_InitialState ∈ b.m_FinalStates then
      setInsert _ (b.m_States.foldl (importState a b) _).m_FinalStates
      else (b.m_States.foldl (importState a b) _).m_FinalStates : List Nat).Sorted (· < ·)
    split_ifs
    · exact setInsert_sorted hfs
    · exact hfs
  · rw [hstates, hinit]
    exact Or.inr (Or.inr rfl)
  · intro q hq
    rw [hstates]
    rcases (hfin q).1 hq with h | ⟨q', hq', h⟩ | ⟨h, -⟩
    · exact Or.inl (ha.finals_sub q h)
    · exact Or.inr (Or.inl ⟨q', hb.finals_sub q' hq', h⟩)
    · exact Or.inr (Or.inr h)
  · intro e he
    obtain ⟨x, hx⟩ := hhead e he
    exact (hedge_wf _ _ _ (hentry e he x hx)).1
  · intro e he
    obtain ⟨x, hx⟩ := hhead e he
    exact (hedge_wf _ _ _ (hentry e he x hx)).2.1
  · intro e he x hx
    exact (hedge_wf _ _ _ (hentry e he x hx)).2.2
  · intro q hq
    rcases (hstates q).1 hq with h | ⟨q', hq', h⟩ | h
    · exact ha.states_bound q h
    · have := hcb q' hq'
      omega
    · omega
  · intro s hs
    rcases (halpha s).1 hs with h | h
    · exact ha.symbols_bound s h
    · exact hb.symbols_bound s h

/-- On every well-formed NFA, whatever the number of sets it meets, `determine`
returns a DFA with initial state 0 whose states are below `2 ^ 32`, at most
`2 ^ |Q|` in number, each with a transition on every symbol to a state of the
DFA. -/
theorem determine_any_ids {n : NFA} (hn : n.WF) :
    ∃ d, determine n = some d ∧ d.m_InitialState = 0 ∧ 0 ∈ d.m_States ∧
      (∀ q ∈ d.m_States, q < 2 ^ 32) ∧
      (∀ e ∈ d.m_Transitions, e.2 ∈ d.m_States) ∧
      (∀ q ∈ d.m_States, ∀ a ∈ n.m_Alphabet,
        ∃ t, mapFind (q, a) d.m_Transitions = some t ∧ t ∈ d.m_States) ∧
      d.m_States.length ≤ 2 ^ n.m_States.length := by
  obtain ⟨st, cur, hd, h, hq⟩ := determine_keys hn
  refine ⟨st.result, hd, h.initial, (h.states_vals 0).2 (mapFind_val_mem h.init_key),
    fun q hqs => h.vals_bound q ((h.states_vals q).1 hqs), h.trans_tgt, ?_, ?_⟩
  · intro q hqs a ha
    obtain ⟨e, he, hev⟩ := List.mem_map.1 ((h.states_vals q).1 hqs)
    have hfind := mapFind_of_mem_nodup h.keys_nodup he
    rw [hev] at hfind
    have hkey : e.1 ∈ st.map.map Prod.fst := List.mem_map.2 ⟨e, he, rfl⟩
    have hsome : (mapFind (lookupD st.map e.1, a) st.result.m_Transitions).isSome = true := by
      by_cases hc : e.1 = cur
      · rw [hc]; exact h.cur_done a ha
      · exact h.done e.1 hkey (by rw [hq]; simp) hc a ha
    rw [lookupD_of_mapFind hfind] at hsome
    obtain ⟨t, ht⟩ := Option.isSome_iff_exists.1 hsome
    exact ⟨t, ht, h.trans_tgt _ (mapFind_mem ht)⟩
  · have hsub : st.result.m_States ⊆ st.map.map Prod.snd :=
      fun i hi => (h.states_vals i).1 hi
    have h1 := (List.subperm_of_subset h.states_sorted.nodup hsub).length_le
    have h2 := h.keys_length_le
    simp only [List.length_map] at h1
    omega

/-- On a well-formed NFA `determine` returns a DFA with closed references, total
over the alphabet of the NFA, with initial state 0, accepting the words of the
NFA. -/
theorem determine_output {n : NFA} (hn : n.WF) (hb : n.FewSubsets) :
    ∃ d, determine n = some d ∧ d.Closed ∧ d.Total ∧ d.m_Alphabet = n.m_Alphabet ∧
      d.m_InitialState = 0 ∧ ∀ w, d.accepts w = n.accepts w := by
  obtain ⟨st, hd, hinv, hq, hs⟩ := determine_spec hn hb
  have hexp : ∀ S ∈ st.map.map Prod.fst, Expanded n st S n.m_Alphabet := by
    intro S hS
    by_cases hS0 : S = [n.m_InitialState]
    · subst hS0; exact hinv.cur_expanded
    · exact (hinv.expanded S hS (by rw [hq]; simp) hS0).1
  refine ⟨st.result, hd, ⟨?_, ?_, ?_, ?_, ?_⟩, ?_, hs.alphabet_eq, hinv.initial,
    fun w => hinv.accepts_eq hn hq w⟩
  · rw [hinv.initial, hinv.states_iff]
    exact hinv.vals_lt 0 (mapFind_val_mem hinv.init_key)
  · intro q hq'
    obtain ⟨S, hS, -⟩ := hinv.fin_sound q hq'
    rw [hinv.states_iff]
    exact hinv.vals_lt q (mapFind_val_mem hS)
  · intro e he
    rw [hinv.states_iff]
    exact (hs.trans_lt e he).1
  · intro e he
    rw [hs.alphabet_eq]
    exact hinv.trans_sym e he
  · intro e he
    rw [hinv.states_iff]
    exact (hs.trans_lt e he).2
  · intro q hq' a ha
    rw [hinv.states_iff] at hq'
    rw [hs.alphabet_eq] at ha
    obtain ⟨e, he, hev⟩ := List.mem_map.1 (hs.vals_cover q hq')
    have hfind := mapFind_of_mem_nodup hinv.keys_nodup he
    rw [hev] at hfind
    obtain ⟨i, -, hi⟩ := hexp e.1 (List.mem_map.2 ⟨e, he, rfl⟩) a ha
    rw [lookupD_of_mapFind hfind] at hi
    rw [hi]
    rfl

theorem DFA.run_total {d : DFA} (hc : d.Closed) (ht : d.Total) (w : List Nat)
    (hw : ∀ c ∈ w, c ∈ d.m_Alphabet) : ∃ q ∈ d.m_States, d.run w = some q := by
  induction w using List.reverseRecOn with
  | nil => exact ⟨d.m_InitialState, hc.initial_mem, rfl⟩
  | append_singleton w c ih =>
    obtain ⟨q, hq, hrun⟩ := ih (fun x hx => hw x (by simp [hx]))
    have hfind := ht.find hq (hw c (by simp))
    refine ⟨d.delta q c, hc.trans_tgt _ (mapFind_mem hfind), ?_⟩
    rw [DFA.run_append_singleton, hrun, DFA.step_some, hfind]

theorem DFA.exists_nonfinal {d : DFA} (hc : d.Closed) (ht : d.Total) {w : List Nat}
    (hw : ∀ c ∈ w, c ∈ d.m_Alphabet) (hrej : d.accepts w = false) :
    ∃ q ∈ d.m_States, q ∉ d.m_FinalStates := by
  obtain ⟨q, hq, hrun⟩ := DFA.run_total hc ht w hw
  refine ⟨q, hq, ?_⟩
  rw [DFA.accepts_eq_run, hrun] at hrej
  simpa using hrej

/-- For operands whose states are named `0 .. |Q| - 1` and whose union automaton
meets at most `2 ^ 32` sets of states, when some word is accepted by `a` or `b` and
some word over the joint alphabet by neither, `unify a b` returns a DFA accepting
exactly the words that `a` or `b` accepts. -/
theorem unify_spec {a b : NFA} (ha : a.WF) (hb : b.WF) (hca : a.Contiguous)
    (hcb : b.Contiguous) (hbound : a.m_States.length + b.m_States.length < 2 ^ 32)
    (hfew : (unifyNFA a b).FewSubsets)
    (hacc : ∃ w, a.accepts w = true ∨ b.accepts w = true)
    (hrej : ∃ w, (∀ c ∈ w, c ∈ a.m_Alphabet ∨ c ∈ b.m_Alphabet) ∧
      a.accepts w = false ∧ b.accepts w = false) :
    ∃ D, unify a b = some D ∧ ∀ w, D.accepts w = (a.accepts w || b.accepts w) := by
  have hwf := unifyNFA_wf ha hb hca hcb hbound
  have hlang := unifyNFA_accepts ha hb hca hcb hbound
  obtain ⟨-, -, -, -, halpha⟩ := unifyNFA_spec ha hb hca hcb hbound
  obtain ⟨d, hd, hclosed, htotal, hdalpha, -, hdlang⟩ := determine_output hwf hfew
  obtain ⟨w1, hw1⟩ := hacc
  obtain ⟨w0, hw0, hr1, hr2⟩ := hrej
  have hnf : ∃ q ∈ d.m_States, q ∉ d.m_FinalStates := by
    apply DFA.exists_nonfinal hclosed htotal (w := w0)
    · intro c hc
      rw [hdalpha, halpha]
      exact hw0 c hc
    · rw [hdlang, hlang, hr1, hr2]; rfl
  have hsome : ∃ w, d.accepts w = true := by
    refine ⟨w1, ?_⟩
    rw [hdlang, hlang]
    rcases hw1 with h | h
    · rw [h]; rfl
    · rw [h]; simp
  obtain ⟨D, hD, hDlang, -⟩ := minimize_spec hclosed htotal hnf hsome
  refine ⟨D, ?_, fun w => by rw [hDlang, hdlang, hlang]⟩
  unfold unify
  rw [hd]
  exact hD

/-- C1, amended: for well-formed NFAs whose states are named `0 .. |Q| - 1` (and
`|Q_a| + |Q_b| < 2^32`) and whose union automaton `unifyNFA a b` meets at most
`2 ^ 32` sets of states in the subset construction, when `a` or `b` accepts some
word and some word over the union of the alphabets is accepted by neither,
`unify a b` returns a DFA, and that DFA accepts a word exactly when `a` or `b`
accepts it. -/
theorem unify_language (a b : NFA) (ha : a.WF) (hb : b.WF) (hca : a.Contiguous)
    (hcb : b.Contiguous) (hbound : a.m_States.length + b.m_States.length < 2 ^ 32)
    (hfew : (unifyNFA a b).FewSubsets)
    (hacc : ∃ w, a.accepts w = true ∨ b.accepts w = true)
    (hrej : ∃ w, (∀ c ∈ w, c ∈ a.m_Alphabet ∨ c ∈ b.m_Alphabet) ∧
      a.accepts w = false ∧ b.accepts w = false) :
    ∃ D, unify a b = some D ∧ ∀ w, D.accepts w = (a.accepts w || b.accepts w) :=
  unify_spec ha hb hca hcb hbound hfew hacc hrej

/-- The amended C1 applies to the NFAs `a1` and `a2` of `main`: `aa` is accepted by
`a1`, the empty word by neither. -/
theorem unify_language_witness :
    sampleA1.WF ∧ sampleA2.WF ∧ sampleA1.Contiguous ∧ sampleA2.Contiguous ∧
      sampleA1.m_States.length + sampleA2.m_States.length < 2 ^ 32 ∧
      (unifyNFA sampleA1 sampleA2).FewSubsets ∧
      (sampleA1.accepts [97, 97] = true ∨ sampleA2.accepts [97, 97] = true) ∧
      (sampleA1.accepts [] = false ∧ sampleA2.accepts [] = false) ∧
      ∃ D, unify sampleA1 sampleA2 = some D ∧
        ∀ w, D.accepts w = (sampleA1.accepts w || sampleA2.accepts w) :=
  ⟨sampleA1_wf, sampleA2_wf, by unfold NFA.Contiguous; decide,
    by unfold NFA.Contiguous; decide, by decide,
    NFA.fewSubsets_of_length
      (unifyNFA_wf sampleA1_wf sampleA2_wf (by unfold NFA.Contiguous; decide)
        (by unfold NFA.Contiguous; decide) (by decide)) (by decide),
    Or.inl (by decide), ⟨by decide, by decide⟩,
    unify_language sampleA1 sampleA2 sampleA1_wf sampleA2_wf
      (by unfold NFA.Contiguous; decide) (by unfold NFA.Contiguous; decide) (by decide)
      (NFA.fewSubsets_of_length
        (unifyNFA_wf sampleA1_wf sampleA2_wf (by unfold NFA.Contiguous; decide)
          (by unfold NFA.Contiguous; decide) (by decide)) (by decide))
      ⟨[97, 97], Or.inl (by decide)⟩
      ⟨[], fun c hc => absurd hc (List.not_mem_nil c), by decide, by decide⟩⟩

theorem parallelSymbol_step (a b : DFA) (p q : Nat) (st : ProdState) (s : Nat) :
    ProdStep a b st (parallelSymbol a b [p, q] st s) [p, q] s := by
  cases hA : mapFind (p, s) a.m_Transitions with
  | none =>
    have ht : pairTarget a b [p, q] s = [] := by simp [pairTarget, hA]
    have he : parallelSymbol a b [p, q] st s =
        { st with
          tempTransitions := mapAssign vecKeyLt ([p, q], s) [] st.tempTransitions } := by
      simp [parallelSymbol, hA]
    rw [he]
    exact ⟨by rw [ht], by simp [ht], by simp [ht], by simp [ht], by simp [ht], by simp [ht],
      rfl, rfl⟩
  | some ta =>
    cases hB : mapFind (q, s) b.m_Transitions with
    | none =>
      have ht : pairTarget a b [p, q] s = [] := by simp [pairTarget, hA, hB]
      have he : parallelSymbol a b [p, q] st s =
          { st with
            tempTransitions := mapAssign vecKeyLt ([p, q], s) [] st.tempTransitions } := by
        simp [parallelSymbol, hA, hB]
      rw [he]
      exact ⟨by rw [ht], by simp [ht], by simp [ht], by simp [ht], by simp [ht], by simp [ht],
        rfl, rfl⟩
    | some tb =>
      have ht : pairTarget a b [p, q] s = [ta, tb] := by simp [pairTarget, hA, hB]
      have hne : ([ta, tb] : List Nat) ≠ [] := by simp
      by_cases hid : (mapFind [p, q] st.pairID).isNone = true
      · have he : parallelSymbol a b [p, q] st s =
            { result := { st.result with
                m_States := setInsert st.stateCounter st.result.m_States
                m_FinalStates :=
                  if p ∈ a.m_FinalStates ∧ q ∈ b.m_FinalStates then
                    setInsert st.stateCounter st.result.m_FinalStates
                  else st.result.m_FinalStates }
              tempTransitions := mapAssign vecKeyLt ([p, q], s) [ta, tb] st.tempTransitions
              pairID := ([p, q], st.stateCounter) :: st.pairID
              queue :=
                if (mapFind [ta, tb] (([p, q], st.stateCounter) :: st.pairID)).isNone then
                  st.queue ++ [[ta, tb]]
                else st.queue
              stateCounter := (st.stateCounter + 1) % 2 ^ 32 } := by
          simp only [parallelSymbol, hA, hB, hid, if_true]
        rw [he]
        refine ⟨by rw [ht], ?_, ?_, ?_, ?_, ?_, rfl, rfl⟩
        · simp only [ht, hid, hne, ne_eq, not_false_eq_true, and_self, if_true]
        · simp only [ht, hid, hne, ne_eq, not_false_eq_true, and_self, if_true]
        · simp only [ht, hid, hne, ne_eq, not_false_eq_true, and_self, if_true]
        · simp only [ht, hid, hne, ne_eq, not_false_eq_true, and_self, true_and, pairFinal,
            decide_eq_true_eq]
        · simp only [ht, hne, ne_eq, not_false_eq_true, true_and]
      · have hid' : (mapFind [p, q] st.pairID).isNone = false := Bool.eq_false_iff.2 hid
        have he : parallelSymbol a b [p, q] st s =
            { st with
              tempTransitions := mapAssign vecKeyLt ([p, q], s) [ta, tb] st.tempTransitions
              queue :=
                if (mapFind [ta, tb] st.pairID).isNone then st.queue ++ [[ta, tb]]
                else st.queue } := by
          simp only [parallelSymbol, hA, hB, hid', Bool.false_eq_true, if_false]
        rw [he]
        refine ⟨by rw [ht], ?_, ?_, ?_, ?_, ?_, rfl, rfl⟩
        · simp only [hid', Bool.false_eq_true, and_false, if_false]
        · simp only [hid', Bool.false_eq_true, and_false, if_false]
        · simp only [hid', Bool.false_eq_true, and_false, if_false]
        · simp only [hid', Bool.false_eq_true, and_false, false_and, if_false]
        · simp only [ht, hne, ne_eq, not_false_eq_true, true_and]

theorem parallelSymbol_not_pair (a b : DFA) (st : ProdState) (s : Nat) :
    parallelSymbol a b [] st s = st := rfl

theorem pairTarget_isPair {a b : DFA} (hca : a.Closed) (hcb : b.Closed) {x : List Nat}
    {s : Nat} (hx : IsPair a b x) (h : pairTarget a b x s ≠ []) :
    IsPair a b (pairTarget a b x s) := by
  obtain ⟨p, q, rfl, -, -⟩ := hx
  cases hA : mapFind (p, s) a.m_Transitions with
  | none => simp [pairTarget, hA] at h
  | some ta =>
    cases hB : mapFind (q, s) b.m_Transitions with
    | none => simp [pairTarget, hA, hB] at h
    | some tb =>
      have ht : pairTarget a b [p, q] s = [ta, tb] := by simp [pairTarget, hA, hB]
      rw [ht]
      exact ⟨ta, tb, rfl, hca.trans_tgt _ (mapFind_mem hA), hcb.trans_tgt _ (mapFind_mem hB)⟩

theorem IsPair.ne_nil {a b : DFA} {x : List Nat} (h : IsPair a b x) : x ≠ [] := by
  obtain ⟨p, q, rfl, -, -⟩ := h
  simp

theorem isSome_cons_of_isSome {K V : Type} [DecidableEq K] {m : List (K × V)} {k k0 : K}
    {v : V} (h : (mapFind k m).isSome = true) : (mapFind k ((k0, v) :: m)).isSome = true := by
  rw [mapFind_cons]
  split_ifs
  · rfl
  · exact h

theorem ProdInv.ids_le {a b : DFA} {al : List Nat} {st : ProdState} {cur done : List Nat}
    (h : ProdInv a b al st cur done) {x : List Nat} (hx : IsPair a b x)
    (hnone : mapFind x st.pairID = none) :
    st.pairID.length + 1 ≤ a.m_States.length * b.m_States.length + 1 := by
  have hnotkey : x ∉ st.pairID.map Prod.fst := mapFind_none.1 hnone
  have hnd : (x :: st.pairID.map Prod.fst).Nodup := List.nodup_cons.2 ⟨hnotkey, h.keys_nodup⟩
  have hmem : ∀ y, IsPair a b y →
      y ∈ (a.m_States.product b.m_States).map (fun pq => [pq.1, pq.2]) := by
    rintro y ⟨p, q, rfl, hp, hq⟩
    exact List.mem_map.2 ⟨(p, q), List.mem_product.2 ⟨hp, hq⟩, rfl⟩
  have hsub : x :: st.pairID.map Prod.fst ⊆
      [] :: (a.m_States.product b.m_States).map (fun pq => [pq.1, pq.2]) := by
    intro y hy
    rcases List.mem_cons.1 hy with h1 | h1
    · rw [h1]; exact List.mem_cons_of_mem _ (hmem x hx)
    · rcases h.keys_pair y h1 with h2 | h2
      · rw [h2]; exact List.mem_cons_self _ _
      · exact List.mem_cons_of_mem _ (hmem y h2)
  have := (List.subperm_of_subset hnd hsub).length_le
  have hp : (a.m_States.product b.m_States).length =
      a.m_States.length * b.m_States.length := List.length_product _ _
  simp only [List.length_cons, List.length_map] at this
  omega

/-- While the product has fewer than `2 ^ 32 - 1` pairs, the counter of
`parallelRun` does not wrap when a pair is given an id. -/
theorem ProdInv.counter_below {a b : DFA} {al : List Nat} {st : ProdState} {cur done : List Nat}
    (h : ProdInv a b al st cur done)
    (hN : a.m_States.length * b.m_States.length + 1 < 2 ^ 32) {x : List Nat}
    (hx : IsPair a b x) (hnone : (mapFind x st.pairID).isNone = true) :
    st.stateCounter + 1 < 2 ^ 32 := by
  have hlen := h.ids_le hx (Option.isNone_iff_eq_none.1 hnone)
  have hcov : List.range st.stateCounter ⊆ st.pairID.map Prod.snd :=
    fun i hi => h.vals_cover i (List.mem_range.1 hi)
  have := (List.subperm_of_subset (List.nodup_range _) hcov).length_le
  simp only [List.length_range, List.length_map] at this
  omega

theorem ProdStep.keeps {a b : DFA} {al : List Nat} {st st' : ProdState}
    {cur done : List Nat} {s : Nat} (hca : a.Closed) (hcb : b.Closed)
    (hN : a.m_States.length * b.m_States.length + 1 < 2 ^ 32)
    (h : ProdInv a b al st cur done) (hs : s ∈ al) (hcur : IsPair a b cur)
    (hr : ProdStep a b st st' cur s) : ProdInv a b al st' cur (done ++ [s]) := by
  obtain ⟨htemp, hpid, hcnt, hstates, hfinals, hqueue, halpha, hinitial⟩ := hr
  replace hcnt : st'.stateCounter =
      if pairTarget a b cur s ≠ [] ∧ (mapFind cur st.pairID).isNone = true then
        st.stateCounter + 1 else st.stateCounter := by
    rw [hcnt]
    split_ifs with hc
    · exact Nat.mod_eq_of_lt (h.counter_below hN hcur hc.2)
    · rfl
  have hcurne : cur ≠ [] := hcur.ne_nil
  -- the queue only grows, by the target
  have hqsub : ∀ x, x ∈ st.queue → x ∈ st'.queue := by
    intro x hx
    rw [hqueue]
    split_ifs
    · exact List.mem_append_left _ hx
    · exact hx
  have hqmem : ∀ x, x ∈ st'.queue → x ∈ st.queue ∨
      (x = pairTarget a b cur s ∧ pairTarget a b cur s ≠ []) := by
    intro x hx
    rw [hqueue] at hx
    split_ifs at hx with hc
    · rcases List.mem_append.1 hx with h1 | h1
      · exact Or.inl h1
      · exact Or.inr ⟨List.mem_singleton.1 h1, hc.1⟩
    · exact Or.inl hx
  -- the target has an id or is queued
  have htgt : (mapFind (pairTarget a b cur s) st'.pairID).isSome = true ∨
      pairTarget a b cur s ∈ st'.queue := by
    by_cases hn : (mapFind (pairTarget a b cur s) st'.pairID).isNone = true
    · right
      have hne : pairTarget a b cur s ≠ [] := by
        intro hc
        rw [hc] at hn
        have : mapFind [] st'.pairID = some 0 := by
          rw [hpid]
          split_ifs
          · rw [mapFind_cons, if_neg hcurne]; exact h.sink_id
          · exact h.sink_id
        rw [this] at hn
        simp at hn
      rw [hqueue, if_pos ⟨hne, hn⟩]
      simp
    · left
      cases hm : mapFind (pairTarget a b cur s) st'.pairID with
      | none => simp [hm] at hn
      | some v => rfl
  -- entries of the new map of transitions
  have hfind : ∀ x s', mapFind (x, s') st'.tempTransitions =
      if (cur, s) = (x, s') then some (pairTarget a b cur s)
      else mapFind (x, s') st.tempTransitions := by
    intro x s'
    rw [htemp, mapFind_mapAssign]
  by_cases hnew : pairTarget a b cur s ≠ [] ∧ (mapFind cur st.pairID).isNone = true
  · -- `cur` gets its id now
    rw [if_pos hnew] at hpid hcnt hstates
    have hnone : mapFind cur st.pairID = none := Option.isNone_iff_eq_none.1 hnew.2
    have hnotkey : cur ∉ st.pairID.map Prod.fst := mapFind_none.1 hnone
    have hmono : ∀ x, (mapFind x st.pairID).isSome = true →
        (mapFind x st'.pairID).isSome = true := by
      intro x hx
      rw [hpid]
      exact isSome_cons_of_isSome hx
    have hkeep : ∀ x, x ≠ cur → mapFind x st'.pairID = mapFind x st.pairID := by
      intro x hx
      rw [hpid, mapFind_cons, if_neg (Ne.symm hx)]
    have hcurid : mapFind cur st'.pairID = some st.stateCounter := by
      rw [hpid, mapFind_cons, if_pos rfl]
    refine ⟨halpha.trans h.alphabet_eq, hinitial.trans h.initial, ?_, ?_, ?_, ?_, ?_, ?_, ?_,
      ?_, ?_, ?_, ?_, ?_, ?_, ?_⟩
    · rw [hkeep [] (Ne.symm hcurne)]; exact h.sink_id
    · intro x hx
      rw [hpid] at hx
      simp only [List.map_cons, List.mem_cons] at hx
      rcases hx with hx | hx
      · right; rw [hx]; exact hcur
      · exact h.keys_pair x hx
    · rw [hpid]
      simp only [List.map_cons, List.nodup_cons]
      exact ⟨hnotkey, h.keys_nodup⟩
    · rw [hpid]
      simp only [List.map_cons, List.nodup_cons]
      refine ⟨fun hc => ?_, h.vals_nodup⟩
      have := h.vals_lt _ hc
      omega
    · intro v hv
      rw [hpid] at hv
      rw [hcnt]
      simp only [List.map_cons, List.mem_cons] at hv
      rcases hv with hv | hv
      · omega
      · have := h.vals_lt v hv
        omega
    · intro i hi
      rw [hcnt] at hi
      rw [hpid]
      simp only [List.map_cons, List.mem_cons]
      by_cases hic : i = st.stateCounter
      · exact Or.inl hic
      · exact Or.inr (h.vals_cover i (by omega))
    · intro x hx
      rcases hqmem x hx with h1 | ⟨h1, h2⟩
      · exact h.queue_pair x h1
      · rw [h1]; exact pairTarget_isPair hca hcb hcur h2
    · intro i
      rw [hstates, hcnt, mem_setInsert, h.states_iff]
      omega
    · intro i
      rw [hfinals]
      by_cases hpf : pairFinal a b cur = true
      · rw [if_pos ⟨hnew, hpf⟩, mem_setInsert, h.finals_iff]
        constructor
        · rintro (h1 | ⟨x, hx, hxf⟩)
          · exact ⟨cur, by rw [hcurid, h1], hpf⟩
          · have hxne : x ≠ cur := by
              rintro rfl
              rw [hnone] at hx
              exact Option.noConfusion hx
            exact ⟨x, by rw [hkeep x hxne]; exact hx, hxf⟩
        · rintro ⟨x, hx, hxf⟩
          by_cases hxc : x = cur
          · subst hxc
            rw [hcurid] at hx
            exact Or.inl (Option.some.inj hx).symm
          · rw [hkeep x hxc] at hx
            exact Or.inr ⟨x, hx, hxf⟩
      · rw [if_neg (fun hc => hpf hc.2), h.finals_iff]
        constructor
        · rintro ⟨x, hx, hxf⟩
          have hxne : x ≠ cur := by
            rintro rfl
            rw [hnone] at hx
            exact Option.noConfusion hx
          exact ⟨x, by rw [hkeep x hxne]; exact hx, hxf⟩
        · rintro ⟨x, hx, hxf⟩
          have hxc : x ≠ cur := by
            rintro rfl
            exact hpf hxf
          rw [hkeep x hxc] at hx
          exact ⟨x, hx, hxf⟩
    · intro e he
      rw [htemp] at he
      rcases mem_mapAssign he with h1 | h1
      · rw [h1]
        exact ⟨rfl, hs, Or.inr rfl⟩
      · obtain ⟨e1, e2, e3⟩ := h.temp_entry e h1
        refine ⟨e1, e2, ?_⟩
        rcases e3 with e3 | e3
        · exact Or.inl (hmono _ e3)
        · exact Or.inr e3
    · intro x hx hxc s' hs'
      rw [hpid] at hx
      simp only [List.map_cons, List.mem_cons] at hx
      rcases hx with hx | hx
      · exact absurd hx hxc
      · obtain ⟨p1, p2⟩ := h.processed x hx hxc s' hs'
        refine ⟨?_, ?_⟩
        · rw [hfind, if_neg (fun hc => hxc (Prod.mk.inj hc).1.symm)]
          exact p1
        · rcases p2 with p2 | p2 | p2
          · exact Or.inl (hmono _ p2)
          · exact Or.inr (Or.inl (hqsub _ p2))
          · exact Or.inr (Or.inr p2)
    · intro s' hs'
      by_cases hss : s' = s
      · subst hss
        refine ⟨by rw [hfind, if_pos rfl], ?_⟩
        rcases htgt with h1 | h1
        · exact Or.inl h1
        · exact Or.inr (Or.inl h1)
      · have hsd : s' ∈ done := by
          rcases List.mem_append.1 hs' with h1 | h1
          · exact h1
          · exact absurd (List.mem_singleton.1 h1) hss
        obtain ⟨p1, p2⟩ := h.cur_processed s' hsd
        refine ⟨?_, ?_⟩
        · rw [hfind, if_neg (fun hc => hss (Prod.mk.inj hc).2.symm)]
          exact p1
        · rcases p2 with p2 | p2 | p2
          · exact Or.inl (hmono _ p2)
          · exact Or.inr (Or.inl (hqsub _ p2))
          · exact Or.inr (Or.inr p2)
    · intro _
      rw [hcurid]; rfl
    · rcases h.init_id with h1 | ⟨h1, h2 | ⟨h2, -⟩⟩
      · left
        have hne : [a.m_InitialState, b.m_InitialState] ≠ cur := by
          intro hc
          rw [hc, hnone] at h1
          exact Option.noConfusion h1
        rw [hkeep _ hne]; exact h1
      · left
        rw [← h2, hcurid, h1]
      · exact absurd h2 hcurne
  · -- no id is given
    rw [if_neg hnew] at hpid hcnt hstates
    rw [if_neg (fun hc => hnew hc.1)] at hfinals
    rw [hpid] at hqueue htgt
    refine ⟨halpha.trans h.alphabet_eq, hinitial.trans h.initial, ?_, ?_, ?_, ?_, ?_, ?_, ?_,
      ?_, ?_, ?_, ?_, ?_, ?_, ?_⟩
    · rw [hpid]; exact h.sink_id
    · rw [hpid]; exact h.keys_pair
    · rw [hpid]; exact h.keys_nodup
    · rw [hpid]; exact h.vals_nodup
    · rw [hpid, hcnt]; exact h.vals_lt
    · rw [hpid, hcnt]; exact h.vals_cover
    · intro x hx
      rcases hqmem x hx with h1 | ⟨h1, h2⟩
      · exact h.queue_pair x h1
      · rw [h1]; exact pairTarget_isPair hca hcb hcur h2
    · rw [hstates, hcnt]; exact h.states_iff
    · rw [hfinals, hpid]; exact h.finals_iff
    · intro e he
      rw [htemp] at he
      rw [hpid]
      rcases mem_mapAssign he with h1 | h1
      · rw [h1]
        exact ⟨rfl, hs, Or.inr rfl⟩
      · exact h.temp_entry e h1
    · intro x hx hxc s' hs'
      rw [hpid] at hx ⊢
      obtain ⟨p1, p2⟩ := h.processed x hx hxc s' hs'
      refine ⟨?_, ?_⟩
      · rw [hfind, if_neg (fun hc => hxc (Prod.mk.inj hc).1.symm)]
        exact p1
      · rcases p2 with p2 | p2 | p2
        · exact Or.inl p2
        · exact Or.inr (Or.inl (hqsub _ p2))
        · exact Or.inr (Or.inr p2)
    · intro s' hs'
      rw [hpid]
      by_cases hss : s' = s
      · subst hss
        refine ⟨by rw [hfind, if_pos rfl], ?_⟩
        rcases htgt with h1 | h1
        · exact Or.inl h1
        · exact Or.inr (Or.inl h1)
      · have hsd : s' ∈ done := by
          rcases List.mem_append.1 hs' with h1 | h1
          · exact h1
          · exact absurd (List.mem_singleton.1 h1) hss
        obtain ⟨p1, p2⟩ := h.cur_processed s' hsd
        refine ⟨?_, ?_⟩
        · rw [hfind, if_neg (fun hc => hss (Prod.mk.inj hc).2.symm)]
          exact p1
        · rcases p2 with p2 | p2 | p2
          · exact Or.inl p2
          · exact Or.inr (Or.inl (hqsub _ p2))
          · exact Or.inr (Or.inr p2)
    · rintro ⟨s', hs', hne⟩
      rw [hpid]
      by_cases hss : s' = s
      · subst hss
        cases hm : mapFind cur st.pairID with
        | none => exact absurd ⟨hne, by rw [hm]; rfl⟩ hnew
        | some v => rfl
      · have hsd : s' ∈ done := by
          rcases List.mem_append.1 hs' with h1 | h1
          · exact h1
          · exact absurd (List.mem_singleton.1 h1) hss
        exact h.cur_id ⟨s', hsd, hne⟩
    · rw [hpid, hcnt]
      rcases h.init_id with h1 | ⟨h1, h2 | ⟨h2, -⟩⟩
      · exact Or.inl h1
      · exact Or.inr ⟨h1, Or.inl h2⟩
      · exact absurd h2 hcurne

theorem parallelSymbols_inv {a b : DFA} {al : List Nat} (hca : a.Closed) (hcb : b.Closed)
    (hN : a.m_States.length * b.m_States.length + 1 < 2 ^ 32) {cur : List Nat} (hcur : IsPair a b cur) :
    ∀ (syms2 done : List Nat) (st : ProdState), (∀ s ∈ syms2, s ∈ al) →
      ProdInv a b al st cur done →
      ProdInv a b al (syms2.foldl (parallelSymbol a b cur) st) cur (done ++ syms2) := by
  intro syms2
  induction syms2 with
  | nil => intro done st _ h; simpa using h
  | cons s rest ih =>
    intro done st hsub h
    obtain ⟨p, q, rfl, hp, hq⟩ := hcur
    have hstep := parallelSymbol_step a b p q st s
    have h' := ProdStep.keeps hca hcb hN h (hsub s (by simp)) ⟨p, q, rfl, hp, hq⟩ hstep
    have := ih (done ++ [s]) _ (fun x hx => hsub x (List.mem_cons_of_mem _ hx)) h'
    simpa only [List.foldl_cons, List.append_assoc, List.singleton_append] using this

theorem ProdInv.take {a b : DFA} {al : List Nat} {st : ProdState} {next : List Nat}
    {rest : List (List Nat)} (h : ProdInv a b al st [] al) (hq : st.queue = next :: rest) :
    ProdInv a b al { st with queue := rest } next [] ∧ IsPair a b next := by
  have hnext : IsPair a b next := h.queue_pair next (by rw [hq]; simp)
  have hsink : (mapFind ([] : List Nat) st.pairID).isSome = true := by rw [h.sink_id]; rfl
  have htgt : ∀ t : List Nat, ((mapFind t st.pairID).isSome = true ∨ t ∈ st.queue ∨ t = []) →
      ((mapFind t st.pairID).isSome = true ∨ t ∈ rest ∨ t = next) := by
    rintro t (h1 | h1 | h1)
    · exact Or.inl h1
    · rw [hq] at h1
      rcases List.mem_cons.1 h1 with h2 | h2
      · exact Or.inr (Or.inr h2)
      · exact Or.inr (Or.inl h2)
    · rw [h1]; exact Or.inl hsink
  refine ⟨⟨h.alphabet_eq, h.initial, h.sink_id, h.keys_pair, h.keys_nodup, h.vals_nodup,
    h.vals_lt, h.vals_cover, ?_, h.states_iff, h.finals_iff, ?_, ?_, ?_, ?_, ?_⟩, hnext⟩
  · intro x hx
    exact h.queue_pair x (by rw [hq]; simp [hx])
  · intro e he
    obtain ⟨e1, e2, e3⟩ := h.temp_entry e he
    refine ⟨e1, e2, Or.inl ?_⟩
    rcases e3 with e3 | e3
    · exact e3
    · rw [e3]; exact hsink
  · intro x hx _ s hs
    by_cases hx0 : x = []
    · subst hx0
      obtain ⟨p1, p2⟩ := h.cur_processed s hs
      exact ⟨p1, htgt _ p2⟩
    · obtain ⟨p1, p2⟩ := h.processed x hx hx0 s hs
      exact ⟨p1, htgt _ p2⟩
  · intro s hs; simp at hs
  · rintro ⟨s, hs, -⟩; simp at hs
  · rcases h.init_id with h1 | ⟨h1, h2 | ⟨-, h2⟩⟩
    · exact Or.inl h1
    · simp at h2
    · right
      refine ⟨h1, Or.inl ?_⟩
      rw [hq] at h2
      simp only [List.cons.injEq] at h2
      exact h2.1

theorem ProdInv.round_done {a b : DFA} {al : List Nat} {st : ProdState} {next : List Nat}
    (h : ProdInv a b al st next al) (hnext : IsPair a b next)
    (hshare : ∃ s ∈ al, pairTarget a b next s ≠ []) : ProdInv a b al st [] al := by
  have hid : (mapFind next st.pairID).isSome = true := h.cur_id hshare
  have hsink : (mapFind ([] : List Nat) st.pairID).isSome = true := by rw [h.sink_id]; rfl
  have hne : next ≠ [] := hnext.ne_nil
  have htgt : ∀ t : List Nat,
      ((mapFind t st.pairID).isSome = true ∨ t ∈ st.queue ∨ t = next) →
      ((mapFind t st.pairID).isSome = true ∨ t ∈ st.queue ∨ t = []) := by
    rintro t (h1 | h1 | h1)
    · exact Or.inl h1
    · exact Or.inr (Or.inl h1)
    · rw [h1]; exact Or.inl hid
  refine ⟨h.alphabet_eq, h.initial, h.sink_id, h.keys_pair, h.keys_nodup, h.vals_nodup,
    h.vals_lt, h.vals_cover, h.queue_pair, h.states_iff, h.finals_iff, ?_, ?_, ?_, ?_, ?_⟩
  · intro e he
    obtain ⟨e1, e2, e3⟩ := h.temp_entry e he
    refine ⟨e1, e2, Or.inl ?_⟩
    rcases e3 with e3 | e3
    · exact e3
    · rw [e3]; exact hid
  · intro x hx _ s hs
    by_cases hxn : x = next
    · subst hxn
      obtain ⟨p1, p2⟩ := h.cur_processed s hs
      exact ⟨p1, htgt _ p2⟩
    · obtain ⟨p1, p2⟩ := h.processed x hx hxn s hs
      exact ⟨p1, htgt _ p2⟩
  · intro s hs
    obtain ⟨p1, p2⟩ := h.processed [] (mapFind_key_mem h.sink_id) (Ne.symm hne) s hs
    exact ⟨p1, htgt _ p2⟩
  · intro _; exact hsink
  · rcases h.init_id with h1 | ⟨h1, h2 | ⟨h2, -⟩⟩
    · exact Or.inl h1
    · exfalso
      obtain ⟨v, hv⟩ := Option.isSome_iff_exists.1 hid
      have hlt := h.vals_lt v (mapFind_val_mem hv)
      have hv0 : v = 0 := by omega
      subst hv0
      exact hne (mapFind_inj h.vals_nodup hv h.sink_id)
    · exact absurd h2 hne

theorem parallelFuel_succ (n r : Nat) : parallelFuel n (r + 1) = 1 + n * parallelFuel n r := rfl

theorem parallelFuel_le_succ (n r : Nat) : parallelFuel n r ≤ parallelFuel n (r + 1) := by
  induction r with
  | zero => simp [parallelFuel]
  | succ r ih =>
    have h1 := parallelFuel_succ n (r + 1)
    have h2 := parallelFuel_succ n r
    have := Nat.mul_le_mul_left n ih
    omega

theorem parallelFuel_mono (n : Nat) {r r' : Nat} (h : r ≤ r') :
    parallelFuel n r ≤ parallelFuel n r' := by
  induction h with
  | refl => exact Nat.le_refl _
  | step _ ih => exact Nat.le_trans ih (parallelFuel_le_succ n _)

theorem pairWeight_congr (n : Nat) (a b : DFA) {st st' : ProdState}
    (h : st'.pairID = st.pairID) (x : List Nat) :
    pairWeight n a b st' x = pairWeight n a b st x := by
  unfold pairWeight pairRank
  rw [h]

theorem ProdStep.weight {a b : DFA} {al : List Nat} {st st' : ProdState}
    {cur done : List Nat} {s : Nat} (n : Nat) (h : ProdInv a b al st cur done)
    (hcur : IsPair a b cur) (hr : ProdStep a b st st' cur s) (k : Nat) :
    queueWeight n a b st' + roundBudget n a b st' cur k ≤
      queueWeight n a b st + roundBudget n a b st cur (k + 1) := by
  obtain ⟨-, hpid, -, -, -, hqueue, -, -⟩ := hr
  by_cases hnew : pairTarget a b cur s ≠ [] ∧ (mapFind cur st.pairID).isNone = true
  · rw [if_pos hnew] at hpid
    have hnone : mapFind cur st.pairID = none := Option.isNone_iff_eq_none.1 hnew.2
    have hlen := h.ids_le hcur hnone
    have hrank : pairRank a b st' + 1 = pairRank a b st := by
      unfold pairRank
      rw [hpid]
      simp only [List.length_cons]
      omega
    have hcurid : (mapFind cur st'.pairID).isSome = true := by
      rw [hpid, mapFind_cons, if_pos rfl]; rfl
    have hw : ∀ x ∈ st.queue, pairWeight n a b st' x ≤ pairWeight n a b st x := by
      intro x _
      unfold pairWeight
      apply parallelFuel_mono
      by_cases hxc : x = cur
      · subst hxc
        rw [hcurid, hnone]
        simp only [if_true, Option.isSome_none, Bool.false_eq_true, if_false]
        omega
      · have : mapFind x st'.pairID = mapFind x st.pairID := by
          rw [hpid, mapFind_cons, if_neg (Ne.symm hxc)]
        rw [this]
        omega
    have hsum : (st.queue.map (pairWeight n a b st')).sum ≤
        (st.queue.map (pairWeight n a b st)).sum := List.sum_le_sum hw
    have hq' : queueWeight n a b st' ≤
        (st.queue.map (pairWeight n a b st')).sum + parallelFuel n (pairRank a b st') := by
      unfold queueWeight
      rw [hqueue]
      split_ifs with hc
      · have hc2 : (mapFind (pairTarget a b cur s) st'.pairID).isSome = false := by
          cases hm : mapFind (pairTarget a b cur s) st'.pairID with
          | none => rfl
          | some v => rw [hm] at hc; simp at hc
        simp only [List.map_append, List.map_cons, List.map_nil, List.sum_append, List.sum_cons,
          List.sum_nil, pairWeight, hc2, Bool.false_eq_true, if_false, Nat.add_zero]
        omega
      · omega
    have hb' : roundBudget n a b st' cur k = k * parallelFuel n (pairRank a b st') := by
      unfold roundBudget
      rw [hcurid]; rfl
    have hb : roundBudget n a b st cur (k + 1) =
        k * parallelFuel n (pairRank a b st') + parallelFuel n (pairRank a b st') := by
      unfold roundBudget
      rw [hnone, ← hrank]
      simp only [Option.isSome_none, Bool.false_eq_true, if_false, Nat.add_sub_cancel,
        Nat.succ_mul]
    rw [hb', hb]
    unfold queueWeight at hq' ⊢
    omega
  · rw [if_neg hnew] at hpid
    have hrank : pairRank a b st' = pairRank a b st := by
      unfold pairRank; rw [hpid]
    have hwq : ∀ l : List (List Nat), (l.map (pairWeight n a b st')).sum =
        (l.map (pairWeight n a b st)).sum := by
      intro l
      congr 1
      exact List.map_congr_left (fun x _ => pairWeight_congr n a b hpid x)
    have hbk : ∀ j, roundBudget n a b st' cur j = roundBudget n a b st cur j := by
      intro j
      unfold roundBudget
      rw [hpid, hrank]
    rw [hbk]
    unfold queueWeight
    rw [hwq, hqueue]
    split_ifs with hc
    · -- the target is pushed: `cur` has an id
      have hcid : (mapFind cur st.pairID).isSome = true := by
        cases hm : mapFind cur st.pairID with
        | none => exact absurd ⟨hc.1, by rw [hm]; rfl⟩ hnew
        | some v => rfl
      have hc2 : (mapFind (pairTarget a b cur s) st.pairID).isSome = false := by
        have hc' := hc.2
        rw [hpid] at hc'
        cases hm : mapFind (pairTarget a b cur s) st.pairID with
        | none => rfl
        | some v => rw [hm] at hc'; simp at hc'
      unfold roundBudget
      simp only [List.map_append, List.map_cons, List.map_nil, List.sum_append, List.sum_cons,
        List.sum_nil, pairWeight, hc2, hcid, Bool.false_eq_true, if_false, if_true,
        Nat.succ_mul, Nat.add_zero]
      omega
    · unfold roundBudget
      simp only [Nat.succ_mul]
      omega

theorem parallelSymbols_weight {a b : DFA} {al : List Nat} (hca : a.Closed) (hcb : b.Closed)
    (hN : a.m_States.length * b.m_States.length + 1 < 2 ^ 32) (n : Nat) {cur : List Nat} (hcur : IsPair a b cur) :
    ∀ (syms2 done : List Nat) (st : ProdState), (∀ s ∈ syms2, s ∈ al) →
      ProdInv a b al st cur done →
      queueWeight n a b (syms2.foldl (parallelSymbol a b cur) st) ≤
        queueWeight n a b st + roundBudget n a b st cur syms2.length := by
  intro syms2
  induction syms2 with
  | nil => intro done st _ _; simp
  | cons s rest ih =>
    intro done st hsub h
    obtain ⟨p, q, rfl, hp, hq⟩ := hcur
    have hstep := parallelSymbol_step a b p q st s
    have h' := ProdStep.keeps hca hcb hN h (hsub s (by simp)) ⟨p, q, rfl, hp, hq⟩ hstep
    have hw := ProdStep.weight n h ⟨p, q, rfl, hp, hq⟩ hstep rest.length
    have := ih (done ++ [s]) _ (fun x hx => hsub x (List.mem_cons_of_mem _ hx)) h'
    simp only [List.foldl_cons, List.length_cons]
    omega

theorem ProdInv.take_weight {a b : DFA} {al : List Nat} {st : ProdState} {next : List Nat}
    {rest : List (List Nat)} (h : ProdInv a b al st [] al) (hq : st.queue = next :: rest)
    (n : Nat) :
    queueWeight n a b { st with queue := rest } +
        roundBudget n a b { st with queue := rest } next n + 1 ≤ queueWeight n a b st := by
  have hnext : IsPair a b next := h.queue_pair next (by rw [hq]; simp)
  have e1 : queueWeight n a b { st with queue := rest } =
      (rest.map (pairWeight n a b st)).sum := rfl
  have e2 : queueWeight n a b st =
      pairWeight n a b st next + (rest.map (pairWeight n a b st)).sum := by
    unfold queueWeight
    rw [hq]
    simp
  have e3 : roundBudget n a b { st with queue := rest } next n =
      roundBudget n a b st next n := rfl
  rw [e1, e2, e3]
  unfold roundBudget pairWeight
  cases hm : mapFind next st.pairID with
  | some v =>
    simp only [Option.isSome_some, if_true]
    have := parallelFuel_succ n (pairRank a b st)
    omega
  | none =>
    have hlen := h.ids_le hnext hm
    have hr : pairRank a b st = (pairRank a b st - 1) + 1 := by
      unfold pairRank; omega
    simp only [Option.isSome_none, Bool.false_eq_true, if_false, Nat.add_zero]
    have := parallelFuel_succ n (pairRank a b st - 1)
    rw [← hr] at this
    omega

theorem parallelLoop_spec {a b : DFA} {al : List Nat} (hca : a.Closed) (hcb : b.Closed)
    (hN : a.m_States.length * b.m_States.length + 1 < 2 ^ 32)
    (hshare : ∀ x, IsPair a b x → ∃ s ∈ al, pairTarget a b x s ≠ []) :
    ∀ (fuel : Nat) (st : ProdState), ProdInv a b al st [] al →
      queueWeight al.length a b st < fuel →
      ∃ st', parallelLoop a b fuel st = some st' ∧ ProdInv a b al st' [] al ∧
        st'.queue = [] := by
  intro fuel
  induction fuel with
  | zero => intro st _ hlt; omega
  | succ fuel ih =>
    intro st h hlt
    unfold parallelLoop
    cases hq : st.queue with
    | nil => exact ⟨st, rfl, h, hq⟩
    | cons next rest =>
      simp only
      rw [h.alphabet_eq]
      obtain ⟨hpop, hnext⟩ := h.take hq
      have hinv := parallelSymbols_inv hca hcb hN hnext al [] _ (fun s hs => hs) hpop
      simp only [List.nil_append] at hinv
      have hfin := hinv.round_done hnext (hshare next hnext)
      have hw := parallelSymbols_weight hca hcb hN al.length hnext al [] _ (fun s hs => hs)
        hpop
      have hp := h.take_weight hq al.length
      apply ih _ hfin
      omega

theorem mapFind_sinkLoops (syms : List Nat) :
    ∀ (acc : List ((List Nat × Nat) × List Nat)) (x : List Nat) (s : Nat),
      mapFind (x, s) (syms.foldl (fun t symbol => mapAssign vecKeyLt ([], symbol) [] t) acc) =
        if x = [] ∧ s ∈ syms then some [] else mapFind (x, s) acc := by
  induction syms with
  | nil => intro acc x s; simp
  | cons c syms ih =>
    intro acc x s
    rw [List.foldl_cons, ih, mapFind_mapAssign]
    by_cases hx : x = []
    · subst hx
      by_cases hs : s ∈ syms
      · simp [hs]
      · by_cases hc : c = s
        · subst hc; simp
        · have hc' : s ≠ c := fun e => hc e.symm
          simp [hs, hc, hc']
    · have hne : ¬ (([] : List Nat), c) = (x, s) := by
        intro e; exact hx (Prod.mk.inj e).1.symm
      simp [hx, hne]

theorem mem_sinkLoops (syms : List Nat) :
    ∀ (acc : List ((List Nat × Nat) × List Nat)),
      ∀ e ∈ syms.foldl (fun t symbol => mapAssign vecKeyLt ([], symbol) [] t) acc,
        e ∈ acc ∨ ∃ s ∈ syms, e = (([], s), []) := by
  induction syms with
  | nil => intro acc e he; exact Or.inl he
  | cons c syms ih =>
    intro acc e he
    rw [List.foldl_cons] at he
    rcases ih _ e he with h1 | ⟨s, hs, h1⟩
    · rcases mem_mapAssign h1 with h2 | h2
      · exact Or.inr ⟨c, by simp, h2⟩
      · exact Or.inl h2
    · exact Or.inr ⟨s, by simp [hs], h1⟩

theorem mem_foldl_assign {E K V : Type} [DecidableEq K] (lt : K → K → Bool) (F : E → K × V)
    (l : List E) :
    ∀ (acc : List (K × V)),
      ∀ x ∈ l.foldl (fun t e => mapAssign lt (F e).1 (F e).2 t) acc,
        x ∈ acc ∨ ∃ e ∈ l, x = F e := by
  induction l with
  | nil => intro acc x hx; exact Or.inl hx
  | cons e0 l ih =>
    intro acc x hx
    rw [List.foldl_cons] at hx
    rcases ih _ x hx with h1 | ⟨e, he, h1⟩
    · rcases mem_mapAssign h1 with h2 | h2
      · exact Or.inr ⟨e0, by simp, h2⟩
      · exact Or.inl h2
    · exact Or.inr ⟨e, by simp [he], h1⟩

theorem mapFind_foldl_assign {E K V : Type} [DecidableEq K] (lt : K → K → Bool)
    (F : E → K × V) (l : List E) :
    ∀ (acc : List (K × V)),
      (∀ e ∈ l, ∀ e' ∈ l, (F e).1 = (F e').1 → (F e).2 = (F e').2) →
      (∀ e ∈ l, mapFind (F e).1 (l.foldl (fun t e => mapAssign lt (F e).1 (F e).2 t) acc) =
        some (F e).2) ∧
      (∀ k, (∀ e ∈ l, (F e).1 ≠ k) →
        mapFind k (l.foldl (fun t e => mapAssign lt (F e).1 (F e).2 t) acc) = mapFind k acc) := by
  induction l with
  | nil =>
    intro acc _
    exact ⟨fun e he => by simp at he, fun k _ => rfl⟩
  | cons e0 l ih =>
    intro acc hcons
    obtain ⟨ih1, ih2⟩ := ih (mapAssign lt (F e0).1 (F e0).2 acc)
      (fun e he e' he' => hcons e (by simp [he]) e' (by simp [he']))
    refine ⟨fun e he => ?_, fun k hk => ?_⟩
    · rw [List.foldl_cons]
      rcases List.mem_cons.1 he with h1 | h1
      · subst h1
        by_cases hex : ∃ e' ∈ l, (F e').1 = (F e).1
        · obtain ⟨e', he', hk⟩ := hex
          have h2 := ih1 e' he'
          rw [hk] at h2
          rw [h2, hcons e' (by simp [he']) e (by simp) hk]
        · rw [ih2 (F e).1 (fun e' he' hc => hex ⟨e', he', hc⟩), mapFind_mapAssign, if_pos rfl]
      · exact ih1 e h1
    · rw [List.foldl_cons, ih2 k (fun e he => hk e (by simp [he])), mapFind_mapAssign,
        if_neg (hk e0 (by simp))]

theorem prodInv_init {a b : DFA} (hca : a.Closed) (hcb : b.Closed) (al : List Nat) :
    ProdInv a b al
      { result :=
          { m_States := [0]
            m_Alphabet := al
            m_Transitions := []
            m_InitialState := 1
            m_FinalStates := [] }
        tempTransitions := al.foldl (fun t symbol => mapAssign vecKeyLt ([], symbol) [] t) []
        pairID := [([], 0)]
        queue := [[a.m_InitialState, b.m_InitialState]]
        stateCounter := 1 } [] al where
  alphabet_eq := rfl
  initial := rfl
  sink_id := rfl
  keys_pair := by
    intro x hx
    simp only [List.map_cons, List.map_nil, List.mem_singleton] at hx
    exact Or.inl hx
  keys_nodup := by simp
  vals_nodup := by simp
  vals_lt := by simp
  vals_cover := by
    intro i hi
    have hi' : i < 1 := hi
    have : i = 0 := by omega
    simp [this]
  queue_pair := by
    intro x hx
    simp only [List.mem_singleton] at hx
    exact ⟨_, _, hx, hca.initial_mem, hcb.initial_mem⟩
  states_iff := by
    intro i
    show i ∈ [0] ↔ i < 1
    simp only [List.mem_singleton]
    omega
  finals_iff := by
    intro i
    simp only [List.not_mem_nil, false_iff, not_exists, not_and]
    intro x hx
    rw [mapFind_cons] at hx
    split_ifs at hx with h1
    · rw [← h1]; simp [pairFinal]
    · simp [mapFind] at hx
  temp_entry := by
    intro e he
    rcases mem_sinkLoops al [] e he with h1 | ⟨s, hs, h1⟩
    · simp at h1
    · rw [h1]
      exact ⟨rfl, hs, Or.inl rfl⟩
  processed := by
    intro x hx hne
    simp only [List.map_cons, List.map_nil, List.mem_singleton] at hx
    exact absurd hx hne
  cur_processed := by
    intro s hs
    refine ⟨?_, Or.inl rfl⟩
    rw [mapFind_sinkLoops, if_pos ⟨rfl, hs⟩]
    rfl
  cur_id := fun _ => rfl
  init_id := Or.inr ⟨rfl, Or.inr ⟨rfl, rfl⟩⟩

theorem ProdInv.hasId_of_some {a b : DFA} {al : List Nat} {st : ProdState}
    {cur done : List Nat} (_h : ProdInv a b al st cur done) {x : List Nat}
    (hx : (mapFind x st.pairID).isSome = true) :
    ∃ v, mapFind x st.pairID = some v ∧ lookupD st.pairID x = v ∧ v < st.stateCounter := by
  obtain ⟨v, hv⟩ := Option.isSome_iff_exists.1 hx
  exact ⟨v, hv, lookupD_of_mapFind hv, _h.vals_lt v (mapFind_val_mem hv)⟩

theorem ProdInv.all_processed {a b : DFA} {al : List Nat} {st : ProdState}
    (h : ProdInv a b al st [] al) (hq : st.queue = []) :
    ∀ x ∈ st.pairID.map Prod.fst, ∀ s ∈ al,
      mapFind (x, s) st.tempTransitions = some (pairTarget a b x s) ∧
        (mapFind (pairTarget a b x s) st.pairID).isSome = true := by
  have hsink : (mapFind ([] : List Nat) st.pairID).isSome = true := by rw [h.sink_id]; rfl
  have htgt : ∀ t : List Nat,
      ((mapFind t st.pairID).isSome = true ∨ t ∈ st.queue ∨ t = []) →
      (mapFind t st.pairID).isSome = true := by
    rintro t (h1 | h1 | h1)
    · exact h1
    · rw [hq] at h1; simp at h1
    · rw [h1]; exact hsink
  intro x hx s hs
  by_cases hx0 : x = []
  · subst hx0
    obtain ⟨p1, p2⟩ := h.cur_processed s hs
    exact ⟨p1, htgt _ p2⟩
  · obtain ⟨p1, p2⟩ := h.processed x hx hx0 s hs
    exact ⟨p1, htgt _ p2⟩

theorem ProdInv.trans_spec {a b : DFA} {al : List Nat} {st : ProdState}
    (h : ProdInv a b al st [] al) (hq : st.queue = []) :
    (∀ x ∈ st.pairID.map Prod.fst, ∀ s ∈ al,
      mapFind (lookupD st.pairID x, s) (productTransitions st) =
        some (lookupD st.pairID (pairTarget a b x s))) ∧
    (∀ i s, s ∉ al → mapFind (i, s) (productTransitions st) = none) ∧
    (∀ e ∈ productTransitions st,
      e.1.1 < st.stateCounter ∧ e.1.2 ∈ al ∧ e.2 < st.stateCounter) := by
  have hsink : (mapFind ([] : List Nat) st.pairID).isSome = true := by rw [h.sink_id]; rfl
  have hall := h.all_processed hq
  have hsrc : ∀ e ∈ st.tempTransitions, (mapFind e.1.1 st.pairID).isSome = true := by
    intro e he
    rcases (h.temp_entry e he).2.2 with h1 | h1
    · exact h1
    · rw [h1]; exact hsink
  have hcons : ∀ e ∈ st.tempTransitions, ∀ e' ∈ st.tempTransitions,
      (lookupD st.pairID e.1.1, e.1.2) = (lookupD st.pairID e'.1.1, e'.1.2) →
      lookupD st.pairID e.2 = lookupD st.pairID e'.2 := by
    intro e he e' he' hk
    obtain ⟨v, hv, hl, -⟩ := h.hasId_of_some (hsrc e he)
    obtain ⟨v', hv', hl', -⟩ := h.hasId_of_some (hsrc e' he')
    rw [hl, hl'] at hk
    obtain ⟨k1, k2⟩ := Prod.mk.inj hk
    rw [← k1] at hv'
    have hx : e.1.1 = e'.1.1 := mapFind_inj h.vals_nodup hv hv'
    rw [(h.temp_entry e he).1, (h.temp_entry e' he').1, hx, k2]
  obtain ⟨f1, f2⟩ := mapFind_foldl_assign keyLt
    (fun e : (List Nat × Nat) × List Nat =>
      ((lookupD st.pairID e.1.1, e.1.2), lookupD st.pairID e.2))
    st.tempTransitions [] hcons
  refine ⟨?_, ?_, ?_⟩
  · intro x hx s hs
    obtain ⟨p1, -⟩ := hall x hx s hs
    exact f1 ((x, s), pairTarget a b x s) (mapFind_mem p1)
  · intro i s hs
    have := f2 (i, s) (fun e he hc => hs ((Prod.mk.inj hc).2 ▸ (h.temp_entry e he).2.1))
    exact this
  · intro e he
    rcases mem_foldl_assign keyLt
      (fun e : (List Nat × Nat) × List Nat =>
        ((lookupD st.pairID e.1.1, e.1.2), lookupD st.pairID e.2))
      st.tempTransitions [] e he with h1 | ⟨e0, he0, h1⟩
    · simp at h1
    · rw [h1]
      obtain ⟨v, hv, hl, hlt⟩ := h.hasId_of_some (hsrc e0 he0)
      obtain ⟨t1, t2, -⟩ := h.temp_entry e0 he0
      obtain ⟨-, p2⟩ := hall e0.1.1 (mapFind_key_mem hv) e0.1.2 t2
      rw [← t1] at p2
      obtain ⟨v2, -, hl2, hlt2⟩ := h.hasId_of_some p2
      exact ⟨by show lookupD st.pairID e0.1.1 < _; rw [hl]; exact hlt, t2,
        by show lookupD st.pairID e0.2 < _; rw [hl2]; exact hlt2⟩

theorem ProdInv.product_run {a b : DFA} {al : List Nat} {st : ProdState}
    (h : ProdInv a b al st [] al) (hq : st.queue = [])
    (hal : ∀ s, s ∈ a.m_Alphabet → s ∈ al) (hca : a.Closed) (R : DFA)
    (hRt : R.m_Transitions = productTransitions st) (hRi : R.m_InitialState = 1)
    (w : List Nat) :
    (∃ p q, a.run w = some p ∧ b.run w = some q ∧ [p, q] ∈ st.pairID.map Prod.fst ∧
        R.run w = some (lookupD st.pairID [p, q])) ∨
      ((a.run w = none ∨ b.run w = none) ∧ (R.run w = some 0 ∨ R.run w = none)) := by
  obtain ⟨t1, t2, -⟩ := h.trans_spec hq
  have hall := h.all_processed hq
  have hsink0 : lookupD st.pairID [] = 0 := lookupD_of_mapFind h.sink_id
  have hsinkkey : ([] : List Nat) ∈ st.pairID.map Prod.fst := mapFind_key_mem h.sink_id
  induction w using List.reverseRecOn with
  | nil =>
    left
    have hinit : mapFind [a.m_InitialState, b.m_InitialState] st.pairID = some 1 := by
      rcases h.init_id with h1 | ⟨-, h2 | ⟨-, h2⟩⟩
      · exact h1
      · simp at h2
      · rw [hq] at h2; simp at h2
    exact ⟨a.m_InitialState, b.m_InitialState, rfl, rfl, mapFind_key_mem hinit,
      by rw [DFA.run_nil, hRi, lookupD_of_mapFind hinit]⟩
  | append_singleton w c ih =>
    simp only [DFA.run_append_singleton]
    rcases ih with ⟨p, q, ha, hb, hkey, hR⟩ | ⟨hab, hR⟩
    · rw [ha, hb, hR, DFA.step_some, DFA.step_some, DFA.step_some, hRt]
      by_cases hc : c ∈ al
      · rw [t1 [p, q] hkey c hc]
        cases hA : mapFind (p, c) a.m_Transitions with
        | none =>
          right
          have ht : pairTarget a b [p, q] c = [] := by simp [pairTarget, hA]
          rw [ht, hsink0]
          exact ⟨Or.inl rfl, Or.inl rfl⟩
        | some ta =>
          cases hB : mapFind (q, c) b.m_Transitions with
          | none =>
            right
            have ht : pairTarget a b [p, q] c = [] := by simp [pairTarget, hA, hB]
            rw [ht, hsink0]
            exact ⟨Or.inr rfl, Or.inl rfl⟩
          | some tb =>
            left
            have ht : pairTarget a b [p, q] c = [ta, tb] := by simp [pairTarget, hA, hB]
            obtain ⟨-, p2⟩ := hall [p, q] hkey c hc
            rw [ht] at p2 ⊢
            obtain ⟨v, hv⟩ := Option.isSome_iff_exists.1 p2
            exact ⟨ta, tb, rfl, rfl, mapFind_key_mem hv, rfl⟩
      · right
        rw [t2 _ c hc]
        refine ⟨Or.inl ?_, Or.inr rfl⟩
        cases hA : mapFind (p, c) a.m_Transitions with
        | none => rfl
        | some ta => exact absurd (hal c (hca.trans_sym _ (mapFind_mem hA))) hc
    · right
      refine ⟨?_, ?_⟩
      · rcases hab with h1 | h1
        · left; rw [h1]; rfl
        · right; rw [h1]; rfl
      · rcases hR with h1 | h1
        · rw [h1, DFA.step_some, hRt]
          by_cases hc : c ∈ al
          · left
            have := t1 [] hsinkkey c hc
            rw [hsink0] at this
            rw [this]
            have ht : pairTarget a b [] c = [] := rfl
            rw [ht, hsink0]
          · right
            exact t2 _ c hc
        · right; rw [h1]; rfl

theorem pairFinal_pair (a b : DFA) (p q : Nat) :
    pairFinal a b [p, q] = decide (p ∈ a.m_FinalStates ∧ q ∈ b.m_FinalStates) := rfl

theorem ProdInv.product_accepts {a b : DFA} {al : List Nat} {st : ProdState}
    (h : ProdInv a b al st [] al) (hq : st.queue = [])
    (hal : ∀ s, s ∈ a.m_Alphabet → s ∈ al) (hca : a.Closed) (R : DFA)
    (hRt : R.m_Transitions = productTransitions st) (hRi : R.m_InitialState = 1)
    (hRf : R.m_FinalStates = st.result.m_FinalStates) (w : List Nat) :
    R.accepts w = (a.accepts w && b.accepts w) := by
  have h0 : 0 ∉ st.result.m_FinalStates := by
    rw [h.finals_iff]
    rintro ⟨x, hx, hxf⟩
    have : x = [] := mapFind_inj h.vals_nodup hx h.sink_id
    rw [this] at hxf
    simp [pairFinal] at hxf
  rcases h.product_run hq hal hca R hRt hRi w with ⟨p, q, ha, hb, hkey, hR⟩ | ⟨hab, hR⟩
  · rw [DFA.accepts_eq_run, DFA.accepts_eq_run, DFA.accepts_eq_run, ha, hb, hR, hRf]
    simp only
    obtain ⟨v, hv⟩ := mapFind_isSome_of_mem hkey
    rw [lookupD_of_mapFind hv, Bool.eq_iff_iff]
    simp only [decide_eq_true_eq, Bool.and_eq_true]
    rw [h.finals_iff]
    constructor
    · rintro ⟨x, hx, hxf⟩
      have : x = [p, q] := mapFind_inj h.vals_nodup hx hv
      rw [this, pairFinal_pair, decide_eq_true_eq] at hxf
      exact hxf
    · intro hpq
      exact ⟨[p, q], hv, by rw [pairFinal_pair, decide_eq_true_eq]; exact hpq⟩
  · have hR' : R.accepts w = false := by
      rw [DFA.accepts_eq_run]
      rcases hR with h1 | h1
      · rw [h1, hRf]
        simp [h0]
      · rw [h1]
    have hab' : (a.accepts w && b.accepts w) = false := by
      rcases hab with h1 | h1
      · rw [DFA.accepts_eq_run a, h1]; rfl
      · rw [DFA.accepts_eq_run b, h1]; simp
    rw [hR', hab']

/-- For DFAs with closed references that are total over their own alphabets and
share a symbol, `parallelRun` returns a DFA: closed, total over the union of the
alphabets, with initial state 1 and the non-accepting sink 0, accepting exactly
the words both operands accept. -/
theorem parallelRun_spec {a b : DFA} (hca : a.Closed) (hcb : b.Closed) (hta : a.Total)
    (htb : b.Total) (hN : a.m_States.length * b.m_States.length + 1 < 2 ^ 32)
    (hshare : ∃ c, c ∈ a.m_Alphabet ∧ c ∈ b.m_Alphabet) :
    ∃ R, parallelRun a b = some R ∧ R.Closed ∧ R.Total ∧
      (∀ s, s ∈ R.m_Alphabet ↔ s ∈ a.m_Alphabet ∨ s ∈ b.m_Alphabet) ∧
      R.m_InitialState = 1 ∧ 0 ∈ R.m_States ∧ 0 ∉ R.m_FinalStates ∧
      ∀ w, R.accepts w = (a.accepts w && b.accepts w) := by
  have hal : ∀ s, s ∈ setInsertAll b.m_Alphabet (setInsertAll a.m_Alphabet []) ↔
      s ∈ a.m_Alphabet ∨ s ∈ b.m_Alphabet := by
    intro s
    simp only [mem_setInsertAll, List.not_mem_nil, or_false]
    exact Or.comm
  have hsh : ∀ x, IsPair a b x →
      ∃ s ∈ setInsertAll b.m_Alphabet (setInsertAll a.m_Alphabet []),
        pairTarget a b x s ≠ [] := by
    rintro x ⟨p, q, rfl, hp, hq⟩
    obtain ⟨c, hc1, hc2⟩ := hshare
    refine ⟨c, (hal c).2 (Or.inl hc1), ?_⟩
    have hA := hta.find hp hc1
    have hB := htb.find hq hc2
    simp [pairTarget, hA, hB]
  obtain ⟨st, hloop, hinv, hq⟩ := parallelLoop_spec hca hcb hN hsh
    (parallelFuel (setInsertAll b.m_Alphabet (setInsertAll a.m_Alphabet [])).length
      (a.m_States.length * b.m_States.length) + 1) _
    (prodInv_init hca hcb (setInsertAll b.m_Alphabet (setInsertAll a.m_Alphabet [])))
    (by
      simp only [queueWeight, pairWeight, pairRank, List.map_cons, List.map_nil, List.sum_cons,
        List.sum_nil, List.length_cons, List.length_nil, mapFind_cons]
      simp [mapFind])
  obtain ⟨t1, t2, t3⟩ := hinv.trans_spec hq
  have hsinklt : 0 < st.stateCounter := hinv.vals_lt 0 (mapFind_val_mem hinv.sink_id)
  have h0 : 0 ∉ st.result.m_FinalStates := by
    rw [hinv.finals_iff]
    rintro ⟨x, hx, hxf⟩
    have : x = [] := mapFind_inj hinv.vals_nodup hx hinv.sink_id
    rw [this] at hxf
    simp [pairFinal] at hxf
  have hinit : mapFind [a.m_InitialState, b.m_InitialState] st.pairID = some 1 := by
    rcases hinv.init_id with h1 | ⟨-, h2 | ⟨-, h2⟩⟩
    · exact h1
    · simp at h2
    · rw [hq] at h2; simp at h2
  refine ⟨{ st.result with m_Transitions := productTransitions st }, ?_,
    ⟨?_, ?_, ?_, ?_, ?_⟩, ?_, ?_, hinv.initial, ?_, h0, ?_⟩
  · unfold parallelRun
    simp only [hloop]
    rfl
  · show st.result.m_InitialState ∈ st.result.m_States
    rw [hinv.initial, hinv.states_iff]
    exact hinv.vals_lt 1 (mapFind_val_mem hinit)
  · intro i hi
    show i ∈ st.result.m_States
    obtain ⟨x, hx, -⟩ := (hinv.finals_iff i).1 hi
    rw [hinv.states_iff]
    exact hinv.vals_lt i (mapFind_val_mem hx)
  · intro e he
    show e.1.1 ∈ st.result.m_States
    rw [hinv.states_iff]
    exact (t3 e he).1
  · intro e he
    show e.1.2 ∈ st.result.m_Alphabet
    rw [hinv.alphabet_eq]
    exact (t3 e he).2.1
  · intro e he
    show e.2 ∈ st.result.m_States
    rw [hinv.states_iff]
    exact (t3 e he).2.2
  · intro i hi s hs
    have hi' : i ∈ st.result.m_States := hi
    have hs' : s ∈ st.result.m_Alphabet := hs
    rw [hinv.states_iff] at hi'
    rw [hinv.alphabet_eq] at hs'
    obtain ⟨e, he, hev⟩ := List.mem_map.1 (hinv.vals_cover i hi')
    have hfind := mapFind_of_mem_nodup hinv.keys_nodup he
    rw [hev] at hfind
    have := t1 e.1 (List.mem_map.2 ⟨e, he, rfl⟩) s hs'
    rw [lookupD_of_mapFind hfind] at this
    show (mapFind (i, s) (productTransitions st)).isSome = true
    rw [this]; rfl
  · intro s
    show s ∈ st.result.m_Alphabet ↔ _
    rw [hinv.alphabet_eq]
    exact hal s
  · show 0 ∈ st.result.m_States
    rw [hinv.states_iff]; exact hsinklt
  · intro w
    exact hinv.product_accepts hq (fun s hs => (hal s).2 (Or.inl hs)) hca
      { st.result with m_Transitions := productTransitions st } rfl hinv.initial rfl w

/-- The DFAs `determine` returns for two NFAs with fewer than 32 states together
have a product of fewer than `2 ^ 32 - 1` pairs. -/
theorem determine_product_bound {a b : NFA} (ha : a.WF) (hb : b.WF)
    (hN : a.m_States.length + b.m_States.length < 32) {da db : DFA}
    (hda : determine a = some da) (hdb : determine b = some db) :
    da.m_States.length * db.m_States.length + 1 < 2 ^ 32 := by
  obtain ⟨da', hda', -, -, -, -, -, hla⟩ := determine_any_ids ha
  obtain ⟨db', hdb', -, -, -, -, -, hlb⟩ := determine_any_ids hb
  rw [hda] at hda'
  rw [hdb] at hdb'
  rw [← Option.some.inj hda'] at hla
  rw [← Option.some.inj hdb'] at hlb
  have h1 := Nat.mul_le_mul hla hlb
  rw [← pow_add] at h1
  have h2 : 2 ^ (a.m_States.length + b.m_States.length) ≤ 2 ^ 31 :=
    Nat.pow_le_pow_right (by norm_num) (by omega)
  have h3 : (2 : Nat) ^ 31 + 1 < 2 ^ 32 := by norm_num
  omega

/-- For well-formed NFAs with fewer than 32 states together whose alphabets share
a symbol and that accept a common word, `intersect a b` returns a DFA accepting
exactly the words both accept. -/
theorem intersect_spec {a b : NFA} (ha : a.WF) (hb : b.WF)
    (hN : a.m_States.length + b.m_States.length < 32)
    (hshare : ∃ c, c ∈ a.m_Alphabet ∧ c ∈ b.m_Alphabet)
    (hacc : ∃ w, a.accepts w = true ∧ b.accepts w = true) :
    ∃ D, intersect a b = some D ∧ ∀ w, D.accepts w = (a.accepts w && b.accepts w) := by
  obtain ⟨da, hda, hca, hta, haa, -, hla⟩ :=
    determine_output ha (NFA.fewSubsets_of_length ha (by omega))
  obtain ⟨db, hdb, hcb, htb, hab, -, hlb⟩ :=
    determine_output hb (NFA.fewSubsets_of_length hb (by omega))
  obtain ⟨R, hR, hRc, hRt, -, -, h0, h0f, hRl⟩ := parallelRun_spec hca hcb hta htb
    (determine_product_bound ha hb hN hda hdb) (by rw [haa, hab]; exact hshare)
  obtain ⟨w0, hw1, hw2⟩ := hacc
  obtain ⟨D, hD, hDl, -⟩ := minimize_spec hRc hRt ⟨0, h0, h0f⟩
    ⟨w0, by rw [hRl, hla, hlb, hw1, hw2]; rfl⟩
  refine ⟨D, ?_, fun w => by rw [hDl, hRl, hla, hlb]⟩
  unfold intersect
  simp only [hda, hdb, hR]
  exact hD

/-- For well-formed DFAs that are total over their own alphabets, share a symbol
and have a product of fewer than `2 ^ 32 - 1` pairs, `parallelRun a b` returns a
DFA, and that DFA accepts a word exactly when both `a` and `b` accept it. -/
theorem parallelRun_language (a b : DFA) (ha : a.WF) (hb : b.WF) (hta : a.Total)
    (htb : b.Total) (hN : a.m_States.length * b.m_States.length + 1 < 2 ^ 32)
    (hshare : ∃ c, c ∈ a.m_Alphabet ∧ c ∈ b.m_Alphabet) :
    ∃ R, parallelRun a b = some R ∧ ∀ w, R.accepts w = (a.accepts w && b.accepts w) := by
  obtain ⟨R, hR, -, -, -, -, -, -, hl⟩ :=
    parallelRun_spec ha.closed hb.closed hta htb hN hshare
  exact ⟨R, hR, hl⟩

/-- The language theorem of `parallelRun` applies to two total DFAs over `{a}`. -/
theorem parallelRun_language_witness :
    gapDfa.WF ∧ trapDfa.WF ∧ gapDfa.Total ∧ trapDfa.Total ∧
      gapDfa.m_States.length * trapDfa.m_States.length + 1 < 2 ^ 32 ∧
      (97 ∈ gapDfa.m_Alphabet ∧ 97 ∈ trapDfa.m_Alphabet) ∧
      ∃ R, parallelRun gapDfa trapDfa = some R ∧
        ∀ w, R.accepts w = (gapDfa.accepts w && trapDfa.accepts w) :=
  ⟨gapDfa_wf, trapDfa_wf, by unfold DFA.Total; decide, by unfold DFA.Total; decide,
    by decide, ⟨by decide, by decide⟩,
    parallelRun_language gapDfa trapDfa gapDfa_wf trapDfa_wf (by unfold DFA.Total; decide)
      (by unfold DFA.Total; decide) (by decide) ⟨97, by decide, by decide⟩⟩

/-- For well-formed NFAs with fewer than 32 states together whose alphabets share
a symbol and that accept a common word, `intersect a b` returns a DFA, and that DFA
accepts a word exactly when both `a` and `b` accept it. -/
theorem intersect_language (a b : NFA) (ha : a.WF) (hb : b.WF)
    (hN : a.m_States.length + b.m_States.length < 32)
    (hshare : ∃ c, c ∈ a.m_Alphabet ∧ c ∈ b.m_Alphabet)
    (hacc : ∃ w, a.accepts w = true ∧ b.accepts w = true) :
    ∃ D, intersect a b = some D ∧ ∀ w, D.accepts w = (a.accepts w && b.accepts w) :=
  intersect_spec ha hb hN hshare hacc

/-- The language theorem of `intersect` applies to the NFAs `a1` and `a2` of `main`,
which both accept `aa`. -/
theorem intersect_language_witness :
    sampleA1.WF ∧ sampleA2.WF ∧ sampleA1.m_States.length + sampleA2.m_States.length < 32 ∧
      (97 ∈ sampleA1.m_Alphabet ∧ 97 ∈ sampleA2.m_Alphabet) ∧
      (sampleA1.accepts [97, 97] = true ∧ sampleA2.accepts [97, 97] = true) ∧
      ∃ D, intersect sampleA1 sampleA2 = some D ∧
        ∀ w, D.accepts w = (sampleA1.accepts w && sampleA2.accepts w) :=
  ⟨sampleA1_wf, sampleA2_wf, by decide, ⟨by decide, by decide⟩, ⟨by decide, by decide⟩,
    intersect_language sampleA1 sampleA2 sampleA1_wf sampleA2_wf (by decide)
      ⟨97, by decide, by decide⟩ ⟨[97, 97], by decide, by decide⟩⟩

/-! ## Invariants of the results -/

theorem strayFinalDfa_wf : strayFinalDfa.WF :=
  ⟨by decide, by decide, by decide, by decide, by decide, by decide, by decide, by decide,
    by decide, by decide, by decide⟩

theorem skipNfa_wf : skipNfa.WF :=
  ⟨by decide, by decide, by decide, by decide, by decide, by decide, by decide, by decide,
    by decide, by decide, by decide, by decide, by decide⟩

theorem voidNfa_wf : voidNfa.WF :=
  ⟨by decide, by decide, by decide, by decide, by decide, by decide, by decide, by decide,
    by decide, by decide, by decide, by decide, by decide⟩

/-- C11: on a well-formed NFA `determine` returns a DFA that is total: every state
has, for every symbol of the alphabet of the NFA, a transition, and its target is a
state of the DFA. -/
theorem determine_total (n : NFA) (hn : n.WF) :
    ∃ d, determine n = some d ∧
      ∀ q ∈ d.m_States, ∀ a ∈ n.m_Alphabet,
        ∃ t, mapFind (q, a) d.m_Transitions = some t ∧ t ∈ d.m_States := by
  obtain ⟨d, hd, -, -, -, -, ht, -⟩ := determine_any_ids hn
  exact ⟨d, hd, ht⟩

/-- C11 on the NFA `a1` of `main`. -/
theorem determine_total_witness :
    sampleA1.WF ∧ ∃ d, determine sampleA1 = some d ∧
      ∀ q ∈ d.m_States, ∀ a ∈ sampleA1.m_Alphabet,
        ∃ t, mapFind (q, a) d.m_Transitions = some t ∧ t ∈ d.m_States :=
  ⟨sampleA1_wf, determine_total sampleA1 sampleA1_wf⟩

/-- C15, evaluated on the code: `minimize` of a total DFA with an unreachable
accepting state collapses the result to its initial state 1 and keeps the accepting
set `{1, 2}`, which is no subset of the state set `{1}`. -/
theorem minimize_finals_outside_states :
    minimize strayFinalDfa =
        some { m_States := [1], m_Alphabet := [97], m_Transitions := [((1, 97), 1)],
               m_InitialState := 1, m_FinalStates := [1, 2] } ∧
      ∃ D, minimize strayFinalDfa = some D ∧ 2 ∈ D.m_FinalStates ∧ 2 ∉ D.m_States :=
  ⟨by decide, _, rfl, by decide, by decide⟩

/-- C16, evaluated on the code: `parallelRun` of the one-state DFA without
transitions with itself has initial state 1 and state set `{0}`. -/
theorem parallelRun_initial_outside_states :
    parallelRun loneDfa loneDfa =
        some { m_States := [0], m_Alphabet := [97], m_Transitions := [((0, 97), 0)],
               m_InitialState := 1, m_FinalStates := [] } ∧
      ∃ R, parallelRun loneDfa loneDfa = some R ∧ R.m_InitialState = 1 ∧
        R.m_InitialState ∉ R.m_States :=
  ⟨by decide, _, rfl, by decide, by decide⟩

/-- C17, refuted as stated: for the NFA with states 0 and 2 and the one-state NFA the
new initial state of `unifyNFA` is 2, the accepting state of the first NFA, although
neither initial state is accepting. -/
theorem unifyNFA_initial_accepting_collision :
    (unifyNFA skipNfa voidNfa).m_InitialState = 2 ∧
      (unifyNFA skipNfa voidNfa).m_InitialState ∈ (unifyNFA skipNfa voidNfa).m_FinalStates ∧
      skipNfa.m_InitialState ∉ skipNfa.m_FinalStates ∧
      voidNfa.m_InitialState ∉ voidNfa.m_FinalStates := by
  decide

/-- C17, amended: for well-formed NFAs whose states are named `0 .. |Q| - 1` (and
`|Q_a| + |Q_b| < 2^32`), the initial state of `unifyNFA a b` is accepting exactly
when the initial state of `a` or the initial state of `b` is accepting. -/
theorem unifyNFA_initial_accepting (a b : NFA) (ha : a.WF) (hb : b.WF) (hca : a.Contiguous)
    (hcb : b.Contiguous) (hbound : a.m_States.length + b.m_States.length < 2 ^ 32) :
    (unifyNFA a b).m_InitialState ∈ (unifyNFA a b).m_FinalStates ↔
      (a.m_InitialState ∈ a.m_FinalStates ∨ b.m_InitialState ∈ b.m_FinalStates) := by
  obtain ⟨hinit, -, hfin, -, -⟩ := unifyNFA_spec ha hb hca hcb hbound
  rw [hfin, hinit]
  constructor
  · rintro (h | ⟨q, hq, h⟩ | ⟨-, h⟩)
    · have := hca _ (ha.finals_sub _ h)
      omega
    · have := hcb _ (hb.finals_sub _ hq)
      omega
    · exact h
  · intro h
    exact Or.inr (Or.inr ⟨rfl, h⟩)

/-- The amended C17 on the NFAs `a1` and `a2` of `main`. -/
theorem unifyNFA_initial_accepting_witness :
    sampleA1.WF ∧ sampleA2.WF ∧ sampleA1.Contiguous ∧ sampleA2.Contiguous ∧
      sampleA1.m_States.length + sampleA2.m_States.length < 2 ^ 32 ∧
      ((unifyNFA sampleA1 sampleA2).m_InitialState ∈ (unifyNFA sampleA1 sampleA2).m_FinalStates ↔
        (sampleA1.m_InitialState ∈ sampleA1.m_FinalStates ∨
          sampleA2.m_InitialState ∈ sampleA2.m_FinalStates)) :=
  ⟨sampleA1_wf, sampleA2_wf, by unfold NFA.Contiguous; decide,
    by unfold NFA.Contiguous; decide, by decide,
    unifyNFA_initial_accepting sampleA1 sampleA2 sampleA1_wf sampleA2_wf
      (by unfold NFA.Contiguous; decide) (by unfold NFA.Contiguous; decide) (by decide)⟩

/-- On a well-formed NFA every state of the DFA `determine` returns is reached from
the initial state on a word over the alphabet, and the DFA has at most `2 ^ |Q|`
states. -/
theorem determine_reach {n : NFA} (hn : n.WF) (hb : n.FewSubsets) :
    ∃ d, determine n = some d ∧
      (∀ q ∈ d.m_States, ∃ w, (∀ c ∈ w, c ∈ n.m_Alphabet) ∧ d.run w = some q) ∧
      d.m_States.length ≤ 2 ^ n.m_States.length := by
  obtain ⟨st, hd, hinv, hq, hs⟩ := determine_spec hn hb
  obtain ⟨d, hd', hclosed, htotal, halpha, -, -⟩ := determine_output hn hb
  have hdd : d = st.result := Option.some.inj (hd'.symm.trans hd)
  subst hdd
  refine ⟨st.result, hd, ?_, ?_⟩
  · intro q hqs
    rw [hinv.states_iff] at hqs
    obtain ⟨e, he, hev⟩ := List.mem_map.1 (hs.vals_cover q hqs)
    have hfind := mapFind_of_mem_nodup hinv.keys_nodup he
    rw [hev] at hfind
    obtain ⟨w, hw, hrun⟩ := hs.keys_reach e.1 (List.mem_map.2 ⟨e, he, rfl⟩)
    refine ⟨w, hw, ?_⟩
    rcases hinv.run_spec hn hq w with ⟨i, hi1, hi2⟩ | ⟨-, h2⟩
    · rw [hrun, hfind] at hi1
      rw [← Option.some.inj hi1] at hi2
      exact hi2
    · obtain ⟨q', -, hq'⟩ := DFA.run_total hclosed htotal w (fun c hc => halpha ▸ hw c hc)
      have h3 : st.result.run w = none := h2
      rw [h3] at hq'
      exact Option.noConfusion hq'
  · have hnd : st.result.m_States.Nodup := hs.states_sorted.nodup
    have hsub : st.result.m_States ⊆ st.map.map Prod.snd := by
      intro i hi
      exact hs.vals_cover i ((hinv.states_iff i).1 hi)
    have h1 := (List.subperm_of_subset hnd hsub).length_le
    have h2 := hinv.map_length_le
    simp only [List.length_map] at h1
    omega

/-- C12, amended: on a well-formed NFA whose subset construction meets at most
`2 ^ 32` sets of states, `determine` returns a DFA with initial state 0 in which
every state is reached from the initial state by following the transitions on some
word. -/
theorem determine_reachable (n : NFA) (hn : n.WF) (hb : n.FewSubsets) :
    ∃ d, determine n = some d ∧ d.m_InitialState = 0 ∧
      ∀ q ∈ d.m_States, ∃ w, d.run w = some q := by
  obtain ⟨d, hd, hreach, -⟩ := determine_reach hn hb
  obtain ⟨d', hd', -, -, -, hinit, -⟩ := determine_output hn hb
  have hdd : d' = d := Option.some.inj (hd'.symm.trans hd)
  subst hdd
  refine ⟨d', hd, hinit, fun q hq => ?_⟩
  obtain ⟨w, -, hw⟩ := hreach q hq
  exact ⟨w, hw⟩

/-- The amended C12 on the NFA `a1` of `main`. -/
theorem determine_reachable_witness :
    sampleA1.WF ∧ sampleA1.FewSubsets ∧
      ∃ d, determine sampleA1 = some d ∧ d.m_InitialState = 0 ∧
        ∀ q ∈ d.m_States, ∃ w, d.run w = some q :=
  ⟨sampleA1_wf, NFA.fewSubsets_of_length sampleA1_wf (by decide),
    determine_reachable sampleA1 sampleA1_wf
      (NFA.fewSubsets_of_length sampleA1_wf (by decide))⟩

/-- C18: on a well-formed NFA the worklist loop of `determine` ends within the
`2 ^ |Q| + 1` rounds it is given, one per subset of the states, and the DFA returned
has at most `2 ^ |Q|` states: no subset is numbered, and so queued, twice. -/
theorem determine_terminates (n : NFA) (hn : n.WF) :
    ∃ d, determineLoop n (2 ^ n.m_States.length + 1)
        (n.m_Alphabet.foldl (determineStart n) (determineInit n)) = some d ∧
      determine n = some d ∧ d.m_States.length ≤ 2 ^ n.m_States.length := by
  obtain ⟨d, hd, -, -, -, -, -, hlen⟩ := determine_any_ids hn
  exact ⟨d, hd, hd, hlen⟩

/-- C18 on the NFA `a1` of `main`. -/
theorem determine_terminates_witness :
    sampleA1.WF ∧ ∃ d, determineLoop sampleA1 (2 ^ sampleA1.m_States.length + 1)
        (sampleA1.m_Alphabet.foldl (determineStart sampleA1) (determineInit sampleA1)) =
          some d ∧
      determine sampleA1 = some d ∧ d.m_States.length ≤ 2 ^ sampleA1.m_States.length :=
  ⟨sampleA1_wf, determine_terminates sampleA1 sampleA1_wf⟩

theorem minimize_eq_refine (d : DFA) :
    minimize d =
      match refineLoop (refineSize d + 3) (refineSize d + 2) (refineStart d) with
      | none => none
      | some st =>
        match buildBlocks st.original (numberBlocks 0 st.currSet [] []).1
            (numberBlocks 0 st.currSet [] []).2 st.currSet
            { m_States := [], m_Transitions := [], m_InitialState := none,
              m_FinalStates := [] } with
        | none => none
        | some b => pruneResult d.m_Alphabet b := rfl

theorem refineBlock_of_agree {d : DFA} (ht : d.Total) (st : RefineState)
    (horig : st.original = d) (i : Nat)
    (hmem : ∀ q ∈ st.currSet.getD i [], q ∈ d.m_States)
    (hagree : ∀ q ∈ st.currSet.getD i [],
      agreeOn d st.stateSetID q ((st.currSet.getD i []).headD 0) = true) :
    refineBlock i st = st := by
  unfold refineBlock
  cases hB : st.currSet.getD i [] with
  | nil =>
    simp only [collectInequivalent, List.isEmpty_nil, if_true]
  | cons first tl =>
    rw [hB] at hmem hagree
    simp only [horig]
    rw [collectInequivalent_total ht st.stateSetID first tl (hmem first (by simp))
      (first :: tl) hmem]
    have hnil : (first :: tl).filter (inequivalent d st.stateSetID first) = [] := by
      apply List.filter_eq_nil_iff.2
      intro q hq
      have := hagree q hq
      simp only [List.headD_cons] at this
      simp [inequivalent, this]
    simp only [hnil, List.isEmpty_nil, if_true]
    cases st
    simp only at horig
    subst horig
    rfl

theorem refineLoop_of_agree {d : DFA} (ht : d.Total) (st : RefineState)
    (horig : st.original = d) (B0 B1 : List Nat) (hcur : st.currSet = [B0, B1])
    (hmem : ∀ B ∈ st.currSet, ∀ q ∈ B, q ∈ d.m_States)
    (hagree : ∀ B ∈ st.currSet, ∀ q ∈ B, agreeOn d st.stateSetID q (B.headD 0) = true)
    (pf fuel : Nat) : refineLoop (pf + 3) (fuel + 1) st = some st := by
  have h0 : refineBlock 0 st = st := by
    apply refineBlock_of_agree ht st horig 0
    · rw [hcur]; exact hmem B0 (by rw [hcur]; simp)
    · rw [hcur]; exact hagree B0 (by rw [hcur]; simp)
  have h1 : refineBlock 1 st = st := by
    apply refineBlock_of_agree ht st horig 1
    · rw [hcur]; exact hmem B1 (by rw [hcur]; simp)
    · rw [hcur]; exact hagree B1 (by rw [hcur]; simp)
  have hlen : st.currSet.length = 2 := by rw [hcur]; rfl
  have hpass : refinePass (pf + 3) 0 st = some st := by
    unfold refinePass
    rw [if_pos (by omega), h0]
    unfold refinePass
    rw [if_pos (by omega), h1]
    unfold refinePass
    rw [if_neg (by omega)]
  unfold refineLoop
  rw [hpass]
  simp

theorem DFA.delta_mem {d : DFA} (hc : d.Closed) (ht : d.Total) {q a : Nat}
    (hq : q ∈ d.m_States) (ha : a ∈ d.m_Alphabet) : d.delta q a ∈ d.m_States :=
  hc.trans_tgt _ (mapFind_mem (ht.find hq ha))

theorem agreeOn_iff (d : DFA) (ids : List (Nat × Nat)) (p q : Nat) :
    agreeOn d ids p q = true ↔
      ∀ a ∈ d.m_Alphabet, lookupD ids (d.delta p a) = lookupD ids (d.delta q a) := by
  simp [agreeOn]

theorem PartInv.sameBlock {d : DFA} (hc : d.Closed) (ht : d.Total) {n : Nat}
    {st : RefineState} (h : PartInv d n st)
    (hstab : ∀ B ∈ st.currSet, StableBlock d st.stateSetID B) :
    ∀ B ∈ st.currSet, ∀ p ∈ B, ∀ q ∈ B,
      (p ∈ d.m_FinalStates ↔ q ∈ d.m_FinalStates) ∧
        ∀ a ∈ d.m_Alphabet, SameBlock st.currSet (d.delta p a) (d.delta q a) := by
  intro B hB p hp q hq
  refine ⟨h.final_resp B hB p hp q hq, fun a ha => ?_⟩
  have hps : p ∈ d.m_States := (h.cover p).2 ⟨B, hB, hp⟩
  have hqs : q ∈ d.m_States := (h.cover q).2 ⟨B, hB, hq⟩
  have e1 := (agreeOn_iff d _ _ _).1 (hstab B hB p hp) a ha
  have e2 := (agreeOn_iff d _ _ _).1 (hstab B hB q hq) a ha
  obtain ⟨B1, hB1, hm1⟩ := (h.cover _).1 (DFA.delta_mem hc ht hps ha)
  obtain ⟨B2, hB2, hm2⟩ := (h.cover _).1 (DFA.delta_mem hc ht hqs ha)
  obtain ⟨j1, hj1⟩ := List.mem_iff_getElem?.1 hB1
  obtain ⟨j2, hj2⟩ := List.mem_iff_getElem?.1 hB2
  have i1 := h.ids j1 B1 hj1 _ hm1
  have i2 := h.ids j2 B2 hj2 _ hm2
  have hj : j1 = j2 := by rw [← i1, ← i2, e1, e2]
  subst hj
  rw [hj1] at hj2
  have hBB : B1 = B2 := Option.some.inj hj2
  subst hBB
  exact ⟨B1, hB1, hm1, hm2⟩

/-- C19: on a well-formed total DFA the refinement loop of `minimize` ends within the
rounds it is given, and at its exit the blocks cover the states, no block mixes
accepting and non-accepting states, and two states of a block move, on every
symbol, into a common block. -/
theorem refine_stable (d : DFA) (hd : d.WF) (ht : d.Total) :
    ∃ st, refineLoop (refineSize d + 3) (refineSize d + 2) (refineStart d) = some st ∧
      (∀ q, q ∈ d.m_States ↔ ∃ B ∈ st.currSet, q ∈ B) ∧
      ∀ B ∈ st.currSet, ∀ p ∈ B, ∀ q ∈ B,
        (p ∈ d.m_FinalStates ↔ q ∈ d.m_FinalStates) ∧
          ∀ a ∈ d.m_Alphabet, SameBlock st.currSet (d.delta p a) (d.delta q a) := by
  have hc := hd.closed
  by_cases hgen : (∃ q ∈ d.m_States, q ∉ d.m_FinalStates) ∧ d.m_FinalStates ≠ []
  · obtain ⟨st, hst, hinv, hstab⟩ := refineLoop_spec ht (refineSize d + 2) (refineStart d)
      (partInv_init hc hgen.1 hgen.2)
      (by simp only [refineStart, refineSize, List.length_cons, List.length_nil]; omega)
    exact ⟨st, hst, hinv.cover, hinv.sameBlock hc ht hstab⟩
  · -- all states lie in one of the two starting blocks: nothing is split
    have memQ1 : ∀ q, q ∈ d.m_States.filter (fun s => !d.m_FinalStates.contains s) ↔
        q ∈ d.m_States ∧ q ∉ d.m_FinalStates := by
      intro q; simp [List.mem_filter]
    have hids : ∀ x, lookupD (refineStart d).stateSetID x =
        if x ∈ d.m_FinalStates then 1 else 0 := by
      intro x
      simp only [refineStart]
      rw [lookupD_foldl_cons, lookupD_foldl_cons]
      split_ifs <;> rfl
    have hone : (∀ q ∈ d.m_States, q ∈ d.m_FinalStates) ∨ d.m_FinalStates = [] := by
      by_cases hf : d.m_FinalStates = []
      · exact Or.inr hf
      · left
        intro q hq
        by_contra hqf
        exact hgen ⟨⟨q, hq, hqf⟩, hf⟩
    have hconst : ∀ x ∈ d.m_States, ∀ y ∈ d.m_States,
        lookupD (refineStart d).stateSetID x = lookupD (refineStart d).stateSetID y := by
      intro x hx y hy
      rw [hids, hids]
      rcases hone with h1 | h1
      · rw [if_pos (h1 x hx), if_pos (h1 y hy)]
      · rw [h1]; simp
    have hmem : ∀ B ∈ (refineStart d).currSet, ∀ q ∈ B, q ∈ d.m_States := by
      intro B hB q hq
      simp only [refineStart, List.mem_cons, List.mem_singleton, List.not_mem_nil,
        or_false] at hB
      rcases hB with rfl | rfl
      · exact ((memQ1 q).1 hq).1
      · exact hc.finals_sub q hq
    have hagree : ∀ p ∈ d.m_States, ∀ q ∈ d.m_States,
        agreeOn d (refineStart d).stateSetID p q = true := by
      intro p hp q hq
      rw [agreeOn_iff]
      intro a ha
      exact hconst _ (DFA.delta_mem hc ht hp ha) _ (DFA.delta_mem hc ht hq ha)
    have hloop := refineLoop_of_agree ht (refineStart d) rfl _ _ rfl hmem
      (fun B hB q hq => by
        have hBne : B ≠ [] := List.ne_nil_of_mem hq
        exact hagree q (hmem B hB q hq) _ (hmem B hB _ (headD_mem hBne)))
      (refineSize d) (refineSize d + 1)
    refine ⟨refineStart d, hloop, ?_, ?_⟩
    · intro q
      simp only [refineStart, List.mem_cons, List.mem_singleton, List.not_mem_nil, or_false,
        exists_eq_or_imp, exists_eq_left, memQ1]
      constructor
      · intro hq
        by_cases hqf : q ∈ d.m_FinalStates
        · exact Or.inr hqf
        · exact Or.inl ⟨hq, hqf⟩
      · rintro (h1 | h1)
        · exact h1.1
        · exact hc.finals_sub q h1
    · intro B hB p hp q hq
      have hps := hmem B hB p hp
      have hqs := hmem B hB q hq
      simp only [refineStart, List.mem_cons, List.mem_singleton, List.not_mem_nil,
        or_false] at hB
      refine ⟨?_, fun a ha => ?_⟩
      · rcases hB with rfl | rfl
        · exact ⟨fun h1 => absurd h1 ((memQ1 p).1 hp).2, fun h1 => absurd h1 ((memQ1 q).1 hq).2⟩
        · exact ⟨fun _ => hq, fun _ => hp⟩
      · have hpa := DFA.delta_mem hc ht hps ha
        have hqa := DFA.delta_mem hc ht hqs ha
        rcases hone with h1 | h1
        · exact ⟨d.m_FinalStates, by simp [refineStart], h1 _ hpa, h1 _ hqa⟩
        · refine ⟨d.m_States.filter (fun s => !d.m_FinalStates.contains s),
            by simp [refineStart], (memQ1 _).2 ⟨hpa, ?_⟩, (memQ1 _).2 ⟨hqa, ?_⟩⟩
          · rw [h1]; simp
          · rw [h1]; simp

/-- C19 on the total DFA accepting exactly the word `a`. -/
theorem refine_stable_witness :
    gapDfa.WF ∧ gapDfa.Total ∧
      ∃ st, refineLoop (refineSize gapDfa + 3) (refineSize gapDfa + 2) (refineStart gapDfa) =
          some st ∧
        (∀ q, q ∈ gapDfa.m_States ↔ ∃ B ∈ st.currSet, q ∈ B) ∧
        ∀ B ∈ st.currSet, ∀ p ∈ B, ∀ q ∈ B,
          (p ∈ gapDfa.m_FinalStates ↔ q ∈ gapDfa.m_FinalStates) ∧
            ∀ a ∈ gapDfa.m_Alphabet, SameBlock st.currSet (gapDfa.delta p a) (gapDfa.delta q a) :=
  ⟨gapDfa_wf, by unfold DFA.Total; decide,
    refine_stable gapDfa gapDfa_wf (by unfold DFA.Total; decide)⟩

theorem detOnlyEmptyA_wf : detOnlyEmptyA.WF :=
  ⟨by decide, by decide, by decide, by decide, by decide, by decide, by decide, by decide,
    by decide, by decide, by decide⟩

/-- C20, refuted as stated: the DFA with the accepting initial state 0 and the sink 1
is well-formed and total, both states are reached, one is accepting and one is not,
and yet `minimize` takes the degenerate collapse: after the sink is erased no
transition of the initial state leaves it. -/
theorem minimize_collapse_taken :
    detOnlyEmptyA.WF ∧ detOnlyEmptyA.Total ∧
      (∀ q ∈ detOnlyEmptyA.m_States, ∃ w, detOnlyEmptyA.run w = some q) ∧
      (∃ f ∈ detOnlyEmptyA.m_States, f ∈ detOnlyEmptyA.m_FinalStates) ∧
      (∃ q ∈ detOnlyEmptyA.m_States, q ∉ detOnlyEmptyA.m_FinalStates) ∧
      minimizeTrace detOnlyEmptyA =
        some { sink := some 0, initialBefore := 1, initialAfter := 1, collapse := true } := by
  refine ⟨detOnlyEmptyA_wf, by unfold DFA.Total; decide, ?_, ⟨0, by decide, by decide⟩,
    ⟨1, by decide, by decide⟩, by decide⟩
  intro q hq
  have h : q = 0 ∨ q = 1 := by simpa [detOnlyEmptyA] using hq
  rcases h with rfl | rfl
  · exact ⟨[], rfl⟩
  · exact ⟨[97], by decide⟩

/-! ## Minimality of the result of `minimize` -/

theorem foldl_step_none (d : DFA) (w : List Nat) : w.foldl d.step none = none := by
  induction w with
  | nil => rfl
  | cons a w ih => exact ih

theorem DFA.acceptsFrom_nil (d : DFA) (q : Nat) :
    d.acceptsFrom q [] = decide (q ∈ d.m_FinalStates) := rfl

theorem DFA.acceptsFrom_cons (d : DFA) (q a : Nat) (w : List Nat) :
    d.acceptsFrom q (a :: w) =
      match mapFind (q, a) d.m_Transitions with
      | some t => d.acceptsFrom t w
      | none => false := by
  unfold DFA.acceptsFrom
  simp only [List.foldl_cons, DFA.step_some]
  cases mapFind (q, a) d.m_Transitions with
  | none => simp only [foldl_step_none]
  | some t => rfl

theorem DFA.acceptsFrom_cons_total {d : DFA} (ht : d.Total) {q a : Nat} (hq : q ∈ d.m_States)
    (ha : a ∈ d.m_Alphabet) (w : List Nat) :
    d.acceptsFrom q (a :: w) = d.acceptsFrom (d.delta q a) w := by
  rw [DFA.acceptsFrom_cons, ht.find hq ha]

theorem DFA.accepts_eq_acceptsFrom (d : DFA) (w : List Nat) :
    d.accepts w = d.acceptsFrom d.m_InitialState w := rfl

theorem separated_init (d : DFA) :
    Separated d [d.m_States.filter (fun s => !d.m_FinalStates.contains s), d.m_FinalStates] := by
  have memQ1 : ∀ q, q ∈ d.m_States.filter (fun s => !d.m_FinalStates.contains s) →
      q ∉ d.m_FinalStates := by
    intro q hq
    have := (List.mem_filter.1 hq).2
    simpa using this
  intro i j Bi Bj hi hj hij p hp q hq
  refine ⟨[], ?_⟩
  rw [DFA.acceptsFrom_nil, DFA.acceptsFrom_nil]
  match i, j, hi, hj, hij with
  | 0, 0, _, _, hij => exact absurd rfl hij
  | 0, 1, hi, hj, _ =>
    simp only [List.getElem?_cons_zero, List.getElem?_cons_succ, Option.some.injEq] at hi hj
    subst hi hj
    simp [memQ1 p hp, hq]
  | 1, 0, hi, hj, _ =>
    simp only [List.getElem?_cons_zero, List.getElem?_cons_succ, Option.some.injEq] at hi hj
    subst hi hj
    simp [memQ1 q hq, hp]
  | 1, 1, _, _, hij => exact absurd rfl hij
  | (k + 2), _, hi, _, _ => simp at hi
  | 0, (k + 2), _, hj, _ => simp at hj
  | 1, (k + 2), _, hj, _ => simp at hj

theorem refineBlock_separated {d : DFA} (hc : d.Closed) (ht : d.Total) {n : Nat}
    {st : RefineState} (h : PartInv d n st) (hsep : Separated d st.currSet) {i : Nat}
    {B : List Nat} (hi : st.currSet[i]? = some B) :
    Separated d (refineBlock i st).currSet := by
  have hBne : B ≠ [] := h.nonempty B (List.mem_iff_getElem?.2 ⟨i, hi⟩)
  obtain ⟨first, tl, rfl⟩ := List.exists_cons_of_ne_nil hBne
  have hilt : i < st.currSet.length := (List.getElem?_eq_some_iff.1 hi).1
  rw [refineBlock_eq ht h hi]
  by_cases he : ((first :: tl).filter (inequivalent d st.stateSetID first)).isEmpty = true
  · rw [if_pos he]; exact hsep
  · rw [if_neg he]
    simp only
    -- the two parts of the block
    have mem_tmp : ∀ q, q ∈ (first :: tl).filter (inequivalent d st.stateSetID first) →
        q ∈ first :: tl ∧ inequivalent d st.stateSetID first q = true :=
      fun q hq => List.mem_filter.1 hq
    have mem_keep : ∀ q, q ∈ (first :: tl).filter (fun s =>
          !((first :: tl).filter (inequivalent d st.stateSetID first)).contains s) →
        q ∈ first :: tl ∧ inequivalent d st.stateSetID first q = false := by
      intro q hq
      obtain ⟨h1, h2⟩ := List.mem_filter.1 hq
      refine ⟨h1, ?_⟩
      by_contra hcon
      have hq' : q ∈ (first :: tl).filter (inequivalent d st.stateSetID first) :=
        List.mem_filter.2 ⟨h1, by simpa using hcon⟩
      simp only [Bool.not_eq_true', List.contains_eq_any_beq, List.any_eq_false,
        beq_iff_eq] at h2
      exact h2 q hq' rfl
    have hmemS : ∀ q ∈ first :: tl, q ∈ d.m_States := fun q hq => h.mem_states hi hq
    -- a kept and a moved state are told apart
    have split : ∀ p q, p ∈ first :: tl → inequivalent d st.stateSetID first p = false →
        q ∈ first :: tl → inequivalent d st.stateSetID first q = true →
        ∃ w, d.acceptsFrom p w ≠ d.acceptsFrom q w := by
      intro p q hp hpk hq hqt
      have hfS := hmemS first (by simp)
      have hpS := hmemS p hp
      have hqS := hmemS q hq
      simp only [inequivalent, Bool.not_eq_true', Bool.or_eq_false_iff,
        decide_eq_false_iff_not] at hqt
      obtain ⟨-, hqa⟩ := hqt
      have hqa' : ¬ agreeOn d st.stateSetID q first = true := by simp [hqa]
      rw [agreeOn_iff] at hqa'
      push_neg at hqa'
      obtain ⟨a, ha, hdiff⟩ := hqa'
      have hpa : lookupD st.stateSetID (d.delta p a) = lookupD st.stateSetID (d.delta first a) := by
        simp only [inequivalent, Bool.not_eq_false', Bool.or_eq_true, decide_eq_true_eq] at hpk
        rcases hpk with rfl | hpk
        · rfl
        · exact (agreeOn_iff d _ _ _).1 hpk a ha
      obtain ⟨B1, hB1, hm1⟩ := (h.cover _).1 (DFA.delta_mem hc ht hpS ha)
      obtain ⟨B2, hB2, hm2⟩ := (h.cover _).1 (DFA.delta_mem hc ht hqS ha)
      obtain ⟨j1, hj1⟩ := List.mem_iff_getElem?.1 hB1
      obtain ⟨j2, hj2⟩ := List.mem_iff_getElem?.1 hB2
      have i1 := h.ids j1 B1 hj1 _ hm1
      have i2 := h.ids j2 B2 hj2 _ hm2
      have hj12 : j1 ≠ j2 := by
        intro hcj
        apply hdiff
        rw [i2, ← hcj, ← i1, hpa]
      obtain ⟨w, hw⟩ := hsep j1 j2 B1 B2 hj1 hj2 hj12 _ hm1 _ hm2
      refine ⟨a :: w, ?_⟩
      rw [DFA.acceptsFrom_cons_total ht hpS ha, DFA.acceptsFrom_cons_total ht hqS ha]
      exact hw
    intro j1 j2 B1 B2 hj1 hj2 hj12 p hp q hq
    rw [getElem?_set_append st.currSet i _ _ hilt] at hj1 hj2
    -- where a block of the new partition comes from
    have origin : ∀ (j : Nat) (B' : List Nat),
        (if j = st.currSet.length then
            some ((first :: tl).filter (inequivalent d st.stateSetID first))
          else if j = i then
            some ((first :: tl).filter (fun s =>
              !((first :: tl).filter (inequivalent d st.stateSetID first)).contains s))
          else st.currSet[j]?) = some B' →
        ∀ x ∈ B', (j = st.currSet.length ∧ x ∈ first :: tl ∧
            inequivalent d st.stateSetID first x = true) ∨
          (j = i ∧ x ∈ first :: tl ∧ inequivalent d st.stateSetID first x = false) ∨
          (j ≠ i ∧ j ≠ st.currSet.length ∧ st.currSet[j]? = some B') := by
      intro j B' hj x hx
      split_ifs at hj with h1 h2
      · rw [← Option.some.inj hj] at hx
        exact Or.inl ⟨h1, mem_tmp x hx⟩
      · rw [← Option.some.inj hj] at hx
        exact Or.inr (Or.inl ⟨h2, mem_keep x hx⟩)
      · exact Or.inr (Or.inr ⟨h2, h1, hj⟩)
    rcases origin j1 B1 hj1 p hp with ⟨e1, hp1, hp2⟩ | ⟨e1, hp1, hp2⟩ | ⟨e1, e1', hp1⟩
    · rcases origin j2 B2 hj2 q hq with ⟨e2, hq1, hq2⟩ | ⟨e2, hq1, hq2⟩ | ⟨e2, e2', hq1⟩
      · exact absurd (e1.trans e2.symm) hj12
      · obtain ⟨w, hw⟩ := split q p hq1 hq2 hp1 hp2
        exact ⟨w, fun hcw => hw hcw.symm⟩
      · exact hsep i j2 _ B2 hi hq1 (fun hcj => e2 hcj.symm) p hp1 q hq
    · rcases origin j2 B2 hj2 q hq with ⟨e2, hq1, hq2⟩ | ⟨e2, hq1, hq2⟩ | ⟨e2, e2', hq1⟩
      · exact split p q hp1 hp2 hq1 hq2
      · exact absurd (e1.trans e2.symm) hj12
      · exact hsep i j2 _ B2 hi hq1 (fun hcj => e2 hcj.symm) p hp1 q hq
    · rcases origin j2 B2 hj2 q hq with ⟨e2, hq1, hq2⟩ | ⟨e2, hq1, hq2⟩ | ⟨e2, e2', hq1⟩
      · exact hsep j1 i B1 _ hp1 hi e1 p hp q hq1
      · exact hsep j1 i B1 _ hp1 hi e1 p hp q hq1
      · exact hsep j1 j2 B1 B2 hp1 hq1 hj12 p hp q hq

theorem refinePass_separated {d : DFA} (hc : d.Closed) (ht : d.Total) {n : Nat} :
    ∀ (fuel i : Nat) (st st' : RefineState), PartInv d n st → Separated d st.currSet →
      refinePass fuel i st = some st' → Separated d st'.currSet := by
  intro fuel
  induction fuel with
  | zero =>
    intro i st st' _ _ h
    simp [refinePass] at h
  | succ fuel ih =>
    intro i st st' hinv hsep h
    unfold refinePass at h
    by_cases hil : i < st.currSet.length
    · rw [if_pos hil] at h
      obtain ⟨B, hB⟩ : ∃ B, st.currSet[i]? = some B :=
        ⟨st.currSet[i], List.getElem?_eq_some_iff.2 ⟨hil, rfl⟩⟩
      exact ih (i + 1) (refineBlock i st) st' (refineBlock_inv ht hinv hB).1
        (refineBlock_separated hc ht hinv hsep hB) h
    · rw [if_neg hil] at h
      rw [← Option.some.inj h]
      exact hsep

theorem refineLoop_separated {d : DFA} (hc : d.Closed) (ht : d.Total) {n : Nat} :
    ∀ (fuel : Nat) (st st' : RefineState), PartInv d n st → Separated d st.currSet →
      refineLoop (n + 3) fuel st = some st' → Separated d st'.currSet := by
  intro fuel
  induction fuel with
  | zero =>
    intro st st' _ _ h
    simp [refineLoop] at h
  | succ fuel ih =>
    intro st st' hinv hsep h
    unfold refineLoop at h
    obtain ⟨st1, hst1, hinv1, -, -⟩ :=
      refinePass_spec ht (n + 3) 0 st hinv (Nat.zero_le _) (by omega)
    have hsep1 := refinePass_separated hc ht (n + 3) 0 st st1 hinv hsep hst1
    simp only [hst1] at h
    by_cases hne : (st1.currSet != st.currSet) = true
    · rw [if_pos hne] at h
      exact ih st1 st' hinv1 hsep1 h
    · rw [if_neg hne] at h
      rw [← Option.some.inj h]
      exact hsep1

/-- The invariant of the refinement does not depend on the initial state. -/
theorem PartInv.reinit {d : DFA} {n : Nat} {st : RefineState} (h : PartInv d n st) (q : Nat) :
    PartInv { d with m_InitialState := q } n
      { st with original := { d with m_InitialState := q } } :=
  ⟨rfl, h.nonempty, h.cover, h.ids, h.final_resp, h.block_zero, h.total_len, h.two⟩

/-- Residual languages of the quotient automaton built by `buildBlocks` from a
stable partition: the block of `q` accepts from itself what `q` accepts. -/
theorem quotient_acceptsFrom {d : DFA} (hd : d.Closed) (ht : d.Total) {n : Nat}
    {st : RefineState} (h : PartInv d n st)
    (hstab : ∀ B ∈ st.currSet, StableBlock d st.stateSetID B)
    (nsm : List (Nat × Nat)) (sm : List (List Nat × Nat)) (b' : Building) (i0 : Nat)
    (hsm : ∀ j B, st.currSet[j]? = some B → lookupD sm B = j)
    (hnsm : ∀ j B, st.currSet[j]? = some B → ∀ q ∈ B, lookupD nsm q = j)
    (hfin : ∀ i, i ∈ b'.m_FinalStates ↔
      ∃ B ∈ st.currSet, lookupD sm B = i ∧ B.headD 0 ∈ d.m_FinalStates)
    (htr : ∀ B ∈ st.currSet, ∀ a ∈ d.m_Alphabet,
      mapFind (lookupD sm B, a) b'.m_Transitions =
        some (lookupD nsm (d.delta (B.headD 0) a)))
    (htr' : ∀ i a, a ∉ d.m_Alphabet → mapFind (i, a) b'.m_Transitions = none)
    {q : Nat} (hq : q ∈ d.m_States) (w : List Nat) :
    (b'.toDFA d.m_Alphabet i0).acceptsFrom (lookupD nsm q) w = d.acceptsFrom q w := by
  have hd' : DFA.Closed { d with m_InitialState := q } :=
    ⟨hq, hd.finals_sub, hd.trans_src, hd.trans_sym, hd.trans_tgt⟩
  have ht' : DFA.Total { d with m_InitialState := q } := ht
  have := quotient_accepts hd' ht' (h.reinit q) hstab nsm sm b' (lookupD nsm q) hsm hnsm hfin rfl
    htr htr' w
  exact this

theorem DFA.acceptsFrom_congr {x y : DFA} (htrans : y.m_Transitions = x.m_Transitions)
    (hfin : y.m_FinalStates = x.m_FinalStates) (p : Nat) (w : List Nat) :
    y.acceptsFrom p w = x.acceptsFrom p w := by
  have hstep : y.step = x.step := by
    funext s a
    cases s with
    | none => rfl
    | some s => simp only [DFA.step, htrans]
  unfold DFA.acceptsFrom
  rw [hstep, hfin]

theorem acceptsFrom_remove_sink (x y : DFA) (i : Nat)
    (htrans : y.m_Transitions = x.m_Transitions.filter (fun e => e.1.1 != i && e.2 != i))
    (hfin : y.m_FinalStates = x.m_FinalStates)
    (hnd : (x.m_Transitions.map Prod.fst).Nodup)
    (habs : ∀ a, mapFind (i, a) x.m_Transitions = some i ∨ mapFind (i, a) x.m_Transitions = none)
    (hnf : i ∉ x.m_FinalStates) {p : Nat} (hne : p ≠ i) (w : List Nat) :
    y.acceptsFrom p w = x.acceptsFrom p w :=
  accepts_remove_sink { x with m_InitialState := p } { y with m_InitialState := p } i htrans rfl
    hfin hnd habs hnf hne w

/-- From an absorbing non-accepting state no word is accepted. -/
theorem acceptsFrom_absorbing (x : DFA) (i : Nat)
    (habs : ∀ a, mapFind (i, a) x.m_Transitions = some i ∨ mapFind (i, a) x.m_Transitions = none)
    (hnf : i ∉ x.m_FinalStates) (w : List Nat) : x.acceptsFrom i w = false := by
  unfold DFA.acceptsFrom
  rcases DFA.run_absorbing x i habs w (some i) (Or.inl rfl) with h | h
  · rw [h]; simp [hnf]
  · rw [h]

/-- The quotient automaton `minimize` builds before pruning: it is total, has at
least two states, and its states are pairwise told apart by some word. -/
theorem minimize_quotient {d : DFA} (hd : d.Closed) (ht : d.Total)
    (hnf : ∃ q ∈ d.m_States, q ∉ d.m_FinalStates) (hf : d.m_FinalStates ≠ []) :
    ∃ (b : Building) (i0 : Nat),
      minimize d = pruneResult d.m_Alphabet b ∧ b.m_InitialState = some i0 ∧
      (∀ i ∈ b.m_States, ∀ a ∈ d.m_Alphabet, (mapFind (i, a) b.m_Transitions).isSome = true) ∧
      (∀ e ∈ b.m_Transitions, e.1.2 ∈ d.m_Alphabet) ∧
      (b.m_Transitions.map Prod.fst).Sorted (fun a b => keyLt a b = true) ∧
      (∃ x ∈ b.m_States, ∃ y ∈ b.m_States, x ≠ y) ∧
      ∀ p ∈ b.m_States, ∀ q ∈ b.m_States, p ≠ q →
        ∃ w, (b.toDFA d.m_Alphabet i0).acceptsFrom p w ≠
          (b.toDFA d.m_Alphabet i0).acceptsFrom q w := by
  have hinit := partInv_init hd hnf hf
  have hsep0 := separated_init d
  obtain ⟨st, hst, hinv, hstab⟩ := refineLoop_spec ht
    ((d.m_States.filter (fun s => !d.m_FinalStates.contains s)).length +
      d.m_FinalStates.length + 2) _ hinit (by simp only [List.length_cons, List.length_nil]; omega)
  have hsep : Separated d st.currSet := refineLoop_separated hd ht _ _ st hinit hsep0 hst
  obtain ⟨n1, n2, n3⟩ := numberBlocks_spec st.currSet 0 [] [] hinv.disjoint hinv.nonempty
  have hsm : ∀ j B, st.currSet[j]? = some B →
      lookupD (numberBlocks 0 st.currSet [] []).2 B = j := by
    intro j B hj; rw [(n1 j B hj).1]; omega
  have hnsm : ∀ j B, st.currSet[j]? = some B → ∀ q ∈ B,
      lookupD (numberBlocks 0 st.currSet [] []).1 q = j := by
    intro j B hj q hq; rw [(n1 j B hj).2 q hq]; omega
  have hpair : st.currSet.Pairwise (fun B B' =>
      lookupD (numberBlocks 0 st.currSet [] []).2 B ≠
        lookupD (numberBlocks 0 st.currSet [] []).2 B') := by
    apply pairwise_of_index
    intro i j a b hi hj hij
    rw [hsm i a hi, hsm j b hj]
    omega
  obtain ⟨b', hb', s1, s2, s3, s4, s5, s6, s7⟩ := buildBlocks_spec d ht
    (numberBlocks 0 st.currSet [] []).1 (numberBlocks 0 st.currSet [] []).2 st.currSet
    { m_States := [], m_Transitions := [], m_InitialState := none, m_FinalStates := [] }
    hinv.nonempty (fun B hB q hq => (hinv.cover q).2 ⟨B, hB, hq⟩) hpair
  obtain ⟨B0, hB0, hqB0⟩ := (hinv.cover d.m_InitialState).1 hd.initial_mem
  have hb'init : b'.m_InitialState =
      some (lookupD (numberBlocks 0 st.currSet [] []).1 d.m_InitialState) := by
    rcases s3 with ⟨B, hB, h1, h2⟩ | ⟨h1, _⟩
    · obtain ⟨j, hj⟩ := List.mem_iff_getElem?.1 hB
      rw [h2, hsm j B hj, hnsm j B hj _ h1]
    · exact absurd hqB0 (h1 B0 hB0)
  have hstates : ∀ i, i ∈ b'.m_States ↔ ∃ B, st.currSet[i]? = some B := by
    intro i
    rw [s1]
    constructor
    · rintro (h | ⟨B, hB, rfl⟩)
      · simp at h
      · obtain ⟨j, hj⟩ := List.mem_iff_getElem?.1 hB
        rw [hsm j B hj]
        exact ⟨B, hj⟩
    · rintro ⟨B, hB⟩
      exact Or.inr ⟨B, List.mem_iff_getElem?.2 ⟨i, hB⟩, hsm i B hB⟩
  refine ⟨b', _, ?_, hb'init, ?_, ?_, s6 (by simp), ?_, ?_⟩
  · unfold minimize
    simp only [hst, hinv.orig, hb']
  · intro i hi a ha
    rw [s1] at hi
    rcases hi with hi | ⟨B, hB, rfl⟩
    · simp at hi
    · rw [s4 B hB a ha]; rfl
  · intro e he
    rcases s7 e he with h1 | h1
    · simp at h1
    · exact h1
  · have h2 := hinv.two
    refine ⟨0, (hstates 0).2 ⟨st.currSet[0], List.getElem?_eq_getElem (by omega)⟩, 1,
      (hstates 1).2 ⟨st.currSet[1], List.getElem?_eq_getElem (by omega)⟩, by omega⟩
  · intro p hp q hq hpq
    obtain ⟨Bp, hBp⟩ := (hstates p).1 hp
    obtain ⟨Bq, hBq⟩ := (hstates q).1 hq
    have hBpm : Bp ∈ st.currSet := List.mem_iff_getElem?.2 ⟨p, hBp⟩
    have hBqm : Bq ∈ st.currSet := List.mem_iff_getElem?.2 ⟨q, hBq⟩
    have hhp := headD_mem (hinv.nonempty Bp hBpm)
    have hhq := headD_mem (hinv.nonempty Bq hBqm)
    obtain ⟨w, hw⟩ := hsep p q Bp Bq hBp hBq hpq _ hhp _ hhq
    refine ⟨w, ?_⟩
    have qa : ∀ x ∈ d.m_States, ∀ w,
        (b'.toDFA d.m_Alphabet
          (lookupD (numberBlocks 0 st.currSet [] []).1 d.m_InitialState)).acceptsFrom
            (lookupD (numberBlocks 0 st.currSet [] []).1 x) w = d.acceptsFrom x w := by
      intro x hx w
      apply quotient_acceptsFrom hd ht hinv hstab _ _ b' _ hsm hnsm _ s4 _ hx
      · intro i
        rw [s2]
        simp
      · intro i a ha
        rw [s5 i a (Or.inr ha)]
        rfl
    have e1 := qa _ (hinv.mem_states hBp hhp) w
    have e2 := qa _ (hinv.mem_states hBq hhq) w
    rw [hnsm p Bp hBp _ hhp] at e1
    rw [hnsm q Bq hBq _ hhq] at e2
    rw [e1, e2]
    exact hw

/-- Shape of the result of the pruning phase of `minimize` on a total automaton
with at least two states: either a single state is left, or the result is the
automaton without its first sink. -/
theorem pruneResult_shape (alphabet : List Nat) (b : Building) (i0 : Nat)
    (hinit : b.m_InitialState = some i0)
    (htotal : ∀ i ∈ b.m_States, ∀ a ∈ alphabet, (mapFind (i, a) b.m_Transitions).isSome = true)
    (htwo : ∃ x ∈ b.m_States, ∃ y ∈ b.m_States, x ≠ y) :
    ∃ D', pruneResult alphabet b = some D' ∧ D'.m_Alphabet = alphabet ∧
      D'.m_FinalStates = b.m_FinalStates ∧
      (D'.m_States = [D'.m_InitialState] ∨
        (alphabet ≠ [] ∧
          ((b.m_States.find? (isSinkState alphabet b.m_FinalStates b.m_Transitions) = none ∧
              D'.m_States = b.m_States ∧ D'.m_Transitions = b.m_Transitions) ∨
            ∃ s, b.m_States.find? (isSinkState alphabet b.m_FinalStates b.m_Transitions) =
                some s ∧
              D'.m_States = b.m_States.filter (fun x => x != s) ∧
              D'.m_Transitions =
                b.m_Transitions.filter (fun e => e.1.1 != s && e.2 != s)))) := by
  have halpha : ∀ (i : Nat) (t : List ((Nat × Nat) × Nat)),
      ¬ restInaccessible i alphabet t = true → alphabet ≠ [] := by
    intro i t h hc
    apply h
    rw [hc]
    rfl
  obtain ⟨x, hx, y, hy, hxy⟩ := htwo
  unfold pruneResult
  simp only [sinkScan_total alphabet b.m_FinalStates b.m_Transitions b.m_States htotal, hinit]
  cases hs : b.m_States.find? (isSinkState alphabet b.m_FinalStates b.m_Transitions) with
  | none =>
    simp only
    obtain ⟨ini, hini⟩ : ∃ ini, (if i0 ∈ b.m_States then some i0 else b.m_States.head?) =
        some ini := by
      split_ifs
      · exact ⟨i0, rfl⟩
      · cases hst : b.m_States with
        | nil => rw [hst] at hx; simp at hx
        | cons z zs => exact ⟨z, rfl⟩
    simp only [hini]
    by_cases hr : restInaccessible ini alphabet b.m_Transitions = true
    · rw [if_pos hr]
      exact ⟨_, rfl, rfl, rfl, Or.inl rfl⟩
    · rw [if_neg hr]
      exact ⟨_, rfl, rfl, rfl, Or.inr ⟨halpha _ _ hr, Or.inl ⟨trivial, rfl, rfl⟩⟩⟩
  | some s =>
    simp only
    obtain ⟨ini, hini⟩ : ∃ ini, (if i0 ∈ b.m_States.filter (fun x => x != s) then some i0
        else (b.m_States.filter (fun x => x != s)).head?) = some ini := by
      split_ifs
      · exact ⟨i0, rfl⟩
      · have hz : ∃ z, z ∈ b.m_States.filter (fun x => x != s) := by
          by_cases hxs : x = s
          · exact ⟨y, List.mem_filter.2 ⟨hy, by simpa using fun hc => hxy (hxs.trans hc.symm)⟩⟩
          · exact ⟨x, List.mem_filter.2 ⟨hx, by simpa using hxs⟩⟩
        obtain ⟨z, hz⟩ := hz
        cases hst : b.m_States.filter (fun x => x != s) with
        | nil => rw [hst] at hz; simp at hz
        | cons z zs => exact ⟨z, rfl⟩
    simp only [hini]
    by_cases hr : restInaccessible ini alphabet
        (b.m_Transitions.filter (fun e => e.1.1 != s && e.2 != s)) = true
    · rw [if_pos hr]
      exact ⟨_, rfl, rfl, rfl, Or.inl rfl⟩
    · rw [if_neg hr]
      exact ⟨_, rfl, rfl, rfl, Or.inr ⟨halpha _ _ hr, Or.inr ⟨s, rfl, rfl, rfl⟩⟩⟩

/-- Facts on the first sink found by the scan of `minimize` when the alphabet is
not empty: it is a state, not accepting, and all its transitions lead to itself. -/
theorem sink_found {alphabet finals states : List Nat} {t : List ((Nat × Nat) × Nat)} {s : Nat}
    (hs : states.find? (isSinkState alphabet finals t) = some s) (hα : alphabet ≠ [])
    (htotal : ∀ i ∈ states, ∀ a ∈ alphabet, (mapFind (i, a) t).isSome = true)
    (hsym : ∀ e ∈ t, e.1.2 ∈ alphabet) :
    s ∈ states ∧ s ∉ finals ∧ ∀ a, mapFind (s, a) t = some s ∨ mapFind (s, a) t = none := by
  have hmem : s ∈ states := List.mem_of_find?_eq_some hs
  have hsink : isSinkState alphabet finals t s = true := List.find?_some hs
  simp only [isSinkState, List.all_eq_true, Bool.and_eq_true, beq_iff_eq, Bool.not_eq_true',
    decide_eq_false_iff_not] at hsink
  obtain ⟨a0, ha0⟩ := List.exists_mem_of_ne_nil alphabet hα
  refine ⟨hmem, (hsink a0 ha0).2, fun a => ?_⟩
  by_cases ha : a ∈ alphabet
  · left
    obtain ⟨v, hv⟩ := Option.isSome_iff_exists.1 (htotal s hmem a ha)
    have := (hsink a ha).1
    rw [lookupD_of_mapFind hv] at this
    rw [hv, this]
  · right
    cases hf : mapFind (s, a) t with
    | none => rfl
    | some v => exact absurd (hsym _ (mapFind_mem hf)) ha

/-- On a total well-formed DFA with an accepting and a non-accepting state,
`minimize` returns a DFA whose states are pairwise told apart by some word. -/
theorem minimize_minimal {d : DFA} (hd : d.Closed) (ht : d.Total)
    (hnf : ∃ q ∈ d.m_States, q ∉ d.m_FinalStates) (hf : d.m_FinalStates ≠ []) :
    ∃ D', minimize d = some D' ∧
      ∀ p ∈ D'.m_States, ∀ q ∈ D'.m_States, p ≠ q →
        ∃ w, D'.acceptsFrom p w ≠ D'.acceptsFrom q w := by
  obtain ⟨b, i0, hmin, hinit, htotal, hsym, hsorted, htwo, hsep⟩ :=
    minimize_quotient hd ht hnf hf
  obtain ⟨D', hD', -, hfin, hshape⟩ := pruneResult_shape d.m_Alphabet b i0 hinit htotal htwo
  refine ⟨D', by rw [hmin, hD'], fun p hp q hq hpq => ?_⟩
  rcases hshape with h1 | ⟨hα, ⟨-, h1, h2⟩ | ⟨s, hs, h1, h2⟩⟩
  · rw [h1] at hp hq
    simp only [List.mem_singleton] at hp hq
    exact absurd (hp.trans hq.symm) hpq
  · rw [h1] at hp hq
    obtain ⟨w, hw⟩ := hsep p hp q hq hpq
    refine ⟨w, ?_⟩
    rw [DFA.acceptsFrom_congr (x := b.toDFA d.m_Alphabet i0) h2 hfin,
      DFA.acceptsFrom_congr (x := b.toDFA d.m_Alphabet i0) h2 hfin]
    exact hw
  · rw [h1] at hp hq
    obtain ⟨hp1, hp2⟩ := List.mem_filter.1 hp
    obtain ⟨hq1, hq2⟩ := List.mem_filter.1 hq
    obtain ⟨-, hsnf, habs⟩ := sink_found hs hα htotal hsym
    obtain ⟨w, hw⟩ := hsep p hp1 q hq1 hpq
    refine ⟨w, ?_⟩
    rw [acceptsFrom_remove_sink (b.toDFA d.m_Alphabet i0) D' s h2 hfin
        (keys_nodup_of_sorted hsorted) habs hsnf (by simpa using hp2),
      acceptsFrom_remove_sink (b.toDFA d.m_Alphabet i0) D' s h2 hfin
        (keys_nodup_of_sorted hsorted) habs hsnf (by simpa using hq2)]
    exact hw

/-- On a total well-formed DFA with an accepting and a non-accepting state,
`minimize` returns a DFA in which a non-accepting state whose transitions all
lead to itself is the only state. -/
theorem minimize_trap_free {d : DFA} (hd : d.Closed) (ht : d.Total)
    (hnf : ∃ q ∈ d.m_States, q ∉ d.m_FinalStates) (hf : d.m_FinalStates ≠ []) :
    ∃ D', minimize d = some D' ∧
      ∀ t ∈ D'.m_States, t ∉ D'.m_FinalStates →
        (∀ a ∈ D'.m_Alphabet, mapFind (t, a) D'.m_Transitions = some t) →
        D'.m_States = [t] := by
  obtain ⟨b, i0, hmin, hinit, htotal, hsym, hsorted, htwo, hsep⟩ :=
    minimize_quotient hd ht hnf hf
  obtain ⟨D', hD', hal, hfin, hshape⟩ := pruneResult_shape d.m_Alphabet b i0 hinit htotal htwo
  refine ⟨D', by rw [hmin, hD'], fun t ht1 ht2 ht3 => ?_⟩
  rw [hal] at ht3
  rw [hfin] at ht2
  rcases hshape with h1 | ⟨hα, ⟨hs, h1, h2⟩ | ⟨s, hs, h1, h2⟩⟩
  · rw [h1] at ht1 ⊢
    simp only [List.mem_singleton] at ht1
    rw [ht1]
  · -- no sink was found, yet `t` is one
    exfalso
    rw [h1] at ht1
    rw [h2] at ht3
    have := List.find?_eq_none.1 hs t ht1
    apply this
    simp only [isSinkState, List.all_eq_true, Bool.and_eq_true, beq_iff_eq, Bool.not_eq_true',
      decide_eq_false_iff_not]
    exact fun a ha => ⟨lookupD_of_mapFind (ht3 a ha), ht2⟩
  · -- the sink `s` was removed, and `t` is another one
    exfalso
    rw [h1] at ht1
    obtain ⟨ht1m, hts⟩ := List.mem_filter.1 ht1
    have hts' : t ≠ s := by simpa using hts
    obtain ⟨hsm, hsnf, habs⟩ := sink_found hs hα htotal hsym
    have habst : ∀ a, mapFind (t, a) b.m_Transitions = some t ∨
        mapFind (t, a) b.m_Transitions = none := by
      intro a
      by_cases ha : a ∈ d.m_Alphabet
      · left
        have := ht3 a ha
        rw [h2] at this
        have hm := mapFind_mem this
        exact mapFind_of_mem_nodup (keys_nodup_of_sorted hsorted) (List.mem_filter.1 hm).1
      · right
        cases hfm : mapFind (t, a) b.m_Transitions with
        | none => rfl
        | some v => exact absurd (hsym _ (mapFind_mem hfm)) ha
    obtain ⟨w, hw⟩ := hsep t ht1m s hsm hts'
    apply hw
    rw [acceptsFrom_absorbing (b.toDFA d.m_Alphabet i0) t habst ht2 w,
      acceptsFrom_absorbing (b.toDFA d.m_Alphabet i0) s habs hsnf w]

/-- The theorem `minimize_minimal` at the DFA `strayFinalDfa`. -/
theorem minimize_minimal_witness :
    ∃ D', minimize strayFinalDfa = some D' ∧
      ∀ p ∈ D'.m_States, ∀ q ∈ D'.m_States, p ≠ q →
        ∃ w, D'.acceptsFrom p w ≠ D'.acceptsFrom q w :=
  minimize_minimal strayFinalDfa_wf.closed (by unfold DFA.Total; decide)
    ⟨2, by decide, by decide⟩ (by decide)

/-- The theorem `minimize_trap_free` at the DFA `strayFinalDfa`. -/
theorem minimize_trap_free_witness :
    ∃ D', minimize strayFinalDfa = some D' ∧
      ∀ t ∈ D'.m_States, t ∉ D'.m_FinalStates →
        (∀ a ∈ D'.m_Alphabet, mapFind (t, a) D'.m_Transitions = some t) →
        D'.m_States = [t] :=
  minimize_trap_free strayFinalDfa_wf.closed (by unfold DFA.Total; decide)
    ⟨2, by decide, by decide⟩ (by decide)

/-! ## `unifyNFA` on contiguous state names -/

theorem contiguous_of_range {a : NFA} {n : Nat} (h : a.m_States = List.range n) :
    a.Contiguous ∧ a.m_States.length = n := by
  refine ⟨fun q hq => ?_, by rw [h, List.length_range]⟩
  rw [h] at hq ⊢
  rw [List.length_range]
  exact List.mem_range.1 hq

theorem wideNfa_states : wideNfa.m_States = List.range (2 ^ 32 - 1) := by
  simp only [wideNfa]

theorem wideNfa_wf : wideNfa.WF where
  states_sorted := by rw [wideNfa_states]; exact List.sorted_lt_range _
  alphabet_sorted := by decide
  finals_sorted := List.sorted_nil
  keys_sorted := List.sorted_nil
  initial_mem := by
    show 0 ∈ wideNfa.m_States
    rw [wideNfa_states]
    exact List.mem_range.2 (by norm_num)
  finals_sub := fun q hq => absurd hq (List.not_mem_nil q)
  trans_src := fun e he => absurd he (List.not_mem_nil e)
  trans_sym := fun e he => absurd he (List.not_mem_nil e)
  trans_nonempty := fun e he => absurd he (List.not_mem_nil e)
  trans_sorted := fun e he => absurd he (List.not_mem_nil e)
  trans_tgt := fun e he => absurd he (List.not_mem_nil e)
  states_bound := fun q hq => by
    rw [wideNfa_states] at hq
    have := List.mem_range.1 hq
    omega
  symbols_bound := by decide

/-- When `a` has the states `0 .. N - 1` with `N + 1 = 2^32` and `b` the single state
`0`, the count of the states of the union wraps around: the new initial state is 0,
and `N + 1` is no state of the union. -/
theorem unifyNFA_wraps (a b : NFA) (N : Nat) (ha : a.m_States = List.range N)
    (hb : b.m_States = [0]) (hN : N + 1 = 2 ^ 32) :
    (unifyNFA a b).m_InitialState = 0 ∧ N + 1 ∉ (unifyNFA a b).m_States := by
  have hn : a.m_States.length = N := by rw [ha]; exact List.length_range _
  have hoff : ∀ q ∈ b.m_States, offsetState a.m_States.length q = N := by
    intro q hq
    rw [hb] at hq
    have hq0 : q = 0 := by simpa using hq
    rw [hn, hq0]
    unfold offsetState
    rw [Nat.zero_add]
    exact Nat.mod_eq_of_lt (by omega)
  obtain ⟨h1, -, -, -, -⟩ := foldl_importState a b b.m_States
    { a with m_Alphabet := setInsertAll b.m_Alphabet a.m_Alphabet }
  have hlen := length_foldl_importState a b b.m_States (by rw [hb]; simp)
    { a with m_Alphabet := setInsertAll b.m_Alphabet a.m_Alphabet }
    (fun q hq q' hq' _ => by
      rw [hb] at hq hq'
      have e1 : q = 0 := by simpa using hq
      have e2 : q' = 0 := by simpa using hq'
      rw [e1, e2])
    (fun q hq hc => by
      rw [hoff q hq] at hc
      have hc' : N ∈ a.m_States := hc
      rw [ha] at hc'
      have := List.mem_range.1 hc'
      omega)
  have hlen' : (b.m_States.foldl (importState a b)
      { a with m_Alphabet := setInsertAll b.m_Alphabet a.m_Alphabet }).m_States.length =
        2 ^ 32 := by
    rw [hlen]
    show a.m_States.length + b.m_States.length = 2 ^ 32
    rw [hn, hb]
    exact hN
  have hinit : (unifyNFA a b).m_InitialState = 0 := by
    show (b.m_States.foldl (importState a b)
      { a with m_Alphabet := setInsertAll b.m_Alphabet a.m_Alphabet }).m_States.length %
        2 ^ 32 = 0
    rw [hlen']
    exact Nat.mod_self _
  refine ⟨hinit, fun hc => ?_⟩
  have hc' : N + 1 ∈ setInsert (unifyNFA a b).m_InitialState
      (b.m_States.foldl (importState a b)
        { a with m_Alphabet := setInsertAll b.m_Alphabet a.m_Alphabet }).m_States := hc
  rw [hinit] at hc'
  rcases mem_setInsert.1 hc' with h | h
  · omega
  · rcases (h1 _).1 h with h2 | ⟨q, hq, h2⟩
    · have h2' : N + 1 ∈ a.m_States := h2
      rw [ha] at h2'
      have := List.mem_range.1 h2'
      omega
    · rw [hoff q hq] at h2
      omega

/-- C21, refuted as stated: `wideNfa` has the states `0 .. 2^32 - 2` and `voidNfa` the
state `0`, both are well-formed with contiguous state names, and the new initial
state of their union, the number `2^32` of states stored as a `State`, is `0`: a
state of `wideNfa`, not the number `n + m = 2^32`, which is no state of the union. -/
theorem unifyNFA_contiguous_overflow :
    wideNfa.WF ∧ voidNfa.WF ∧ wideNfa.m_States = List.range (2 ^ 32 - 1) ∧
      voidNfa.m_States = List.range 1 ∧
      (unifyNFA wideNfa voidNfa).m_InitialState = 0 ∧
      (unifyNFA wideNfa voidNfa).m_InitialState ∈ wideNfa.m_States ∧
      (2 ^ 32 - 1) + 1 ∉ (unifyNFA wideNfa voidNfa).m_States := by
  obtain ⟨h1, h2⟩ := unifyNFA_wraps wideNfa voidNfa (2 ^ 32 - 1) wideNfa_states rfl
    (by norm_num)
  refine ⟨wideNfa_wf, voidNfa_wf, wideNfa_states, rfl, h1, ?_, h2⟩
  rw [h1]
  exact wideNfa_wf.initial_mem

/-- C21, amended by the bound `n + m < 2^32`: for well-formed NFAs with the states
`0 .. n - 1` and `0 .. m - 1`, `unifyNFA a b` has the states `0 .. n + m` and the
initial state `n + m`, which is no state of `a` and no imported state of `b`; the
states of `b` appear as `n .. n + m - 1`, none of them a state of `a`; and
`unifyNFA a b` accepts a word exactly when `a` or `b` accepts it. -/
theorem unifyNFA_contiguous (a b : NFA) (ha : a.WF) (hb : b.WF) (n m : Nat)
    (hca : a.m_States = List.range n) (hcb : b.m_States = List.range m)
    (hbound : n + m < 2 ^ 32) :
    (unifyNFA a b).m_States = List.range (n + m + 1) ∧
      (unifyNFA a b).m_InitialState = n + m ∧
      (unifyNFA a b).m_InitialState ∉ a.m_States ∧
      (∀ q ∈ b.m_States, offsetState a.m_States.length q = n + q ∧
        offsetState a.m_States.length q ∈ (unifyNFA a b).m_States ∧
        offsetState a.m_States.length q ∉ a.m_States ∧
        (unifyNFA a b).m_InitialState ≠ offsetState a.m_States.length q) ∧
      (∀ x, n ≤ x → x < n + m → ∃ q ∈ b.m_States, x = offsetState a.m_States.length q) ∧
      ∀ w, (unifyNFA a b).accepts w = (a.accepts w || b.accepts w) := by
  obtain ⟨hcona, hna⟩ := contiguous_of_range hca
  obtain ⟨hconb, hnb⟩ := contiguous_of_range hcb
  have hbound' : a.m_States.length + b.m_States.length < 2 ^ 32 := by rw [hna, hnb]; exact hbound
  obtain ⟨hinit, hstates, -, -, -⟩ := unifyNFA_spec ha hb hcona hconb hbound'
  have hwf := unifyNFA_wf ha hb hcona hconb hbound'
  have hoff : ∀ q ∈ b.m_States, offsetState a.m_States.length q = n + q := by
    intro q hq
    have hq' : q < m := by rw [hcb] at hq; exact List.mem_range.1 hq
    rw [hna, offsetState_eq (by omega)]
    omega
  have hmemA : ∀ x, x ∈ a.m_States ↔ x < n := by
    intro x; rw [hca]; exact List.mem_range
  have hmemB : ∀ x, x ∈ b.m_States ↔ x < m := by
    intro x; rw [hcb]; exact List.mem_range
  have hmem : ∀ x, x ∈ (unifyNFA a b).m_States ↔ x < n + m + 1 := by
    intro x
    rw [hstates, hna, hnb, hmemA]
    constructor
    · rintro (h | ⟨q, hq, h⟩ | h)
      · omega
      · have := (hmemB q).1 hq
        omega
      · omega
    · intro h
      by_cases h1 : x < n
      · exact Or.inl h1
      · by_cases h2 : x < n + m
        · exact Or.inr (Or.inl ⟨x - n, (hmemB _).2 (by omega), by omega⟩)
        · exact Or.inr (Or.inr (by omega))
  refine ⟨?_, by rw [hinit, hna, hnb], ?_, ?_, ?_, unifyNFA_accepts ha hb hcona hconb hbound'⟩
  · exact sorted_ext hwf.states_sorted (List.sorted_lt_range _)
      (fun x => by rw [hmem, List.mem_range])
  · rw [hinit, hna, hnb, hmemA]
    omega
  · intro q hq
    have hq' := (hmemB q).1 hq
    refine ⟨hoff q hq, ?_, ?_, ?_⟩
    · rw [hoff q hq, hmem]; omega
    · rw [hoff q hq, hmemA]; omega
    · rw [hoff q hq, hinit, hna, hnb]; omega
  · intro x h1 h2
    refine ⟨x - n, (hmemB _).2 (by omega), ?_⟩
    rw [hoff _ ((hmemB _).2 (by omega))]
    omega

/-- The amended C21 on the NFAs `a1` and `a2` of `main`. -/
theorem unifyNFA_contiguous_witness :
    sampleA1.WF ∧ sampleA2.WF ∧ sampleA1.m_States = List.range 3 ∧
      sampleA2.m_States = List.range 3 ∧ 3 + 3 < 2 ^ 32 ∧
      (unifyNFA sampleA1 sampleA2).m_States = List.range (3 + 3 + 1) ∧
      (unifyNFA sampleA1 sampleA2).m_InitialState = 3 + 3 ∧
      (unifyNFA sampleA1 sampleA2).m_InitialState ∉ sampleA1.m_States ∧
      (∀ q ∈ sampleA2.m_States, offsetState sampleA1.m_States.length q = 3 + q ∧
        offsetState sampleA1.m_States.length q ∈ (unifyNFA sampleA1 sampleA2).m_States ∧
        offsetState sampleA1.m_States.length q ∉ sampleA1.m_States ∧
        (unifyNFA sampleA1 sampleA2).m_InitialState ≠
          offsetState sampleA1.m_States.length q) ∧
      (∀ x, 3 ≤ x → x < 3 + 3 →
        ∃ q ∈ sampleA2.m_States, x = offsetState sampleA1.m_States.length q) ∧
      ∀ w, (unifyNFA sampleA1 sampleA2).accepts w =
        (sampleA1.accepts w || sampleA2.accepts w) :=
  ⟨sampleA1_wf, sampleA2_wf, by decide, by decide, by decide,
    unifyNFA_contiguous sampleA1 sampleA2 sampleA1_wf sampleA2_wf 3 3 (by decide) (by decide)
      (by decide)⟩

/-! ## The pairs of `parallelRun` and their ids -/

/-- For DFAs with closed references that are total over their own alphabets, share
a symbol and have a product of fewer than `2 ^ 32 - 1` pairs, every pair of states
that the operands reach on a common word has an id in `parallelRun a b`: the id is
a state, the product is in it after that word, and different pairs have different
ids. -/
theorem parallelRun_ids {a b : DFA} (hca : a.Closed) (hcb : b.Closed) (hta : a.Total)
    (htb : b.Total) (hN : a.m_States.length * b.m_States.length + 1 < 2 ^ 32)
    (hshare : ∃ c, c ∈ a.m_Alphabet ∧ c ∈ b.m_Alphabet) :
    ∃ R, parallelRun a b = some R ∧ ∃ id : Nat → Nat → Nat,
      (∀ w p q, a.run w = some p → b.run w = some q →
        id p q ∈ R.m_States ∧ R.run w = some (id p q)) ∧
      ∀ w w' p q p' q', a.run w = some p → b.run w = some q → a.run w' = some p' →
        b.run w' = some q' → id p q = id p' q' → p = p' ∧ q = q' := by
  have hal : ∀ s, s ∈ setInsertAll b.m_Alphabet (setInsertAll a.m_Alphabet []) ↔
      s ∈ a.m_Alphabet ∨ s ∈ b.m_Alphabet := by
    intro s
    simp only [mem_setInsertAll, List.not_mem_nil, or_false]
    exact Or.comm
  have hsh : ∀ x, IsPair a b x →
      ∃ s ∈ setInsertAll b.m_Alphabet (setInsertAll a.m_Alphabet []),
        pairTarget a b x s ≠ [] := by
    rintro x ⟨p, q, rfl, hp, hq⟩
    obtain ⟨c, hc1, hc2⟩ := hshare
    refine ⟨c, (hal c).2 (Or.inl hc1), ?_⟩
    have hA := hta.find hp hc1
    have hB := htb.find hq hc2
    simp [pairTarget, hA, hB]
  obtain ⟨st, hloop, hinv, hq⟩ := parallelLoop_spec hca hcb hN hsh
    (parallelFuel (setInsertAll b.m_Alphabet (setInsertAll a.m_Alphabet [])).length
      (a.m_States.length * b.m_States.length) + 1) _
    (prodInv_init hca hcb (setInsertAll b.m_Alphabet (setInsertAll a.m_Alphabet [])))
    (by
      simp only [queueWeight, pairWeight, pairRank, List.map_cons, List.map_nil, List.sum_cons,
        List.sum_nil, List.length_cons, List.length_nil, mapFind_cons]
      simp [mapFind])
  have hrun : ∀ w p q, a.run w = some p → b.run w = some q →
      ∃ v, mapFind [p, q] st.pairID = some v ∧ lookupD st.pairID [p, q] = v ∧
        v < st.stateCounter ∧
        DFA.run { st.result with m_Transitions := productTransitions st } w = some v := by
    intro w p q hp hq'
    rcases hinv.product_run hq (fun s hs => (hal s).2 (Or.inl hs)) hca
      { st.result with m_Transitions := productTransitions st } rfl hinv.initial w with
      ⟨p1, q1, h1, h2, hkey, hR⟩ | ⟨h1 | h1, -⟩
    · rw [hp] at h1
      rw [hq'] at h2
      obtain rfl := Option.some.inj h1
      obtain rfl := Option.some.inj h2
      obtain ⟨v, hv⟩ := mapFind_isSome_of_mem hkey
      have hl := lookupD_of_mapFind hv
      exact ⟨v, hv, hl, hinv.vals_lt v (mapFind_val_mem hv), by rw [hR, hl]⟩
    · rw [hp] at h1; simp at h1
    · rw [hq'] at h1; simp at h1
  refine ⟨{ st.result with m_Transitions := productTransitions st }, ?_,
    fun p q => lookupD st.pairID [p, q], ?_, ?_⟩
  · unfold parallelRun
    simp only [hloop]
    rfl
  · intro w p q hp hq'
    obtain ⟨v, -, hl, hlt, hR⟩ := hrun w p q hp hq'
    have hmem : lookupD st.pairID [p, q] ∈ st.result.m_States := by
      rw [hinv.states_iff, hl]
      exact hlt
    exact ⟨hmem, hR.trans (congrArg some hl.symm)⟩
  · intro w w' p q p' q' hp hq1 hp' hq1' heq
    obtain ⟨v, hv, hl, -, -⟩ := hrun w p q hp hq1
    obtain ⟨v', hv', hl', -, -⟩ := hrun w' p' q' hp' hq1'
    have hvv : v = v' := by rw [← hl, ← hl']; exact heq
    rw [← hvv] at hv'
    have := mapFind_inj hinv.vals_nodup hv hv'
    simp only [List.cons.injEq, and_true] at this
    exact this

/-- C22, amended: for well-formed DFAs that are total over their own alphabets,
share a symbol and have `|Q_a| * |Q_b| + 1 < 2 ^ 32`, `parallelRun a b` returns a
DFA over the union of the alphabets in which every state has a transition on every
symbol, leading to a state; every pair of states that the operands reach on a
common word has its own id, a state the product is in after that word; and the
product accepts a word exactly when both operands accept it. -/
theorem parallelRun_product (a b : DFA) (ha : a.WF) (hb : b.WF) (hta : a.Total)
    (htb : b.Total) (hN : a.m_States.length * b.m_States.length + 1 < 2 ^ 32)
    (hshare : ∃ c, c ∈ a.m_Alphabet ∧ c ∈ b.m_Alphabet) :
    ∃ R, parallelRun a b = some R ∧
      (∀ s, s ∈ R.m_Alphabet ↔ s ∈ a.m_Alphabet ∨ s ∈ b.m_Alphabet) ∧
      (∀ i ∈ R.m_States, ∀ s, s ∈ a.m_Alphabet ∨ s ∈ b.m_Alphabet →
        ∃ t, mapFind (i, s) R.m_Transitions = some t ∧ t ∈ R.m_States) ∧
      (∃ id : Nat → Nat → Nat,
        (∀ w p q, a.run w = some p → b.run w = some q →
          id p q ∈ R.m_States ∧ R.run w = some (id p q)) ∧
        ∀ w w' p q p' q', a.run w = some p → b.run w = some q → a.run w' = some p' →
          b.run w' = some q' → id p q = id p' q' → p = p' ∧ q = q') ∧
      ∀ w, R.accepts w = (a.accepts w && b.accepts w) := by
  obtain ⟨R, hR, hRc, hRt, hRa, -, -, -, hRl⟩ :=
    parallelRun_spec ha.closed hb.closed hta htb hN hshare
  obtain ⟨R', hR', hid⟩ := parallelRun_ids ha.closed hb.closed hta htb hN hshare
  have hRR : R' = R := Option.some.inj (hR'.symm.trans hR)
  rw [hRR] at hid
  refine ⟨R, hR, hRa, fun i hi s hs => ?_, hid, hRl⟩
  have hf := hRt.find hi ((hRa s).2 hs)
  exact ⟨R.delta i s, hf, hRc.trans_tgt _ (mapFind_mem hf)⟩

/-- C22 on two total DFAs over `{a}`: `gapDfa`, which accepts exactly the word `a`,
and `trapDfa`, which accepts no word. -/
theorem parallelRun_product_witness :
    gapDfa.WF ∧ trapDfa.WF ∧ gapDfa.Total ∧ trapDfa.Total ∧
      gapDfa.m_States.length * trapDfa.m_States.length + 1 < 2 ^ 32 ∧
      (97 ∈ gapDfa.m_Alphabet ∧ 97 ∈ trapDfa.m_Alphabet) ∧
      ∃ R, parallelRun gapDfa trapDfa = some R ∧
        (∀ s, s ∈ R.m_Alphabet ↔ s ∈ gapDfa.m_Alphabet ∨ s ∈ trapDfa.m_Alphabet) ∧
        (∀ i ∈ R.m_States, ∀ s, s ∈ gapDfa.m_Alphabet ∨ s ∈ trapDfa.m_Alphabet →
          ∃ t, mapFind (i, s) R.m_Transitions = some t ∧ t ∈ R.m_States) ∧
        (∃ id : Nat → Nat → Nat,
          (∀ w p q, gapDfa.run w = some p → trapDfa.run w = some q →
            id p q ∈ R.m_States ∧ R.run w = some (id p q)) ∧
          ∀ w w' p q p' q', gapDfa.run w = some p → trapDfa.run w = some q →
            gapDfa.run w' = some p' → trapDfa.run w' = some q' → id p q = id p' q' →
            p = p' ∧ q = q') ∧
        ∀ w, R.accepts w = (gapDfa.accepts w && trapDfa.accepts w) :=
  ⟨gapDfa_wf, trapDfa_wf, by unfold DFA.Total; decide, by unfold DFA.Total; decide,
    by decide, ⟨by decide, by decide⟩,
    parallelRun_product gapDfa trapDfa gapDfa_wf trapDfa_wf (by unfold DFA.Total; decide)
      (by unfold DFA.Total; decide) (by decide) ⟨97, by decide, by decide⟩⟩

/-! ## `parallelRun` with the operands exchanged -/

theorem mapFind_map_key {K V : Type} [DecidableEq K] (f : K → K) (hf : Function.Injective f)
    (k : K) (m : List (K × V)) :
    mapFind (f k) (m.map (fun e => (f e.1, e.2))) = mapFind k m := by
  induction m with
  | nil => rfl
  | cons e rest ih =>
    obtain ⟨k1, v1⟩ := e
    simp only [List.map_cons, mapFind_cons, ih]
    by_cases h : k1 = k
    · rw [if_pos h, if_pos (by rw [h])]
    · rw [if_neg h, if_neg (fun hc => h (hf hc))]

theorem mapFind_reverse_key {V : Type} (x : List Nat) (m : List (List Nat × V)) :
    mapFind x.reverse (m.map (fun e => (e.1.reverse, e.2))) = mapFind x m :=
  mapFind_map_key List.reverse List.reverse_injective x m

theorem lookupD_reverse_key (x : List Nat) (m : List (List Nat × Nat)) :
    lookupD (m.map (fun e => (e.1.reverse, e.2))) x.reverse = lookupD m x := by
  unfold lookupD
  rw [mapFind_reverse_key]

theorem pairTarget_of_length_ne (a b : DFA) {x : List Nat} (h : x.length ≠ 2) (s : Nat) :
    pairTarget a b x s = [] := by
  match x, h with
  | [], _ => rfl
  | [_], _ => rfl
  | [_, _], h => exact absurd rfl h
  | _ :: _ :: _ :: _, _ => rfl

theorem parallelSymbol_of_length_ne (a b : DFA) {x : List Nat} (h : x.length ≠ 2)
    (st : ProdState) (s : Nat) : parallelSymbol a b x st s = st := by
  match x, h with
  | [], _ => rfl
  | [_], _ => rfl
  | [_, _], h => exact absurd rfl h
  | _ :: _ :: _ :: _, _ => rfl

theorem pairTarget_pair_reverse (a b : DFA) (p q s : Nat) :
    pairTarget b a [q, p] s = (pairTarget a b [p, q] s).reverse := by
  cases hA : mapFind (p, s) a.m_Transitions with
  | none =>
    cases hB : mapFind (q, s) b.m_Transitions <;> simp [pairTarget, hA, hB]
  | some ta =>
    cases hB : mapFind (q, s) b.m_Transitions <;> simp [pairTarget, hA, hB]

theorem pairFinal_pair_reverse (a b : DFA) (p q : Nat) :
    pairFinal b a [q, p] = pairFinal a b [p, q] := by
  simp only [pairFinal]
  exact decide_eq_decide.2 And.comm

/-- One symbol of one round keeps the two runs mirrored. -/
theorem mirror_step {a b : DFA} {st st' st1 st1' : ProdState} {p q s : Nat}
    (h : Mirror st st') (h1 : ProdStep a b st st1 [p, q] s)
    (h2 : ProdStep b a st' st1' [q, p] s) : Mirror st1 st1' := by
  obtain ⟨t1, p1, c1, s1, f1, q1, a1, i1⟩ := h1
  obtain ⟨t2, p2, c2, s2, f2, q2, a2, i2⟩ := h2
  have hT := pairTarget_pair_reverse a b p q s
  have hTne : pairTarget b a [q, p] s ≠ [] ↔ pairTarget a b [p, q] s ≠ [] := by
    rw [hT]
    simp
  have hfind : ∀ x : List Nat, mapFind x.reverse st'.pairID = mapFind x st.pairID := by
    intro x
    rw [h.pairID_eq]
    exact mapFind_reverse_key x st.pairID
  have hcur : mapFind [q, p] st'.pairID = mapFind [p, q] st.pairID := hfind [p, q]
  have hcond : (pairTarget b a [q, p] s ≠ [] ∧ (mapFind [q, p] st'.pairID).isNone = true) ↔
      (pairTarget a b [p, q] s ≠ [] ∧ (mapFind [p, q] st.pairID).isNone = true) := by
    rw [hTne, hcur]
  have hpid : st1'.pairID = st1.pairID.map (fun e => (e.1.reverse, e.2)) := by
    rw [p1, p2]
    by_cases hc : pairTarget a b [p, q] s ≠ [] ∧ (mapFind [p, q] st.pairID).isNone = true
    · rw [if_pos hc, if_pos (hcond.2 hc), h.pairID_eq, h.counter_eq]
      rfl
    · rw [if_neg hc, if_neg (fun hc' => hc (hcond.1 hc')), h.pairID_eq]
  have hfind1 : ∀ x : List Nat, mapFind x.reverse st1'.pairID = mapFind x st1.pairID := by
    intro x
    rw [hpid]
    exact mapFind_reverse_key x st1.pairID
  refine ⟨?_, by rw [a1, a2, h.alphabet_eq], by rw [i1, i2, h.initial_eq], ?_, ?_, ?_, hpid, ?_⟩
  · rw [s1, s2]
    by_cases hc : pairTarget a b [p, q] s ≠ [] ∧ (mapFind [p, q] st.pairID).isNone = true
    · rw [if_pos hc, if_pos (hcond.2 hc), h.states_eq, h.counter_eq]
    · rw [if_neg hc, if_neg (fun hc' => hc (hcond.1 hc')), h.states_eq]
  · rw [f1, f2, pairFinal_pair_reverse]
    by_cases hc : (pairTarget a b [p, q] s ≠ [] ∧ (mapFind [p, q] st.pairID).isNone = true) ∧
        pairFinal a b [p, q] = true
    · rw [if_pos hc, if_pos ⟨hcond.2 hc.1, hc.2⟩, h.finals_eq, h.counter_eq]
    · rw [if_neg hc, if_neg (fun hc' => hc ⟨hcond.1 hc'.1, hc'.2⟩), h.finals_eq]
  · rw [c1, c2]
    by_cases hc : pairTarget a b [p, q] s ≠ [] ∧ (mapFind [p, q] st.pairID).isNone = true
    · rw [if_pos hc, if_pos (hcond.2 hc), h.counter_eq]
    · rw [if_neg hc, if_neg (fun hc' => hc (hcond.1 hc')), h.counter_eq]
  · rw [q1, q2]
    have hq : (pairTarget b a [q, p] s ≠ [] ∧
        (mapFind (pairTarget b a [q, p] s) st1'.pairID).isNone = true) ↔
        (pairTarget a b [p, q] s ≠ [] ∧
          (mapFind (pairTarget a b [p, q] s) st1.pairID).isNone = true) := by
      rw [hTne, hT, hfind1]
    by_cases hc : pairTarget a b [p, q] s ≠ [] ∧
        (mapFind (pairTarget a b [p, q] s) st1.pairID).isNone = true
    · rw [if_pos hc, if_pos (hq.2 hc), h.queue_eq, hT]
      simp
    · rw [if_neg hc, if_neg (fun hc' => hc (hq.1 hc')), h.queue_eq]
  · intro k s0
    rw [t1, t2, mapFind_mapAssign, mapFind_mapAssign, h.temp_eq, hT]
    by_cases hk : ([p, q], s) = (k, s0)
    · have hk' : ([q, p], s) = (k.reverse, s0) := by
        obtain ⟨e1, e2⟩ := Prod.mk.inj hk
        rw [← e1, ← e2]
        rfl
      rw [if_pos hk, if_pos hk']
      rfl
    · have hk' : ¬ ([q, p], s) = (k.reverse, s0) := by
        intro hc
        obtain ⟨e1, e2⟩ := Prod.mk.inj hc
        apply hk
        have : k = [p, q] := by
          have := congrArg List.reverse e1
          rw [List.reverse_reverse] at this
          rw [← this]
          rfl
        rw [this, e2]
      rw [if_neg hk, if_neg hk']

/-- Processing a vector on one symbol keeps the two runs mirrored. -/
theorem mirror_symbol (a b : DFA) {st st' : ProdState} (h : Mirror st st') (next : List Nat)
    (s : Nat) :
    Mirror (parallelSymbol a b next st s) (parallelSymbol b a next.reverse st' s) := by
  by_cases hl : next.length = 2
  · match next, hl with
    | [p, q], _ =>
      exact mirror_step h (parallelSymbol_step a b p q st s) (parallelSymbol_step b a q p st' s)
  · rw [parallelSymbol_of_length_ne a b hl,
      parallelSymbol_of_length_ne b a (by rw [List.length_reverse]; exact hl)]
    exact h

theorem mirror_symbols (a b : DFA) (next : List Nat) (syms : List Nat) :
    ∀ {st st' : ProdState}, Mirror st st' →
      Mirror (syms.foldl (parallelSymbol a b next) st)
        (syms.foldl (parallelSymbol b a next.reverse) st') := by
  induction syms with
  | nil => intro st st' h; exact h
  | cons s rest ih =>
    intro st st' h
    exact ih (mirror_symbol a b h next s)

/-- The worklist loops of `parallelRun a b` and `parallelRun b a` run in step: both
run out of rounds, or both end, in mirrored states. -/
theorem mirror_loop (a b : DFA) :
    ∀ (fuel : Nat) {st st' : ProdState}, Mirror st st' →
      (parallelLoop a b fuel st = none ∧ parallelLoop b a fuel st' = none) ∨
        ∃ r r', parallelLoop a b fuel st = some r ∧ parallelLoop b a fuel st' = some r' ∧
          Mirror r r' := by
  intro fuel
  induction fuel with
  | zero => intro st st' _; exact Or.inl ⟨rfl, rfl⟩
  | succ fuel ih =>
    intro st st' h
    unfold parallelLoop
    cases hq : st.queue with
    | nil =>
      have hq' : st'.queue = [] := by rw [h.queue_eq, hq]; rfl
      simp only [hq']
      exact Or.inr ⟨st, st', rfl, rfl, h⟩
    | cons next rest =>
      have hq' : st'.queue = next.reverse :: rest.map List.reverse := by
        rw [h.queue_eq, hq]; rfl
      simp only [hq']
      rw [h.alphabet_eq]
      apply ih
      apply mirror_symbols
      exact ⟨h.states_eq, h.alphabet_eq, h.initial_eq, h.finals_eq, h.counter_eq, rfl,
        h.pairID_eq, h.temp_eq⟩

/-- One symbol of one round keeps the facts on the ids. -/
theorem prodIds_step {a b : DFA} {st st' : ProdState} {p q s : Nat} (h : ProdIds a b st)
    (hlt : (mapFind [p, q] st.pairID).isNone = true → st.stateCounter + 1 < 2 ^ 32)
    (hr : ProdStep a b st st' [p, q] s) : ProdIds a b st' := by
  obtain ⟨t1, p1, c1, -, -, -, -, -⟩ := hr
  replace c1 : st'.stateCounter =
      if pairTarget a b [p, q] s ≠ [] ∧ (mapFind [p, q] st.pairID).isNone = true then
        st.stateCounter + 1 else st.stateCounter := by
    rw [c1]
    split_ifs with hc
    · exact Nat.mod_eq_of_lt (hlt hc.2)
    · rfl
  have hmono : ∀ x : List Nat, (mapFind x st.pairID).isSome = true →
      (mapFind x st'.pairID).isSome = true := by
    intro x hx
    rw [p1]
    split_ifs
    · exact isSome_cons_of_isSome hx
    · exact hx
  refine ⟨?_, ?_, ?_, ?_, ?_, ?_⟩
  · rw [p1]
    split_ifs
    · rw [mapFind_cons, if_neg (by simp)]
      exact h.sink_id
    · exact h.sink_id
  · rw [p1]
    split_ifs
    · simp only [List.map_cons, List.nodup_cons]
      exact ⟨fun hc => absurd (h.vals_lt _ hc) (lt_irrefl _), h.vals_nodup⟩
    · exact h.vals_nodup
  · intro v hv
    rw [p1] at hv
    rw [c1]
    split_ifs at hv ⊢
    · simp only [List.map_cons, List.mem_cons] at hv
      rcases hv with hv | hv
      · omega
      · have := h.vals_lt v hv
        omega
    · exact h.vals_lt v hv
  · rw [p1, c1]
    have := h.counter_le
    split_ifs
    · simp only [List.length_cons]; omega
    · exact this
  · intro e he
    rw [t1] at he
    rcases mem_mapAssign he with h1 | h1
    · rw [h1]
    · exact h.temp_val e h1
  · intro e he hne
    rw [t1] at he
    rcases mem_mapAssign he with h1 | h1
    · rw [h1] at hne ⊢
      simp only at hne ⊢
      rw [p1]
      by_cases hc : pairTarget a b [p, q] s ≠ [] ∧ (mapFind [p, q] st.pairID).isNone = true
      · rw [if_pos hc, mapFind_cons, if_pos rfl]
        rfl
      · rw [if_neg hc]
        cases hm : mapFind [p, q] st.pairID with
        | none => exact absurd ⟨hne, by rw [hm]; rfl⟩ hc
        | some v => rfl
    · exact hmono _ (h.temp_id e h1 hne)

theorem prodIds_init (a b : DFA) (al : List Nat) (res : DFA) (queue : List (List Nat)) :
    ProdIds a b
      { result := res
        tempTransitions := al.foldl (fun t symbol => mapAssign vecKeyLt ([], symbol) [] t) []
        pairID := [([], 0)]
        queue := queue
        stateCounter := 1 } := by
  have hmem : ∀ e ∈ al.foldl (fun t symbol => mapAssign vecKeyLt ([], symbol) [] t)
      ([] : List ((List Nat × Nat) × List Nat)), ∃ s, e = (([], s), []) := by
    intro e he
    rcases mem_sinkLoops al [] e he with h1 | ⟨s, -, h1⟩
    · simp at h1
    · exact ⟨s, h1⟩
  refine ⟨rfl, by simp, by simp, by simp, ?_, ?_⟩
  · intro e he
    obtain ⟨s, rfl⟩ := hmem e he
    rfl
  · intro e he hne
    obtain ⟨s, rfl⟩ := hmem e he
    exact absurd rfl hne

/-- Entries of `tempTransitions` that are sent to the same key of the transition
map have the same target id. -/
theorem ProdIds.consistent {a b : DFA} {st : ProdState} (h : ProdIds a b st) :
    ∀ e ∈ st.tempTransitions, ∀ e' ∈ st.tempTransitions,
      (lookupD st.pairID e.1.1, e.1.2) = (lookupD st.pairID e'.1.1, e'.1.2) →
      lookupD st.pairID e.2 = lookupD st.pairID e'.2 := by
  -- an entry whose vector has the id of another vector leads to the sink
  have key : ∀ e ∈ st.tempTransitions, ∀ e' ∈ st.tempTransitions, e.1.1 ≠ e'.1.1 →
      lookupD st.pairID e.1.1 = lookupD st.pairID e'.1.1 → e.2 = [] := by
    intro e he e' he' hne hk
    by_contra hv
    obtain ⟨v, hv1⟩ := Option.isSome_iff_exists.1 (h.temp_id e he hv)
    rw [lookupD_of_mapFind hv1] at hk
    cases hm : mapFind e'.1.1 st.pairID with
    | some v' =>
      rw [lookupD_of_mapFind hm] at hk
      rw [← hk] at hm
      exact hne (mapFind_inj h.vals_nodup hv1 hm)
    | none =>
      have hl : lookupD st.pairID e'.1.1 = 0 := by simp [lookupD, hm]
      rw [hl] at hk
      rw [hk] at hv1
      have hx : e.1.1 = [] := mapFind_inj h.vals_nodup hv1 h.sink_id
      apply hv
      rw [h.temp_val e he, hx]
      rfl
  intro e he e' he' hk
  obtain ⟨k1, k2⟩ := Prod.mk.inj hk
  by_cases hx : e.1.1 = e'.1.1
  · rw [h.temp_val e he, h.temp_val e' he', hx, k2]
  · rw [key e he e' he' hx k1, key e' he' e he (fun hc => hx hc.symm) k1.symm]

theorem foldl_assign_keys_sorted {E V : Type} (F : E → (Nat × Nat) × V) (l : List E) :
    ∀ (acc : List ((Nat × Nat) × V)),
      (acc.map Prod.fst).Sorted (fun a b => keyLt a b = true) →
      ((l.foldl (fun t e => mapAssign keyLt (F e).1 (F e).2 t) acc).map Prod.fst).Sorted
        (fun a b => keyLt a b = true) := by
  induction l with
  | nil => intro acc h; exact h
  | cons e l ih =>
    intro acc h
    rw [List.foldl_cons]
    exact ih _ (mapAssign_keys_sorted _ _ _ h)

/-- Two transition maps in ascending key order with the same lookups are equal. -/
theorem keySorted_ext {V : Type} {l1 l2 : List ((Nat × Nat) × V)}
    (h1 : (l1.map Prod.fst).Sorted (fun a b => keyLt a b = true))
    (h2 : (l2.map Prod.fst).Sorted (fun a b => keyLt a b = true))
    (h : ∀ k, mapFind k l1 = mapFind k l2) : l1 = l2 := by
  have nd1 := keys_nodup_of_sorted h1
  have nd2 := keys_nodup_of_sorted h2
  have s1 : l1.Sorted (fun e1 e2 => keyLt e1.1 e2.1 = true) := List.pairwise_map.1 h1
  have s2 : l2.Sorted (fun e1 e2 => keyLt e1.1 e2.1 = true) := List.pairwise_map.1 h2
  have hanti : ∀ x y : (Nat × Nat) × V, keyLt x.1 y.1 = true → keyLt y.1 x.1 = true → x = y := by
    intro x y hxy hyx
    have := keyLt_trans hxy hyx
    rw [keyLt_irrefl] at this
    exact absurd this (by simp)
  have hperm : l1.Perm l2 := by
    rw [List.perm_ext_iff_of_nodup (List.Nodup.of_map _ nd1) (List.Nodup.of_map _ nd2)]
    intro e
    constructor
    · intro he
      have := mapFind_of_mem_nodup nd1 he
      rw [h] at this
      exact mapFind_mem this
    · intro he
      have := mapFind_of_mem_nodup nd2 he
      rw [← h] at this
      exact mapFind_mem this
  haveI : IsAntisymm ((Nat × Nat) × V) (fun e1 e2 => keyLt e1.1 e2.1 = true) := ⟨hanti⟩
  exact List.eq_of_perm_of_sorted hperm s1 s2

theorem mapFind_of_mem_val {a b : DFA} {st : ProdState} (h : ProdIds a b st)
    {e : (List Nat × Nat) × List Nat} (he : e ∈ st.tempTransitions) :
    mapFind (e.1.1, e.1.2) st.tempTransitions = some e.2 := by
  obtain ⟨v, hv⟩ := mapFind_isSome_of_mem (List.mem_map.2 ⟨e, he, rfl⟩)
  have hv' : mapFind (e.1.1, e.1.2) st.tempTransitions = some v := hv
  rw [hv', h.temp_val e he]
  exact congrArg some (h.temp_val _ (mapFind_mem hv'))

/-- Mirrored runs give the same transition map. -/
theorem productTransitions_mirror {a b : DFA} {st st' : ProdState} (hm : Mirror st st')
    (h : ProdIds a b st) (h' : ProdIds b a st') :
    productTransitions st' = productTransitions st := by
  have hl : ∀ x : List Nat, lookupD st'.pairID x.reverse = lookupD st.pairID x := by
    intro x
    rw [hm.pairID_eq]
    exact lookupD_reverse_key x st.pairID
  have hl' : ∀ x : List Nat, lookupD st'.pairID x = lookupD st.pairID x.reverse := by
    intro x
    have := hl x.reverse
    rw [List.reverse_reverse] at this
    exact this
  -- entries correspond
  have fwd : ∀ e ∈ st.tempTransitions,
      ((e.1.1.reverse, e.1.2), e.2.reverse) ∈ st'.tempTransitions := by
    intro e he
    have := hm.temp_eq e.1.1 e.1.2
    rw [mapFind_of_mem_val h he] at this
    exact mapFind_mem this
  have bwd : ∀ e ∈ st'.tempTransitions,
      ((e.1.1.reverse, e.1.2), e.2.reverse) ∈ st.tempTransitions := by
    intro e he
    have := hm.temp_eq e.1.1.reverse e.1.2
    rw [List.reverse_reverse, mapFind_of_mem_val h' he] at this
    cases hf : mapFind (e.1.1.reverse, e.1.2) st.tempTransitions with
    | none => rw [hf] at this; simp at this
    | some v =>
      rw [hf] at this
      simp only [Option.map_some', Option.some.injEq] at this
      have hv : v = e.2.reverse := by rw [this, List.reverse_reverse]
      rw [hv] at hf
      exact mapFind_mem hf
  obtain ⟨f1, f2⟩ := mapFind_foldl_assign keyLt
    (fun e : (List Nat × Nat) × List Nat =>
      ((lookupD st.pairID e.1.1, e.1.2), lookupD st.pairID e.2))
    st.tempTransitions [] h.consistent
  obtain ⟨g1, g2⟩ := mapFind_foldl_assign keyLt
    (fun e : (List Nat × Nat) × List Nat =>
      ((lookupD st'.pairID e.1.1, e.1.2), lookupD st'.pairID e.2))
    st'.tempTransitions [] h'.consistent
  apply keySorted_ext
  · exact foldl_assign_keys_sorted
      (fun e : (List Nat × Nat) × List Nat =>
        ((lookupD st'.pairID e.1.1, e.1.2), lookupD st'.pairID e.2))
      st'.tempTransitions [] List.sorted_nil
  · exact foldl_assign_keys_sorted
      (fun e : (List Nat × Nat) × List Nat =>
        ((lookupD st.pairID e.1.1, e.1.2), lookupD st.pairID e.2))
      st.tempTransitions [] List.sorted_nil
  · intro k
    by_cases hk : ∃ e ∈ st.tempTransitions, (lookupD st.pairID e.1.1, e.1.2) = k
    · obtain ⟨e, he, hek⟩ := hk
      have e1 := f1 e he
      have e2 := g1 _ (fwd e he)
      simp only [hl] at e2
      simp only at e1
      rw [hek] at e1 e2
      exact e2.trans e1.symm
    · have hk' : ∀ e ∈ st'.tempTransitions, (lookupD st'.pairID e.1.1, e.1.2) ≠ k := by
        intro e he hc
        apply hk
        refine ⟨_, bwd e he, ?_⟩
        simp only
        rw [← hl' e.1.1]
        exact hc
      have e1 := f2 k (fun e he hc => hk ⟨e, he, hc⟩)
      have e2 := g2 k hk'
      exact e2.trans e1.symm

theorem setInsertAll_union_comm (xs ys : List Nat) :
    setInsertAll ys (setInsertAll xs []) = setInsertAll xs (setInsertAll ys []) :=
  sorted_ext (setInsertAll_sorted (setInsertAll_sorted List.sorted_nil))
    (setInsertAll_sorted (setInsertAll_sorted List.sorted_nil))
    (fun x => by simp only [mem_setInsertAll, List.not_mem_nil, or_false]; exact Or.comm)

/-- The variables of `parallelRun b a` before the worklist loop mirror those of
`parallelRun a b`. -/
theorem mirror_init (a b : DFA) (al : List Nat) :
    Mirror
      { result :=
          { m_States := [0], m_Alphabet := al, m_Transitions := [], m_InitialState := 1,
            m_FinalStates := [] }
        tempTransitions := al.foldl (fun t symbol => mapAssign vecKeyLt ([], symbol) [] t) []
        pairID := [([], 0)]
        queue := [[a.m_InitialState, b.m_InitialState]]
        stateCounter := 1 }
      { result :=
          { m_States := [0], m_Alphabet := al, m_Transitions := [], m_InitialState := 1,
            m_FinalStates := [] }
        tempTransitions := al.foldl (fun t symbol => mapAssign vecKeyLt ([], symbol) [] t) []
        pairID := [([], 0)]
        queue := [[b.m_InitialState, a.m_InitialState]]
        stateCounter := 1 } := by
  refine ⟨rfl, rfl, rfl, rfl, rfl, rfl, rfl, fun k s => ?_⟩
  simp only
  rw [mapFind_sinkLoops, mapFind_sinkLoops]
  by_cases hk : k = []
  · subst hk
    by_cases hs : s ∈ al
    · simp [hs]
    · simp [hs, mapFind]
  · have hk' : k.reverse ≠ [] := by simpa using hk
    simp [hk, hk', mapFind]

/-! ## `parallelRun` returns on all operands with closed references -/

theorem ProdKeys.ids_bound {a b : DFA} {al : List Nat} {st : ProdState}
    (h : ProdKeys a b al st) {x : List Nat} (hx : IsPair a b x)
    (hnone : mapFind x st.pairID = none) :
    st.pairID.length + 1 ≤ a.m_States.length * b.m_States.length + 1 := by
  have hnotkey : x ∉ st.pairID.map Prod.fst := mapFind_none.1 hnone
  have hnd : (x :: st.pairID.map Prod.fst).Nodup := List.nodup_cons.2 ⟨hnotkey, h.keys_nodup⟩
  have hmem : ∀ y, IsPair a b y →
      y ∈ (a.m_States.product b.m_States).map (fun pq => [pq.1, pq.2]) := by
    rintro y ⟨p, q, rfl, hp, hq⟩
    exact List.mem_map.2 ⟨(p, q), List.mem_product.2 ⟨hp, hq⟩, rfl⟩
  have hsub : x :: st.pairID.map Prod.fst ⊆
      [] :: (a.m_States.product b.m_States).map (fun pq => [pq.1, pq.2]) := by
    intro y hy
    rcases List.mem_cons.1 hy with h1 | h1
    · rw [h1]; exact List.mem_cons_of_mem _ (hmem x hx)
    · rcases h.keys_pair y h1 with h2 | h2
      · rw [h2]; exact List.mem_cons_self _ _
      · exact List.mem_cons_of_mem _ (hmem y h2)
  have := (List.subperm_of_subset hnd hsub).length_le
  have hp : (a.m_States.product b.m_States).length =
      a.m_States.length * b.m_States.length := List.length_product _ _
  simp only [List.length_cons, List.length_map] at this
  omega

/-- One symbol of one round does not raise the rounds still to be spent, whatever
the operands: the queue grows by at most the share of that symbol in the budget of
the round. -/
theorem prodStep_budget {a b : DFA} {st st' : ProdState} {cur : List Nat} {s : Nat} (n : Nat)
    (hbound : mapFind cur st.pairID = none →
      st.pairID.length + 1 ≤ a.m_States.length * b.m_States.length + 1)
    (hr : ProdStep a b st st' cur s) (k : Nat) :
    queueWeight n a b st' + roundBudget n a b st' cur k ≤
      queueWeight n a b st + roundBudget n a b st cur (k + 1) := by
  obtain ⟨-, hpid, -, -, -, hqueue, -, -⟩ := hr
  by_cases hnew : pairTarget a b cur s ≠ [] ∧ (mapFind cur st.pairID).isNone = true
  · rw [if_pos hnew] at hpid
    have hnone : mapFind cur st.pairID = none := Option.isNone_iff_eq_none.1 hnew.2
    have hlen := hbound hnone
    have hrank : pairRank a b st' + 1 = pairRank a b st := by
      unfold pairRank
      rw [hpid]
      simp only [List.length_cons]
      omega
    have hcurid : (mapFind cur st'.pairID).isSome = true := by
      rw [hpid, mapFind_cons, if_pos rfl]; rfl
    have hw : ∀ x ∈ st.queue, pairWeight n a b st' x ≤ pairWeight n a b st x := by
      intro x _
      unfold pairWeight
      apply parallelFuel_mono
      by_cases hxc : x = cur
      · subst hxc
        rw [hcurid, hnone]
        simp only [if_true, Option.isSome_none, Bool.false_eq_true, if_false]
        omega
      · have : mapFind x st'.pairID = mapFind x st.pairID := by
          rw [hpid, mapFind_cons, if_neg (Ne.symm hxc)]
        rw [this]
        omega
    have hsum : (st.queue.map (pairWeight n a b st')).sum ≤
        (st.queue.map (pairWeight n a b st)).sum := List.sum_le_sum hw
    have hq' : queueWeight n a b st' ≤
        (st.queue.map (pairWeight n a b st')).sum + parallelFuel n (pairRank a b st') := by
      unfold queueWeight
      rw [hqueue]
      split_ifs with hc
      · have hc2 : (mapFind (pairTarget a b cur s) st'.pairID).isSome = false := by
          cases hm : mapFind (pairTarget a b cur s) st'.pairID with
          | none => rfl
          | some v => rw [hm] at hc; simp at hc
        simp only [List.map_append, List.map_cons, List.map_nil, List.sum_append, List.sum_cons,
          List.sum_nil, pairWeight, hc2, Bool.false_eq_true, if_false, Nat.add_zero]
        omega
      · omega
    have hb' : roundBudget n a b st' cur k = k * parallelFuel n (pairRank a b st') := by
      unfold roundBudget
      rw [hcurid]; rfl
    have hb : roundBudget n a b st cur (k + 1) =
        k * parallelFuel n (pairRank a b st') + parallelFuel n (pairRank a b st') := by
      unfold roundBudget
      rw [hnone, ← hrank]
      simp only [Option.isSome_none, Bool.false_eq_true, if_false, Nat.add_sub_cancel,
        Nat.succ_mul]
    rw [hb', hb]
    unfold queueWeight at hq' ⊢
    omega
  · rw [if_neg hnew] at hpid
    have hrank : pairRank a b st' = pairRank a b st := by
      unfold pairRank; rw [hpid]
    have hwq : ∀ l : List (List Nat), (l.map (pairWeight n a b st')).sum =
        (l.map (pairWeight n a b st)).sum := by
      intro l
      congr 1
      exact List.map_congr_left (fun x _ => pairWeight_congr n a b hpid x)
    have hbk : ∀ j, roundBudget n a b st' cur j = roundBudget n a b st cur j := by
      intro j
      unfold roundBudget
      rw [hpid, hrank]
    rw [hbk]
    unfold queueWeight
    rw [hwq, hqueue]
    split_ifs with hc
    · -- the target is pushed: `cur` has an id
      have hcid : (mapFind cur st.pairID).isSome = true := by
        cases hm : mapFind cur st.pairID with
        | none => exact absurd ⟨hc.1, by rw [hm]; rfl⟩ hnew
        | some v => rfl
      have hc2 : (mapFind (pairTarget a b cur s) st.pairID).isSome = false := by
        have hc' := hc.2
        rw [hpid] at hc'
        cases hm : mapFind (pairTarget a b cur s) st.pairID with
        | none => rfl
        | some v => rw [hm] at hc'; simp at hc'
      unfold roundBudget
      simp only [List.map_append, List.map_cons, List.map_nil, List.sum_append, List.sum_cons,
        List.sum_nil, pairWeight, hc2, hcid, Bool.false_eq_true, if_false, if_true,
        Nat.succ_mul, Nat.add_zero]
      omega
    · unfold roundBudget
      simp only [Nat.succ_mul]
      omega

theorem ProdKeys.take_budget {a b : DFA} {al : List Nat} {st : ProdState} {next : List Nat}
    {rest : List (List Nat)} (h : ProdKeys a b al st) (hq : st.queue = next :: rest)
    (n : Nat) :
    queueWeight n a b { st with queue := rest } +
        roundBudget n a b { st with queue := rest } next n + 1 ≤ queueWeight n a b st := by
  have hnext : IsPair a b next := h.queue_pair next (by rw [hq]; simp)
  have e1 : queueWeight n a b { st with queue := rest } =
      (rest.map (pairWeight n a b st)).sum := rfl
  have e2 : queueWeight n a b st =
      pairWeight n a b st next + (rest.map (pairWeight n a b st)).sum := by
    unfold queueWeight
    rw [hq]
    simp
  have e3 : roundBudget n a b { st with queue := rest } next n =
      roundBudget n a b st next n := rfl
  rw [e1, e2, e3]
  unfold roundBudget pairWeight
  cases hm : mapFind next st.pairID with
  | some v =>
    simp only [Option.isSome_some, if_true]
    have := parallelFuel_succ n (pairRank a b st)
    omega
  | none =>
    have hlen := h.ids_bound hnext hm
    have hr : pairRank a b st = (pairRank a b st - 1) + 1 := by
      unfold pairRank; omega
    simp only [Option.isSome_none, Bool.false_eq_true, if_false, Nat.add_zero]
    have := parallelFuel_succ n (pairRank a b st - 1)
    rw [← hr] at this
    omega

theorem prodKeys_step {a b : DFA} {al : List Nat} {st st' : ProdState} {p q s : Nat}
    (hca : a.Closed) (hcb : b.Closed) (h : ProdKeys a b al st) (hcur : IsPair a b [p, q])
    (hr : ProdStep a b st st' [p, q] s) : ProdKeys a b al st' := by
  obtain ⟨-, p1, c1, s1, -, q1, a1, -⟩ := hr
  refine ⟨by rw [a1, h.alphabet_eq], ?_, ?_, ?_, ?_, ?_⟩
  · intro x hx
    rw [p1] at hx
    split_ifs at hx
    · simp only [List.map_cons, List.mem_cons] at hx
      rcases hx with hx | hx
      · rw [hx]; exact Or.inr hcur
      · exact h.keys_pair x hx
    · exact h.keys_pair x hx
  · rw [p1]
    split_ifs with hc
    · simp only [List.map_cons, List.nodup_cons]
      exact ⟨mapFind_none.1 (Option.isNone_iff_eq_none.1 hc.2), h.keys_nodup⟩
    · exact h.keys_nodup
  · intro x hx
    rw [q1] at hx
    split_ifs at hx with hc
    · rcases List.mem_append.1 hx with hx | hx
      · exact h.queue_pair x hx
      · rw [List.mem_singleton] at hx
        rw [hx]
        exact pairTarget_isPair hca hcb hcur hc.1
    · exact h.queue_pair x hx
  · rw [c1]
    split_ifs
    · exact Nat.mod_lt _ (by norm_num)
    · exact h.counter_lt
  · intro i hi
    rw [s1] at hi
    split_ifs at hi
    · rcases mem_setInsert.1 hi with hi | hi
      · rw [hi]; exact h.counter_lt
      · exact h.states_lt i hi
    · exact h.states_lt i hi

/-- One round keeps the pairs, and adds to the queue at most the budget of the
round. -/
theorem prodKeys_symbols {a b : DFA} {al : List Nat} (hca : a.Closed) (hcb : b.Closed)
    (n : Nat) {p q : Nat} (hcur : IsPair a b [p, q]) :
    ∀ (syms : List Nat) (st : ProdState), ProdKeys a b al st →
      ProdKeys a b al (syms.foldl (parallelSymbol a b [p, q]) st) ∧
        queueWeight n a b (syms.foldl (parallelSymbol a b [p, q]) st) ≤
          queueWeight n a b st + roundBudget n a b st [p, q] syms.length := by
  intro syms
  induction syms with
  | nil => intro st h; exact ⟨h, by simp [roundBudget]⟩
  | cons s rest ih =>
    intro st h
    have hstep := parallelSymbol_step a b p q st s
    have h' := prodKeys_step hca hcb h hcur hstep
    have hw := prodStep_budget n (fun hnone => h.ids_bound hcur hnone) hstep rest.length
    obtain ⟨i1, i2⟩ := ih _ h'
    simp only [List.foldl_cons, List.length_cons]
    exact ⟨i1, by omega⟩

/-- The worklist loop of `parallelRun` ends on operands with closed references,
with or without a common symbol, when it is given the rounds its queue weighs. -/
theorem parallelLoop_returns {a b : DFA} {al : List Nat} (hca : a.Closed) (hcb : b.Closed) :
    ∀ (fuel : Nat) (st : ProdState), ProdKeys a b al st →
      queueWeight al.length a b st < fuel →
      ∃ st', parallelLoop a b fuel st = some st' ∧ ProdKeys a b al st' := by
  intro fuel
  induction fuel with
  | zero => intro st _ hlt; omega
  | succ fuel ih =>
    intro st h hlt
    unfold parallelLoop
    cases hq : st.queue with
    | nil => exact ⟨st, rfl, h⟩
    | cons next rest =>
      simp only
      rw [h.alphabet_eq]
      have hnext : IsPair a b next := h.queue_pair next (by rw [hq]; simp)
      obtain ⟨p, q, rfl, hp, hq'⟩ := hnext
      have hpop : ProdKeys a b al { st with queue := rest } :=
        ⟨h.alphabet_eq, h.keys_pair, h.keys_nodup,
          fun x hx => h.queue_pair x (by rw [hq]; exact List.mem_cons_of_mem _ hx),
          h.counter_lt, h.states_lt⟩
      obtain ⟨hk, hw⟩ := prodKeys_symbols hca hcb al.length ⟨p, q, rfl, hp, hq'⟩ al _ hpop
      have hp' := h.take_budget hq al.length
      apply ih _ hk
      omega

/-- The variables of `parallelRun` when the worklist loop is entered. -/
theorem prodKeys_init {a b : DFA} (hca : a.Closed) (hcb : b.Closed) (al : List Nat) :
    ProdKeys a b al
      { result :=
          { m_States := [0]
            m_Alphabet := al
            m_Transitions := []
            m_InitialState := 1
            m_FinalStates := [] }
        tempTransitions := al.foldl (fun t symbol => mapAssign vecKeyLt ([], symbol) [] t) []
        pairID := [([], 0)]
        queue := [[a.m_InitialState, b.m_InitialState]]
        stateCounter := 1 } := by
  refine ⟨rfl, ?_, by simp, ?_, by norm_num, by simp⟩
  · intro x hx
    simp only [List.map_cons, List.map_nil, List.mem_singleton] at hx
    exact Or.inl hx
  · intro x hx
    simp only [List.mem_singleton] at hx
    rw [hx]
    exact ⟨_, _, rfl, hca.initial_mem, hcb.initial_mem⟩

/-- For DFAs with closed references `parallelRun` returns a DFA, whatever the
number of pairs; its states fit `unsigned int`. -/
theorem parallelRun_returns {a b : DFA} (hca : a.Closed) (hcb : b.Closed) :
    ∃ R, parallelRun a b = some R ∧ ∀ i ∈ R.m_States, i < 2 ^ 32 := by
  obtain ⟨st, hst, hk⟩ := parallelLoop_returns hca hcb
    (parallelFuel (setInsertAll b.m_Alphabet (setInsertAll a.m_Alphabet [])).length
      (a.m_States.length * b.m_States.length) + 1) _
    (prodKeys_init hca hcb (setInsertAll b.m_Alphabet (setInsertAll a.m_Alphabet [])))
    (by
      simp only [queueWeight, pairWeight, pairRank, List.map_cons, List.map_nil, List.sum_cons,
        List.sum_nil, List.length_cons, List.length_nil, mapFind_cons]
      simp [mapFind])
  refine ⟨{ st.result with m_Transitions := productTransitions st }, ?_, hk.states_lt⟩
  unfold parallelRun
  simp only [hst]
  rfl

/-- One round keeps the facts on the ids, while the product has fewer than
`2 ^ 32 - 1` pairs. -/
theorem prodIds_symbols {a b : DFA} {al : List Nat} (hca : a.Closed) (hcb : b.Closed)
    (hN : a.m_States.length * b.m_States.length + 1 < 2 ^ 32) {p q : Nat}
    (hcur : IsPair a b [p, q]) :
    ∀ (syms : List Nat) (st : ProdState), ProdKeys a b al st → ProdIds a b st →
      ProdKeys a b al (syms.foldl (parallelSymbol a b [p, q]) st) ∧
        ProdIds a b (syms.foldl (parallelSymbol a b [p, q]) st) := by
  intro syms
  induction syms with
  | nil => intro st hk h; exact ⟨hk, h⟩
  | cons s rest ih =>
    intro st hk h
    have hstep := parallelSymbol_step a b p q st s
    have hk' := prodKeys_step hca hcb hk hcur hstep
    have h' := prodIds_step h (fun hnone => by
      have h1 := hk.ids_bound hcur (Option.isNone_iff_eq_none.1 hnone)
      have h2 := h.counter_le
      omega) hstep
    exact ih _ hk' h'

theorem prodIds_loop {a b : DFA} {al : List Nat} (hca : a.Closed) (hcb : b.Closed)
    (hN : a.m_States.length * b.m_States.length + 1 < 2 ^ 32) :
    ∀ (fuel : Nat) {st r : ProdState}, ProdKeys a b al st → ProdIds a b st →
      parallelLoop a b fuel st = some r → ProdIds a b r := by
  intro fuel
  induction fuel with
  | zero => intro st r _ _ h; simp [parallelLoop] at h
  | succ fuel ih =>
    intro st r hk h hr
    unfold parallelLoop at hr
    cases hq : st.queue with
    | nil =>
      rw [hq] at hr
      rw [← Option.some.inj hr]
      exact h
    | cons next rest =>
      rw [hq] at hr
      simp only at hr
      rw [hk.alphabet_eq] at hr
      have hnext : IsPair a b next := hk.queue_pair next (by rw [hq]; simp)
      obtain ⟨p, q, rfl, hp, hq'⟩ := hnext
      have hpop : ProdKeys a b al { st with queue := rest } :=
        ⟨hk.alphabet_eq, hk.keys_pair, hk.keys_nodup,
          fun x hx => hk.queue_pair x (by rw [hq]; exact List.mem_cons_of_mem _ hx),
          hk.counter_lt, hk.states_lt⟩
      obtain ⟨hk', h'⟩ := prodIds_symbols hca hcb hN ⟨p, q, rfl, hp, hq'⟩ al
        { st with queue := rest } hpop
        ⟨h.sink_id, h.vals_nodup, h.vals_lt, h.counter_le, h.temp_val, h.temp_id⟩
      exact ih hk' h' hr

/-- Structural commutativity of `parallelRun` for operands with closed references
and a product of fewer than `2 ^ 32 - 1` pairs: exchanging the operands gives the
same record. -/
theorem parallelRun_comm {a b : DFA} (hca : a.Closed) (hcb : b.Closed)
    (hN : a.m_States.length * b.m_States.length + 1 < 2 ^ 32) :
    parallelRun b a = parallelRun a b := by
  have hN' : b.m_States.length * a.m_States.length + 1 < 2 ^ 32 := by
    rw [Nat.mul_comm]; exact hN
  unfold parallelRun
  simp only
  rw [setInsertAll_union_comm b.m_Alphabet a.m_Alphabet, Nat.mul_comm b.m_States.length]
  rcases mirror_loop a b
      (parallelFuel (setInsertAll b.m_Alphabet (setInsertAll a.m_Alphabet [])).length
        (a.m_States.length * b.m_States.length) + 1)
      (mirror_init a b (setInsertAll b.m_Alphabet (setInsertAll a.m_Alphabet []))) with
    ⟨h1, h2⟩ | ⟨r, r', h1, h2, hm⟩
  · rw [h1, h2]
  · rw [h1, h2]
    have hi := prodIds_loop hca hcb hN _ (prodKeys_init hca hcb _) (prodIds_init a b _ _ _) h1
    have hi' := prodIds_loop hcb hca hN' _ (prodKeys_init hcb hca _)
      (prodIds_init b a _ _ _) h2
    have ht := productTransitions_mirror hm hi hi'
    simp only [Option.some.injEq, DFA.mk.injEq]
    exact ⟨hm.states_eq, hm.alphabet_eq, ht, hm.initial_eq, hm.finals_eq⟩

/-- Exchanging the operands of `intersect` gives the same result for well-formed
NFAs with fewer than 32 states together. -/
theorem intersect_comm {a b : NFA} (ha : a.WF) (hb : b.WF)
    (hN : a.m_States.length + b.m_States.length < 32) : intersect b a = intersect a b := by
  obtain ⟨da, hda, hca, -⟩ := determine_output ha (NFA.fewSubsets_of_length ha (by omega))
  obtain ⟨db, hdb, hcb, -⟩ := determine_output hb (NFA.fewSubsets_of_length hb (by omega))
  unfold intersect
  simp only [hda, hdb]
  rw [parallelRun_comm hca hcb (determine_product_bound ha hb hN hda hdb)]

/-- Exchanging the operands of `intersect` gives the same result also where
`minimize` reads an empty block, whatever that read yields. -/
theorem intersectWith_comm {a b : NFA} (ha : a.WF) (hb : b.WF)
    (hN : a.m_States.length + b.m_States.length < 32) (junk : Nat) :
    intersectWith junk b a = intersectWith junk a b := by
  obtain ⟨da, hda, hca, -⟩ := determine_output ha (NFA.fewSubsets_of_length ha (by omega))
  obtain ⟨db, hdb, hcb, -⟩ := determine_output hb (NFA.fewSubsets_of_length hb (by omega))
  unfold intersectWith
  simp only [hda, hdb]
  rw [parallelRun_comm hca hcb (determine_product_bound ha hb hN hda hdb)]

/-! ## `minimize` and `intersect` on an empty block -/

/-- Where no block is empty the value of `junk` is not read, and `buildBlocksWith`
is `buildBlocks`. -/
theorem buildBlocksWith_of_some (junk : Nat) (original : DFA) (nsm : List (Nat × Nat))
    (sm : List (List Nat × Nat)) :
    ∀ (blocks : List (List Nat)) (b b' : Building),
      buildBlocks original nsm sm blocks b = some b' →
      buildBlocksWith junk original nsm sm blocks b = b' := by
  intro blocks
  induction blocks with
  | nil =>
    intro b b' h
    simp only [buildBlocks, Option.some.injEq] at h
    simpa [buildBlocksWith] using h
  | cons set rest ih =>
    intro b b' h
    cases set with
    | nil => simp [buildBlocks] at h
    | cons first tl =>
      simp only [buildBlocks] at h
      simp only [buildBlocksWith, List.headD_cons]
      exact ih _ _ h

/-- Where `minimize` is defined, `minimizeWith` returns the same DFA for every
`junk`. -/
theorem minimizeWith_of_some (junk : Nat) (d R : DFA) (h : minimize d = some R) :
    minimizeWith junk d = some R := by
  unfold minimize at h
  unfold minimizeWith
  simp only at h ⊢
  cases hr : refineLoop _ _ _ with
  | none => rw [hr] at h; simp at h
  | some st =>
    rw [hr] at h
    simp only at h ⊢
    cases hb : buildBlocks st.original (numberBlocks 0 st.currSet [] []).1
        (numberBlocks 0 st.currSet [] []).2 st.currSet
        { m_States := [], m_Transitions := [], m_InitialState := none, m_FinalStates := [] } with
    | none => rw [hb] at h; simp at h
    | some b =>
      rw [hb] at h
      rw [buildBlocksWith_of_some junk _ _ _ _ _ _ hb]
      exact h

theorem minimizeWith_eq_refine (junk : Nat) (d : DFA) :
    minimizeWith junk d =
      match refineLoop (refineSize d + 3) (refineSize d + 2) (refineStart d) with
      | none => none
      | some st =>
        pruneResult d.m_Alphabet
          (buildBlocksWith junk st.original (numberBlocks 0 st.currSet [] []).1
            (numberBlocks 0 st.currSet [] []).2 st.currSet
            { m_States := [], m_Transitions := [], m_InitialState := none,
              m_FinalStates := [] }) := rfl

theorem copyTransitions_congr (original : DFA) (nsm : List (Nat × Nat)) (j j' id : Nat)
    (h : ∀ s, mapFind (j, s) original.m_Transitions = mapFind (j', s) original.m_Transitions) :
    ∀ (syms : List Nat) (t : List ((Nat × Nat) × Nat)),
      copyTransitions original nsm j id syms t = copyTransitions original nsm j' id syms t := by
  intro syms
  induction syms with
  | nil => intro t; rfl
  | cons s rest ih =>
    intro t
    simp only [copyTransitions, h s]
    cases mapFind (j', s) original.m_Transitions with
    | none => exact ih t
    | some target => exact ih _

/-- The result of `buildBlocksWith` depends on `junk` only through its transitions
and its membership in the accepting set. -/
theorem buildBlocksWith_congr (j j' : Nat) (original : DFA) (nsm : List (Nat × Nat))
    (sm : List (List Nat × Nat))
    (h1 : ∀ s, mapFind (j, s) original.m_Transitions = mapFind (j', s) original.m_Transitions)
    (h2 : j ∈ original.m_FinalStates ↔ j' ∈ original.m_FinalStates) :
    ∀ (blocks : List (List Nat)) (b : Building),
      buildBlocksWith j original nsm sm blocks b =
        buildBlocksWith j' original nsm sm blocks b := by
  intro blocks
  induction blocks with
  | nil => intro b; rfl
  | cons set rest ih =>
    intro b
    cases set with
    | nil =>
      simp only [buildBlocksWith, List.headD_nil]
      rw [copyTransitions_congr original nsm j j' _ h1]
      by_cases hj : j ∈ original.m_FinalStates
      · rw [if_pos hj, if_pos (h2.1 hj)]; exact ih _
      · rw [if_neg hj, if_neg (fun hc => hj (h2.2 hc))]; exact ih _
    | cons first tl =>
      simp only [buildBlocksWith, List.headD_cons]
      exact ih _

/-- C7, evaluated on the code: `loopNoWord` accepts no word, and for the NFA `c1`
of `main` the product of the determinised operands has no accepting state, so
`minimize` reads the first element of the empty accepting block. Whatever that
read yields, `intersect` returns the DFA with the single state 1 and initial state
1, not the DFA with state 0 that C7 states. -/
theorem intersect_empty_operand :
    sampleC1.WF ∧ loopNoWord.WF ∧ (∀ w, loopNoWord.accepts w = false) ∧
      ∀ junk : Nat,
        intersectWith junk sampleC1 loopNoWord =
            some { m_States := [1], m_Alphabet := [97, 98], m_Transitions := [],
                   m_InitialState := 1, m_FinalStates := [] } ∧
          intersectWith junk sampleC1 loopNoWord ≠
            some { m_States := [0], m_Alphabet := [97, 98], m_Transitions := [],
                   m_InitialState := 0, m_FinalStates := [] } := by
  refine ⟨sampleC1_wf, loopNoWord_wf, fun w => ?_, fun junk => ?_⟩
  · simp [NFA.accepts, loopNoWord]
  · have key : intersectWith junk sampleC1 loopNoWord =
        some { m_States := [1], m_Alphabet := [97, 98], m_Transitions := [],
               m_InitialState := 1, m_FinalStates := [] } := by
      rcases Nat.lt_or_ge junk 8 with hj | hj
      · interval_cases junk <;> decide
      · have hsame : intersectWith junk sampleC1 loopNoWord =
            intersectWith 8 sampleC1 loopNoWord := by
          have hP : ∃ P st, (∀ j, intersectWith j sampleC1 loopNoWord = minimizeWith j P) ∧
              refineLoop (refineSize P + 3) (refineSize P + 2) (refineStart P) = some st ∧
              st.original.m_FinalStates = [] ∧
              ∀ e ∈ st.original.m_Transitions, e.1.1 < 8 := by
            refine ⟨DFA.mk [0, 1, 2, 3, 4, 5, 6, 7] [97, 98]
                [((0, 97), 0), ((0, 98), 0), ((1, 97), 2), ((1, 98), 3),
                  ((2, 97), 4), ((2, 98), 5), ((3, 97), 6), ((3, 98), 3), ((4, 97), 4),
                  ((4, 98), 5), ((5, 97), 5), ((5, 98), 5), ((6, 97), 7), ((6, 98), 3),
                  ((7, 97), 7), ((7, 98), 3)] 1 [],
              RefineState.mk [[0, 1, 2, 3, 4, 5, 6, 7], []]
                [(7, 0), (6, 0), (5, 0), (4, 0), (3, 0), (2, 0), (1, 0), (0, 0)]
                (DFA.mk [0, 1, 2, 3, 4, 5, 6, 7] [97, 98]
                  [((0, 97), 0), ((0, 98), 0), ((1, 97), 2), ((1, 98), 3),
                  ((2, 97), 4), ((2, 98), 5), ((3, 97), 6), ((3, 98), 3), ((4, 97), 4),
                  ((4, 98), 5), ((5, 97), 5), ((5, 98), 5), ((6, 97), 7), ((6, 98), 3),
                  ((7, 97), 7), ((7, 98), 3)] 1 []), ?_, by decide, rfl, by decide⟩
            intro j
            have hd1 : (determine sampleC1).bind (fun da =>
                (determine loopNoWord).bind (parallelRun da)) =
                some (DFA.mk [0, 1, 2, 3, 4, 5, 6, 7] [97, 98]
                  [((0, 97), 0), ((0, 98), 0), ((1, 97), 2), ((1, 98), 3),
                    ((2, 97), 4), ((2, 98), 5), ((3, 97), 6), ((3, 98), 3), ((4, 97), 4),
                    ((4, 98), 5), ((5, 97), 5), ((5, 98), 5), ((6, 97), 7), ((6, 98), 3),
                    ((7, 97), 7), ((7, 98), 3)] 1 []) := by decide
            unfold intersectWith
            cases h1 : determine sampleC1 with
            | none => rw [h1] at hd1; simp at hd1
            | some da =>
              cases h2 : determine loopNoWord with
              | none => rw [h1, h2] at hd1; simp at hd1
              | some db =>
                rw [h1, h2] at hd1
                have hd2 : parallelRun da db = some (DFA.mk [0, 1, 2, 3, 4, 5, 6, 7] [97, 98]
                  [((0, 97), 0), ((0, 98), 0), ((1, 97), 2), ((1, 98), 3),
                    ((2, 97), 4), ((2, 98), 5), ((3, 97), 6), ((3, 98), 3), ((4, 97), 4),
                    ((4, 98), 5), ((5, 97), 5), ((5, 98), 5), ((6, 97), 7), ((6, 98), 3),
                    ((7, 97), 7), ((7, 98), 3)] 1 []) := hd1
                simp only [hd2]
          obtain ⟨P, st, hP, hloop, hfin, hsrc⟩ := hP
          rw [hP junk, hP 8, minimizeWith_eq_refine, minimizeWith_eq_refine, hloop]
          simp only
          have hnone : ∀ (j s : Nat), 8 ≤ j → mapFind (j, s) st.original.m_Transitions = none := by
            intro j s hj8
            rw [mapFind_none]
            intro hmem
            obtain ⟨e, he, hek⟩ := List.mem_map.1 hmem
            have := hsrc e he
            rw [hek] at this
            simp only at this
            omega
          rw [buildBlocksWith_congr junk 8 st.original _ _
            (fun s => (hnone junk s hj).trans (hnone 8 s (le_refl 8)).symm)
            (by rw [hfin]; simp)]
        rw [hsame]
        decide
    refine ⟨key, ?_⟩
    rw [key]
    decide

/-! ## The collapse of `minimize` on inputs whose states are all reached -/

/-- A sorted list whose members all equal `x`, and that holds `x`, is `[x]`. -/
theorem sorted_eq_singleton {l : List Nat} {x : Nat} (hs : l.Sorted (· < ·)) (hx : x ∈ l)
    (hall : ∀ y ∈ l, y = x) : l = [x] := by
  apply sorted_ext hs (List.sorted_singleton x)
  intro y
  simp only [List.mem_singleton]
  exact ⟨hall y, fun h => h ▸ hx⟩

/-- A run that starts in `p` stays in `p` or `i` when every transition of `p` leads
to `p` or `i` and `i` is absorbing. -/
theorem DFA.run_in_pair (x : DFA) (p i : Nat)
    (hp : ∀ a, mapFind (p, a) x.m_Transitions = some p ∨
      mapFind (p, a) x.m_Transitions = some i ∨ mapFind (p, a) x.m_Transitions = none)
    (hi : ∀ a, mapFind (i, a) x.m_Transitions = some i ∨ mapFind (i, a) x.m_Transitions = none)
    (w : List Nat) :
    ∀ s : Option Nat, (s = some p ∨ s = some i ∨ s = none) →
      (w.foldl x.step s = some p ∨ w.foldl x.step s = some i ∨ w.foldl x.step s = none) := by
  induction w with
  | nil => intro s hs; exact hs
  | cons a w ih =>
    intro s hs
    rw [List.foldl_cons]
    apply ih
    rcases hs with rfl | rfl | rfl
    · exact hp a
    · rcases hi a with h | h
      · exact Or.inr (Or.inl h)
      · exact Or.inr (Or.inr h)
    · exact Or.inr (Or.inr rfl)

/-- When every state of a total automaton is reached from the initial state and
the collapse of `pruneResult` is taken, the states left after the sink is erased
are the initial state alone: the collapse discards no state. -/
theorem pruneKept_collapse (alphabet : List Nat) (b : Building) (i0 : Nat)
    (hinit : b.m_InitialState = some i0) (hi0 : i0 ∈ b.m_States)
    (htotal : ∀ i ∈ b.m_States, ∀ a ∈ alphabet, (mapFind (i, a) b.m_Transitions).isSome = true)
    (hsym : ∀ e ∈ b.m_Transitions, e.1.2 ∈ alphabet)
    (hnd : (b.m_Transitions.map Prod.fst).Nodup)
    (hsorted : b.m_States.Sorted (· < ·))
    (hreach : ∀ x ∈ b.m_States, ∃ w, (b.toDFA alphabet i0).run w = some x)
    {t : PruneTrace} (ht : pruneTrace alphabet b = some t) (hsink : t.sink ≠ some i0)
    (hcol : t.collapse = true) : pruneKept alphabet b = [i0] := by
  unfold pruneTrace at ht
  unfold pruneKept
  simp only [sinkScan_total alphabet b.m_FinalStates b.m_Transitions b.m_States htotal,
    hinit] at ht ⊢
  have hout : ∀ q a, a ∉ alphabet → mapFind (q, a) b.m_Transitions = none := by
    intro q a ha
    cases hf : mapFind (q, a) b.m_Transitions with
    | none => rfl
    | some v => exact absurd (hsym _ (mapFind_mem hf)) ha
  have hrun : ∀ w, (b.toDFA alphabet i0).run w =
      w.foldl (b.toDFA alphabet i0).step (some i0) := fun _ => rfl
  cases hs : b.m_States.find? (isSinkState alphabet b.m_FinalStates b.m_Transitions) with
  | none =>
    rw [hs] at ht
    simp only [hi0, if_true, Option.some.injEq] at ht
    rw [← ht] at hcol
    simp only at hcol
    rw [restInaccessible_iff] at hcol
    have habs : ∀ a, mapFind (i0, a) b.m_Transitions = some i0 ∨
        mapFind (i0, a) b.m_Transitions = none := by
      intro a
      by_cases ha : a ∈ alphabet
      · exact hcol a ha
      · exact Or.inr (hout i0 a ha)
    apply sorted_eq_singleton hsorted hi0
    intro y hy
    obtain ⟨w, hw⟩ := hreach y hy
    rw [hrun] at hw
    rcases DFA.run_absorbing (b.toDFA alphabet i0) i0 habs w (some i0) (Or.inl rfl) with h | h
    · rw [h] at hw; exact (Option.some.inj hw).symm
    · rw [h] at hw; exact Option.noConfusion hw
  | some i =>
    rw [hs] at ht
    simp only at ht
    have hmem : i ∈ b.m_States := List.mem_of_find?_eq_some hs
    have hsinkI : isSinkState alphabet b.m_FinalStates b.m_Transitions i = true :=
      List.find?_some hs
    simp only [isSinkState, List.all_eq_true, Bool.and_eq_true, beq_iff_eq, Bool.not_eq_true',
      decide_eq_false_iff_not] at hsinkI
    have habs : ∀ a, mapFind (i, a) b.m_Transitions = some i ∨
        mapFind (i, a) b.m_Transitions = none := by
      intro a
      by_cases ha : a ∈ alphabet
      · left
        obtain ⟨v, hv⟩ := Option.isSome_iff_exists.1 (htotal i hmem a ha)
        have := (hsinkI a ha).1
        rw [lookupD_of_mapFind hv] at this
        rw [hv, this]
      · exact Or.inr (hout i a ha)
    by_cases hin : i0 ∈ b.m_States.filter (fun s => s != i)
    · simp only [hin, if_true, Option.some.injEq] at ht
      have hne : i0 ≠ i := by
        intro hc
        apply hsink
        rw [← ht, hc]
      rw [← ht] at hcol
      simp only at hcol
      rw [restInaccessible_iff] at hcol
      have hp : ∀ a, mapFind (i0, a) b.m_Transitions = some i0 ∨
          mapFind (i0, a) b.m_Transitions = some i ∨ mapFind (i0, a) b.m_Transitions = none := by
        intro a
        by_cases ha : a ∈ alphabet
        · have hc := hcol a ha
          rw [mapFind_filter_of_nodup _ _ _ hnd] at hc
          cases hf : mapFind (i0, a) b.m_Transitions with
          | none => exact Or.inr (Or.inr rfl)
          | some v =>
            rw [hf] at hc
            simp only at hc
            by_cases hv : v = i
            · exact Or.inr (Or.inl (by rw [hv]))
            · have hcond : ((i0 != i) && (v != i)) = true := by simp [hne, hv]
              rw [if_pos hcond] at hc
              rcases hc with hc | hc
              · exact Or.inl hc
              · exact Option.noConfusion hc
        · exact Or.inr (Or.inr (hout i0 a ha))
      apply sorted_eq_singleton (List.Sorted.filter _ hsorted) hin
      intro y hy
      obtain ⟨hy1, hy2⟩ := List.mem_filter.1 hy
      have hyi : y ≠ i := by simpa using hy2
      obtain ⟨w, hw⟩ := hreach y hy1
      rw [hrun] at hw
      rcases DFA.run_in_pair (b.toDFA alphabet i0) i0 i hp habs w (some i0) (Or.inl rfl) with
        h | h | h
      · rw [h] at hw; exact (Option.some.inj hw).symm
      · rw [h] at hw; exact absurd (Option.some.inj hw).symm hyi
      · rw [h] at hw; exact Option.noConfusion hw
    · exfalso
      apply hin
      simp only [List.mem_filter, hi0, true_and, bne_iff_ne, ne_eq]
      intro hc
      simp only [hin, if_false] at ht
      cases hh : (b.m_States.filter (fun s => s != i)).head? with
      | none => rw [hh] at ht; simp at ht
      | some z =>
        rw [hh] at ht
        simp only [Option.some.injEq] at ht
        apply hsink
        rw [← ht, hc]

/-- The run of the quotient automaton built by `buildBlocks` from a stable
partition follows the run of the input through the blocks. -/
theorem quotient_run {d : DFA} (hd : d.Closed) (ht : d.Total) {n : Nat} {st : RefineState}
    (h : PartInv d n st) (hstab : ∀ B ∈ st.currSet, StableBlock d st.stateSetID B)
    (nsm : List (Nat × Nat)) (sm : List (List Nat × Nat)) (b' : Building) (i0 : Nat)
    (hsm : ∀ j B, st.currSet[j]? = some B → lookupD sm B = j)
    (hnsm : ∀ j B, st.currSet[j]? = some B → ∀ q ∈ B, lookupD nsm q = j)
    (hi0 : i0 = lookupD nsm d.m_InitialState)
    (htr : ∀ B ∈ st.currSet, ∀ a ∈ d.m_Alphabet,
      mapFind (lookupD sm B, a) b'.m_Transitions =
        some (lookupD nsm (d.delta (B.headD 0) a)))
    (w : List Nat) (hw : ∀ c ∈ w, c ∈ d.m_Alphabet) :
    ∃ q ∈ d.m_States, d.run w = some q ∧
      (b'.toDFA d.m_Alphabet i0).run w = some (lookupD nsm q) := by
  have block_of : ∀ q ∈ d.m_States, ∃ (j : Nat) (B : List Nat),
      st.currSet[j]? = some B ∧ q ∈ B := by
    intro q hq
    obtain ⟨B, hB, hqB⟩ := (h.cover q).1 hq
    obtain ⟨j, hj⟩ := List.mem_iff_getElem?.1 hB
    exact ⟨j, B, hj, hqB⟩
  have ids_eq : ∀ q ∈ d.m_States, lookupD st.stateSetID q = lookupD nsm q := by
    intro q hq
    obtain ⟨j, B, hj, hqB⟩ := block_of q hq
    rw [h.ids j B hj q hqB, hnsm j B hj q hqB]
  have delta_mem : ∀ q ∈ d.m_States, ∀ a ∈ d.m_Alphabet, d.delta q a ∈ d.m_States := by
    intro q hq a ha
    exact hd.trans_tgt _ (mapFind_mem (ht.find hq ha))
  induction w using List.reverseRecOn with
  | nil =>
    exact ⟨d.m_InitialState, hd.initial_mem, rfl, by rw [DFA.run_nil]; simp [Building.toDFA, hi0]⟩
  | append_singleton w a ih =>
    rw [DFA.run_append_singleton, DFA.run_append_singleton]
    obtain ⟨q, hq, h1, h2⟩ := ih (fun c hc => hw c (by simp [hc]))
    have ha : a ∈ d.m_Alphabet := hw a (by simp)
    rw [h1, h2, DFA.step_some, DFA.step_some]
    have e : (b'.toDFA d.m_Alphabet i0).m_Transitions = b'.m_Transitions := rfl
    rw [e]
    obtain ⟨j, B, hj, hqB⟩ := block_of q hq
    have hBmem : B ∈ st.currSet := List.mem_iff_getElem?.2 ⟨j, hj⟩
    have hhead : B.headD 0 ∈ B := headD_mem (h.nonempty B hBmem)
    have hheadS : B.headD 0 ∈ d.m_States := h.mem_states hj hhead
    refine ⟨d.delta q a, delta_mem q hq a ha, ht.find hq ha, ?_⟩
    rw [hnsm j B hj q hqB, ← hsm j B hj, htr B hBmem a ha]
    have hag := hstab B hBmem q hqB
    simp only [agreeOn, List.all_eq_true, beq_iff_eq] at hag
    have := hag a ha
    rw [ids_eq _ (delta_mem q hq a ha), ids_eq _ (delta_mem _ hheadS a ha)] at this
    rw [this]

/-- A run that ends in a state reads symbols of the alphabet only. -/
theorem DFA.run_some_alphabet {d : DFA} (hd : d.Closed) :
    ∀ (w : List Nat) (q : Nat), d.run w = some q → ∀ c ∈ w, c ∈ d.m_Alphabet := by
  intro w
  induction w using List.reverseRecOn with
  | nil => intro q _ c hc; simp at hc
  | append_singleton w a ih =>
    intro q hq c hc
    rw [DFA.run_append_singleton] at hq
    cases hr : d.run w with
    | none => rw [hr] at hq; exact Option.noConfusion hq
    | some p =>
      rw [hr, DFA.step_some] at hq
      rcases List.mem_append.1 hc with hc | hc
      · exact ih p hr c hc
      · rw [List.mem_singleton.1 hc]
        exact hd.trans_sym _ (mapFind_mem hq)

/-- On a total DFA with closed references in which every state is reached, with a
non-accepting state and a non-empty language, `minimize` returns a DFA of the same
language, the sink it removes is not the initial state, and when the collapse is
taken the states left after the sink is erased are the initial state alone. -/
theorem minimize_reach_spec {d : DFA} (hd : d.Closed) (ht : d.Total)
    (hnf : ∃ q ∈ d.m_States, q ∉ d.m_FinalStates) (hacc : ∃ w, d.accepts w = true)
    (hreach : ∀ q ∈ d.m_States, ∃ w, d.run w = some q) :
    ∃ D', minimize d = some D' ∧ (∀ w, D'.accepts w = d.accepts w) ∧
      ∃ t, minimizeTrace d = some t ∧ t.sink ≠ some t.initialBefore ∧
        t.initialAfter = t.initialBefore ∧ D'.m_InitialState = t.initialBefore ∧
        (t.collapse = true → minimizeKept d = some [t.initialAfter]) := by
  obtain ⟨w0, hw0⟩ := hacc
  have hf : d.m_FinalStates ≠ [] := finals_ne_nil_of_accepts hw0
  have hinit := partInv_init hd hnf hf
  obtain ⟨st, hst, hinv, hstab⟩ := refineLoop_spec ht
    ((d.m_States.filter (fun s => !d.m_FinalStates.contains s)).length +
      d.m_FinalStates.length + 2) _ hinit (by simp only [List.length_cons, List.length_nil]; omega)
  obtain ⟨n1, n2, n3⟩ := numberBlocks_spec st.currSet 0 [] [] hinv.disjoint hinv.nonempty
  have hsm : ∀ j B, st.currSet[j]? = some B →
      lookupD (numberBlocks 0 st.currSet [] []).2 B = j := by
    intro j B hj; rw [(n1 j B hj).1]; omega
  have hnsm : ∀ j B, st.currSet[j]? = some B → ∀ q ∈ B,
      lookupD (numberBlocks 0 st.currSet [] []).1 q = j := by
    intro j B hj q hq; rw [(n1 j B hj).2 q hq]; omega
  have hpair : st.currSet.Pairwise (fun B B' =>
      lookupD (numberBlocks 0 st.currSet [] []).2 B ≠
        lookupD (numberBlocks 0 st.currSet [] []).2 B') := by
    apply pairwise_of_index
    intro i j a b hi hj hij
    rw [hsm i a hi, hsm j b hj]
    omega
  obtain ⟨b', hb', s1, s2, s3, s4, s5, s6, s7⟩ := buildBlocks_spec d ht
    (numberBlocks 0 st.currSet [] []).1 (numberBlocks 0 st.currSet [] []).2 st.currSet
    { m_States := [], m_Transitions := [], m_InitialState := none, m_FinalStates := [] }
    hinv.nonempty (fun B hB q hq => (hinv.cover q).2 ⟨B, hB, hq⟩) hpair
  -- the block of the initial state
  obtain ⟨B0, hB0, hqB0⟩ := (hinv.cover d.m_InitialState).1 hd.initial_mem
  obtain ⟨j0, hj0⟩ := List.mem_iff_getElem?.1 hB0
  have hb'init : b'.m_InitialState =
      some (lookupD (numberBlocks 0 st.currSet [] []).1 d.m_InitialState) := by
    rcases s3 with ⟨B, hB, h1, h2⟩ | ⟨h1, _⟩
    · obtain ⟨j, hj⟩ := List.mem_iff_getElem?.1 hB
      rw [h2, hsm j B hj, hnsm j B hj _ h1]
    · exact absurd hqB0 (h1 B0 hB0)
  have hquot : ∀ w, (b'.toDFA d.m_Alphabet
      (lookupD (numberBlocks 0 st.currSet [] []).1 d.m_InitialState)).accepts w =
        d.accepts w := by
    intro w
    apply quotient_accepts hd ht hinv hstab _ _ b' _ hsm hnsm _ rfl s4
    · intro i a ha
      rw [s5 i a (Or.inr ha)]
      rfl
    · intro i
      rw [s2]
      simp
  obtain ⟨D', hD', hlang, t, ht1, ht2, ht3, ht4, ht5⟩ := pruneResult_spec d.m_Alphabet b'
    (lookupD (numberBlocks 0 st.currSet [] []).1 d.m_InitialState) hb'init
    (by
      rw [s1]
      exact Or.inr ⟨B0, hB0, by rw [hsm j0 B0 hj0, hnsm j0 B0 hj0 _ hqB0]⟩)
    (by
      intro i hi a ha
      rw [s1] at hi
      rcases hi with hi | ⟨B, hB, rfl⟩
      · simp at hi
      · rw [s4 B hB a ha]; rfl)
    (by
      intro e he
      rcases s7 e he with h1 | h1
      · simp at h1
      · exact h1)
    (s6 (by simp))
    (by
      intro _ i hi
      have hsorted := buildBlocks_states_sorted d _ _ _ _ _ hb' List.sorted_nil
      obtain ⟨Bz, hBz⟩ : ∃ Bz, st.currSet[0]? = some Bz := by
        have := hinv.two
        exact ⟨st.currSet[0], List.getElem?_eq_getElem (by omega)⟩
      have hBzm : Bz ∈ st.currSet := List.mem_iff_getElem?.2 ⟨0, hBz⟩
      have h0 : 0 ∈ b'.m_States := by
        rw [s1]
        exact Or.inr ⟨Bz, hBzm, hsm 0 Bz hBz⟩
      have hi0 : i = 0 := by
        cases hst : b'.m_States with
        | nil => rw [hst] at h0; simp at h0
        | cons x xs =>
          rw [hst] at hi h0 hsorted
          simp only [List.head?_cons, Option.some.injEq] at hi
          subst hi
          rcases List.mem_cons.1 h0 with h | h
          · exact h.symm
          · have := List.rel_of_sorted_cons hsorted 0 h
            omega
      subst hi0
      rw [s2]
      rintro (h | ⟨B, hB, hid, hfin⟩)
      · simp at h
      · obtain ⟨j, hj⟩ := List.mem_iff_getElem?.1 hB
        have hj0 : j = 0 := by rw [← hsm j B hj]; exact hid
        subst hj0
        exact hinv.block_zero B hj _ (headD_mem (hinv.nonempty B hB)) hfin)
    ⟨w0, by rw [hquot]; exact hw0⟩
  have hst2 : refineLoop (refineSize d + 3) (refineSize d + 2) (refineStart d) = some st := hst
  have htrace : minimizeTrace d = some t := by
    unfold minimizeTrace
    simp only [hst2, hinv.orig, hb', ht1]
  refine ⟨D', ?_, fun w => by rw [hlang, hquot], t, htrace, by rw [ht2]; exact ht4,
    by rw [ht3, ht2], by rw [ht5, ht2], fun hcol => ?_⟩
  · unfold minimize
    simp only [hst, hinv.orig, hb', hD']
  · unfold minimizeKept
    simp only [hst2, hinv.orig, hb']
    rw [ht3]
    congr 1
    apply pruneKept_collapse d.m_Alphabet b' _ hb'init _ _ _ _ _ _ ht1 ht4 hcol
    · rw [s1]
      exact Or.inr ⟨B0, hB0, by rw [hsm j0 B0 hj0, hnsm j0 B0 hj0 _ hqB0]⟩
    · intro i hi a ha
      rw [s1] at hi
      rcases hi with hi | ⟨B, hB, rfl⟩
      · simp at hi
      · rw [s4 B hB a ha]; rfl
    · intro e he
      rcases s7 e he with h1 | h1
      · simp at h1
      · exact h1
    · exact keys_nodup_of_sorted (s6 (by simp))
    · exact buildBlocks_states_sorted d _ _ _ _ _ hb' List.sorted_nil
    · intro x hx
      rw [s1] at hx
      rcases hx with hx | ⟨B, hB, rfl⟩
      · simp at hx
      · obtain ⟨j, hj⟩ := List.mem_iff_getElem?.1 hB
        have hhead : B.headD 0 ∈ B := headD_mem (hinv.nonempty B hB)
        have hheadS : B.headD 0 ∈ d.m_States := (hinv.cover _).2 ⟨B, hB, hhead⟩
        obtain ⟨w, hw⟩ := hreach _ hheadS
        obtain ⟨q, -, hq1, hq2⟩ := quotient_run hd ht hinv hstab _ _ b' _ hsm hnsm rfl s4 w
          (DFA.run_some_alphabet hd w _ hw)
        rw [hw] at hq1
        rw [← Option.some.inj hq1] at hq2
        refine ⟨w, ?_⟩
        rw [hq2, hsm j B hj, hnsm j B hj _ hhead]

/-- The states of the result of `pruneResult`: the initial state alone when the
collapse is taken, the states left after the sink is erased otherwise. -/
theorem pruneResult_states (alphabet : List Nat) (b : Building) {D' : DFA} {t : PruneTrace}
    (hD : pruneResult alphabet b = some D') (ht : pruneTrace alphabet b = some t) :
    D'.m_States = if t.collapse = true then [t.initialAfter] else pruneKept alphabet b := by
  unfold pruneResult at hD
  unfold pruneTrace at ht
  unfold pruneKept
  simp only at hD ht ⊢
  cases hi : b.m_InitialState with
  | none => rw [hi] at hD; simp at hD
  | some init0 =>
    rw [hi] at hD ht
    simp only at hD ht
    split at hD
    · simp at hD
    · rename_i initial hini
      rw [hini] at ht
      simp only [Option.some.injEq] at ht
      rw [← ht]
      simp only
      split_ifs at hD with hc
      · rw [if_pos hc, ← Option.some.inj hD]
      · rw [if_neg hc, ← Option.some.inj hD]

/-- C20, amended: for every well-formed total DFA in which every state is reached
from the initial state and which has an accepting and a non-accepting state,
`minimize` returns a DFA accepting exactly the words of the input, the state
erased as the sink (if any) is not the initial state, which stays as it is, and
the collapse to the initial state, when it is taken, discards no state: the DFA
returned has exactly the states left after the sink is erased. -/
theorem minimize_language_reachable (d : DFA) (hd : d.WF) (ht : d.Total)
    (hreach : ∀ q ∈ d.m_States, ∃ w, d.run w = some q)
    (hacc : ∃ f ∈ d.m_States, f ∈ d.m_FinalStates)
    (hnf : ∃ q ∈ d.m_States, q ∉ d.m_FinalStates) :
    ∃ D', minimize d = some D' ∧ (∀ w, D'.accepts w = d.accepts w) ∧
      ∃ t, minimizeTrace d = some t ∧ t.sink ≠ some t.initialBefore ∧
        t.initialAfter = t.initialBefore ∧ D'.m_InitialState = t.initialBefore ∧
        minimizeKept d = some D'.m_States := by
  obtain ⟨f, hf, hfin⟩ := hacc
  obtain ⟨w, hw⟩ := hreach f hf
  obtain ⟨D', hD', hlang, t, ht1, ht2, ht3, ht4, ht5⟩ := minimize_reach_spec hd.closed ht hnf
    ⟨w, by rw [DFA.accepts_eq_run, hw]; simpa using hfin⟩ hreach
  refine ⟨D', hD', hlang, t, ht1, ht2, ht3, ht4, ?_⟩
  rw [minimize_eq_refine] at hD'
  unfold minimizeTrace at ht1
  unfold minimizeKept at ht5 ⊢
  cases hr : refineLoop (refineSize d + 3) (refineSize d + 2) (refineStart d) with
  | none => simp [hr] at hD'
  | some st =>
    simp only [hr] at hD' ht1 ht5 ⊢
    cases hb : buildBlocks st.original (numberBlocks 0 st.currSet [] []).1
        (numberBlocks 0 st.currSet [] []).2 st.currSet
        { m_States := [], m_Transitions := [], m_InitialState := none, m_FinalStates := [] } with
    | none => simp [hb] at hD'
    | some b =>
      simp only [hb] at hD' ht1 ht5 ⊢
      rw [pruneResult_states d.m_Alphabet b hD' ht1]
      by_cases hc : t.collapse = true
      · rw [if_pos hc]
        exact ht5 hc
      · rw [if_neg hc]

/-- The amended C20 on the total DFA accepting exactly the word `a`. -/
theorem minimize_language_reachable_witness :
    gapDfa.WF ∧ gapDfa.Total ∧ (∀ q ∈ gapDfa.m_States, ∃ w, gapDfa.run w = some q) ∧
      (∃ f ∈ gapDfa.m_States, f ∈ gapDfa.m_FinalStates) ∧
      (∃ q ∈ gapDfa.m_States, q ∉ gapDfa.m_FinalStates) ∧
      ∃ D', minimize gapDfa = some D' ∧ (∀ w, D'.accepts w = gapDfa.accepts w) ∧
        ∃ t, minimizeTrace gapDfa = some t ∧ t.sink ≠ some t.initialBefore ∧
          t.initialAfter = t.initialBefore ∧ D'.m_InitialState = t.initialBefore ∧
          minimizeKept gapDfa = some D'.m_States :=
  have hreach : ∀ q ∈ gapDfa.m_States, ∃ w, gapDfa.run w = some q := by
    intro q hq
    have h : q = 0 ∨ q = 1 ∨ q = 2 := by simpa [gapDfa] using hq
    rcases h with rfl | rfl | rfl
    · exact ⟨[97, 97], by decide⟩
    · exact ⟨[], rfl⟩
    · exact ⟨[97], by decide⟩
  ⟨gapDfa_wf, by unfold DFA.Total; decide, hreach, ⟨2, by decide, by decide⟩,
    ⟨0, by decide, by decide⟩,
    minimize_language_reachable gapDfa gapDfa_wf (by unfold DFA.Total; decide) hreach
      ⟨2, by decide, by decide⟩ ⟨0, by decide, by decide⟩⟩

/-! ## `determine` on an NFA whose subset construction is a closed path -/

theorem lastWriter_succ (k i : Nat) :
    lastWriter (k + 1) i = if k % 2 ^ 32 = i then some k else lastWriter k i := rfl

/-- One transition recorded on the path: the set `S k` is expanded. -/
theorem detPath_step {n : NFA} {s : Nat} {S : Nat → List Nat} {L k : Nat}
    {st0 st' : DetState}
    (hstep : ∀ k, k ≤ L → n.stepSet (S k) s = S (k + 1))
    (hinj : ∀ j k, j ≤ L → k ≤ L → S j = S k → j = k)
    (hclose : S (L + 1) = S 1) (hL : 1 ≤ L) (hkL : k ≤ L)
    (hr : Recorded n st0 st' (S k) s)
    (hm : ∀ j, j ≤ k → j ≤ L → mapFind (S j) st0.map = some (j % 2 ^ 32))
    (hkeys : ∀ T ∈ st0.map.map Prod.fst, ∃ j, j ≤ k ∧ j ≤ L ∧ T = S j)
    (hc : st0.stateCounter = k + 1) (hq : st0.queue = [])
    (htr : ∀ i, mapFind (i, s) st0.result.m_Transitions = (lastWriter k i).map (pathTarget L))
    (hsym : ∀ e ∈ st0.result.m_Transitions, e.1.2 = s)
    (hst : ∀ j, j ≤ k → j ≤ L → j % 2 ^ 32 ∈ st0.result.m_States)
    (hini : st0.result.m_InitialState = 0) : DetPath n s S L (k + 1) st' := by
  obtain ⟨hmap, hcnt, hqe, htre, hste, -, hinie⟩ := hr
  rw [hstep k hkL] at hmap hcnt hqe htre hste
  have hsrc0 : mapFind (S k) st0.map = some (k % 2 ^ 32) := hm k (le_refl k) hkL
  rcases Nat.lt_or_ge k L with hlt | hge
  · -- a new set
    have hnone : mapFind (S (k + 1)) st0.map = none := by
      rw [mapFind_none]
      intro hc'
      obtain ⟨j, hj1, hj2, hj3⟩ := hkeys _ hc'
      have := hinj (k + 1) j (by omega) hj2 hj3
      omega
    have hisn : (mapFind (S (k + 1)) st0.map).isNone = true := by rw [hnone]; rfl
    simp only [hisn, if_true] at hmap hcnt hqe
    have hne : S (k + 1) ≠ S k := by
      intro hc'
      have := hinj (k + 1) k (by omega) hkL hc'
      omega
    have hsrc : lookupD st'.map (S k) = k % 2 ^ 32 := by
      rw [hmap, lookupD_cons_ne hne]
      exact lookupD_of_mapFind hsrc0
    have htgt : lookupD st'.map (S (k + 1)) = (k + 1) % 2 ^ 32 := by
      rw [hmap, lookupD_cons_self, hc]
    have hstates : st'.result.m_States =
        setInsert ((k + 1) % 2 ^ 32) st0.result.m_States := by
      rcases hste with h1 | ⟨-, h2⟩
      · rw [h1, htgt]
      · rw [hisn] at h2; exact absurd h2 (by simp)
    refine ⟨?_, ?_, ?_, ?_, ?_, ?_, ?_, hinie.trans hini⟩
    · intro j hj1 hj2
      rw [hmap, mapFind_cons]
      by_cases hjk : j = k + 1
      · subst hjk
        rw [if_pos rfl, hc]
      · rw [if_neg]
        · exact hm j (by omega) hj2
        · intro hc'
          exact hjk (hinj (k + 1) j (by omega) hj2 hc').symm
    · intro T hT
      rw [hmap] at hT
      simp only [List.map_cons, List.mem_cons] at hT
      rcases hT with rfl | hT
      · exact ⟨k + 1, le_refl _, by omega, rfl⟩
      · obtain ⟨j, hj1, hj2, hj3⟩ := hkeys T hT
        exact ⟨j, by omega, hj2, hj3⟩
    · rw [hcnt, hc, Nat.min_eq_left (by omega : k + 1 ≤ L)]
    · rw [hqe, hq, if_pos (by omega : k + 1 ≤ L)]
      rfl
    · intro i
      rw [htre, hsrc, htgt, mapFind_mapAssign, lastWriter_succ]
      by_cases hki : k % 2 ^ 32 = i
      · rw [if_pos (by rw [hki]), if_pos hki]
        simp only [Option.map_some', pathTarget]
        rw [if_neg (by omega)]
      · rw [if_neg, if_neg hki]
        · exact htr i
        · intro hc'
          exact hki (congrArg Prod.fst hc')
    · intro e he
      rw [htre] at he
      rcases mem_mapAssign he with rfl | he
      · rfl
      · exact hsym e he
    · intro j hj1 hj2
      rw [hstates, mem_setInsert]
      by_cases hjk : j = k + 1
      · left; rw [hjk]
      · right; exact hst j (by omega) hj2
  · -- the path closes
    have hkeq : k = L := by omega
    subst hkeq
    rw [hclose] at hmap hcnt hqe htre hste
    have h1 : mapFind (S 1) st0.map = some 1 := by
      have := hm 1 hL hL
      rwa [Nat.mod_eq_of_lt (by norm_num : 1 < 2 ^ 32)] at this
    have hisn : (mapFind (S 1) st0.map).isNone = false := by rw [h1]; rfl
    simp only [hisn, Bool.false_eq_true, if_false] at hmap hcnt hqe
    have hsrc : lookupD st'.map (S k) = k % 2 ^ 32 := by
      rw [hmap]; exact lookupD_of_mapFind hsrc0
    have htgt : lookupD st'.map (S 1) = 1 := by
      rw [hmap]; exact lookupD_of_mapFind h1
    refine ⟨?_, ?_, ?_, ?_, ?_, ?_, ?_, hinie.trans hini⟩
    · intro j _ hj2
      rw [hmap]
      exact hm j hj2 hj2
    · intro T hT
      rw [hmap] at hT
      obtain ⟨j, hj1, hj2, hj3⟩ := hkeys T hT
      exact ⟨j, by omega, hj2, hj3⟩
    · rw [hcnt, hc, Nat.min_eq_right (by omega : k ≤ k + 1)]
    · rw [hqe, hq, if_neg (by omega)]
    · intro i
      rw [htre, hsrc, htgt, mapFind_mapAssign, lastWriter_succ]
      by_cases hki : k % 2 ^ 32 = i
      · rw [if_pos (by rw [hki]), if_pos hki]
        simp only [Option.map_some', pathTarget, if_true]
      · rw [if_neg, if_neg hki]
        · exact htr i
        · intro hc'
          exact hki (congrArg Prod.fst hc')
    · intro e he
      rw [htre] at he
      rcases mem_mapAssign he with rfl | he
      · rfl
      · exact hsym e he
    · intro j _ hj2
      have := hst j hj2 hj2
      rcases hste with h2 | ⟨h2, -⟩
      · rw [h2, mem_setInsert]; exact Or.inr this
      · rw [h2]; exact this

/-- The worklist loop of `determine` on the path: it ends after the sets
`S k, .., S L` are expanded. -/
theorem detPath_loop {n : NFA} {s : Nat} {S : Nat → List Nat} {L : Nat}
    (halpha : n.m_Alphabet = [s])
    (hstep : ∀ k, k ≤ L → n.stepSet (S k) s = S (k + 1))
    (hinj : ∀ j k, j ≤ L → k ≤ L → S j = S k → j = k)
    (hclose : S (L + 1) = S 1) (hL : 1 ≤ L) :
    ∀ (r k : Nat) (st : DetState), DetPath n s S L k st → 1 ≤ k → k + r = L + 1 →
      ∃ st', determineLoop n (r + 1) st = some st'.result ∧ DetPath n s S L (L + 1) st' := by
  intro r
  induction r with
  | zero =>
    intro k st h _ hk
    have hkeq : k = L + 1 := by omega
    subst hkeq
    refine ⟨st, ?_, h⟩
    unfold determineLoop
    have hq := h.queue_eq
    rw [if_neg (by omega)] at hq
    rw [hq]
  | succ r ih =>
    intro k st h hk1 hk
    have hkL : k ≤ L := by omega
    have hq := h.queue_eq
    rw [if_pos hkL] at hq
    unfold determineLoop
    rw [hq]
    simp only [halpha, List.foldl_cons, List.foldl_nil]
    obtain ⟨hrec, -, -⟩ := determineSymbol_recorded n (S k) { st with queue := [] } false s
      (by simp)
    have h' := detPath_step hstep hinj hclose hL hkL hrec h.map_find h.map_keys
      (by rw [h.counter_eq, Nat.min_eq_left hkL]) rfl h.trans_find h.trans_sym h.states_mem
      h.initial
    exact ih (k + 1) _ h' (by omega) (by omega)

/-- More rounds do not change the result of the worklist loop of `determine`. -/
theorem determineLoop_mono (n : NFA) :
    ∀ (f : Nat) (st : DetState) (d : DFA), determineLoop n f st = some d →
      ∀ f', f ≤ f' → determineLoop n f' st = some d := by
  intro f
  induction f with
  | zero => intro st d h; simp [determineLoop] at h
  | succ f ih =>
    intro st d h f' hf
    obtain ⟨g, rfl⟩ : ∃ g, f' = g + 1 := ⟨f' - 1, by omega⟩
    unfold determineLoop at h ⊢
    cases hq : st.queue with
    | nil => rw [hq] at h; exact h
    | cons next rest =>
      rw [hq] at h
      exact ih _ d h g (by omega)

/-- The DFA `determine` returns for an NFA over one symbol whose subset
construction is the path `S 0, .., S L` closing from `S L` to `S 1`: the set
`S j` has the id `j % 2 ^ 32`, and each transition is the one written last. -/
theorem determine_path {n : NFA} (hn : n.WF) {s : Nat} {S : Nat → List Nat} {L : Nat}
    (halpha : n.m_Alphabet = [s]) (h0 : S 0 = [n.m_InitialState])
    (hstep : ∀ k, k ≤ L → n.stepSet (S k) s = S (k + 1))
    (hinj : ∀ j k, j ≤ L → k ≤ L → S j = S k → j = k)
    (hclose : S (L + 1) = S 1) (hL : 1 ≤ L) (hfuel : L ≤ 2 ^ n.m_States.length) :
    ∃ d, determine n = some d ∧ d.m_InitialState = 0 ∧
      (∀ i, mapFind (i, s) d.m_Transitions = (lastWriter (L + 1) i).map (pathTarget L)) ∧
      (∀ e ∈ d.m_Transitions, e.1.2 = s) ∧
      ∀ j, j ≤ L → j % 2 ^ 32 ∈ d.m_States := by
  have hsink : ((determineInit n).sinkStateAdded = true ↔
      [] ∈ (determineInit n).map.map Prod.fst) := by simp [determineInit]
  obtain ⟨hrec, -, -⟩ := determineStart_recorded hn
    (by simp [determineInit, mapFind_cons] :
      mapFind [n.m_InitialState] (determineInit n).map = some 0) s hsink
  rw [← h0] at hrec
  have h1 : DetPath n s S L 1 (determineStart n (determineInit n) s) := by
    apply detPath_step hstep hinj hclose hL (Nat.zero_le L) hrec _ _ rfl rfl _ _ _ rfl
    · intro j hj _
      have : j = 0 := by omega
      subst this
      rw [h0]
      simp [determineInit, mapFind_cons]
    · intro T hT
      simp only [determineInit, List.map_cons, List.map_nil, List.mem_singleton] at hT
      exact ⟨0, le_refl 0, Nat.zero_le L, by rw [hT, h0]⟩
    · intro i
      simp [determineInit, lastWriter, mapFind]
    · intro e he
      simp [determineInit] at he
    · intro j hj _
      have : j = 0 := by omega
      subst this
      simp [determineInit]
  obtain ⟨st', hloop, hfin⟩ := detPath_loop halpha hstep hinj hclose hL L 1 _ h1 (le_refl 1)
    (by omega)
  refine ⟨st'.result, ?_, hfin.initial, hfin.trans_find, hfin.trans_sym,
    fun j hj => hfin.states_mem j (by omega) hj⟩
  unfold determine
  rw [halpha]
  simp only [List.foldl_cons, List.foldl_nil]
  exact determineLoop_mono n _ _ _ hloop _ (by omega)

/-! ## The two-cycle NFA -/

theorem keyLt_same_symbol (x y c : Nat) : keyLt (x, c) (y, c) = true ↔ x < y := by
  simp [keyLt]

theorem mem_twoCycle_transitions (n : Nat) (e : (Nat × Nat) × List Nat) :
    e ∈ (twoCycleNfaOf n).m_Transitions ↔
      e = ((0, 97), [1, 4]) ∨ e = ((1, 97), [2]) ∨ e = ((2, 97), [3]) ∨ e = ((3, 97), [1]) ∨
        ∃ i, i < n ∧ e = ((i + 4, 97), [(i + 1) % n + 4]) := by
  simp only [twoCycleNfaOf, List.mem_cons, List.mem_map, List.mem_range]
  constructor
  · rintro (h | h | h | h | ⟨i, hi, h⟩)
    · exact Or.inl h
    · exact Or.inr (Or.inl h)
    · exact Or.inr (Or.inr (Or.inl h))
    · exact Or.inr (Or.inr (Or.inr (Or.inl h)))
    · exact Or.inr (Or.inr (Or.inr (Or.inr ⟨i, hi, h.symm⟩)))
  · rintro (h | h | h | h | ⟨i, hi, h⟩)
    · exact Or.inl h
    · exact Or.inr (Or.inl h)
    · exact Or.inr (Or.inr (Or.inl h))
    · exact Or.inr (Or.inr (Or.inr (Or.inl h)))
    · exact Or.inr (Or.inr (Or.inr (Or.inr ⟨i, hi, h.symm⟩)))

theorem twoCycle_keys_sorted (n : Nat) :
    ((twoCycleNfaOf n).m_Transitions.map Prod.fst).Sorted (fun a b => keyLt a b = true) := by
  have htail : ((List.range n).map (fun i => (i + 4, 97))).Pairwise
      (fun a b => keyLt a b = true) := by
    rw [List.pairwise_map]
    refine List.Pairwise.imp ?_ (List.pairwise_lt_range n)
    intro a b hab
    rw [keyLt_same_symbol]
    omega
  have hmem : ∀ x ∈ (List.range n).map (fun i => (i + 4, 97)), ∃ i, x = (i + 4, 97) := by
    intro x hx
    obtain ⟨i, -, hi⟩ := List.mem_map.1 hx
    exact ⟨i, hi.symm⟩
  simp only [twoCycleNfaOf, List.map_cons, List.map_map, List.Sorted, List.pairwise_cons,
    List.mem_cons]
  have e : (Prod.fst ∘ fun i => ((i + 4, 97), [(i + 1) % n + 4])) =
      fun i : Nat => (i + 4, 97) := rfl
  rw [e]
  refine ⟨?_, ?_, ?_, ?_, htail⟩
  · rintro x (rfl | rfl | rfl | hx)
    · decide
    · decide
    · decide
    · obtain ⟨i, rfl⟩ := hmem x hx
      rw [keyLt_same_symbol]; omega
  · rintro x (rfl | rfl | hx)
    · decide
    · decide
    · obtain ⟨i, rfl⟩ := hmem x hx
      rw [keyLt_same_symbol]; omega
  · rintro x (rfl | hx)
    · decide
    · obtain ⟨i, rfl⟩ := hmem x hx
      rw [keyLt_same_symbol]; omega
  · intro x hx
    obtain ⟨i, rfl⟩ := hmem x hx
    rw [keyLt_same_symbol]; omega

theorem twoCycleNfaOf_wf (n : Nat) (h6 : 6 ≤ n) (hb : n + 4 ≤ 2 ^ 32) : (twoCycleNfaOf n).WF where
  states_sorted := List.sorted_lt_range _
  alphabet_sorted := List.sorted_singleton _
  finals_sorted := List.sorted_singleton _
  keys_sorted := twoCycle_keys_sorted n
  initial_mem := List.mem_range.2 (by show 0 < n + 4; omega)
  finals_sub := by
    intro q hq
    have : q = 9 := by simpa [twoCycleNfaOf] using hq
    rw [this]
    exact List.mem_range.2 (by omega)
  trans_src := by
    intro e he
    show e.1.1 ∈ List.range (n + 4)
    rw [List.mem_range]
    rcases (mem_twoCycle_transitions n e).1 he with rfl | rfl | rfl | rfl | ⟨i, hi, rfl⟩ <;>
      simp only <;> omega
  trans_sym := by
    intro e he
    show e.1.2 ∈ [97]
    rcases (mem_twoCycle_transitions n e).1 he with rfl | rfl | rfl | rfl | ⟨i, hi, rfl⟩ <;>
      simp
  trans_nonempty := by
    intro e he
    rcases (mem_twoCycle_transitions n e).1 he with rfl | rfl | rfl | rfl | ⟨i, hi, rfl⟩ <;>
      simp
  trans_sorted := by
    intro e he
    rcases (mem_twoCycle_transitions n e).1 he with rfl | rfl | rfl | rfl | ⟨i, hi, rfl⟩ <;>
      simp
  trans_tgt := by
    intro e he q hq
    show q ∈ List.range (n + 4)
    rw [List.mem_range]
    rcases (mem_twoCycle_transitions n e).1 he with rfl | rfl | rfl | rfl | ⟨i, hi, rfl⟩
    · simp only [List.mem_cons, List.mem_singleton, List.not_mem_nil, or_false] at hq
      omega
    · simp only [List.mem_singleton] at hq; omega
    · simp only [List.mem_singleton] at hq; omega
    · simp only [List.mem_singleton] at hq; omega
    · simp only [List.mem_singleton] at hq
      have := Nat.mod_lt (i + 1) (by omega : 0 < n)
      omega
  states_bound := by
    intro q hq
    have := List.mem_range.1 hq
    omega
  symbols_bound := by
    intro a ha
    have : a = 97 := by simpa [twoCycleNfaOf] using ha
    omega

theorem twoCycle_find (n : Nat) {e : (Nat × Nat) × List Nat}
    (he : e ∈ (twoCycleNfaOf n).m_Transitions) :
    mapFind e.1 (twoCycleNfaOf n).m_Transitions = some e.2 :=
  mapFind_of_mem_nodup (keys_nodup_of_sorted (twoCycle_keys_sorted n)) he

theorem twoCycle_step (n : Nat) (hn : 0 < n) (k : Nat) :
    (twoCycleNfaOf n).stepSet (twoCycleSet n k) 97 = twoCycleSet n (k + 1) := by
  have f0 : mapFind (0, 97) (twoCycleNfaOf n).m_Transitions = some [1, 4] :=
    twoCycle_find n ((mem_twoCycle_transitions n _).2 (Or.inl rfl))
  have f1 : mapFind (1, 97) (twoCycleNfaOf n).m_Transitions = some [2] :=
    twoCycle_find n ((mem_twoCycle_transitions n _).2 (Or.inr (Or.inl rfl)))
  have f2 : mapFind (2, 97) (twoCycleNfaOf n).m_Transitions = some [3] :=
    twoCycle_find n ((mem_twoCycle_transitions n _).2 (Or.inr (Or.inr (Or.inl rfl))))
  have f3 : mapFind (3, 97) (twoCycleNfaOf n).m_Transitions = some [1] :=
    twoCycle_find n ((mem_twoCycle_transitions n _).2 (Or.inr (Or.inr (Or.inr (Or.inl rfl)))))
  have fl : ∀ i, i < n →
      mapFind (i + 4, 97) (twoCycleNfaOf n).m_Transitions = some [(i + 1) % n + 4] :=
    fun i hi => twoCycle_find n
      ((mem_twoCycle_transitions n _).2 (Or.inr (Or.inr (Or.inr (Or.inr ⟨i, hi, rfl⟩)))))
  by_cases hk : k = 0
  · subst hk
    simp [twoCycleSet, NFA.stepSet, NFA.addTargets, f0, setInsertAll, setInsert]
  · have hshort : ∃ u, mapFind ((k - 1) % 3 + 1, 97) (twoCycleNfaOf n).m_Transitions =
        some [u] ∧ u = k % 3 + 1 := by
      have h3 := Nat.mod_lt (k - 1) (by norm_num : 0 < 3)
      have hc : (k - 1) % 3 = 0 ∨ (k - 1) % 3 = 1 ∨ (k - 1) % 3 = 2 := by omega
      rcases hc with h | h | h
      · exact ⟨2, by rw [h]; exact f1, by omega⟩
      · exact ⟨3, by rw [h]; exact f2, by omega⟩
      · exact ⟨1, by rw [h]; exact f3, by omega⟩
    obtain ⟨u, hu1, hu2⟩ := hshort
    have hlong := fl ((k - 1) % n) (Nat.mod_lt _ hn)
    have hmod : ((k - 1) % n + 1) % n = k % n := by
      have : (k - 1) + 1 = k := by omega
      rw [Nat.add_mod, Nat.mod_mod, ← Nat.add_mod, this]
    rw [hmod] at hlong
    have hu3 : u < k % n + 4 := by omega
    simp only [twoCycleSet, hk, if_false, NFA.stepSet, List.foldl_cons, List.foldl_nil,
      NFA.addTargets, hu1, hlong, setInsertAll, setInsert, Nat.add_sub_cancel, Nat.succ_ne_zero]
    rw [if_neg (by omega), if_neg (by omega), hu2]

theorem twoCycle_inj (n : Nat) (hn : 0 < n) (hcop : Nat.Coprime 3 n) (j k : Nat)
    (hj : j ≤ 3 * n) (hk : k ≤ 3 * n) (h : twoCycleSet n j = twoCycleSet n k) : j = k := by
  unfold twoCycleSet at h
  by_cases hj0 : j = 0
  · by_cases hk0 : k = 0
    · rw [hj0, hk0]
    · rw [if_pos hj0, if_neg hk0] at h
      simp at h
  · by_cases hk0 : k = 0
    · rw [if_neg hj0, if_pos hk0] at h
      simp at h
    · rw [if_neg hj0, if_neg hk0] at h
      simp only [List.cons.injEq, Nat.add_right_cancel_iff, and_true] at h
      obtain ⟨h1, h2⟩ := h
      have hmod : (j - 1) % (3 * n) = (k - 1) % (3 * n) :=
        (Nat.modEq_and_modEq_iff_modEq_mul hcop).1 ⟨h1, h2⟩
      rw [Nat.mod_eq_of_lt (by omega), Nat.mod_eq_of_lt (by omega)] at hmod
      omega

theorem twoCycle_close (n : Nat) : twoCycleSet n (3 * n + 1) = twoCycleSet n 1 := by
  simp [twoCycleSet]

theorem lastWriter_three (M i : Nat) :
    lastWriter (M + 3) i =
      if (M + 2) % 2 ^ 32 = i then some (M + 2)
      else if (M + 1) % 2 ^ 32 = i then some (M + 1)
      else if M % 2 ^ 32 = i then some M else lastWriter M i := rfl

/-- The DFA `determine` returns for the two-cycle NFA whose subset construction
meets `2 ^ 32 + 3` sets: the ids wrap around, the transitions of the states 0, 1
and 2 form the closed path `0, 1, 2, 1`, and 3 is a state. -/
theorem determine_twoCycle (n : Nat) (h3 : 3 * n = 2 ^ 32 + 2) (hcop : Nat.Coprime 3 n) :
    ∃ d, determine (twoCycleNfaOf n) = some d ∧ d.m_InitialState = 0 ∧
      mapFind (0, 97) d.m_Transitions = some 1 ∧ mapFind (1, 97) d.m_Transitions = some 2 ∧
      mapFind (2, 97) d.m_Transitions = some 1 ∧ (∀ e ∈ d.m_Transitions, e.1.2 = 97) ∧
      3 ∈ d.m_States := by
  have hn : 0 < n := by omega
  have hlen : (twoCycleNfaOf n).m_States.length = n + 4 := by
    simp only [twoCycleNfaOf, List.length_range]
  have hfuel : 3 * n ≤ 2 ^ (twoCycleNfaOf n).m_States.length := by
    rw [hlen, pow_add]
    have := Nat.lt_two_pow n
    have h16 : (2 : Nat) ^ 4 = 16 := by norm_num
    rw [h16]
    omega
  obtain ⟨d, hd, hini, htr, hsym, hst⟩ := @determine_path (twoCycleNfaOf n)
    (twoCycleNfaOf_wf n (by omega) (by omega)) 97 (twoCycleSet n) (3 * n)
    rfl rfl (fun k _ => twoCycle_step n hn k) (twoCycle_inj n hn hcop) (twoCycle_close n)
    (by omega) hfuel
  have e : 3 * n + 1 = 2 ^ 32 + 3 := by omega
  rw [e] at htr
  have hp : ∀ k, pathTarget (3 * n) k = if k = 2 ^ 32 + 2 then 1 else (k + 1) % 2 ^ 32 := by
    intro k
    unfold pathTarget
    rw [h3]
  refine ⟨d, hd, hini, ?_, ?_, ?_, hsym, ?_⟩
  · rw [htr, lastWriter_three, if_neg (by norm_num), if_neg (by norm_num),
      if_pos (by norm_num), Option.map_some', hp, if_neg (by norm_num)]
    norm_num
  · rw [htr, lastWriter_three, if_neg (by norm_num), if_pos (by norm_num),
      Option.map_some', hp, if_neg (by norm_num)]
    norm_num
  · rw [htr, lastWriter_three, if_pos (by norm_num), Option.map_some', hp,
      if_pos (by norm_num)]
  · have := hst 3 (by omega)
    norm_num at this
    exact this

theorem twoCycle_run (n : Nat) (hn : 0 < n) (k : Nat) :
    (twoCycleNfaOf n).run (List.replicate k 97) = twoCycleSet n k := by
  induction k with
  | zero => rfl
  | succ k ih =>
    rw [List.replicate_succ']
    unfold NFA.run at ih ⊢
    rw [List.foldl_append, ih]
    exact twoCycle_step n hn k

theorem twoCycleNfa_wf : twoCycleNfa.WF :=
  twoCycleNfaOf_wf 1431655766 (by norm_num) (by norm_num)

/-- In a DFA over `a` whose states 0, 1 and 2 lead to 1, 2 and 1, every run from
state 0 stays in these three states. -/
theorem run_in_three {d : DFA} (hini : d.m_InitialState = 0)
    (h0 : mapFind (0, 97) d.m_Transitions = some 1)
    (h1 : mapFind (1, 97) d.m_Transitions = some 2)
    (h2 : mapFind (2, 97) d.m_Transitions = some 1)
    (hsym : ∀ e ∈ d.m_Transitions, e.1.2 = 97) (w : List Nat) :
    d.run w = some 0 ∨ d.run w = some 1 ∨ d.run w = some 2 ∨ d.run w = none := by
  have hother : ∀ q c, c ≠ 97 → mapFind (q, c) d.m_Transitions = none := by
    intro q c hc
    cases hf : mapFind (q, c) d.m_Transitions with
    | none => rfl
    | some v => exact absurd (hsym _ (mapFind_mem hf)) hc
  induction w using List.reverseRecOn with
  | nil => left; rw [DFA.run_nil, hini]
  | append_singleton w c ih =>
    rw [DFA.run_append_singleton]
    by_cases hc : c = 97
    · subst hc
      rcases ih with h | h | h | h
      · rw [h, DFA.step_some, h0]; exact Or.inr (Or.inl rfl)
      · rw [h, DFA.step_some, h1]; exact Or.inr (Or.inr (Or.inl rfl))
      · rw [h, DFA.step_some, h2]; exact Or.inr (Or.inl rfl)
      · rw [h]; exact Or.inr (Or.inr (Or.inr rfl))
    · right; right; right
      rcases ih with h | h | h | h
      · rw [h, DFA.step_some, hother _ _ hc]
      · rw [h, DFA.step_some, hother _ _ hc]
      · rw [h, DFA.step_some, hother _ _ hc]
      · rw [h]; rfl

/-- C3, refuted as stated: the two-cycle NFA is well-formed and its subset
construction meets `2 ^ 32 + 3` sets, so that the ids `determine` stores as
`unsigned int` repeat. The DFA returned is in state 2 after `a^6` and after `a^8`,
while the NFA accepts `a^6` and not `a^8`: on one of the two words they differ. -/
theorem determine_wraps_language :
    twoCycleNfa.WF ∧
      ∃ d, determine twoCycleNfa = some d ∧ ∃ w, d.accepts w ≠ twoCycleNfa.accepts w := by
  refine ⟨twoCycleNfa_wf, ?_⟩
  obtain ⟨d, hd, hini, h0, h1, h2, -, -⟩ :=
    determine_twoCycle 1431655766 (by norm_num) (by norm_num)
  refine ⟨d, hd, ?_⟩
  have hn6 : twoCycleNfa.accepts (List.replicate 6 97) = true := by
    have hacc : twoCycleNfa.accepts (List.replicate 6 97) =
        twoCycleNfa.anyFinal (twoCycleNfa.run (List.replicate 6 97)) := rfl
    rw [hacc]
    have hrun := twoCycle_run 1431655766 (by norm_num) 6
    have hrun' : twoCycleNfa.run (List.replicate 6 97) = twoCycleSet 1431655766 6 := hrun
    rw [hrun']
    decide
  have hn8 : twoCycleNfa.accepts (List.replicate 8 97) = false := by
    have hacc : twoCycleNfa.accepts (List.replicate 8 97) =
        twoCycleNfa.anyFinal (twoCycleNfa.run (List.replicate 8 97)) := rfl
    rw [hacc]
    have hrun := twoCycle_run 1431655766 (by norm_num) 8
    have hrun' : twoCycleNfa.run (List.replicate 8 97) = twoCycleSet 1431655766 8 := hrun
    rw [hrun']
    decide
  have hd6 : d.run (List.replicate 6 97) = some 2 := by
    simp only [DFA.run, List.replicate, List.foldl_cons, List.foldl_nil, DFA.step, hini, h0, h1,
      h2]
  have hd8 : d.run (List.replicate 8 97) = some 2 := by
    simp only [DFA.run, List.replicate, List.foldl_cons, List.foldl_nil, DFA.step, hini, h0, h1,
      h2]
  have heq : d.accepts (List.replicate 6 97) = d.accepts (List.replicate 8 97) := by
    rw [DFA.accepts_eq_run, DFA.accepts_eq_run, hd6, hd8]
  by_cases hc : d.accepts (List.replicate 6 97) = true
  · refine ⟨List.replicate 8 97, ?_⟩
    rw [← heq, hc, hn8]
    simp
  · refine ⟨List.replicate 6 97, ?_⟩
    rw [hn6]
    exact hc

/-- C12, refuted as stated: in the DFA `determine` returns for the two-cycle NFA,
whose subset construction meets `2 ^ 32 + 3` sets, the transitions of the states
0, 1 and 2 were overwritten when the ids repeated and lead to 1, 2 and 1; the
state 3 is not reached from the initial state 0. -/
theorem determine_wraps_unreachable :
    twoCycleNfa.WF ∧
      ∃ d, determine twoCycleNfa = some d ∧ d.m_InitialState = 0 ∧
        ∃ q ∈ d.m_States, ∀ w, d.run w ≠ some q := by
  refine ⟨twoCycleNfa_wf, ?_⟩
  obtain ⟨d, hd, hini, h0, h1, h2, hsym, h3⟩ :=
    determine_twoCycle 1431655766 (by norm_num) (by norm_num)
  refine ⟨d, hd, hini, 3, h3, fun w hw => ?_⟩
  rcases run_in_three hini h0 h1 h2 hsym w with h | h | h | h <;>
    · rw [h] at hw
      simp at hw

/-! ## The order of the keys of `tempTransitions` -/

theorem vecLt_irrefl : ∀ a : List Nat, vecLt a a = false
  | [] => rfl
  | x :: xs => by simp [vecLt, vecLt_irrefl xs]

theorem vecLt_trans : ∀ {a b c : List Nat}, vecLt a b = true → vecLt b c = true →
    vecLt a c = true
  | [], [], _, h1, _ => by simp [vecLt] at h1
  | [], _ :: _, [], _, h2 => by simp [vecLt] at h2
  | [], _ :: _, _ :: _, _, _ => rfl
  | _ :: _, [], _, h1, _ => by simp [vecLt] at h1
  | _ :: _, _ :: _, [], _, h2 => by simp [vecLt] at h2
  | x :: xs, y :: ys, z :: zs, h1, h2 => by
    simp only [vecLt, Bool.or_eq_true, decide_eq_true_eq, Bool.and_eq_true] at h1 h2 ⊢
    rcases h1 with h1 | ⟨h1, h1'⟩
    · rcases h2 with h2 | ⟨h2, _⟩
      · exact Or.inl (by omega)
      · exact Or.inl (by omega)
    · rcases h2 with h2 | ⟨h2, h2'⟩
      · exact Or.inl (by omega)
      · exact Or.inr ⟨by omega, vecLt_trans h1' h2'⟩

theorem vecLt_of_not : ∀ {a b : List Nat}, vecLt a b = false → a ≠ b → vecLt b a = true
  | [], [], _, h2 => absurd rfl h2
  | [], _ :: _, h1, _ => by simp [vecLt] at h1
  | _ :: _, [], _, _ => rfl
  | x :: xs, y :: ys, h1, h2 => by
    simp only [vecLt, Bool.or_eq_false_iff, decide_eq_false_iff_not, Bool.and_eq_false_iff,
      Bool.or_eq_true, decide_eq_true_eq, Bool.and_eq_true] at h1 ⊢
    obtain ⟨h1, h1'⟩ := h1
    by_cases hxy : x = y
    · subst hxy
      right
      refine ⟨rfl, ?_⟩
      rcases h1' with h | h
      · exact absurd rfl h
      · exact vecLt_of_not h (fun hc => h2 (by rw [hc]))
    · left; omega

theorem vecKeyLt_irrefl (a : List Nat × Nat) : vecKeyLt a a = false := by
  simp [vecKeyLt, vecLt_irrefl]

theorem vecKeyLt_trans {a b c : List Nat × Nat} (h1 : vecKeyLt a b = true)
    (h2 : vecKeyLt b c = true) : vecKeyLt a c = true := by
  simp only [vecKeyLt, Bool.or_eq_true, decide_eq_true_eq, Bool.and_eq_true] at h1 h2 ⊢
  rcases h1 with h1 | ⟨h1, h1'⟩
  · rcases h2 with h2 | ⟨h2, _⟩
    · exact Or.inl (vecLt_trans h1 h2)
    · rw [← h2]; exact Or.inl h1
  · rcases h2 with h2 | ⟨h2, h2'⟩
    · rw [h1]; exact Or.inl h2
    · exact Or.inr ⟨h1.trans h2, by omega⟩

theorem vecKeyLt_of_not {a b : List Nat × Nat} (h1 : vecKeyLt a b = false) (h2 : a ≠ b) :
    vecKeyLt b a = true := by
  simp only [vecKeyLt, Bool.or_eq_false_iff, decide_eq_false_iff_not, Bool.and_eq_false_iff,
    Bool.or_eq_true, decide_eq_true_eq, Bool.and_eq_true] at h1 ⊢
  obtain ⟨h1, h1'⟩ := h1
  by_cases hv : a.1 = b.1
  · right
    refine ⟨hv.symm, ?_⟩
    rcases h1' with h | h
    · exact absurd hv h
    · have : a.2 ≠ b.2 := fun hc => h2 (Prod.ext hv hc)
      omega
  · exact Or.inl (vecLt_of_not h1 hv)

theorem mapAssign_vecKeys_sorted {V : Type} (k : List Nat × Nat) (v : V)
    (m : List ((List Nat × Nat) × V))
    (h : (m.map Prod.fst).Sorted (fun a b => vecKeyLt a b = true)) :
    ((mapAssign vecKeyLt k v m).map Prod.fst).Sorted (fun a b => vecKeyLt a b = true) := by
  induction m with
  | nil => simp [mapAssign]
  | cons e rest ih =>
    obtain ⟨k1, v1⟩ := e
    simp only [List.map_cons, List.sorted_cons] at h
    unfold mapAssign
    split_ifs with h1 h2
    · simp only [List.map_cons, List.sorted_cons, List.mem_cons, forall_eq_or_imp]
      exact ⟨⟨h1, fun b hb => vecKeyLt_trans h1 (h.1 b hb)⟩, h.1, h.2⟩
    · subst h2
      simp only [List.map_cons, List.sorted_cons]
      exact h
    · simp only [List.map_cons, List.sorted_cons]
      refine ⟨fun b hb => ?_, ih h.2⟩
      obtain ⟨e, he, rfl⟩ := List.mem_map.1 hb
      rcases mem_mapAssign he with rfl | he
      · exact vecKeyLt_of_not (by simpa using h1) h2
      · exact h.1 _ (List.mem_map.2 ⟨e, he, rfl⟩)

/-- Keys assigned after the last assignment to `k` leave its value. -/
theorem mapFind_foldl_assign_skip {E K V : Type} [DecidableEq K] (lt : K → K → Bool)
    (F : E → K × V) (k : K) :
    ∀ (l : List E) (acc : List (K × V)), (∀ x ∈ l, (F x).1 ≠ k) →
      mapFind k (l.foldl (fun t x => mapAssign lt (F x).1 (F x).2 t) acc) = mapFind k acc := by
  intro l
  induction l with
  | nil => intro acc _; rfl
  | cons x l ih =>
    intro acc h
    rw [List.foldl_cons, ih _ (fun y hy => h y (List.mem_cons_of_mem _ hy)), mapFind_mapAssign,
      if_neg (h x (List.mem_cons_self _ _))]

/-- The value of a key after a sequence of assignments is the one assigned last. -/
theorem mapFind_foldl_assign_last {E K V : Type} [DecidableEq K] (lt : K → K → Bool)
    (F : E → K × V) (l1 l2 : List E) (e : E) (acc : List (K × V))
    (h : ∀ x ∈ l2, (F x).1 ≠ (F e).1) :
    mapFind (F e).1 ((l1 ++ e :: l2).foldl (fun t x => mapAssign lt (F x).1 (F x).2 t) acc) =
      some (F e).2 := by
  rw [List.foldl_append, List.foldl_cons, mapFind_foldl_assign_skip lt F _ l2 _ h,
    mapFind_mapAssign, if_pos rfl]

/-! ## `parallelRun` on DFAs whose product is one cycle -/

theorem vecKeys_nodup_of_sorted {V : Type} {m : List ((List Nat × Nat) × V)}
    (h : (m.map Prod.fst).Sorted (fun a b => vecKeyLt a b = true)) :
    (m.map Prod.fst).Nodup := by
  apply List.Pairwise.imp _ h
  intro a b hab hc
  subst hc
  rw [vecKeyLt_irrefl] at hab
  exact Bool.noConfusion hab

theorem pairTarget_path {a b : DFA} {s : Nat} {α β : Nat → Nat} {L : Nat}
    (hta : ∀ k, k < L → mapFind (α k, s) a.m_Transitions = some (α ((k + 1) % L)))
    (htb : ∀ k, k < L → mapFind (β k, s) b.m_Transitions = some (β ((k + 1) % L)))
    {k : Nat} (hk : k < L) :
    pairTarget a b [α k, β k] s = [α ((k + 1) % L), β ((k + 1) % L)] := by
  simp [pairTarget, hta k hk, htb k hk]

/-- One round on the cycle: the pair `k` gets its id and its step is recorded. -/
theorem prodPath_step {a b : DFA} {s : Nat} {α β : Nat → Nat} {L k : Nat}
    {st st' : ProdState}
    (hta : ∀ k, k < L → mapFind (α k, s) a.m_Transitions = some (α ((k + 1) % L)))
    (htb : ∀ k, k < L → mapFind (β k, s) b.m_Transitions = some (β ((k + 1) % L)))
    (hinj : ∀ j k, j < L → k < L → [α j, β j] = [α k, β k] → j = k)
    (h : ProdPath s α β L k st) (hk : k < L)
    (hr : ProdStep a b { st with queue := [] } st' [α k, β k] s) :
    ProdPath s α β L (k + 1) st' := by
  obtain ⟨htemp, hpid, hcnt, -, -, hqueue, halpha, -⟩ := hr
  rw [pairTarget_path hta htb hk] at htemp hpid hcnt hqueue
  have hnone : mapFind [α k, β k] st.pairID = none := by
    rw [mapFind_none]
    intro hc
    rcases h.pid_keys _ hc with h1 | ⟨j, hj, h1⟩
    · simp at h1
    · have := hinj k j hk (by omega) h1
      omega
  have hcond : ([α ((k + 1) % L), β ((k + 1) % L)] ≠ [] ∧
      (mapFind [α k, β k] st.pairID).isNone = true) := ⟨by simp, by rw [hnone]; rfl⟩
  have hpid' : st'.pairID = ([α k, β k], (k + 1) % 2 ^ 32) :: st.pairID := by
    rw [hpid]
    simp only
    rw [if_pos hcond, h.counter_eq]
  have hcnt' : st'.stateCounter = (k + 1 + 1) % 2 ^ 32 := by
    rw [hcnt]
    simp only
    rw [if_pos hcond, h.counter_eq]
    omega
  have hnd := vecKeys_nodup_of_sorted h.temp_sorted
  refine ⟨?_, ?_, ?_, hcnt', ?_, ?_, ?_, ?_, halpha.trans h.alphabet_eq⟩
  · intro j hj
    rw [hpid', mapFind_cons]
    by_cases hjk : j = k
    · subst hjk
      rw [if_pos rfl]
    · rw [if_neg]
      · exact h.pid_find j (by omega)
      · intro hc
        exact hjk (hinj k j hk (by omega) hc).symm
  · rw [hpid', mapFind_cons, if_neg (by simp)]
    exact h.pid_sink
  · intro x hx
    rw [hpid'] at hx
    simp only [List.map_cons, List.mem_cons] at hx
    rcases hx with rfl | hx
    · exact Or.inr ⟨k, by omega, rfl⟩
    · rcases h.pid_keys x hx with h1 | ⟨j, hj, h1⟩
      · exact Or.inl h1
      · exact Or.inr ⟨j, by omega, h1⟩
  · rw [hqueue]
    simp only [List.nil_append]
    by_cases hk1 : k + 1 < L
    · have hmod : (k + 1) % L = k + 1 := Nat.mod_eq_of_lt hk1
      rw [hmod, if_pos hk1, if_pos]
      refine ⟨by simp, ?_⟩
      rw [Option.isNone_iff_eq_none, mapFind_none, hpid']
      simp only [List.map_cons, List.mem_cons]
      rintro (hc | hc)
      · have := hinj (k + 1) k hk1 hk hc
        omega
      · rcases h.pid_keys _ hc with h1 | ⟨j, hj, h1⟩
        · simp at h1
        · have := hinj (k + 1) j hk1 (by omega) h1
          omega
    · have hkL : k + 1 = L := by omega
      have hmod : (k + 1) % L = 0 := by rw [hkL]; exact Nat.mod_self L
      rw [hmod, if_neg hk1, if_neg]
      rintro ⟨-, hc⟩
      rw [hpid', mapFind_cons] at hc
      by_cases hk0 : k = 0
      · subst hk0
        rw [if_pos rfl] at hc
        exact Bool.noConfusion hc
      · have h0 := h.pid_find 0 (by omega)
        split_ifs at hc
        · exact Bool.noConfusion hc
        · rw [h0] at hc
          exact Bool.noConfusion hc
  · rw [htemp]
    exact mapAssign_vecKeys_sorted _ _ _ h.temp_sorted
  · intro e he
    rw [htemp] at he
    rcases mem_mapAssign he with rfl | he
    · exact Or.inr ⟨k, by omega, rfl⟩
    · rcases h.temp_mem e he with h1 | ⟨j, hj, h1⟩
      · exact Or.inl h1
      · exact Or.inr ⟨j, by omega, h1⟩
  · intro j hj
    rw [htemp]
    apply mapFind_mem
    rw [mapFind_mapAssign]
    by_cases hjk : j = k
    · subst hjk
      rw [if_pos rfl]
    · rw [if_neg]
      · exact mapFind_of_mem_nodup hnd (h.temp_has j (by omega))
      · intro hc
        have hc' : [α k, β k] = [α j, β j] := congrArg Prod.fst hc
        exact hjk (hinj k j hk (by omega) hc').symm

/-- The worklist loop of `parallelRun` on the cycle ends after the pairs
`k, .., L - 1` are processed. -/
theorem prodPath_loop {a b : DFA} {s : Nat} {α β : Nat → Nat} {L : Nat}
    (hta : ∀ k, k < L → mapFind (α k, s) a.m_Transitions = some (α ((k + 1) % L)))
    (htb : ∀ k, k < L → mapFind (β k, s) b.m_Transitions = some (β ((k + 1) % L)))
    (hinj : ∀ j k, j < L → k < L → [α j, β j] = [α k, β k] → j = k) :
    ∀ (r k : Nat) (st : ProdState), ProdPath s α β L k st → k + r = L →
      ∃ st', parallelLoop a b (r + 1) st = some st' ∧ ProdPath s α β L L st' := by
  intro r
  induction r with
  | zero =>
    intro k st h hk
    have hkeq : k = L := by omega
    subst hkeq
    refine ⟨st, ?_, h⟩
    unfold parallelLoop
    have hq := h.queue_eq
    rw [if_neg (by omega)] at hq
    rw [hq]
  | succ r ih =>
    intro k st h hk
    have hkL : k < L := by omega
    have hq := h.queue_eq
    rw [if_pos hkL] at hq
    unfold parallelLoop
    rw [hq]
    simp only [h.alphabet_eq, List.foldl_cons, List.foldl_nil]
    have hstep := parallelSymbol_step a b (α k) (β k) { st with queue := [] } s
    exact ih (k + 1) _ (prodPath_step hta htb hinj h hkL hstep) (by omega)

/-- More rounds do not change the result of the worklist loop of `parallelRun`. -/
theorem parallelLoop_mono (a b : DFA) :
    ∀ (f : Nat) (st r : ProdState), parallelLoop a b f st = some r →
      ∀ f', f ≤ f' → parallelLoop a b f' st = some r := by
  intro f
  induction f with
  | zero => intro st r h; simp [parallelLoop] at h
  | succ f ih =>
    intro st r h f' hf
    obtain ⟨g, rfl⟩ : ∃ g, f' = g + 1 := ⟨f' - 1, by omega⟩
    unfold parallelLoop at h ⊢
    cases hq : st.queue with
    | nil => rw [hq] at h; exact h
    | cons next rest =>
      rw [hq] at h
      exact ih _ r h g (by omega)

/-- The DFA `parallelRun` returns for two DFAs over one symbol whose product is the
cycle of the `L` pairs `[α j, β j]`: the pair `j` has the id `(j + 1) % 2 ^ 32`, and
the transition of an id is the step of the pair, among those with this id, that
comes last in the order of the vectors. -/
theorem parallelRun_path {a b : DFA} {s : Nat} {α β : Nat → Nat} {L : Nat}
    (halpha : setInsertAll b.m_Alphabet (setInsertAll a.m_Alphabet []) = [s])
    (h0a : α 0 = a.m_InitialState) (h0b : β 0 = b.m_InitialState)
    (hta : ∀ k, k < L → mapFind (α k, s) a.m_Transitions = some (α ((k + 1) % L)))
    (htb : ∀ k, k < L → mapFind (β k, s) b.m_Transitions = some (β ((k + 1) % L)))
    (hinj : ∀ j k, j < L → k < L → [α j, β j] = [α k, β k] → j = k)
    (hL : 0 < L) (hfuel : L ≤ parallelFuel 1 (a.m_States.length * b.m_States.length)) :
    ∃ R, parallelRun a b = some R ∧
      ∀ i jl, jl < L → (jl + 1) % 2 ^ 32 = i → i ≠ 0 →
        (∀ j, j < L → (j + 1) % 2 ^ 32 = i →
          j = jl ∨ vecLt [α j, β j] [α jl, β jl] = true) →
        mapFind (i, s) R.m_Transitions = some (((jl + 1) % L + 1) % 2 ^ 32) := by
  have hinit : ProdPath s α β L 0
      { result :=
          { m_States := [0]
            m_Alphabet := [s]
            m_Transitions := []
            m_InitialState := 1
            m_FinalStates := [] }
        tempTransitions := [(([], s), [])]
        pairID := [([], 0)]
        queue := [[a.m_InitialState, b.m_InitialState]]
        stateCounter := 1 } := by
    refine ⟨fun j hj => absurd hj (Nat.not_lt_zero j), rfl, ?_, rfl, ?_, ?_, ?_,
      fun j hj => absurd hj (Nat.not_lt_zero j), rfl⟩
    · intro x hx
      simp only [List.map_cons, List.map_nil, List.mem_singleton] at hx
      exact Or.inl hx
    · rw [if_pos hL, h0a, h0b]
    · simp
    · intro e he
      simp only [List.mem_singleton] at he
      exact Or.inl he
  obtain ⟨st, hloop, hfin⟩ := prodPath_loop (a := a) (b := b) hta htb hinj L 0 _ hinit
    (Nat.zero_add L)
  have hloop' := parallelLoop_mono a b _ _ _ hloop
    (parallelFuel 1 (a.m_States.length * b.m_States.length) + 1) (by omega)
  refine ⟨{ st.result with m_Transitions := productTransitions st }, ?_, ?_⟩
  · unfold parallelRun
    simp only [halpha, List.length_singleton, List.foldl_cons, List.foldl_nil, mapAssign]
    rw [hloop']
    rfl
  · intro i jl hjl hi hi0 hlast
    have hjm : (jl + 1) % L < L := Nat.mod_lt _ hL
    have hlook : ∀ j, j < L → lookupD st.pairID [α j, β j] = (j + 1) % 2 ^ 32 :=
      fun j hj => lookupD_of_mapFind (hfin.pid_find j hj)
    have hsinkD : lookupD st.pairID [] = 0 := lookupD_of_mapFind hfin.pid_sink
    obtain ⟨l1, l2, hsplit⟩ := List.append_of_mem (hfin.temp_has jl hjl)
    have hpw : st.tempTransitions.Pairwise (fun x y => vecKeyLt x.1 y.1 = true) :=
      List.pairwise_map.1 hfin.temp_sorted
    rw [hsplit] at hpw
    have hafter := (List.pairwise_cons.1 (List.pairwise_append.1 hpw).2.1).1
    have hskip : ∀ x ∈ l2, (lookupD st.pairID x.1.1, x.1.2) ≠ (i, s) := by
      intro x hx hc
      have hxm : x ∈ st.tempTransitions := by
        rw [hsplit]
        exact List.mem_append_right _ (List.mem_cons_of_mem _ hx)
      have hlt := hafter x hx
      rcases hfin.temp_mem x hxm with rfl | ⟨j, hj, rfl⟩
      · simp only [Prod.mk.injEq] at hc
        rw [hsinkD] at hc
        exact hi0 hc.1.symm
      · simp only [Prod.mk.injEq] at hc
        rw [hlook j hj] at hc
        rcases hlast j hj hc.1 with rfl | hv
        · rw [vecKeyLt_irrefl] at hlt
          exact Bool.noConfusion hlt
        · have hback : vecKeyLt ([α j, β j], s) ([α jl, β jl], s) = true := by
            simp only [vecKeyLt, hv, Bool.true_or]
          have := vecKeyLt_trans hlt hback
          rw [vecKeyLt_irrefl] at this
          exact Bool.noConfusion this
    have key := mapFind_foldl_assign_last keyLt
      (fun e : (List Nat × Nat) × List Nat =>
        ((lookupD st.pairID e.1.1, e.1.2), lookupD st.pairID e.2))
      l1 l2 (([α jl, β jl], s), [α ((jl + 1) % L), β ((jl + 1) % L)]) []
      (by
        intro x hx
        simp only [hlook jl hjl, hi]
        exact hskip x hx)
    simp only [hlook jl hjl, hlook _ hjm, hi] at key
    show mapFind (i, s) (productTransitions st) = _
    unfold productTransitions
    rw [hsplit]
    exact key

/-! ## The product of two cycles -/

theorem cycle_keys_sorted (m init : Nat) :
    ((cycleDfaOf m init).m_Transitions.map Prod.fst).Sorted (fun a b => keyLt a b = true) := by
  simp only [cycleDfaOf, List.map_map]
  have e : (Prod.fst ∘ fun i => ((i, 97), (i + 1) % m)) = fun i : Nat => (i, 97) := rfl
  rw [e]
  show ((List.range m).map (fun i => (i, 97))).Pairwise (fun a b => keyLt a b = true)
  rw [List.pairwise_map]
  refine List.Pairwise.imp ?_ (List.pairwise_lt_range m)
  intro a b hab
  rw [keyLt_same_symbol]
  exact hab

theorem mem_cycle_transitions (m init : Nat) (e : (Nat × Nat) × Nat) :
    e ∈ (cycleDfaOf m init).m_Transitions ↔ ∃ i, i < m ∧ e = ((i, 97), (i + 1) % m) := by
  simp only [cycleDfaOf, List.mem_map, List.mem_range]
  constructor
  · rintro ⟨i, hi, h⟩
    exact ⟨i, hi, h.symm⟩
  · rintro ⟨i, hi, h⟩
    exact ⟨i, hi, h.symm⟩

theorem cycleDfaOf_wf (m init : Nat) (hi : init < m) (hb : m ≤ 2 ^ 32) :
    (cycleDfaOf m init).WF where
  states_sorted := List.sorted_lt_range _
  alphabet_sorted := List.sorted_singleton _
  finals_sorted := List.sorted_nil
  keys_sorted := cycle_keys_sorted m init
  initial_mem := List.mem_range.2 hi
  finals_sub := by
    intro q hq
    simp [cycleDfaOf] at hq
  trans_src := by
    intro e he
    show e.1.1 ∈ List.range m
    rw [List.mem_range]
    obtain ⟨i, hi, rfl⟩ := (mem_cycle_transitions m init e).1 he
    exact hi
  trans_sym := by
    intro e he
    show e.1.2 ∈ [97]
    obtain ⟨i, hi, rfl⟩ := (mem_cycle_transitions m init e).1 he
    simp
  trans_tgt := by
    intro e he
    show e.2 ∈ List.range m
    rw [List.mem_range]
    obtain ⟨i, hi, rfl⟩ := (mem_cycle_transitions m init e).1 he
    exact Nat.mod_lt _ (by omega)
  states_bound := by
    intro q hq
    have := List.mem_range.1 hq
    omega
  symbols_bound := by
    intro a ha
    have : a = 97 := by simpa [cycleDfaOf] using ha
    omega

theorem cycle_find (m init : Nat) {i : Nat} (hi : i < m) :
    mapFind (i, 97) (cycleDfaOf m init).m_Transitions = some ((i + 1) % m) :=
  mapFind_of_mem_nodup (keys_nodup_of_sorted (cycle_keys_sorted m init))
    ((mem_cycle_transitions m init ((i, 97), (i + 1) % m)).2 ⟨i, hi, rfl⟩)

theorem cycleDfaOf_total (m init : Nat) : (cycleDfaOf m init).Total := by
  intro q hq a ha
  have hq' : q < m := List.mem_range.1 hq
  have ha' : a = 97 := by simpa [cycleDfaOf] using ha
  rw [ha', cycle_find m init hq']
  rfl

theorem cycle_run (m init : Nat) (hi : init < m) (k : Nat) :
    (cycleDfaOf m init).run (List.replicate k 97) = some ((init + k) % m) := by
  induction k with
  | zero =>
    rw [Nat.add_zero, Nat.mod_eq_of_lt hi]
    rfl
  | succ k ih =>
    rw [List.replicate_succ', DFA.run_append_singleton, ih, DFA.step_some,
      cycle_find m init (Nat.mod_lt _ (by omega))]
    congr 1
    rw [Nat.add_mod, Nat.mod_mod, ← Nat.add_mod]
    rfl

theorem parallelFuel_one (n : Nat) : parallelFuel 1 n = n + 1 := by
  induction n with
  | zero => rfl
  | succ n ih =>
    show 1 + 1 * parallelFuel 1 n = n + 1 + 1
    rw [ih]
    omega

theorem cycle_pair_inj (ma mb ia ib : Nat) (hcop : Nat.Coprime ma mb) (j k : Nat)
    (hj : j < ma * mb) (hk : k < ma * mb)
    (h : [(ia + j) % ma, (ib + j) % mb] = [(ia + k) % ma, (ib + k) % mb]) : j = k := by
  simp only [List.cons.injEq, and_true] at h
  obtain ⟨h1, h2⟩ := h
  have e1 : j ≡ k [MOD ma] := Nat.ModEq.add_left_cancel' ia h1
  have e2 : j ≡ k [MOD mb] := Nat.ModEq.add_left_cancel' ib h2
  have hmod : j % (ma * mb) = k % (ma * mb) :=
    (Nat.modEq_and_modEq_iff_modEq_mul hcop).1 ⟨e1, e2⟩
  rw [Nat.mod_eq_of_lt hj, Nat.mod_eq_of_lt hk] at hmod
  exact hmod

/-- The DFA `parallelRun` returns for two cycles of coprime lengths: the pair reached
after `j` steps has the id `(j + 1) % 2 ^ 32`, and the transition of an id is the
step of the pair, among those with this id, that comes last in the order of the
vectors. -/
theorem parallelRun_cycles (ma mb ia ib : Nat) (hcop : Nat.Coprime ma mb) (hia : ia < ma)
    (hib : ib < mb) :
    ∃ R, parallelRun (cycleDfaOf ma ia) (cycleDfaOf mb ib) = some R ∧
      ∀ i jl, jl < ma * mb → (jl + 1) % 2 ^ 32 = i → i ≠ 0 →
        (∀ j, j < ma * mb → (j + 1) % 2 ^ 32 = i →
          j = jl ∨ vecLt [(ia + j) % ma, (ib + j) % mb]
            [(ia + jl) % ma, (ib + jl) % mb] = true) →
        mapFind (i, 97) R.m_Transitions = some (((jl + 1) % (ma * mb) + 1) % 2 ^ 32) := by
  have hma : 0 < ma := by omega
  have hmb : 0 < mb := by omega
  have hlen : (cycleDfaOf ma ia).m_States.length * (cycleDfaOf mb ib).m_States.length =
      ma * mb := by
    simp only [cycleDfaOf, List.length_range]
  exact parallelRun_path (a := cycleDfaOf ma ia) (b := cycleDfaOf mb ib) (s := 97)
    (α := fun k => (ia + k) % ma) (β := fun k => (ib + k) % mb) (L := ma * mb)
    rfl (by simp only [Nat.add_zero]; exact Nat.mod_eq_of_lt hia)
    (by simp only [Nat.add_zero]; exact Nat.mod_eq_of_lt hib)
    (by
      intro k _
      simp only
      rw [cycle_find ma ia (Nat.mod_lt _ hma)]
      congr 1
      rw [Nat.add_mod ia ((k + 1) % (ma * mb)), Nat.mod_mul_right_mod, ← Nat.add_mod,
        ← Nat.add_assoc]
      exact Nat.ModEq.add_right 1 (Nat.mod_mod _ _))
    (by
      intro k _
      simp only
      rw [cycle_find mb ib (Nat.mod_lt _ hmb)]
      congr 1
      rw [Nat.add_mod ib ((k + 1) % (ma * mb)), Nat.mod_mul_left_mod, ← Nat.add_mod,
        ← Nat.add_assoc]
      exact Nat.ModEq.add_right 1 (Nat.mod_mod _ _))
    (fun j k hj hk h => cycle_pair_inj ma mb ia ib hcop j k hj hk h)
    (Nat.mul_pos hma hmb) (by rw [hlen, parallelFuel_one]; omega)

/-! ## The product of the long cycle and the three-cycle -/

theorem longCycleDfa_wf : longCycleDfa.WF :=
  cycleDfaOf_wf 1431655766 1 (by norm_num) (by norm_num)

theorem threeCycleDfa_wf : threeCycleDfa.WF :=
  cycleDfaOf_wf 3 0 (by norm_num) (by norm_num)

/-- C23, refuted as stated: the cycle of 1431655766 states and the cycle of 3 states
are well-formed DFAs with a product of `2 ^ 32 + 2` reached pairs, so the ids that
`parallelRun` counts as `unsigned int` repeat: the pairs reached after 1 step and
after `2 ^ 32 + 1` steps both get the id 2. The transition of the id 2 is the one
written last, in the order of the vectors: with the long cycle first it is the step
of the pair `[2, 1]`, to the id 3, with the three-cycle first it is the step of the
pair `[2, 0]`, to the id 1. The two records differ. -/
theorem parallelRun_wraps_order :
    longCycleDfa.WF ∧ threeCycleDfa.WF ∧
      ∃ R R', parallelRun longCycleDfa threeCycleDfa = some R ∧
        parallelRun threeCycleDfa longCycleDfa = some R' ∧
        mapFind (2, 97) R.m_Transitions = some 3 ∧
        mapFind (2, 97) R'.m_Transitions = some 1 ∧ R ≠ R' := by
  refine ⟨longCycleDfa_wf, threeCycleDfa_wf, ?_⟩
  obtain ⟨R, hR, h1⟩ :=
    parallelRun_cycles 1431655766 3 1 0 (by norm_num) (by norm_num) (by norm_num)
  obtain ⟨R', hR', h2⟩ :=
    parallelRun_cycles 3 1431655766 0 1 (by norm_num) (by norm_num) (by norm_num)
  have e1 : mapFind (2, 97) R.m_Transitions = some 3 := by
    have := h1 2 1 (by norm_num) (by norm_num) (by norm_num) (by
      intro j hj hi
      have hc : j = 1 ∨ j = 4294967297 := by omega
      rcases hc with rfl | rfl
      · exact Or.inl rfl
      · exact Or.inr (by decide))
    rw [this]
    norm_num
  have e2 : mapFind (2, 97) R'.m_Transitions = some 1 := by
    have := h2 2 4294967297 (by norm_num) (by norm_num) (by norm_num) (by
      intro j hj hi
      have hc : j = 1 ∨ j = 4294967297 := by omega
      rcases hc with rfl | rfl
      · exact Or.inr (by decide)
      · exact Or.inl rfl)
    rw [this]
    norm_num
  refine ⟨R, R', hR, hR', e1, e2, ?_⟩
  intro h
  rw [h, e2] at e1
  exact absurd (Option.some.inj e1) (by decide)

/-- Among `N + 1` values below `N` two are equal. -/
theorem exists_repeat_below (N : Nat) (f : Nat → Nat) (hf : ∀ k, k ≤ N → f k < N) :
    ∃ x y, x ≤ N ∧ y ≤ N ∧ x ≠ y ∧ f x = f y := by
  obtain ⟨x, hx, y, hy, hne, hxy⟩ :=
    Finset.exists_ne_map_eq_of_card_lt_of_maps_to
      (s := Finset.range (N + 1)) (t := Finset.range N) (f := f)
      (by rw [Finset.card_range, Finset.card_range]; exact Nat.lt_succ_self _)
      (fun k hk => Finset.mem_range.2 (hf k (Nat.lt_succ_iff.1 (Finset.mem_range.1 hk))))
  exact ⟨x, y, Nat.lt_succ_iff.1 (Finset.mem_range.1 hx),
    Nat.lt_succ_iff.1 (Finset.mem_range.1 hy), hne, hxy⟩

theorem longCycle_run (k : Nat) :
    longCycleDfa.run (List.replicate k 97) = some ((1 + k) % 1431655766) :=
  cycle_run 1431655766 1 (by norm_num) k

theorem threeCycle_run (k : Nat) :
    threeCycleDfa.run (List.replicate k 97) = some ((0 + k) % 3) :=
  cycle_run 3 0 (by norm_num) k

/-- The first `2 ^ 32 + 1` pairs the two cycles reach are distinct. -/
theorem longThree_inj (x y : Nat) (hx : x ≤ 2 ^ 32) (hy : y ≤ 2 ^ 32)
    (h1 : (1 + x) % 1431655766 = (1 + y) % 1431655766) (h2 : (0 + x) % 3 = (0 + y) % 3) :
    x = y := by
  have hlen : 2 ^ 32 < 1431655766 * 3 := by norm_num
  have hcop : Nat.Coprime 1431655766 3 := by norm_num
  exact cycle_pair_inj 1431655766 3 1 0 hcop x y (Nat.lt_of_le_of_lt hx hlen)
    (Nat.lt_of_le_of_lt hy hlen) (congrArg₂ (fun a b : Nat => [a, b]) h1 h2)

/-- C22, refuted as stated: the cycle of 1431655766 states and the cycle of 3 states
are well-formed DFAs, total over the alphabet `a` they share. They reach
`2 ^ 32 + 2` pairs of states, and the states of the DFA `parallelRun` returns are
`unsigned int` values: no assignment gives every reached pair a state of its own. -/
theorem parallelRun_wraps_ids :
    longCycleDfa.WF ∧ threeCycleDfa.WF ∧ longCycleDfa.Total ∧ threeCycleDfa.Total ∧
      (97 ∈ longCycleDfa.m_Alphabet ∧ 97 ∈ threeCycleDfa.m_Alphabet) ∧
      ∃ R, parallelRun longCycleDfa threeCycleDfa = some R ∧
        ¬ ∃ id : Nat → Nat → Nat,
          (∀ w p q, longCycleDfa.run w = some p → threeCycleDfa.run w = some q →
            id p q ∈ R.m_States ∧ R.run w = some (id p q)) ∧
          ∀ w w' p q p' q', longCycleDfa.run w = some p → threeCycleDfa.run w = some q →
            longCycleDfa.run w' = some p' → threeCycleDfa.run w' = some q' →
            id p q = id p' q' → p = p' ∧ q = q' := by
  refine ⟨longCycleDfa_wf, threeCycleDfa_wf, cycleDfaOf_total _ _, cycleDfaOf_total _ _,
    ⟨List.mem_singleton.2 rfl, List.mem_singleton.2 rfl⟩, ?_⟩
  obtain ⟨R, hR, hstates⟩ := parallelRun_returns longCycleDfa_wf.closed threeCycleDfa_wf.closed
  refine ⟨R, hR, ?_⟩
  rintro ⟨id, hid, hinj⟩
  obtain ⟨x, y, hx, hy, hne, hxy⟩ :=
    exists_repeat_below (2 ^ 32) (fun k => id ((1 + k) % 1431655766) ((0 + k) % 3))
      (fun k _ => hstates _ (hid _ _ _ (longCycle_run k) (threeCycle_run k)).1)
  have hpq := hinj _ _ _ _ _ _ (longCycle_run x) (threeCycle_run x) (longCycle_run y)
    (threeCycle_run y) hxy
  exact hne (longThree_inj x y hx hy hpq.1 hpq.2)

/-! ## The order in which `determine` numbers the sets -/

theorem wordRank_snoc (w : List Nat) (a : Nat) :
    wordRank (w ++ [a]) = wordRank w * 257 + a + 1 := by
  simp [wordRank, List.foldl_append]

theorem wordRank_snoc_lt {v w : List Nat} {a b : Nat} (h : wordRank v < wordRank w)
    (ha : a < 256) : wordRank (v ++ [a]) < wordRank (w ++ [b]) := by
  rw [wordRank_snoc, wordRank_snoc]
  omega

theorem wordRank_snoc_le {v w : List Nat} {a : Nat} (h : wordRank v ≤ wordRank w) :
    wordRank (v ++ [a]) ≤ wordRank (w ++ [a]) := by
  rw [wordRank_snoc, wordRank_snoc]
  omega

theorem DetOrd.congr {n : NFA} {st st' : DetState} {cur syms : List Nat} {u : Nat → List Nat}
    (hm : st'.map = st.map) (hq : st'.queue = st.queue)
    (hc : st'.stateCounter = st.stateCounter) (h : DetOrd n st cur syms u) :
    DetOrd n st' cur syms u where
  word_run := by rw [hm]; exact h.word_run
  word_zero := h.word_zero
  word_mono := by rw [hc]; exact h.word_mono
  parent := by rw [hm, hq, hc]; exact h.parent
  queue_gt := by rw [hm, hq]; exact h.queue_gt
  queue_sorted := by rw [hm, hq]; exact h.queue_sorted
  cur_max := by rw [hm, hq]; exact h.cur_max
  least := by rw [hm, hq]; exact h.least

theorem Recorded.keeps_order {n : NFA} (hn : n.WF) {st st' : DetState} {cur syms : List Nat}
    {a : Nat} {u : Nat → List Nat} (h : DetInv n st cur syms) (ho : DetOrd n st cur syms u)
    (ha : a ∈ n.m_Alphabet) (hsyms : ∀ b ∈ syms, b < a) (hr : Recorded n st st' cur a)
    (hlt : (mapFind (n.stepSet cur a) st.map).isNone = true → st.stateCounter < 2 ^ 32) :
    ∃ u', DetOrd n st' cur (syms ++ [a]) u' := by
  obtain ⟨hmap, hcnt, hq, -, -, -, -⟩ := hr
  obtain ⟨c, hc⟩ := mapFind_isSome_of_mem h.cur_key
  have hcl : lookupD st.map cur = c := lookupD_of_mapFind hc
  have hclt : c < st.stateCounter := h.vals_lt c (mapFind_val_mem hc)
  have hidlt : ∀ S ∈ st.map.map Prod.fst, lookupD st.map S < st.stateCounter := by
    intro S hS
    obtain ⟨i, hi⟩ := mapFind_isSome_of_mem hS
    rw [lookupD_of_mapFind hi]
    exact h.vals_lt i (mapFind_val_mem hi)
  have hnext : ∀ j, j < st.stateCounter → wordRank (u j) < wordRank (u c ++ [a]) := by
    intro j hj
    rcases Nat.eq_zero_or_pos j with rfl | hj0
    · rw [ho.word_zero, wordRank_snoc]
      have : wordRank [] = 0 := rfl
      omega
    · obtain ⟨S, b, hS, hSq, hb, hu, hSc⟩ := ho.parent j hj0 hj
      rw [hu]
      have hle := ho.cur_max S hS hSq
      rw [hcl] at hle
      rcases Nat.lt_or_eq_of_le hle with hl | he
      · exact wordRank_snoc_lt (ho.word_mono _ _ hl hclt) (hn.symbols_bound b hb)
      · have hSeq : S = cur := by
          obtain ⟨i, hi⟩ := mapFind_isSome_of_mem hS
          have hli := lookupD_of_mapFind hi
          rw [hli] at he
          rw [he] at hi
          exact mapFind_inj h.vals_nodup hi hc
        have hba := hsyms b (hSc hSeq)
        rw [he, wordRank_snoc, wordRank_snoc]
        omega
  by_cases hf : (mapFind (n.stepSet cur a) st.map).isNone = true
  · -- the target set is new: it gets the id `stateCounter`
    rw [if_pos hf] at hmap hcnt hq
    have hk := hlt hf
    have hkmod : st.stateCounter % 2 ^ 32 = st.stateCounter := Nat.mod_eq_of_lt hk
    rw [hkmod] at hmap
    have hTnew : n.stepSet cur a ∉ st.map.map Prod.fst :=
      mapFind_none.1 (Option.isNone_iff_eq_none.1 hf)
    have hne : ∀ S ∈ st.map.map Prod.fst, n.stepSet cur a ≠ S :=
      fun S hS hc' => hTnew (hc' ▸ hS)
    have hfind : ∀ S ∈ st.map.map Prod.fst,
        mapFind S ((n.stepSet cur a, st.stateCounter) :: st.map) = mapFind S st.map := by
      intro S hS
      rw [mapFind_cons, if_neg (hne S hS)]
    have hlook : ∀ S ∈ st.map.map Prod.fst,
        lookupD ((n.stepSet cur a, st.stateCounter) :: st.map) S = lookupD st.map S :=
      fun S hS => lookupD_cons_ne (hne S hS)
    have hupd : ∀ j, j < st.stateCounter →
        Function.update u st.stateCounter (u c ++ [a]) j = u j :=
      fun j hj => Function.update_noteq (by omega) _ _
    have hupdk : Function.update u st.stateCounter (u c ++ [a]) st.stateCounter = u c ++ [a] :=
      Function.update_same _ _ _
    have hkeys : ∀ S, S ∈ ((n.stepSet cur a, st.stateCounter) :: st.map).map Prod.fst ↔
        S = n.stepSet cur a ∨ S ∈ st.map.map Prod.fst := by
      intro S
      simp only [List.map_cons, List.mem_cons]
    have hcurT : cur ≠ n.stepSet cur a := fun hc' => hTnew (hc' ▸ h.cur_key)
    refine ⟨Function.update u st.stateCounter (u c ++ [a]),
      @DetOrd.congr n { st with
        map := (n.stepSet cur a, st.stateCounter) :: st.map
        queue := st.queue ++ [n.stepSet cur a]
        stateCounter := st.stateCounter + 1 } _ cur _ _ hmap hq hcnt ?_⟩
    refine ⟨?_, ?_, ?_, ?_, ?_, ?_, ?_, ?_⟩ <;> dsimp only
    · intro S i hSi
      rw [mapFind_cons] at hSi
      split_ifs at hSi with hST
      · rw [← Option.some.inj hSi, hupdk, ← hST]
        obtain ⟨hrun, hal⟩ := ho.word_run cur c hc
        refine ⟨?_, ?_⟩
        · simp only [NFA.run, List.foldl_append, List.foldl_cons, List.foldl_nil]
          have hrun' : (u c).foldl n.stepSet [n.m_InitialState] = cur := hrun
          rw [hrun']
        · intro x hx
          rcases List.mem_append.1 hx with hx | hx
          · exact hal x hx
          · rw [List.mem_singleton.1 hx]; exact ha
      · rw [hupd i (h.vals_lt i (mapFind_val_mem hSi))]
        exact ho.word_run S i hSi
    · rw [hupd 0 (by omega)]
      exact ho.word_zero
    · intro i j hij hj
      rcases Nat.lt_or_ge j st.stateCounter with hjk | hjk
      · rw [hupd i (by omega), hupd j hjk]
        exact ho.word_mono i j hij hjk
      · have hjeq : j = st.stateCounter := by omega
        rw [hjeq, hupdk, hupd i (by omega)]
        exact hnext i (by omega)
    · intro j hj0 hj
      rcases Nat.lt_or_ge j st.stateCounter with hjk | hjk
      · obtain ⟨S, b, hS, hSq, hb, hu, hSc⟩ := ho.parent j hj0 hjk
        refine ⟨S, b, (hkeys S).2 (Or.inr hS), ?_, hb, ?_, fun e => List.mem_append_left _ (hSc e)⟩
        · intro hmem
          rcases List.mem_append.1 hmem with hmem | hmem
          · exact hSq hmem
          · exact hne S hS (List.mem_singleton.1 hmem).symm
        · rw [hupd j hjk, hlook S hS, hupd _ (hidlt S hS)]
          exact hu
      · have hjeq : j = st.stateCounter := by omega
        refine ⟨cur, a, (hkeys cur).2 (Or.inr h.cur_key), ?_, ha, ?_, fun _ => by simp⟩
        · intro hmem
          rcases List.mem_append.1 hmem with hmem | hmem
          · exact h.cur_queue hmem
          · exact hcurT (List.mem_singleton.1 hmem)
        · rw [hjeq, hupdk, hlook cur h.cur_key, hcl, hupd c hclt]
    · intro S hS T hT hTq
      have hTold : T ∈ st.map.map Prod.fst := by
        rcases (hkeys T).1 hT with rfl | hT
        · exact absurd (List.mem_append_right _ (List.mem_singleton.2 rfl)) hTq
        · exact hT
      have hTq' : T ∉ st.queue := fun hc' => hTq (List.mem_append_left _ hc')
      rw [hlook T hTold]
      rcases List.mem_append.1 hS with hS | hS
      · rw [hlook S (h.queue_keys S hS)]
        exact ho.queue_gt S hS T hTold hTq'
      · rw [List.mem_singleton.1 hS, lookupD_cons_self]
        exact hidlt T hTold
    · rw [List.pairwise_append]
      refine ⟨?_, List.pairwise_singleton _ _, ?_⟩
      · refine ho.queue_sorted.imp_of_mem ?_
        intro S T hS hT hST
        rw [hlook S (h.queue_keys S hS), hlook T (h.queue_keys T hT)]
        exact hST
      · intro S hS T hT
        rw [List.mem_singleton.1 hT, lookupD_cons_self, hlook S (h.queue_keys S hS)]
        exact hidlt S (h.queue_keys S hS)
    · intro T hT hTq
      have hTold : T ∈ st.map.map Prod.fst := by
        rcases (hkeys T).1 hT with rfl | hT
        · exact absurd (List.mem_append_right _ (List.mem_singleton.2 rfl)) hTq
        · exact hT
      have hTq' : T ∉ st.queue := fun hc' => hTq (List.mem_append_left _ hc')
      rw [hlook T hTold, hlook cur h.cur_key]
      exact ho.cur_max T hTold hTq'
    · intro S hS hSq b hb hSb
      have hSold : S ∈ st.map.map Prod.fst := by
        rcases (hkeys S).1 hS with rfl | hS
        · exact absurd (List.mem_append_right _ (List.mem_singleton.2 rfl)) hSq
        · exact hS
      have hSq' : S ∉ st.queue := fun hc' => hSq (List.mem_append_left _ hc')
      rw [hlook S hSold, hupd _ (hidlt S hSold)]
      by_cases hnew : S = cur ∧ b = a
      · obtain ⟨rfl, rfl⟩ := hnew
        refine ⟨st.stateCounter, ?_, ?_⟩
        · rw [mapFind_cons, if_pos rfl]
        · rw [hupdk, hcl]
      · have hold : S = cur → b ∈ syms := by
          intro e
          rcases List.mem_append.1 (hSb e) with hb' | hb'
          · exact hb'
          · exact absurd ⟨e, List.mem_singleton.1 hb'⟩ hnew
        obtain ⟨i, hi, hle⟩ := ho.least S hSold hSq' b hb hold
        refine ⟨i, ?_, ?_⟩
        · rw [hfind _ (mapFind_key_mem hi)]
          exact hi
        · rw [hupd i (h.vals_lt i (mapFind_val_mem hi))]
          exact hle
  · -- the target set has an id already
    rw [if_neg hf] at hmap hcnt hq
    refine ⟨u, DetOrd.congr hmap hq hcnt ?_⟩
    obtain ⟨i, hi⟩ : ∃ i, mapFind (n.stepSet cur a) st.map = some i := by
      cases hfi : mapFind (n.stepSet cur a) st.map with
      | none => rw [hfi] at hf; exact absurd rfl hf
      | some i => exact ⟨i, rfl⟩
    refine ⟨ho.word_run, ho.word_zero, ho.word_mono, ?_, ho.queue_gt, ho.queue_sorted,
      ho.cur_max, ?_⟩
    · intro j hj0 hj
      obtain ⟨S, b, hS, hSq, hb, hu, hSc⟩ := ho.parent j hj0 hj
      exact ⟨S, b, hS, hSq, hb, hu, fun e => List.mem_append_left _ (hSc e)⟩
    · intro S hS hSq b hb hSb
      by_cases hnew : S = cur ∧ b = a
      · obtain ⟨rfl, rfl⟩ := hnew
        refine ⟨i, hi, ?_⟩
        rw [hcl]
        exact Nat.le_of_lt (hnext i (h.vals_lt i (mapFind_val_mem hi)))
      · have hold : S = cur → b ∈ syms := by
          intro e
          rcases List.mem_append.1 (hSb e) with hb' | hb'
          · exact hb'
          · exact absurd ⟨e, List.mem_singleton.1 hb'⟩ hnew
        exact ho.least S hS hSq b hb hold

theorem determineSymbols_order {n : NFA} (hn : n.WF) (hb : n.FewSubsets) (next : List Nat) :
    ∀ (syms2 syms1 : List Nat) (st : DetState) (flag : Bool) (u : Nat → List Nat),
      (∀ a ∈ syms2, a ∈ n.m_Alphabet) → (syms1 ++ syms2).Sorted (· < ·) →
      DetInv n st next syms1 → (flag = true → n.anyFinal next = true) → DetShape n st →
      DetOrd n st next syms1 u →
      ∃ u', DetOrd n (syms2.foldl (determineSymbol n next) (st, flag)).1 next
        (syms1 ++ syms2) u' := by
  intro syms2
  induction syms2 with
  | nil => intro syms1 st flag u _ _ _ _ _ ho; exact ⟨u, by simpa using ho⟩
  | cons a rest ih =>
    intro syms1 st flag u hsub hsorted h hflag hs ho
    obtain ⟨hrec, hflag', hfin⟩ := determineSymbol_recorded n next st flag a hflag
    have hlt := fun hf => h.counter_lt hs hb (hsub a (by simp)) hf
    obtain ⟨hinv, -⟩ := Recorded.preserves hn h (hsub a (by simp)) hrec hlt hfin
    have hs' := Recorded.shape h (hsub a (by simp)) hrec hlt
      (determineSymbol_alphabet n next (st, flag) a) hs
    have hsyms : ∀ b ∈ syms1, b < a :=
      fun b hb' => (List.pairwise_append.1 hsorted).2.2 b hb' a (by simp)
    obtain ⟨u1, ho1⟩ := Recorded.keeps_order hn h ho (hsub a (by simp)) hsyms hrec hlt
    have := ih (syms1 ++ [a]) (determineSymbol n next (st, flag) a).1
      (determineSymbol n next (st, flag) a).2 u1 (fun b hb => hsub b (by simp [hb]))
      (by simpa using hsorted) hinv hflag' hs' ho1
    simp only [List.foldl_cons, List.append_assoc, List.singleton_append, Prod.mk.eta] at this ⊢
    exact this

theorem determineStarts_order {n : NFA} (hn : n.WF) (hb : n.FewSubsets) :
    ∀ (syms2 syms1 : List Nat) (st : DetState) (u : Nat → List Nat),
      (∀ a ∈ syms2, a ∈ n.m_Alphabet) → (syms1 ++ syms2).Sorted (· < ·) →
      DetInv n st [n.m_InitialState] syms1 →
      (st.sinkStateAdded = true ↔ [] ∈ st.map.map Prod.fst) → DetShape n st →
      DetOrd n st [n.m_InitialState] syms1 u →
      ∃ u', DetOrd n (syms2.foldl (determineStart n) st) [n.m_InitialState]
        (syms1 ++ syms2) u' := by
  intro syms2
  induction syms2 with
  | nil => intro syms1 st u _ _ _ _ _ ho; exact ⟨u, by simpa using ho⟩
  | cons a rest ih =>
    intro syms1 st u hsub hsorted h hsink hs ho
    obtain ⟨hrec, hsink', hfin⟩ := determineStart_recorded hn h.init_key a hsink
    have hlt := fun hf => h.counter_lt hs hb (hsub a (by simp)) hf
    have hfin' : n.anyFinal [n.m_InitialState] = true →
        lookupD (determineStart n st a).map [n.m_InitialState] ∈
          (determineStart n st a).result.m_FinalStates := by
      intro hf
      have := h.cur_final (Or.inl rfl) hf
      rw [lookupD_of_mapFind h.init_key] at this
      exact hfin this
    obtain ⟨hinv, -⟩ := Recorded.preserves hn h (hsub a (by simp)) hrec hlt hfin'
    have hs' := Recorded.shape h (hsub a (by simp)) hrec hlt (determineStart_alphabet n st a) hs
    have hsyms : ∀ b ∈ syms1, b < a :=
      fun b hb' => (List.pairwise_append.1 hsorted).2.2 b hb' a (by simp)
    obtain ⟨u1, ho1⟩ := Recorded.keeps_order hn h ho (hsub a (by simp)) hsyms hrec hlt
    have := ih (syms1 ++ [a]) (determineStart n st a) u1 (fun b hb => hsub b (by simp [hb]))
      (by simpa using hsorted) hinv hsink' hs' ho1
    simp only [List.foldl_cons, List.append_assoc, List.singleton_append] at this ⊢
    exact this

theorem determineInit_order (n : NFA) :
    DetOrd n (determineInit n) [n.m_InitialState] [] (fun _ => []) where
  word_run := by
    intro S i hSi
    have hS := mapFind_key_mem hSi
    simp only [determineInit, List.map_cons, List.map_nil, List.mem_singleton] at hS
    exact ⟨hS.symm, fun c hc => absurd hc (List.not_mem_nil c)⟩
  word_zero := rfl
  word_mono := by
    intro i j hij hj
    have h1 : (determineInit n).stateCounter = 1 := rfl
    omega
  parent := by
    intro j hj0 hj
    have h1 : (determineInit n).stateCounter = 1 := rfl
    omega
  queue_gt := by
    intro S hS
    simp [determineInit] at hS
  queue_sorted := by simp [determineInit]
  cur_max := by
    intro T hT _
    simp only [determineInit, List.map_cons, List.map_nil, List.mem_singleton] at hT
    rw [hT]
  least := by
    intro S hS _ a _ hSa
    simp only [determineInit, List.map_cons, List.map_nil, List.mem_singleton] at hS
    exact absurd (hSa hS) (List.not_mem_nil a)

theorem DetOrd.pop_order {n : NFA} {st : DetState} {last next : List Nat}
    {rest : List (List Nat)} {u : Nat → List Nat}
    (ho : DetOrd n st last n.m_Alphabet u) (hq : st.queue = next :: rest)
    (hkey : next ∈ st.map.map Prod.fst) :
    DetOrd n { st with queue := rest } next [] u := by
  have hnext : next ∈ st.queue := by rw [hq]; simp
  have hsub : ∀ S, S ∈ rest → S ∈ st.queue := fun S hS => by rw [hq]; simp [hS]
  have hsorted := ho.queue_sorted
  rw [hq, List.pairwise_cons] at hsorted
  have hout : ∀ T, T ∉ rest → T ≠ next → T ∉ st.queue := by
    intro T hT hTn hc
    rw [hq] at hc
    rcases List.mem_cons.1 hc with hc | hc
    · exact hTn hc
    · exact hT hc
  refine ⟨ho.word_run, ho.word_zero, ho.word_mono, ?_, ?_, hsorted.2, ?_, ?_⟩
  · intro j hj0 hj
    obtain ⟨S, b, hS, hSq, hb, hu, -⟩ := ho.parent j hj0 hj
    exact ⟨S, b, hS, fun hc => hSq (hsub S hc), hb, hu,
      fun e => absurd (e ▸ hnext) hSq⟩
  · intro S hS T hT hTq
    by_cases hTn : T = next
    · rw [hTn]
      exact hsorted.1 S hS
    · exact ho.queue_gt S (hsub S hS) T hT (hout T hTq hTn)
  · intro T hT hTq
    by_cases hTn : T = next
    · rw [hTn]
    · exact Nat.le_of_lt (ho.queue_gt next hnext T hT (hout T hTq hTn))
  · intro S hS hSq a ha hSa
    have hSn : S ≠ next := fun e => absurd (hSa e) (List.not_mem_nil a)
    exact ho.least S hS (hout S hSq hSn) a ha (fun _ => ha)

theorem determineLoop_order {n : NFA} (hn : n.WF) (hb : n.FewSubsets) :
    ∀ (fuel : Nat) (st : DetState) (last : List Nat) (u : Nat → List Nat),
      DetInv n st [n.m_InitialState] n.m_Alphabet → DetShape n st →
      DetOrd n st last n.m_Alphabet u →
      st.queue.length + 2 ^ n.m_States.length < fuel + st.map.length →
      ∃ st' last' u', determineLoop n fuel st = some st'.result ∧
        DetInv n st' [n.m_InitialState] n.m_Alphabet ∧ st'.queue = [] ∧ DetShape n st' ∧
        DetOrd n st' last' n.m_Alphabet u' := by
  intro fuel
  induction fuel with
  | zero =>
    intro st last u h _ _ hlt
    have := h.map_length_le
    omega
  | succ fuel ih =>
    intro st last u h hs ho hlt
    unfold determineLoop
    cases hq : st.queue with
    | nil => exact ⟨st, last, u, rfl, h, hq, hs, ho⟩
    | cons next rest =>
      obtain ⟨hpop, hne, ha⟩ := h.pop hq
      have hs0 : DetShape n { st with queue := rest } :=
        ⟨hs.alphabet_eq, hs.states_sorted, hs.finals_sorted, hs.keys_sorted, hs.trans_lt,
          hs.vals_cover, hs.keys_reach⟩
      obtain ⟨hinv, hlen, hshape⟩ := determineSymbols_inv hn hb next n.m_Alphabet []
        { st with queue := rest } false (fun a ha => ha) hpop (by simp) hs0
      obtain ⟨u1, ho1⟩ := determineSymbols_order hn hb next n.m_Alphabet []
        { st with queue := rest } false u (fun a ha => ha) (by simpa using hn.alphabet_sorted)
        hpop (by simp) hs0 (ho.pop_order hq (h.queue_keys next (by rw [hq]; simp)))
      simp only [List.nil_append] at hinv ho1
      have hfin := hinv.finish hne ha
      apply ih _ next u1 hfin hshape ho1
      rw [hq] at hlt
      simp only [List.length_cons] at hlt hlen
      omega

theorem determine_order {n : NFA} (hn : n.WF) (hb : n.FewSubsets) :
    ∃ st last u, determine n = some st.result ∧
      DetInv n st [n.m_InitialState] n.m_Alphabet ∧ st.queue = [] ∧ DetShape n st ∧
      DetOrd n st last n.m_Alphabet u := by
  obtain ⟨hinv, hlen, hshape⟩ := determineStarts_inv hn hb n.m_Alphabet [] (determineInit n)
    (fun a ha => ha) (determineInit_inv hn) (by simp [determineInit]) (determineInit_shape n)
  obtain ⟨u0, ho0⟩ := determineStarts_order hn hb n.m_Alphabet [] (determineInit n) _
    (fun a ha => ha) (by simpa using hn.alphabet_sorted) (determineInit_inv hn)
    (by simp [determineInit]) (determineInit_shape n) (determineInit_order n)
  simp only [List.nil_append] at hinv ho0
  unfold determine
  apply determineLoop_order hn hb _ _ _ u0 hinv hshape ho0
  have h1 : (determineInit n).map.length = 1 := rfl
  have h2 : (determineInit n).queue.length = 0 := rfl
  rw [h1, h2] at hlen
  omega

/-- The DFA `determine` returns numbers its states in the order of the words that
reach them first. -/
theorem determine_bfs {n : NFA} (hn : n.WF) (hb : n.FewSubsets) :
    ∃ d, determine n = some d ∧ d.BfsOrdered := by
  obtain ⟨st, last, u, hd, hinv, hq, hs, ho⟩ := determine_order hn hb
  obtain ⟨d, hd', hclosed, htotal, halpha, -, -⟩ := determine_output hn hb
  have hdd : d = st.result := Option.some.inj (hd'.symm.trans hd)
  subst hdd
  refine ⟨st.result, hd, ?_⟩
  -- the word of a state is not above any word reaching it
  have hleast : ∀ w t, st.result.run w = some t →
      mapFind (n.run w) st.map = some t ∧ wordRank (u t) ≤ wordRank w := by
    intro w
    induction w using List.reverseRecOn with
    | nil =>
      intro t ht
      have h0 : st.result.run [] = some 0 := by
        rw [DFA.run_nil, hinv.initial]
      rw [h0] at ht
      rw [← Option.some.inj ht, ho.word_zero]
      exact ⟨hinv.init_key, Nat.le_refl _⟩
    | append_singleton w a ih =>
      intro t ht
      rw [DFA.run_append_singleton] at ht
      cases hr : st.result.run w with
      | none => rw [hr] at ht; exact Option.noConfusion ht
      | some r =>
        rw [hr, DFA.step_some] at ht
        have ha : a ∈ n.m_Alphabet := hinv.trans_sym _ (mapFind_mem ht)
        obtain ⟨hr1, hr2⟩ := ih r hr
        obtain ⟨i, hi, hle⟩ := ho.least _ (mapFind_key_mem hr1) (by rw [hq]; simp) a ha
          (fun _ => ha)
        rw [lookupD_of_mapFind hr1] at hle
        have hrun : n.run (w ++ [a]) = n.stepSet (n.run w) a := by
          simp only [NFA.run, List.foldl_append, List.foldl_cons, List.foldl_nil]
        have hit : i = t := by
          rcases hinv.run_spec hn hq (w ++ [a]) with ⟨j, hj1, hj2⟩ | ⟨-, h2⟩
          · rw [hrun, hi] at hj1
            have hj3 : st.result.run (w ++ [a]) = some j := hj2
            rw [DFA.run_append_singleton, hr, DFA.step_some, ht] at hj3
            rw [Option.some.inj hj1, Option.some.inj hj3]
          · have h3 : st.result.run (w ++ [a]) = none := h2
            rw [DFA.run_append_singleton, hr, DFA.step_some, ht] at h3
            exact Option.noConfusion h3
        rw [hit] at hi hle
        refine ⟨by rw [hrun]; exact hi, Nat.le_trans hle (wordRank_snoc_le hr2)⟩
  intro w t s ht hst
  obtain ⟨ht1, ht2⟩ := hleast w t ht
  have htc : t < st.stateCounter := hinv.vals_lt t (mapFind_val_mem ht1)
  refine ⟨u s, Nat.lt_of_lt_of_le (ho.word_mono s t hst htc) ht2, ?_⟩
  obtain ⟨e, he, hev⟩ := List.mem_map.1 (hs.vals_cover s (by omega))
  have hfind := mapFind_of_mem_nodup hinv.keys_nodup he
  rw [hev] at hfind
  obtain ⟨hrun, hal⟩ := ho.word_run e.1 s hfind
  rcases hinv.run_spec hn hq (u s) with ⟨i, hi1, hi2⟩ | ⟨-, h2⟩
  · rw [hrun, hfind] at hi1
    rw [← Option.some.inj hi1] at hi2
    exact hi2
  · obtain ⟨q', -, hq'⟩ := DFA.run_total hclosed htotal (u s) (fun c hc => halpha ▸ hal c hc)
    have h3 : st.result.run (u s) = none := h2
    rw [h3] at hq'
    exact Option.noConfusion hq'

/-! ## `minimize` on two DFAs of one language -/

theorem SameLang.flip {d1 d2 : DFA} {p q : Nat} (h : SameLang d1 d2 p q) :
    SameLang d2 d1 q p := fun w => (h w).symm

theorem Twin.swap {d1 d2 : DFA} (h : Twin d1 d2) : Twin d2 d1 :=
  ⟨h.closed2, h.closed1, h.total2, h.total1, h.alphabet_eq.symm, fun w => (h.lang_eq w).symm,
    h.reach2, h.reach1, h.bfs2, h.bfs1⟩

theorem RefineSim.exchange {d1 d2 : DFA} {st1 st2 : RefineState} (h : RefineSim d1 d2 st1 st2) :
    RefineSim d2 d1 st2 st1 :=
  ⟨h.length_eq.symm, fun q hq p hp hqp => (h.same_id p hp q hq hqp.flip).symm, h.sorted2,
    h.sorted1⟩

theorem DFA.accepts_append_run {d : DFA} {w : List Nat} {p : Nat} (h : d.run w = some p)
    (v : List Nat) : d.accepts (w ++ v) = d.acceptsFrom p v := by
  unfold DFA.accepts DFA.acceptsFrom
  rw [List.foldl_append]
  have h' : w.foldl d.step (some d.m_InitialState) = some p := h
  rw [h']

theorem DFA.run_mem {d : DFA} (hc : d.Closed) (ht : d.Total) {w : List Nat} {q : Nat}
    (h : d.run w = some q) : q ∈ d.m_States := by
  obtain ⟨q', hq', hrun⟩ := DFA.run_total hc ht w (DFA.run_some_alphabet hc w q h)
  rw [h] at hrun
  rw [Option.some.inj hrun]
  exact hq'

theorem Twin.run_same {d1 d2 : DFA} (h : Twin d1 d2) {w : List Nat} {p q : Nat}
    (h1 : d1.run w = some p) (h2 : d2.run w = some q) : SameLang d1 d2 p q := by
  intro v
  rw [← DFA.accepts_append_run h1 v, ← DFA.accepts_append_run h2 v]
  exact h.lang_eq _

theorem Twin.run_other {d1 d2 : DFA} (h : Twin d1 d2) {w : List Nat} {p : Nat}
    (h1 : d1.run w = some p) :
    ∃ q ∈ d2.m_States, d2.run w = some q ∧ SameLang d1 d2 p q := by
  obtain ⟨q, hq, hrun⟩ := DFA.run_total h.closed2 h.total2 w
    (fun c hc => h.alphabet_eq ▸ DFA.run_some_alphabet h.closed1 w p h1 c hc)
  exact ⟨q, hq, hrun, h.run_same h1 hrun⟩

theorem Twin.onto {d1 d2 : DFA} (h : Twin d1 d2) {p : Nat} (hp : p ∈ d1.m_States) :
    ∃ q ∈ d2.m_States, SameLang d1 d2 p q := by
  obtain ⟨w, hw⟩ := h.reach1 p hp
  obtain ⟨q, hq, -, hs⟩ := h.run_other hw
  exact ⟨q, hq, hs⟩

theorem SameLang.delta {d1 d2 : DFA} (h : Twin d1 d2) {p q a : Nat} (hp : p ∈ d1.m_States)
    (hq : q ∈ d2.m_States) (ha : a ∈ d1.m_Alphabet) (hs : SameLang d1 d2 p q) :
    SameLang d1 d2 (d1.delta p a) (d2.delta q a) := by
  intro w
  have := hs (a :: w)
  rw [DFA.acceptsFrom_cons_total h.total1 hp ha,
    DFA.acceptsFrom_cons_total h.total2 hq (h.alphabet_eq ▸ ha)] at this
  exact this

theorem SameLang.final {d1 d2 : DFA} {p q : Nat} (hs : SameLang d1 d2 p q) :
    p ∈ d1.m_FinalStates ↔ q ∈ d2.m_FinalStates := by
  have := hs []
  rw [DFA.acceptsFrom_nil, DFA.acceptsFrom_nil] at this
  simpa using this

theorem RefineSim.block_of_same {d1 d2 : DFA} {n1 n2 : Nat} {st1 st2 : RefineState}
    (hp1 : PartInv d1 n1 st1) (hp2 : PartInv d2 n2 st2) (hs : RefineSim d1 d2 st1 st2)
    {i : Nat} {B1 B2 : List Nat} (h1 : st1.currSet[i]? = some B1)
    (h2 : st2.currSet[i]? = some B2) {p q : Nat} (hp : p ∈ B1) (hq : q ∈ d2.m_States)
    (hpq : SameLang d1 d2 p q) : q ∈ B2 := by
  obtain ⟨B, hB, hqB⟩ := (hp2.cover q).1 hq
  obtain ⟨j, hj⟩ := List.mem_iff_getElem?.1 hB
  have e1 := hp2.ids j B hj q hqB
  have e2 := hp1.ids i B1 h1 p hp
  have e3 := hs.same_id p (hp1.mem_states h1 hp) q hq hpq
  have hij : j = i := by omega
  rw [hij, h2] at hj
  rw [Option.some.inj hj]
  exact hqB

theorem head_lt_of_sorted {f q : Nat} {tl : List Nat} (hs : (f :: tl).Sorted (· < ·))
    (hq : q ∈ f :: tl) (hne : q ≠ f) : f < q := by
  rcases List.mem_cons.1 hq with h | h
  · exact absurd h hne
  · exact List.rel_of_sorted_cons hs q h

/-- The heads of the blocks of one index accept the same words: each is the least
state of its language, and the order of the least states is that of the words. -/
theorem RefineSim.first_same {d1 d2 : DFA} (h : Twin d1 d2) {n1 n2 : Nat}
    {st1 st2 : RefineState} (hp1 : PartInv d1 n1 st1) (hp2 : PartInv d2 n2 st2)
    (hs : RefineSim d1 d2 st1 st2) {i f1 f2 : Nat} {tl1 tl2 : List Nat}
    (h1 : st1.currSet[i]? = some (f1 :: tl1)) (h2 : st2.currSet[i]? = some (f2 :: tl2)) :
    SameLang d1 d2 f1 f2 := by
  by_contra hns
  have hf1 : f1 ∈ d1.m_States := hp1.mem_states h1 (by simp)
  have hf2 : f2 ∈ d2.m_States := hp2.mem_states h2 (by simp)
  have hs1 := hs.sorted1 _ (List.mem_iff_getElem?.2 ⟨i, h1⟩)
  have hs2 := hs.sorted2 _ (List.mem_iff_getElem?.2 ⟨i, h2⟩)
  have key : ∀ m w q', wordRank w ≤ m → d2.run w = some q' → SameLang d1 d2 f1 q' →
      False := by
    intro m
    induction m with
    | zero =>
      intro w q' hm hw hq'
      have hq'm := DFA.run_mem h.closed2 h.total2 hw
      have hq'B := hs.block_of_same hp1 hp2 h1 h2 (by simp) hq'm hq'
      have hlt := head_lt_of_sorted hs2 hq'B (fun e => hns (e ▸ hq'))
      obtain ⟨v, hv, -⟩ := h.bfs2 w q' f2 hw hlt
      omega
    | succ m ih =>
      intro w q' hm hw hq'
      have hq'm := DFA.run_mem h.closed2 h.total2 hw
      have hq'B := hs.block_of_same hp1 hp2 h1 h2 (by simp) hq'm hq'
      have hlt := head_lt_of_sorted hs2 hq'B (fun e => hns (e ▸ hq'))
      obtain ⟨v, hv, hvrun⟩ := h.bfs2 w q' f2 hw hlt
      obtain ⟨p', hp'm, hp'run, hp'⟩ := h.swap.run_other hvrun
      have hp'B := hs.exchange.block_of_same hp2 hp1 h2 h1 (by simp) hp'm hp'
      have hlt' := head_lt_of_sorted hs1 hp'B (fun e => hns (e ▸ hp'.flip))
      obtain ⟨v', hv', hv'run⟩ := h.bfs1 v p' f1 hp'run hlt'
      obtain ⟨q'', -, hq''run, hq''⟩ := h.run_other hv'run
      exact ih v' q'' (by omega) hq''run hq''
  obtain ⟨q, hq, hfq⟩ := h.onto hf1
  obtain ⟨w, hw⟩ := h.reach2 q hq
  exact key (wordRank w) w q (Nat.le_refl _) hw hfq

theorem inequivalent_sim {d1 d2 : DFA} (h : Twin d1 d2) {st1 st2 : RefineState}
    (hs : RefineSim d1 d2 st1 st2) {f1 f2 p q : Nat} (hf1 : f1 ∈ d1.m_States)
    (hf2 : f2 ∈ d2.m_States) (hff : SameLang d1 d2 f1 f2) (hp : p ∈ d1.m_States)
    (hq : q ∈ d2.m_States) (hpq : SameLang d1 d2 p q) :
    inequivalent d1 st1.stateSetID f1 p = inequivalent d2 st2.stateSetID f2 q := by
  have hagree : ∀ {x1 y1 x2 y2 : Nat}, x1 ∈ d1.m_States → y1 ∈ d1.m_States →
      x2 ∈ d2.m_States → y2 ∈ d2.m_States → SameLang d1 d2 x1 x2 → SameLang d1 d2 y1 y2 →
      agreeOn d1 st1.stateSetID x1 y1 = agreeOn d2 st2.stateSetID x2 y2 := by
    intro x1 y1 x2 y2 hx1 hy1 hx2 hy2 hx hy
    rw [Bool.eq_iff_iff, agreeOn_iff, agreeOn_iff]
    have e : ∀ a ∈ d1.m_Alphabet,
        lookupD st1.stateSetID (d1.delta x1 a) = lookupD st2.stateSetID (d2.delta x2 a) ∧
          lookupD st1.stateSetID (d1.delta y1 a) = lookupD st2.stateSetID (d2.delta y2 a) := by
      intro a ha
      have ha2 : a ∈ d2.m_Alphabet := h.alphabet_eq ▸ ha
      exact ⟨hs.same_id _ (DFA.delta_mem h.closed1 h.total1 hx1 ha) _
          (DFA.delta_mem h.closed2 h.total2 hx2 ha2) (hx.delta h hx1 hx2 ha),
        hs.same_id _ (DFA.delta_mem h.closed1 h.total1 hy1 ha) _
          (DFA.delta_mem h.closed2 h.total2 hy2 ha2) (hy.delta h hy1 hy2 ha)⟩
    constructor
    · intro hall a ha
      have ha1 : a ∈ d1.m_Alphabet := h.alphabet_eq ▸ ha
      rw [← (e a ha1).1, ← (e a ha1).2]
      exact hall a ha1
    · intro hall a ha
      rw [(e a ha).1, (e a ha).2]
      exact hall a (h.alphabet_eq ▸ ha)
  unfold inequivalent
  by_cases hpf : p = f1
  · subst hpf
    have := hagree hp hp hq hf2 hpq hff
    rw [agreeOn_self] at this
    simp [← this]
  · by_cases hqf : q = f2
    · subst hqf
      have := hagree hp hf1 hq hq hpq hff
      rw [agreeOn_self] at this
      simp [this]
    · rw [hagree hp hf1 hq hf2 hpq hff]
      simp [hpf, hqf]

/-- One block is split on both sides in the same way. -/
theorem refineBlock_sim {d1 d2 : DFA} (h : Twin d1 d2) {n1 n2 : Nat} {st1 st2 : RefineState}
    (hp1 : PartInv d1 n1 st1) (hp2 : PartInv d2 n2 st2) (hs : RefineSim d1 d2 st1 st2)
    {i : Nat} (hi : i < st1.currSet.length) :
    RefineSim d1 d2 (refineBlock i st1) (refineBlock i st2) := by
  have hi2 : i < st2.currSet.length := hs.length_eq ▸ hi
  obtain ⟨B1, h1⟩ : ∃ B, st1.currSet[i]? = some B :=
    ⟨st1.currSet[i], List.getElem?_eq_some_iff.2 ⟨hi, rfl⟩⟩
  obtain ⟨B2, h2⟩ : ∃ B, st2.currSet[i]? = some B :=
    ⟨st2.currSet[i], List.getElem?_eq_some_iff.2 ⟨hi2, rfl⟩⟩
  have hB1m : B1 ∈ st1.currSet := List.mem_iff_getElem?.2 ⟨i, h1⟩
  have hB2m : B2 ∈ st2.currSet := List.mem_iff_getElem?.2 ⟨i, h2⟩
  obtain ⟨f1, tl1, rfl⟩ := List.exists_cons_of_ne_nil (hp1.nonempty B1 hB1m)
  obtain ⟨f2, tl2, rfl⟩ := List.exists_cons_of_ne_nil (hp2.nonempty B2 hB2m)
  have hf1 : f1 ∈ d1.m_States := hp1.mem_states h1 (by simp)
  have hf2 : f2 ∈ d2.m_States := hp2.mem_states h2 (by simp)
  have hff := hs.first_same h hp1 hp2 h1 h2
  have hs1 := hs.sorted1 _ hB1m
  have hs2 := hs.sorted2 _ hB2m
  have hmove : ∀ p ∈ d1.m_States, ∀ q ∈ d2.m_States, SameLang d1 d2 p q →
      (p ∈ (f1 :: tl1).filter (inequivalent d1 st1.stateSetID f1) ↔
        q ∈ (f2 :: tl2).filter (inequivalent d2 st2.stateSetID f2)) := by
    intro p hp q hq hpq
    rw [List.mem_filter, List.mem_filter, inequivalent_sim h hs hf1 hf2 hff hp hq hpq]
    constructor
    · rintro ⟨hpB, hin⟩
      exact ⟨hs.block_of_same hp1 hp2 h1 h2 hpB hq hpq, hin⟩
    · rintro ⟨hqB, hin⟩
      exact ⟨hs.exchange.block_of_same hp2 hp1 h2 h1 hqB hp hpq.flip, hin⟩
  have hempty : ((f1 :: tl1).filter (inequivalent d1 st1.stateSetID f1)).isEmpty = true ↔
      ((f2 :: tl2).filter (inequivalent d2 st2.stateSetID f2)).isEmpty = true := by
    rw [List.isEmpty_iff, List.isEmpty_iff, List.eq_nil_iff_forall_not_mem,
      List.eq_nil_iff_forall_not_mem]
    constructor
    · intro hall q hq
      have hqm : q ∈ d2.m_States := hp2.mem_states h2 (List.mem_filter.1 hq).1
      obtain ⟨p, hpm, hpq⟩ := h.swap.onto hqm
      exact hall p ((hmove p hpm q hqm hpq.flip).2 hq)
    · intro hall p hp
      have hpm : p ∈ d1.m_States := hp1.mem_states h1 (List.mem_filter.1 hp).1
      obtain ⟨q, hqm, hpq⟩ := h.onto hpm
      exact hall q ((hmove p hpm q hqm hpq).1 hp)
  rw [refineBlock_eq h.total1 hp1 h1, refineBlock_eq h.total2 hp2 h2]
  by_cases he : ((f1 :: tl1).filter (inequivalent d1 st1.stateSetID f1)).isEmpty = true
  · rw [if_pos he, if_pos (hempty.1 he)]
    exact hs
  · rw [if_neg he, if_neg (fun hc => he (hempty.2 hc))]
    refine ⟨?_, ?_, ?_, ?_⟩
    · simp only [List.length_append, List.length_set, List.length_singleton, hs.length_eq]
    · intro p hp q hq hpq
      simp only
      rw [lookupD_foldl_cons, lookupD_foldl_cons]
      by_cases hpt : p ∈ (f1 :: tl1).filter (inequivalent d1 st1.stateSetID f1)
      · rw [if_pos hpt, if_pos ((hmove p hp q hq hpq).1 hpt)]
        exact hs.length_eq
      · rw [if_neg hpt, if_neg (fun hc => hpt ((hmove p hp q hq hpq).2 hc))]
        exact hs.same_id p hp q hq hpq
    · intro B hB
      simp only at hB
      rcases List.mem_append.1 hB with hB | hB
      · rcases List.mem_or_eq_of_mem_set hB with hB | hB
        · exact hs.sorted1 B hB
        · rw [hB]; exact List.Pairwise.filter _ hs1
      · rw [List.mem_singleton.1 hB]; exact List.Pairwise.filter _ hs1
    · intro B hB
      simp only at hB
      rcases List.mem_append.1 hB with hB | hB
      · rcases List.mem_or_eq_of_mem_set hB with hB | hB
        · exact hs.sorted2 B hB
        · rw [hB]; exact List.Pairwise.filter _ hs2
      · rw [List.mem_singleton.1 hB]; exact List.Pairwise.filter _ hs2

theorem refinePass_sim {d1 d2 : DFA} (h : Twin d1 d2) {n1 n2 : Nat} :
    ∀ (fuel1 fuel2 i : Nat) (st1 st2 r1 r2 : RefineState),
      PartInv d1 n1 st1 → PartInv d2 n2 st2 → RefineSim d1 d2 st1 st2 →
      refinePass fuel1 i st1 = some r1 → refinePass fuel2 i st2 = some r2 →
      RefineSim d1 d2 r1 r2 := by
  intro fuel1
  induction fuel1 with
  | zero => intro fuel2 i st1 st2 r1 r2 _ _ _ e1 _; simp [refinePass] at e1
  | succ fuel1 ih =>
    intro fuel2 i st1 st2 r1 r2 hp1 hp2 hs e1 e2
    cases fuel2 with
    | zero => simp [refinePass] at e2
    | succ fuel2 =>
      unfold refinePass at e1 e2
      by_cases hi : i < st1.currSet.length
      · have hi2 : i < st2.currSet.length := hs.length_eq ▸ hi
        rw [if_pos hi] at e1
        rw [if_pos hi2] at e2
        have g1 : st1.currSet[i]? = some st1.currSet[i] :=
          List.getElem?_eq_some_iff.2 ⟨hi, rfl⟩
        have g2 : st2.currSet[i]? = some st2.currSet[i] :=
          List.getElem?_eq_some_iff.2 ⟨hi2, rfl⟩
        exact ih fuel2 (i + 1) _ _ r1 r2 (refineBlock_inv h.total1 hp1 g1).1
          (refineBlock_inv h.total2 hp2 g2).1 (refineBlock_sim h hp1 hp2 hs hi) e1 e2
      · have hi2 : ¬ i < st2.currSet.length := hs.length_eq ▸ hi
        rw [if_neg hi] at e1
        rw [if_neg hi2] at e2
        rw [← Option.some.inj e1, ← Option.some.inj e2]
        exact hs

theorem refineLoop_sim {d1 d2 : DFA} (h : Twin d1 d2) {n1 n2 : Nat} :
    ∀ (fuel1 fuel2 : Nat) (st1 st2 r1 r2 : RefineState),
      PartInv d1 n1 st1 → PartInv d2 n2 st2 → RefineSim d1 d2 st1 st2 →
      refineLoop (n1 + 3) fuel1 st1 = some r1 → refineLoop (n2 + 3) fuel2 st2 = some r2 →
      RefineSim d1 d2 r1 r2 := by
  intro fuel1
  induction fuel1 with
  | zero => intro fuel2 st1 st2 r1 r2 _ _ _ e1 _; simp [refineLoop] at e1
  | succ fuel1 ih =>
    intro fuel2 st1 st2 r1 r2 hp1 hp2 hs e1 e2
    cases fuel2 with
    | zero => simp [refineLoop] at e2
    | succ fuel2 =>
      unfold refineLoop at e1 e2
      obtain ⟨x1, hx1, hpx1, hle1, hsame1⟩ :=
        refinePass_spec h.total1 (n1 + 3) 0 st1 hp1 (Nat.zero_le _) (by omega)
      obtain ⟨x2, hx2, hpx2, hle2, hsame2⟩ :=
        refinePass_spec h.total2 (n2 + 3) 0 st2 hp2 (Nat.zero_le _) (by omega)
      have hsx := refinePass_sim h _ _ 0 st1 st2 x1 x2 hp1 hp2 hs hx1 hx2
      simp only [hx1] at e1
      simp only [hx2] at e2
      by_cases hlen : x1.currSet.length = st1.currSet.length
      · have hlen2 : x2.currSet.length = st2.currSet.length := by
          rw [← hsx.length_eq, hlen, hs.length_eq]
        have q1 := (hsame1 hlen).1
        have q2 := (hsame2 hlen2).1
        rw [q1] at e1
        rw [q2] at e2
        simp only [bne_self_eq_false, Bool.false_eq_true, if_false] at e1 e2
        rw [← Option.some.inj e1, ← Option.some.inj e2]
        exact hs
      · have hlen2 : x2.currSet.length ≠ st2.currSet.length := by
          rw [← hsx.length_eq, ← hs.length_eq]
          exact hlen
        have c1 : (x1.currSet != st1.currSet) = true := by
          simp only [bne_iff_ne, ne_eq]
          intro hc
          exact hlen (by rw [hc])
        have c2 : (x2.currSet != st2.currSet) = true := by
          simp only [bne_iff_ne, ne_eq]
          intro hc
          exact hlen2 (by rw [hc])
        rw [if_pos c1] at e1
        rw [if_pos c2] at e2
        exact ih fuel2 x1 x2 r1 r2 hpx1 hpx2 hsx e1 e2

theorem buildBlocks_finals_sorted (d : DFA) (nsm : List (Nat × Nat))
    (sm : List (List Nat × Nat)) :
    ∀ (blocks : List (List Nat)) (b b' : Building),
      buildBlocks d nsm sm blocks b = some b' → b.m_FinalStates.Sorted (· < ·) →
      b'.m_FinalStates.Sorted (· < ·) := by
  intro blocks
  induction blocks with
  | nil =>
    intro b b' h hs
    simp only [buildBlocks, Option.some.injEq] at h
    rw [← h]; exact hs
  | cons B rest ih =>
    intro b b' h hs
    cases B with
    | nil => simp [buildBlocks] at h
    | cons first tl =>
      simp only [buildBlocks] at h
      apply ih _ _ h
      simp only
      split_ifs
      · exact setInsert_sorted hs
      · exact hs

/-- The automaton `minimize` builds from the blocks of a total DFA with an
accepting and a non-accepting state, before the pruning, in terms of the blocks
and their indices. -/
theorem minimize_building {d : DFA} (hd : d.Closed) (ht : d.Total)
    (hnf : ∃ q ∈ d.m_States, q ∉ d.m_FinalStates) (hf : d.m_FinalStates ≠ []) :
    ∃ (st : RefineState) (b : Building),
      refineLoop (refineSize d + 3) (refineSize d + 2) (refineStart d) = some st ∧
      PartInv d (refineSize d) st ∧ minimize d = pruneResult d.m_Alphabet b ∧
      b.m_States.Sorted (· < ·) ∧ b.m_FinalStates.Sorted (· < ·) ∧
      (b.m_Transitions.map Prod.fst).Sorted (fun a b => keyLt a b = true) ∧
      (∀ i, i ∈ b.m_States ↔ i < st.currSet.length) ∧
      (∀ i, i ∈ b.m_FinalStates ↔
        ∃ B, st.currSet[i]? = some B ∧ B.headD 0 ∈ d.m_FinalStates) ∧
      b.m_InitialState = some (lookupD st.stateSetID d.m_InitialState) ∧
      (∀ i a B, st.currSet[i]? = some B → a ∈ d.m_Alphabet →
        mapFind (i, a) b.m_Transitions =
          some (lookupD st.stateSetID (d.delta (B.headD 0) a))) ∧
      (∀ i a, (st.currSet.length ≤ i ∨ a ∉ d.m_Alphabet) →
        mapFind (i, a) b.m_Transitions = none) := by
  have hinit : PartInv d (refineSize d) (refineStart d) := partInv_init hd hnf hf
  obtain ⟨st, hst, hinv, -⟩ := refineLoop_spec ht (refineSize d + 2) _ hinit
    (by
      have : (refineStart d).currSet.length = 2 := rfl
      omega)
  obtain ⟨n1, -, -⟩ := numberBlocks_spec st.currSet 0 [] [] hinv.disjoint hinv.nonempty
  have hsm : ∀ j B, st.currSet[j]? = some B →
      lookupD (numberBlocks 0 st.currSet [] []).2 B = j := by
    intro j B hj; rw [(n1 j B hj).1]; omega
  have hnsm : ∀ j B, st.currSet[j]? = some B → ∀ q ∈ B,
      lookupD (numberBlocks 0 st.currSet [] []).1 q = j := by
    intro j B hj q hq; rw [(n1 j B hj).2 q hq]; omega
  have hnsm' : ∀ q ∈ d.m_States,
      lookupD (numberBlocks 0 st.currSet [] []).1 q = lookupD st.stateSetID q := by
    intro q hq
    obtain ⟨B, hB, hqB⟩ := (hinv.cover q).1 hq
    obtain ⟨j, hj⟩ := List.mem_iff_getElem?.1 hB
    rw [hnsm j B hj q hqB, hinv.ids j B hj q hqB]
  have hpair : st.currSet.Pairwise (fun B B' =>
      lookupD (numberBlocks 0 st.currSet [] []).2 B ≠
        lookupD (numberBlocks 0 st.currSet [] []).2 B') := by
    apply pairwise_of_index
    intro i j a b hi hj hij
    rw [hsm i a hi, hsm j b hj]
    omega
  obtain ⟨b', hb', s1, s2, s3, s4, s5, s6, s7⟩ := buildBlocks_spec d ht
    (numberBlocks 0 st.currSet [] []).1 (numberBlocks 0 st.currSet [] []).2 st.currSet
    { m_States := [], m_Transitions := [], m_InitialState := none, m_FinalStates := [] }
    hinv.nonempty (fun B hB q hq => (hinv.cover q).2 ⟨B, hB, hq⟩) hpair
  obtain ⟨B0, hB0, hqB0⟩ := (hinv.cover d.m_InitialState).1 hd.initial_mem
  refine ⟨st, b', hst, hinv, ?_, ?_, ?_, s6 (by simp), ?_, ?_, ?_, ?_, ?_⟩
  · rw [minimize_eq_refine, hst]
    simp only [hinv.orig, hb']
  · exact buildBlocks_states_sorted d _ _ _ _ _ hb' (by simp)
  · exact buildBlocks_finals_sorted d _ _ _ _ _ hb' (by simp)
  · intro i
    rw [s1]
    constructor
    · rintro (hh | ⟨B, hB, rfl⟩)
      · simp at hh
      · obtain ⟨j, hj⟩ := List.mem_iff_getElem?.1 hB
        rw [hsm j B hj]
        exact (List.getElem?_eq_some_iff.1 hj).1
    · intro hi
      exact Or.inr ⟨st.currSet[i], List.getElem_mem hi,
        hsm i _ (List.getElem?_eq_some_iff.2 ⟨hi, rfl⟩)⟩
  · intro i
    rw [s2]
    constructor
    · rintro (hh | ⟨B, hB, rfl, hfin⟩)
      · simp at hh
      · obtain ⟨j, hj⟩ := List.mem_iff_getElem?.1 hB
        rw [hsm j B hj]
        exact ⟨B, hj, hfin⟩
    · rintro ⟨B, hB, hfin⟩
      exact Or.inr ⟨B, List.mem_iff_getElem?.2 ⟨i, hB⟩, hsm i B hB, hfin⟩
  · rcases s3 with ⟨B, hB, h1, h2⟩ | ⟨h1, _⟩
    · obtain ⟨j, hj⟩ := List.mem_iff_getElem?.1 hB
      rw [h2, hsm j B hj, hinv.ids j B hj _ h1]
    · exact absurd hqB0 (h1 B0 hB0)
  · intro i a B hB ha
    have hBm : B ∈ st.currSet := List.mem_iff_getElem?.2 ⟨i, hB⟩
    have := s4 B hBm a ha
    rw [hsm i B hB] at this
    rw [this, hnsm' _ (DFA.delta_mem hd ht
      (hinv.mem_states hB (headD_mem (hinv.nonempty B hBm))) ha)]
  · intro i a hia
    have hcond : (∀ B ∈ st.currSet, lookupD (numberBlocks 0 st.currSet [] []).2 B ≠ i) ∨
        a ∉ d.m_Alphabet := by
      rcases hia with hia | hia
      · left
        intro B hB hc
        obtain ⟨j, hj⟩ := List.mem_iff_getElem?.1 hB
        rw [hsm j B hj] at hc
        have := (List.getElem?_eq_some_iff.1 hj).1
        omega
      · exact Or.inr hia
    rw [s5 i a hcond]
    rfl

theorem refineStart_sim {d1 d2 : DFA} (h : Twin d1 d2)
    (hnf1 : ∃ q ∈ d1.m_States, q ∉ d1.m_FinalStates) (hf1 : d1.m_FinalStates ≠ [])
    (hnf2 : ∃ q ∈ d2.m_States, q ∉ d2.m_FinalStates) (hf2 : d2.m_FinalStates ≠ [])
    (hs1 : d1.m_States.Sorted (· < ·)) (hg1 : d1.m_FinalStates.Sorted (· < ·))
    (hs2 : d2.m_States.Sorted (· < ·)) (hg2 : d2.m_FinalStates.Sorted (· < ·)) :
    RefineSim d1 d2 (refineStart d1) (refineStart d2) := by
  have hp1 : PartInv d1 (refineSize d1) (refineStart d1) := partInv_init h.closed1 hnf1 hf1
  have hp2 : PartInv d2 (refineSize d2) (refineStart d2) := partInv_init h.closed2 hnf2 hf2
  have hid : ∀ (d : DFA), PartInv d (refineSize d) (refineStart d) → ∀ q ∈ d.m_States,
      lookupD (refineStart d).stateSetID q = if q ∈ d.m_FinalStates then 1 else 0 := by
    intro d hp q hq
    by_cases hqf : q ∈ d.m_FinalStates
    · rw [if_pos hqf]
      exact hp.ids 1 d.m_FinalStates rfl q hqf
    · rw [if_neg hqf]
      refine hp.ids 0 (d.m_States.filter (fun s => !d.m_FinalStates.contains s)) rfl q ?_
      rw [List.mem_filter]
      refine ⟨hq, ?_⟩
      simpa using hqf
  refine ⟨rfl, ?_, ?_, ?_⟩
  · intro p hp q hq hpq
    rw [hid d1 hp1 p hp, hid d2 hp2 q hq]
    by_cases hpf : p ∈ d1.m_FinalStates
    · rw [if_pos hpf, if_pos (hpq.final.1 hpf)]
    · rw [if_neg hpf, if_neg (fun hc => hpf (hpq.final.2 hc))]
  · intro B hB
    have hB' : B = d1.m_States.filter (fun s => !d1.m_FinalStates.contains s) ∨
        B = d1.m_FinalStates := by
      simpa [refineStart] using hB
    rcases hB' with rfl | rfl
    · exact List.Pairwise.filter _ hs1
    · exact hg1
  · intro B hB
    have hB' : B = d2.m_States.filter (fun s => !d2.m_FinalStates.contains s) ∨
        B = d2.m_FinalStates := by
      simpa [refineStart] using hB
    rcases hB' with rfl | rfl
    · exact List.Pairwise.filter _ hs2
    · exact hg2

/-- `minimize` returns the same DFA on two total DFAs of one language all of whose
states are reached and whose ids follow the order of the words. -/
theorem minimize_twin {d1 d2 : DFA} (h : Twin d1 d2)
    (hnf1 : ∃ q ∈ d1.m_States, q ∉ d1.m_FinalStates) (hf1 : d1.m_FinalStates ≠ [])
    (hnf2 : ∃ q ∈ d2.m_States, q ∉ d2.m_FinalStates) (hf2 : d2.m_FinalStates ≠ [])
    (hs1 : d1.m_States.Sorted (· < ·)) (hg1 : d1.m_FinalStates.Sorted (· < ·))
    (hs2 : d2.m_States.Sorted (· < ·)) (hg2 : d2.m_FinalStates.Sorted (· < ·)) :
    minimize d1 = minimize d2 := by
  obtain ⟨st1, b1, hl1, hp1, hm1, a1, a2, a3, a4, a5, a6, a7, a8⟩ :=
    minimize_building h.closed1 h.total1 hnf1 hf1
  obtain ⟨st2, b2, hl2, hp2, hm2, c1, c2, c3, c4, c5, c6, c7, c8⟩ :=
    minimize_building h.closed2 h.total2 hnf2 hf2
  have hsim := refineLoop_sim h _ _ _ _ st1 st2 (partInv_init h.closed1 hnf1 hf1)
    (partInv_init h.closed2 hnf2 hf2) (refineStart_sim h hnf1 hf1 hnf2 hf2 hs1 hg1 hs2 hg2)
    hl1 hl2
  have hheads : ∀ (i : Nat) (B1 B2 : List Nat), st1.currSet[i]? = some B1 → st2.currSet[i]? = some B2 →
      B1.headD 0 ∈ d1.m_States ∧ B2.headD 0 ∈ d2.m_States ∧
        SameLang d1 d2 (B1.headD 0) (B2.headD 0) := by
    intro i B1 B2 g1 g2
    obtain ⟨f1, tl1, rfl⟩ := List.exists_cons_of_ne_nil
      (hp1.nonempty B1 (List.mem_iff_getElem?.2 ⟨i, g1⟩))
    obtain ⟨f2, tl2, rfl⟩ := List.exists_cons_of_ne_nil
      (hp2.nonempty B2 (List.mem_iff_getElem?.2 ⟨i, g2⟩))
    exact ⟨hp1.mem_states g1 (by simp), hp2.mem_states g2 (by simp),
      hsim.first_same h hp1 hp2 g1 g2⟩
  have hother : ∀ (i : Nat) (B1 : List Nat), st1.currSet[i]? = some B1 → ∃ B2, st2.currSet[i]? = some B2 := by
    intro i B1 g1
    have hi := (List.getElem?_eq_some_iff.1 g1).1
    rw [hsim.length_eq] at hi
    exact ⟨st2.currSet[i], List.getElem?_eq_some_iff.2 ⟨hi, rfl⟩⟩
  have hother' : ∀ (i : Nat) (B2 : List Nat), st2.currSet[i]? = some B2 → ∃ B1, st1.currSet[i]? = some B1 := by
    intro i B2 g2
    have hi := (List.getElem?_eq_some_iff.1 g2).1
    rw [← hsim.length_eq] at hi
    exact ⟨st1.currSet[i], List.getElem?_eq_some_iff.2 ⟨hi, rfl⟩⟩
  have hb : b1 = b2 := by
    have e1 : b1.m_States = b2.m_States :=
      sorted_ext a1 c1 (fun i => by rw [a4, c4, hsim.length_eq])
    have e2 : b1.m_FinalStates = b2.m_FinalStates := by
      apply sorted_ext a2 c2
      intro i
      rw [a5, c5]
      constructor
      · rintro ⟨B1, g1, hfin⟩
        obtain ⟨B2, g2⟩ := hother i B1 g1
        exact ⟨B2, g2, (hheads i B1 B2 g1 g2).2.2.final.1 hfin⟩
      · rintro ⟨B2, g2, hfin⟩
        obtain ⟨B1, g1⟩ := hother' i B2 g2
        exact ⟨B1, g1, (hheads i B1 B2 g1 g2).2.2.final.2 hfin⟩
    have e3 : b1.m_InitialState = b2.m_InitialState := by
      rw [a6, c6]
      congr 1
      apply hsim.same_id _ h.closed1.initial_mem _ h.closed2.initial_mem
      intro w
      rw [← DFA.accepts_eq_acceptsFrom, ← DFA.accepts_eq_acceptsFrom]
      exact h.lang_eq w
    have e4 : b1.m_Transitions = b2.m_Transitions := by
      apply keySorted_ext a3 c3
      rintro ⟨i, a⟩
      by_cases hi : i < st1.currSet.length
      · by_cases ha : a ∈ d1.m_Alphabet
        · have g1 : st1.currSet[i]? = some st1.currSet[i] :=
            List.getElem?_eq_some_iff.2 ⟨hi, rfl⟩
          obtain ⟨B2, g2⟩ := hother i _ g1
          have ha2 : a ∈ d2.m_Alphabet := h.alphabet_eq ▸ ha
          obtain ⟨m1, m2, hsl⟩ := hheads i _ B2 g1 g2
          rw [a7 i a _ g1 ha, c7 i a B2 g2 ha2]
          congr 1
          exact hsim.same_id _ (DFA.delta_mem h.closed1 h.total1 m1 ha) _
            (DFA.delta_mem h.closed2 h.total2 m2 ha2) (hsl.delta h m1 m2 ha)
        · rw [a8 i a (Or.inr ha), c8 i a (Or.inr (fun hc => ha (h.alphabet_eq ▸ hc)))]
      · rw [a8 i a (Or.inl (by omega)),
          c8 i a (Or.inl (by rw [← hsim.length_eq]; omega))]
    cases b1
    cases b2
    simp only at e1 e2 e3 e4
    rw [e1, e2, e3, e4]
  rw [hm1, hm2, hb, h.alphabet_eq]

/-! ## `unify` on operands of one language -/

theorem spareEmptyWord_wf : spareEmptyWord.WF :=
  ⟨by decide, by decide, by decide, by decide, by decide, by decide, by decide, by decide,
    by decide, by decide, by decide, by decide, by decide⟩

/-- What is used of the DFA `determine` returns. -/
theorem determine_facts {n : NFA} (hn : n.WF) (hb : n.FewSubsets) :
    ∃ d, determine n = some d ∧ d.Closed ∧ d.Total ∧ d.m_Alphabet = n.m_Alphabet ∧
      (∀ w, d.accepts w = n.accepts w) ∧ (∀ q ∈ d.m_States, ∃ w, d.run w = some q) ∧
      d.BfsOrdered ∧ d.m_States.Sorted (· < ·) ∧ d.m_FinalStates.Sorted (· < ·) := by
  obtain ⟨d, hd, hclosed, htotal, halpha, -, hlang⟩ := determine_output hn hb
  obtain ⟨d1, hd1, hreach, -⟩ := determine_reach hn hb
  obtain ⟨d2, hd2, hbfs⟩ := determine_bfs hn hb
  obtain ⟨st, hd3, -, -, hs⟩ := determine_spec hn hb
  have e1 : d1 = d := Option.some.inj (hd1.symm.trans hd)
  have e2 : d2 = d := Option.some.inj (hd2.symm.trans hd)
  have e3 : st.result = d := Option.some.inj (hd3.symm.trans hd)
  rw [e1] at hreach
  rw [e2] at hbfs
  refine ⟨d, hd, hclosed, htotal, halpha, hlang, fun q hq => ?_, hbfs, ?_, ?_⟩
  · obtain ⟨w, -, hw⟩ := hreach q hq
    exact ⟨w, hw⟩
  · rw [← e3]; exact hs.states_sorted
  · rw [← e3]; exact hs.finals_sorted

/-- C10, amended: for well-formed NFAs `a1`, `a2` and `x` whose states are named
`0 .. |Q| - 1` (with `|Q_a| + |Q_x| < 2 ^ 32` and at most `2 ^ 32` sets in the subset
constructions of the unions), where `a1` and `a2` have the same alphabet and accept
the same words, `a1` or `x` accepts some word and some word over the alphabets is
accepted by neither, `unify a1 x` and `unify a2 x` return the same DFA: the same
states, alphabet, transitions, initial state and accepting states. -/
theorem unify_canonical (a1 a2 x : NFA) (h1 : a1.WF) (h2 : a2.WF) (hx : x.WF)
    (hc1 : a1.Contiguous) (hc2 : a2.Contiguous) (hcx : x.Contiguous)
    (hb1 : a1.m_States.length + x.m_States.length < 2 ^ 32)
    (hb2 : a2.m_States.length + x.m_States.length < 2 ^ 32)
    (hfew1 : (unifyNFA a1 x).FewSubsets) (hfew2 : (unifyNFA a2 x).FewSubsets)
    (halpha : a1.m_Alphabet = a2.m_Alphabet) (hlang : ∀ w, a1.accepts w = a2.accepts w)
    (hacc : ∃ w, a1.accepts w = true ∨ x.accepts w = true)
    (hrej : ∃ w, (∀ c ∈ w, c ∈ a1.m_Alphabet ∨ c ∈ x.m_Alphabet) ∧
      a1.accepts w = false ∧ x.accepts w = false) :
    ∃ D, unify a1 x = some D ∧ unify a2 x = some D := by
  have hwf1 := unifyNFA_wf h1 hx hc1 hcx hb1
  have hwf2 := unifyNFA_wf h2 hx hc2 hcx hb2
  have hl1 := unifyNFA_accepts h1 hx hc1 hcx hb1
  have hl2 := unifyNFA_accepts h2 hx hc2 hcx hb2
  obtain ⟨-, -, -, -, hal1⟩ := unifyNFA_spec h1 hx hc1 hcx hb1
  obtain ⟨-, -, -, -, hal2⟩ := unifyNFA_spec h2 hx hc2 hcx hb2
  have hnalpha : (unifyNFA a1 x).m_Alphabet = (unifyNFA a2 x).m_Alphabet :=
    sorted_ext hwf1.alphabet_sorted hwf2.alphabet_sorted
      (fun s => by rw [hal1, hal2, halpha])
  obtain ⟨d1, hd1, c1, t1, al1, lg1, r1, b1, s1, g1⟩ := determine_facts hwf1 hfew1
  obtain ⟨d2, hd2, c2, t2, al2, lg2, r2, b2, s2, g2⟩ := determine_facts hwf2 hfew2
  have hlang12 : ∀ w, d1.accepts w = d2.accepts w := by
    intro w
    rw [lg1, lg2, hl1, hl2, hlang]
  have htwin : Twin d1 d2 :=
    ⟨c1, c2, t1, t2, by rw [al1, al2, hnalpha], hlang12, r1, r2, b1, b2⟩
  obtain ⟨w1, hw1⟩ := hacc
  obtain ⟨w0, hw0, hr1, hr2⟩ := hrej
  have hacc1 : d1.accepts w1 = true := by
    rw [lg1, hl1]
    rcases hw1 with h | h
    · rw [h]; rfl
    · rw [h]; simp
  have hrej1 : d1.accepts w0 = false := by
    rw [lg1, hl1, hr1, hr2]; rfl
  have hw0' : ∀ c ∈ w0, c ∈ d1.m_Alphabet := by
    intro c hc
    rw [al1, hal1]
    exact hw0 c hc
  have hnf1 := DFA.exists_nonfinal c1 t1 hw0' hrej1
  have hnf2 := DFA.exists_nonfinal c2 t2 (fun c hc => htwin.alphabet_eq ▸ hw0' c hc)
    (by rw [← hlang12]; exact hrej1)
  have hf1 := finals_ne_nil_of_accepts hacc1
  have hf2 := finals_ne_nil_of_accepts (by rw [← hlang12]; exact hacc1 : d2.accepts w1 = true)
  have hmin := minimize_twin htwin hnf1 hf1 hnf2 hf2 s1 g1 s2 g2
  obtain ⟨D, hD, -, -⟩ := minimize_spec c1 t1 hnf1 ⟨w1, hacc1⟩
  refine ⟨D, ?_, ?_⟩
  · unfold unify
    rw [hd1]
    exact hD
  · unfold unify
    rw [hd2]
    simp only
    rw [← hmin]
    exact hD

/-- The amended C10 on `plainEmptyWord` and `spareEmptyWord`, which both accept
exactly the empty word, united with `loopNoWord`: the empty word is accepted, the
word `a` is not. -/
theorem unify_canonical_witness :
    plainEmptyWord.WF ∧ spareEmptyWord.WF ∧ loopNoWord.WF ∧ plainEmptyWord.Contiguous ∧
      spareEmptyWord.Contiguous ∧ loopNoWord.Contiguous ∧
      (unifyNFA plainEmptyWord loopNoWord).FewSubsets ∧
      (unifyNFA spareEmptyWord loopNoWord).FewSubsets ∧
      plainEmptyWord.m_Alphabet = spareEmptyWord.m_Alphabet ∧
      (∀ w, plainEmptyWord.accepts w = spareEmptyWord.accepts w) ∧
      plainEmptyWord.accepts [] = true ∧
      (plainEmptyWord.accepts [97] = false ∧ loopNoWord.accepts [97] = false) ∧
      ∃ D, unify plainEmptyWord loopNoWord = some D ∧ unify spareEmptyWord loopNoWord = some D :=
  have hlang : ∀ w, plainEmptyWord.accepts w = spareEmptyWord.accepts w := fun w => by
    rw [accepts_no_transitions plainEmptyWord rfl, accepts_no_transitions spareEmptyWord rfl]
    rfl
  have k1 : plainEmptyWord.Contiguous := by unfold NFA.Contiguous; decide
  have k2 : spareEmptyWord.Contiguous := by unfold NFA.Contiguous; decide
  have k3 : loopNoWord.Contiguous := by unfold NFA.Contiguous; decide
  have hfew1 : (unifyNFA plainEmptyWord loopNoWord).FewSubsets :=
    NFA.fewSubsets_of_length (unifyNFA_wf plainEmptyWord_wf loopNoWord_wf k1 k3 (by decide))
      (by decide)
  have hfew2 : (unifyNFA spareEmptyWord loopNoWord).FewSubsets :=
    NFA.fewSubsets_of_length (unifyNFA_wf spareEmptyWord_wf loopNoWord_wf k2 k3 (by decide))
      (by decide)
  ⟨plainEmptyWord_wf, spareEmptyWord_wf, loopNoWord_wf, k1, k2, k3, hfew1, hfew2, rfl, hlang,
    by decide, ⟨by decide, by decide⟩,
    unify_canonical plainEmptyWord spareEmptyWord loopNoWord plainEmptyWord_wf
      spareEmptyWord_wf loopNoWord_wf k1 k2 k3 (by decide) (by decide) hfew1 hfew2 rfl hlang
      ⟨[], Or.inl (by decide)⟩ ⟨[97], by decide, by decide, by decide⟩⟩

/-! ## The refinement of `minimize` on a partial DFA -/

theorem TransLe.same (T : List ((Nat × Nat) × Nat)) : TransLe T T := fun _ _ h => h

theorem TransLe.chain {T1 T2 T3 : List ((Nat × Nat) × Nat)} (h1 : TransLe T1 T2)
    (h2 : TransLe T2 T3) : TransLe T1 T3 := fun k v h => h2 k v (h1 k v h)

theorem HasKey.grow {T T' : List ((Nat × Nat) × Nat)} (h : TransLe T T') {q a : Nat}
    (hk : HasKey T q a) : HasKey T' q a := by
  unfold HasKey at hk ⊢
  cases hf : mapFind (q, a) T with
  | none => rw [hf] at hk; exact Bool.noConfusion hk
  | some v => rw [h _ _ hf]; rfl

theorem HasKey.find_value {T : List ((Nat × Nat) × Nat)} {q a : Nat} (hk : HasKey T q a) :
    mapFind (q, a) T = some (lookupD T (q, a)) := by
  unfold HasKey at hk
  cases hf : mapFind (q, a) T with
  | none => rw [hf] at hk; exact Bool.noConfusion hk
  | some v => simp [lookupD, hf]

theorem AutExt.delta_eq {d aut : DFA} (h : AutExt d aut) (q a : Nat) :
    lookupD aut.m_Transitions (q, a) = d.delta q a := by
  unfold DFA.delta lookupD
  cases hf : mapFind (q, a) aut.m_Transitions with
  | none =>
    cases hg : mapFind (q, a) d.m_Transitions with
    | none => rfl
    | some v => rw [h.keep _ _ hg] at hf; exact Option.noConfusion hf
  | some v =>
    rcases h.added _ _ hf with hg | ⟨hv, -, -⟩
    · rw [hg]
    · cases hg : mapFind (q, a) d.m_Transitions with
      | none => exact hv
      | some v' =>
        rw [h.keep _ _ hg] at hf
        exact (Option.some.inj hf).symm

theorem AutExt.of_sorted {d : DFA}
    (hs : (d.m_Transitions.map Prod.fst).Sorted (fun a b => keyLt a b = true)) : AutExt d d :=
  ⟨rfl, rfl, rfl, rfl, hs, fun _ _ h => h, fun _ _ h => Or.inl h⟩

/-- The read `m[k]` of `equivalentWithSet`: the value is that of `d`, 0 when `d` has
no such transition, and the key is in the map afterwards. -/
theorem mapIndex_ext {d aut : DFA} (h : AutExt d aut) {q a : Nat} (hq : q ∈ d.m_States)
    (ha : a ∈ d.m_Alphabet) :
    (mapIndex (q, a) aut.m_Transitions).1 = d.delta q a ∧
      AutExt d { aut with m_Transitions := (mapIndex (q, a) aut.m_Transitions).2 } ∧
      TransLe aut.m_Transitions (mapIndex (q, a) aut.m_Transitions).2 ∧
      HasKey (mapIndex (q, a) aut.m_Transitions).2 q a := by
  unfold mapIndex
  cases hf : mapFind (q, a) aut.m_Transitions with
  | some v =>
    simp only
    refine ⟨?_, ⟨h.states_eq, h.alphabet_eq, h.initial_eq, h.finals_eq, h.keys_sorted, h.keep,
      h.added⟩, TransLe.same _, ?_⟩
    · rw [← h.delta_eq q a]
      simp [lookupD, hf]
    · unfold HasKey; rw [hf]; rfl
  | none =>
    simp only
    have hdn : mapFind (q, a) d.m_Transitions = none := by
      cases hg : mapFind (q, a) d.m_Transitions with
      | none => rfl
      | some v => rw [h.keep _ _ hg] at hf; exact Option.noConfusion hf
    refine ⟨?_, ⟨h.states_eq, h.alphabet_eq, h.initial_eq, h.finals_eq,
      mapAssign_keys_sorted _ _ _ h.keys_sorted, ?_, ?_⟩, ?_, ?_⟩
    · simp [DFA.delta, lookupD, hdn]
    · intro k v hk
      simp only
      rw [mapFind_mapAssign]
      split_ifs with hkk
      · rw [← hkk, hdn] at hk
        exact Option.noConfusion hk
      · exact h.keep k v hk
    · intro k v hk
      simp only at hk
      rw [mapFind_mapAssign] at hk
      split_ifs at hk with hkk
      · right
        rw [← hkk]
        exact ⟨(Option.some.inj hk).symm, hq, ha⟩
      · exact h.added k v hk
    · intro k v hk
      rw [mapFind_mapAssign]
      split_ifs with hkk
      · rw [← hkk, hf] at hk
        exact Option.noConfusion hk
      · exact hk
    · unfold HasKey
      rw [mapFind_mapAssign, if_pos rfl]
      rfl

/-- The symbol loop of `equivalentWithSet` on a partial DFA: the verdict is that of
the transition function with missing transitions read as 0, and the transitions it
has read are in the map afterwards. -/
theorem equivalentSymbols_ext {d : DFA} (ids : List (Nat × Nat)) {state first : Nat}
    (hs : state ∈ d.m_States) (hf : first ∈ d.m_States) :
    ∀ (syms : List Nat) (aut : DFA), (∀ a ∈ syms, a ∈ d.m_Alphabet) → AutExt d aut →
      AutExt d { aut with
        m_Transitions := (equivalentSymbols ids state first syms aut.m_Transitions).2 } ∧
      TransLe aut.m_Transitions (equivalentSymbols ids state first syms aut.m_Transitions).2 ∧
      ((equivalentSymbols ids state first syms aut.m_Transitions).1 = true →
        ∀ a ∈ syms, lookupD ids (d.delta state a) = lookupD ids (d.delta first a) ∧
          HasKey (equivalentSymbols ids state first syms aut.m_Transitions).2 state a ∧
          HasKey (equivalentSymbols ids state first syms aut.m_Transitions).2 first a) ∧
      ((equivalentSymbols ids state first syms aut.m_Transitions).1 = false →
        ∃ a ∈ syms, lookupD ids (d.delta state a) ≠ lookupD ids (d.delta first a) ∧
          HasKey (equivalentSymbols ids state first syms aut.m_Transitions).2 state a ∧
          HasKey (equivalentSymbols ids state first syms aut.m_Transitions).2 first a) := by
  intro syms
  induction syms with
  | nil =>
    intro aut _ h
    simp only [equivalentSymbols]
    exact ⟨⟨h.states_eq, h.alphabet_eq, h.initial_eq, h.finals_eq, h.keys_sorted, h.keep,
      h.added⟩, TransLe.same _, fun _ a ha => absurd ha (List.not_mem_nil a),
      fun hc => absurd hc (by simp)⟩
  | cons a rest ih =>
    intro aut hsub h
    have ha : a ∈ d.m_Alphabet := hsub a (by simp)
    obtain ⟨v1, e1, l1, k1⟩ := mapIndex_ext h hs ha
    obtain ⟨v2, e2, l2, k2⟩ := mapIndex_ext e1 hf ha
    simp only at v2 e2 l2 k2
    unfold equivalentSymbols
    simp only [v1, v2]
    by_cases hne : lookupD ids (d.delta state a) = lookupD ids (d.delta first a)
    · rw [if_neg (by simp [hne])]
      obtain ⟨e3, l3, t3, f3⟩ := ih _ (fun b hb => hsub b (by simp [hb])) e2
      simp only at e3 l3 t3 f3
      refine ⟨e3, (l1.chain l2).chain l3, ?_, ?_⟩
      · intro hv b hb
        rcases List.mem_cons.1 hb with rfl | hb
        · exact ⟨hne, (k1.grow l2).grow l3, k2.grow l3⟩
        · exact t3 hv b hb
      · intro hv
        obtain ⟨b, hb, hb2⟩ := f3 hv
        exact ⟨b, by simp [hb], hb2⟩
    · rw [if_pos (by simp [hne])]
      simp only
      refine ⟨e2, l1.chain l2, fun hc => absurd hc (by simp), fun _ => ?_⟩
      exact ⟨a, by simp, hne, k1.grow l2, k2⟩


/-- The test `equivalentWithSet` on a partial DFA. -/
theorem equivalentWithSet_ext {d : DFA} (ids : List (Nat × Nat)) {state first : Nat}
    (tl : List Nat) (hs : state ∈ d.m_States) (hf : first ∈ d.m_States) {aut : DFA}
    (h : AutExt d aut) :
    (equivalentWithSet state (first :: tl) ids aut).1 = !inequivalent d ids first state ∧
      AutExt d (equivalentWithSet state (first :: tl) ids aut).2 ∧
      TransLe aut.m_Transitions (equivalentWithSet state (first :: tl) ids aut).2.m_Transitions ∧
      (state ≠ first →
        (inequivalent d ids first state = false → ∀ a ∈ d.m_Alphabet,
          HasKey (equivalentWithSet state (first :: tl) ids aut).2.m_Transitions state a ∧
          HasKey (equivalentWithSet state (first :: tl) ids aut).2.m_Transitions first a) ∧
        (inequivalent d ids first state = true → ∃ a ∈ d.m_Alphabet,
          lookupD ids (d.delta state a) ≠ lookupD ids (d.delta first a) ∧
          HasKey (equivalentWithSet state (first :: tl) ids aut).2.m_Transitions state a ∧
          HasKey (equivalentWithSet state (first :: tl) ids aut).2.m_Transitions first a)) := by
  unfold equivalentWithSet
  by_cases hsf : state = first
  · simp only [hsf, if_true]
    refine ⟨by simp [inequivalent], h, TransLe.same _, fun hc => absurd rfl hc⟩
  · simp only [hsf, if_false]
    obtain ⟨e, l, t, f⟩ := equivalentSymbols_ext ids hs hf aut.m_Alphabet aut
      (fun a ha => h.alphabet_eq ▸ ha) h
    have hag : (equivalentSymbols ids state first aut.m_Alphabet aut.m_Transitions).1 =
        agreeOn d ids state first := by
      cases hv : (equivalentSymbols ids state first aut.m_Alphabet aut.m_Transitions).1 with
      | true =>
        symm
        rw [agreeOn_iff]
        intro a ha
        exact (t hv a (h.alphabet_eq ▸ ha)).1
      | false =>
        obtain ⟨a, ha, hne, -⟩ := f hv
        symm
        rw [← Bool.not_eq_true]
        intro hc
        rw [agreeOn_iff] at hc
        exact hne (hc a (h.alphabet_eq ▸ ha))
    refine ⟨?_, e, l, fun _ => ⟨fun hin a ha => ?_, fun hin => ?_⟩⟩
    · rw [hag]; simp [inequivalent, hsf]
    · have hv : (equivalentSymbols ids state first aut.m_Alphabet aut.m_Transitions).1 = true := by
        rw [hag]
        simpa [inequivalent, hsf] using hin
      exact (t hv a (h.alphabet_eq.symm ▸ ha)).2
    · have hv : (equivalentSymbols ids state first aut.m_Alphabet aut.m_Transitions).1 = false := by
        rw [hag]
        simpa [inequivalent, hsf] using hin
      obtain ⟨a, ha, hne, hk⟩ := f hv
      exact ⟨a, h.alphabet_eq ▸ ha, hne, hk⟩

/-- Lines 96-105 on a partial DFA: the states moved out of the block are those
that fail the test against its head, and every comparison made leaves the
transitions it has read in the map. -/
theorem collectInequivalent_ext {d : DFA} (ids : List (Nat × Nat)) {first : Nat}
    (tl : List Nat) (hf : first ∈ d.m_States) :
    ∀ (xs : List Nat) (aut : DFA), (∀ q ∈ xs, q ∈ d.m_States) → AutExt d aut →
      (collectInequivalent (first :: tl) ids xs aut).1 = xs.filter (inequivalent d ids first) ∧
      AutExt d (collectInequivalent (first :: tl) ids xs aut).2 ∧
      TransLe aut.m_Transitions (collectInequivalent (first :: tl) ids xs aut).2.m_Transitions ∧
      ∀ q ∈ xs, q ≠ first →
        (inequivalent d ids first q = false → ∀ a ∈ d.m_Alphabet,
          HasKey (collectInequivalent (first :: tl) ids xs aut).2.m_Transitions q a ∧
          HasKey (collectInequivalent (first :: tl) ids xs aut).2.m_Transitions first a) ∧
        (inequivalent d ids first q = true → ∃ a ∈ d.m_Alphabet,
          lookupD ids (d.delta q a) ≠ lookupD ids (d.delta first a) ∧
          HasKey (collectInequivalent (first :: tl) ids xs aut).2.m_Transitions q a ∧
          HasKey (collectInequivalent (first :: tl) ids xs aut).2.m_Transitions first a) := by
  intro xs
  induction xs with
  | nil =>
    intro aut _ h
    exact ⟨rfl, h, TransLe.same _, fun q hq => absurd hq (List.not_mem_nil q)⟩
  | cons x xs ih =>
    intro aut hxs h
    obtain ⟨v1, e1, l1, k1⟩ := equivalentWithSet_ext ids tl (hxs x (by simp)) hf h
    obtain ⟨v2, e2, l2, k2⟩ := ih (equivalentWithSet x (first :: tl) ids aut).2
      (fun q hq => hxs q (by simp [hq])) e1
    have hsnd : (collectInequivalent (first :: tl) ids (x :: xs) aut).2 =
        (collectInequivalent (first :: tl) ids xs
          (equivalentWithSet x (first :: tl) ids aut).2).2 := by
      rw [collectInequivalent]
      split_ifs <;> rfl
    have hfst : (collectInequivalent (first :: tl) ids (x :: xs) aut).1 =
        if (equivalentWithSet x (first :: tl) ids aut).1 then
          (collectInequivalent (first :: tl) ids xs
            (equivalentWithSet x (first :: tl) ids aut).2).1
        else x :: (collectInequivalent (first :: tl) ids xs
            (equivalentWithSet x (first :: tl) ids aut).2).1 := by
      rw [collectInequivalent]
      split_ifs <;> rfl
    rw [hsnd, hfst]
    refine ⟨?_, e2, l1.chain l2, ?_⟩
    · rw [v1, v2]
      cases hx : inequivalent d ids first x
      · simp [List.filter_cons, hx]
      · simp [List.filter_cons, hx]
    · intro q hq hqf
      rcases List.mem_cons.1 hq with rfl | hq'
      · obtain ⟨t, f⟩ := k1 hqf
        refine ⟨fun hin a ha => ?_, fun hin => ?_⟩
        · exact ⟨(t hin a ha).1.grow l2, (t hin a ha).2.grow l2⟩
        · obtain ⟨a, ha, hne, ka, kb⟩ := f hin
          exact ⟨a, ha, hne, ka.grow l2, kb.grow l2⟩
      · exact k2 q hq' hqf


theorem GenInv.block_states {d : DFA} {n : Nat} {st : RefineState} (h : GenInv d n st)
    {i : Nat} {B : List Nat} (hi : st.currSet[i]? = some B) {q : Nat} (hq : q ∈ B) :
    q ∈ d.m_States :=
  (h.cover q).2 ⟨B, List.mem_iff_getElem?.2 ⟨i, hi⟩, hq⟩

theorem head?_filter_of_head {p : Nat → Bool} {first : Nat} {tl : List Nat}
    (h : p first = true) : ((first :: tl).filter p).head? = some first := by
  simp [List.filter_cons, h]

/-- One round of the `for i` loop of `minimize` on any DFA: the invariant is kept,
the map of transitions only grows, and either the block is split, by states whose
transitions on some symbol lead to different blocks, or nothing but the map
changes and the block is full. -/
theorem refineBlock_gen {d : DFA} {n : Nat} {st : RefineState} (h : GenInv d n st) {i : Nat}
    {B : List Nat} (hi : st.currSet[i]? = some B) :
    GenInv d n (refineBlock i st) ∧
      TransLe st.original.m_Transitions (refineBlock i st).original.m_Transitions ∧
      st.currSet.length ≤ (refineBlock i st).currSet.length ∧
      ((refineBlock i st).currSet.length = st.currSet.length →
        (refineBlock i st).currSet = st.currSet ∧
          (refineBlock i st).stateSetID = st.stateSetID ∧
          FullBlock d st.stateSetID (refineBlock i st).original.m_Transitions B) ∧
      (∀ x ∈ d.m_States, ∀ y ∈ d.m_States,
        lookupD (refineBlock i st).stateSetID x ≠ lookupD (refineBlock i st).stateSetID y →
        lookupD st.stateSetID x ≠ lookupD st.stateSetID y ∨
          ∃ a ∈ d.m_Alphabet, HasKey (refineBlock i st).original.m_Transitions x a ∧
            HasKey (refineBlock i st).original.m_Transitions y a ∧
            lookupD st.stateSetID (d.delta x a) ≠ lookupD st.stateSetID (d.delta y a)) := by
  have hblock : st.currSet.getD i [] = B := by
    rw [List.getD_eq_getElem?_getD, hi]; rfl
  have hilt : i < st.currSet.length := (List.getElem?_eq_some_iff.1 hi).1
  cases B with
  | nil =>
    have e : refineBlock i st = st := by
      unfold refineBlock
      simp only [hblock, collectInequivalent, List.isEmpty_nil, if_true]
    rw [e]
    refine ⟨h, TransLe.same _, le_refl _, fun _ => ⟨rfl, rfl, ?_⟩, fun x _ y _ hne => Or.inl hne⟩
    intro q hq
    exact absurd hq (List.not_mem_nil q)
  | cons first tl =>
    have hmem : ∀ q ∈ first :: tl, q ∈ d.m_States := fun q hq => h.block_states hi hq
    obtain ⟨h1, hext, hle, hkeys⟩ := collectInequivalent_ext st.stateSetID tl
      (hmem first (by simp)) (first :: tl) st.original hmem h.ext
    have e : refineBlock i st =
        if ((first :: tl).filter (inequivalent d st.stateSetID first)).isEmpty then
          { st with original :=
              (collectInequivalent (first :: tl) st.stateSetID (first :: tl) st.original).2 }
        else
          { currSet :=
              (st.currSet.set i ((first :: tl).filter (fun s =>
                !((first :: tl).filter (inequivalent d st.stateSetID first)).contains s))) ++
                [(first :: tl).filter (inequivalent d st.stateSetID first)]
            stateSetID :=
              ((first :: tl).filter (inequivalent d st.stateSetID first)).foldl
                (fun ids j => (j, st.currSet.length) :: ids) st.stateSetID
            original :=
              (collectInequivalent (first :: tl) st.stateSetID (first :: tl) st.original).2 } := by
      unfold refineBlock
      simp only [hblock, h1]
    rw [e]
    generalize (collectInequivalent (first :: tl) st.stateSetID (first :: tl) st.original).2 = r2
      at hext hle hkeys
    set tmp := (first :: tl).filter (inequivalent d st.stateSetID first) with htmp
    set keep := (first :: tl).filter (fun s => !tmp.contains s) with hkeep
    by_cases he : tmp.isEmpty = true
    · rw [if_pos he]
      have hnil : tmp = [] := List.isEmpty_iff.1 he
      have hall : ∀ q ∈ first :: tl, inequivalent d st.stateSetID first q = false := by
        intro q hq
        have := (List.filter_eq_nil_iff.1 hnil) q hq
        simpa using this
      refine ⟨⟨hext, h.cover, h.ids, h.ids_out, h.final_resp, h.late, h.head_zero, h.head_one,
        h.total_len, h.two⟩, hle, le_refl _, fun _ => ⟨rfl, rfl, ?_⟩,
        fun x _ y _ hne => Or.inl hne⟩
      intro q hq hqf
      have hqf' : q ≠ first := hqf
      have hin := hall q hq
      refine ⟨?_, fun a ha => ((hkeys q hq hqf').1 hin a ha)⟩
      simp only [inequivalent, Bool.not_eq_false', Bool.or_eq_true, decide_eq_true_eq] at hin
      rcases hin with hc | hc
      · exact absurd hc hqf'
      · exact hc
    · rw [if_neg he]
      have htne : tmp ≠ [] := fun hc => he (List.isEmpty_iff.2 hc)
      have mem_tmp : ∀ q, q ∈ tmp → q ∈ first :: tl := fun q hq => (List.mem_filter.1 hq).1
      have first_not_tmp : first ∉ tmp := by
        intro hc
        have := (List.mem_filter.1 hc).2
        rw [inequivalent_first] at this
        exact absurd this (by simp)
      have mem_keep : ∀ q, q ∈ keep ↔ q ∈ first :: tl ∧ q ∉ tmp := by
        intro q
        simp only [hkeep, List.mem_filter, Bool.not_eq_true', List.contains_eq_any_beq,
          List.any_eq_false, beq_iff_eq]
        constructor
        · rintro ⟨h1, h2⟩
          exact ⟨h1, fun hc => h2 q hc rfl⟩
        · rintro ⟨h1, h2⟩
          exact ⟨h1, fun x hx hxq => h2 (hxq ▸ hx)⟩
      have first_keep : first ∈ keep := (mem_keep first).2 ⟨by simp, first_not_tmp⟩
      have head_keep : keep.head? = some first := by
        rw [hkeep]
        apply head?_filter_of_head
        simp only [Bool.not_eq_true', List.contains_eq_any_beq, List.any_eq_false, beq_iff_eq]
        intro x hx hxf
        exact first_not_tmp (hxf ▸ hx)
      have hget := getElem?_set_append st.currSet i keep tmp hilt
      have hlen : (st.currSet.set i keep ++ [tmp]).length = st.currSet.length + 1 := by simp
      have inside : ∀ j B', (st.currSet.set i keep ++ [tmp])[j]? = some B' →
          (j = st.currSet.length ∧ B' = tmp) ∨ (j = i ∧ B' = keep) ∨
            (j ≠ i ∧ st.currSet[j]? = some B') := by
        intro j B' hj
        rw [hget] at hj
        split_ifs at hj with h1 h2
        · exact Or.inl ⟨h1, (Option.some.inj hj).symm⟩
        · exact Or.inr (Or.inl ⟨h2, (Option.some.inj hj).symm⟩)
        · exact Or.inr (Or.inr ⟨h2, hj⟩)
      have inside_old : ∀ B' ∈ st.currSet.set i keep ++ [tmp],
          ∃ B0 ∈ st.currSet, ∀ q ∈ B', q ∈ B0 := by
        intro B' hB'
        obtain ⟨j, hj⟩ := List.mem_iff_getElem?.1 hB'
        have hold : first :: tl ∈ st.currSet := List.mem_iff_getElem?.2 ⟨i, hi⟩
        rcases inside j B' hj with ⟨_, rfl⟩ | ⟨_, rfl⟩ | ⟨_, h2⟩
        · exact ⟨_, hold, mem_tmp⟩
        · exact ⟨_, hold, fun q hq => ((mem_keep q).1 hq).1⟩
        · exact ⟨B', List.mem_iff_getElem?.2 ⟨j, h2⟩, fun q hq => hq⟩
      have hsid : ∀ q, lookupD (tmp.foldl (fun ids j => (j, st.currSet.length) :: ids)
          st.stateSetID) q = if q ∈ tmp then st.currSet.length else lookupD st.stateSetID q :=
        fun q => lookupD_foldl_cons tmp _ _ q
      have keep_head : ∀ j B0, j < 2 → st.currSet[j]? = some B0 →
          ∃ B', (st.currSet.set i keep ++ [tmp])[j]? = some B' ∧ B'.head? = B0.head? := by
        intro j B0 hj2 hj
        have h2 := h.two
        by_cases hji : j = i
        · refine ⟨keep, ?_, ?_⟩
          · rw [hget, if_neg (by omega), if_pos hji]
          · rw [head_keep]
            rw [hji, hi] at hj
            rw [← Option.some.inj hj]
            rfl
        · refine ⟨B0, ?_, rfl⟩
          rw [hget, if_neg (by omega), if_neg hji, hj]
      refine ⟨⟨hext, ?_, ?_, ?_, ?_, ?_, ?_, ?_, ?_, ?_⟩, hle, by simp, fun hc => ?_, ?_⟩
      · -- cover
        intro q
        constructor
        · intro hq
          obtain ⟨B0, hB0, hqB0⟩ := (h.cover q).1 hq
          obtain ⟨j, hj⟩ := List.mem_iff_getElem?.1 hB0
          have hjlt : j < st.currSet.length := (List.getElem?_eq_some_iff.1 hj).1
          by_cases hji : j = i
          · subst hji
            rw [hi] at hj
            have hB0' : B0 = first :: tl := (Option.some.inj hj).symm
            subst hB0'
            by_cases hqt : q ∈ tmp
            · exact ⟨tmp, by simp, hqt⟩
            · refine ⟨keep, List.mem_iff_getElem?.2 ⟨j, ?_⟩, (mem_keep q).2 ⟨hqB0, hqt⟩⟩
              rw [hget, if_neg (by omega), if_pos rfl]
          · refine ⟨B0, List.mem_iff_getElem?.2 ⟨j, ?_⟩, hqB0⟩
            rw [hget, if_neg (by omega), if_neg hji, hj]
        · rintro ⟨B', hB', hq⟩
          obtain ⟨B0, hB0, hsub⟩ := inside_old B' hB'
          exact (h.cover q).2 ⟨B0, hB0, hsub q hq⟩
      · -- ids
        intro j B' hj q hq
        show lookupD (tmp.foldl (fun ids j => (j, st.currSet.length) :: ids) st.stateSetID) q = j
        rw [hsid]
        rcases inside j B' hj with ⟨h1, rfl⟩ | ⟨h1, rfl⟩ | ⟨h1, h2⟩
        · rw [if_pos hq, h1]
        · rw [if_neg ((mem_keep q).1 hq).2, h1]
          exact h.ids i _ hi q ((mem_keep q).1 hq).1
        · have hqt : q ∉ tmp := by
            intro hc
            have e1 := h.ids i _ hi q (mem_tmp q hc)
            have e2 := h.ids j _ h2 q hq
            exact h1 (by omega)
          rw [if_neg hqt]
          exact h.ids j _ h2 q hq
      · -- ids_out
        intro q hq
        show lookupD (tmp.foldl (fun ids j => (j, st.currSet.length) :: ids) st.stateSetID) q = 0
        rw [hsid, if_neg (fun hc => hq (hmem q (mem_tmp q hc)))]
        exact h.ids_out q hq
      · -- final_resp
        intro B' hB' p hp q hq
        obtain ⟨B0, hB0, hsub⟩ := inside_old B' hB'
        exact h.final_resp B0 hB0 p (hsub p hp) q (hsub q hq)
      · -- late
        intro j B' hj hj2
        rcases inside j B' hj with ⟨_, rfl⟩ | ⟨_, rfl⟩ | ⟨_, h2⟩
        · exact htne
        · exact List.ne_nil_of_mem first_keep
        · exact h.late j B' h2 hj2
      · -- head_zero
        obtain ⟨B0, hB0, hh⟩ := h.head_zero
        obtain ⟨B', hB', hh'⟩ := keep_head 0 B0 (by omega) hB0
        exact ⟨B', hB', hh'.trans hh⟩
      · -- head_one
        obtain ⟨B0, hB0, hh⟩ := h.head_one
        obtain ⟨B', hB', hh'⟩ := keep_head 1 B0 (by omega) hB0
        exact ⟨B', hB', hh'.trans hh⟩
      · -- total_len
        have h1 := sum_length_set st.currSet i (first :: tl) keep hi
        have h3 : keep = (first :: tl).filter (fun x => !inequivalent d st.stateSetID first x) := by
          apply List.filter_congr
          intro x hx
          congr 1
          by_cases hxt : x ∈ tmp
          · have := (List.mem_filter.1 hxt).2
            simp [this, hxt]
          · have : inequivalent d st.stateSetID first x = false := by
              by_contra hc
              exact hxt (List.mem_filter.2 ⟨hx, by simpa using hc⟩)
            simp [this, hxt]
        have ht' := h.total_len
        have h2 : tmp.length + keep.length = (first :: tl).length := by
          rw [h3]; exact length_filter_split (first :: tl) (inequivalent d st.stateSetID first)
        show ((st.currSet.set i keep ++ [tmp]).map List.length).sum = n
        simp only [List.map_append, List.sum_append, List.map_cons, List.map_nil, List.sum_cons,
          List.sum_nil, add_zero]
        omega
      · -- two
        have := h.two
        show 2 ≤ (st.currSet.set i keep ++ [tmp]).length
        omega
      · simp at hc
      · -- the states told apart by the split
        intro x hx y hy hne
        have hne' : lookupD (tmp.foldl (fun ids j => (j, st.currSet.length) :: ids)
            st.stateSetID) x ≠ lookupD (tmp.foldl (fun ids j => (j, st.currSet.length) :: ids)
            st.stateSetID) y := hne
        rw [hsid, hsid] at hne'
        by_cases hsame : lookupD st.stateSetID x = lookupD st.stateSetID y
        · right
          -- a moved state and a kept state of the block
          have key : ∀ p q, p ∈ tmp → q ∈ first :: tl → q ∉ tmp →
              ∃ a ∈ d.m_Alphabet, HasKey r2.m_Transitions p a ∧ HasKey r2.m_Transitions q a ∧
                lookupD st.stateSetID (d.delta p a) ≠ lookupD st.stateSetID (d.delta q a) := by
            intro p q hp hq hqt
            have hpB := mem_tmp p hp
            have hpin : inequivalent d st.stateSetID first p = true := (List.mem_filter.1 hp).2
            have hpf : p ≠ first := fun hc => first_not_tmp (hc ▸ hp)
            obtain ⟨a, ha, hdiff, ka, kf⟩ := (hkeys p hpB hpf).2 hpin
            by_cases hqf : q = first
            · rw [hqf]
              exact ⟨a, ha, ka, kf, hdiff⟩
            · have hqin : inequivalent d st.stateSetID first q = false := by
                by_contra hc
                exact hqt (List.mem_filter.2 ⟨hq, by simpa using hc⟩)
              have hk := (hkeys q hq hqf).1 hqin a ha
              refine ⟨a, ha, ka, hk.1, ?_⟩
              simp only [inequivalent, Bool.not_eq_false', Bool.or_eq_true,
                decide_eq_true_eq] at hqin
              rcases hqin with hc | hc
              · exact absurd hc hqf
              · rw [(agreeOn_iff d _ _ _).1 hc a ha]
                exact hdiff
          have inB : ∀ p q, p ∈ tmp → lookupD st.stateSetID p = lookupD st.stateSetID q →
              q ∈ d.m_States → q ∈ first :: tl := by
            intro p q hp hpq hq
            obtain ⟨B0, hB0, hqB0⟩ := (h.cover q).1 hq
            obtain ⟨j, hj⟩ := List.mem_iff_getElem?.1 hB0
            have e1 := h.ids i _ hi p (mem_tmp p hp)
            have e2 := h.ids j _ hj q hqB0
            have hji : j = i := by omega
            rw [hji, hi] at hj
            rw [Option.some.inj hj]
            exact hqB0
          by_cases hxt : x ∈ tmp
          · by_cases hyt : y ∈ tmp
            · rw [if_pos hxt, if_pos hyt] at hne'
              exact absurd rfl hne'
            · exact key x y hxt (inB x y hxt hsame hy) hyt
          · by_cases hyt : y ∈ tmp
            · obtain ⟨a, ha, k1, k2, hd'⟩ := key y x hyt (inB y x hyt hsame.symm hx) hxt
              exact ⟨a, ha, k2, k1, fun hc => hd' hc.symm⟩
            · rw [if_neg hxt, if_neg hyt] at hne'
              exact absurd hsame hne'
        · exact Or.inl hsame


theorem length_le_sum_add_two (l : List (List Nat))
    (h : ∀ i B, l[i]? = some B → 2 ≤ i → B ≠ []) : l.length ≤ (l.map List.length).sum + 2 := by
  match l, h with
  | [], _ => simp
  | [_], _ => simp
  | b0 :: b1 :: rest, h =>
    have := length_le_sum_of_nonempty rest (fun B hB => by
      obtain ⟨j, hj⟩ := List.mem_iff_getElem?.1 hB
      exact h (j + 2) B (by simpa using hj) (by omega))
    simp only [List.length_cons, List.map_cons, List.sum_cons]
    omega

theorem GenInv.blocks_le {d : DFA} {n : Nat} {st : RefineState} (h : GenInv d n st) :
    st.currSet.length ≤ n + 2 := by
  have := length_le_sum_add_two st.currSet h.late
  rw [h.total_len] at this
  exact this

theorem FullBlock.grow_map {d : DFA} {ids : List (Nat × Nat)} {T T' : List ((Nat × Nat) × Nat)}
    {B : List Nat} (hle : TransLe T T') (h : FullBlock d ids T B) : FullBlock d ids T' B :=
  fun q hq hne => ⟨(h q hq hne).1, fun a ha =>
    ⟨((h q hq hne).2 a ha).1.grow hle, ((h q hq hne).2 a ha).2.grow hle⟩⟩

/-- One pass of the `for i` loop on any DFA. A property `P` of the variables that
every round keeps holds after the pass. -/
theorem refinePass_gen {d : DFA} {n : Nat} (P : RefineState → Prop)
    (hP : ∀ i st, GenInv d n st → i < st.currSet.length → P st → P (refineBlock i st)) :
    ∀ (fuel i : Nat) (st : RefineState), GenInv d n st → i ≤ st.currSet.length →
      n + 2 < fuel + i → P st →
      ∃ st', refinePass fuel i st = some st' ∧ GenInv d n st' ∧ P st' ∧
        TransLe st.original.m_Transitions st'.original.m_Transitions ∧
        st.currSet.length ≤ st'.currSet.length ∧
        (st'.currSet.length = st.currSet.length →
          st'.currSet = st.currSet ∧ st'.stateSetID = st.stateSetID ∧
          ∀ j B, i ≤ j → st.currSet[j]? = some B →
            FullBlock d st.stateSetID st'.original.m_Transitions B) := by
  intro fuel
  induction fuel with
  | zero =>
    intro i st h hi hlt _
    have := h.blocks_le
    omega
  | succ fuel ih =>
    intro i st h hi hlt hp
    unfold refinePass
    by_cases hil : i < st.currSet.length
    · rw [if_pos hil]
      obtain ⟨B, hB⟩ : ∃ B, st.currSet[i]? = some B :=
        ⟨st.currSet[i], List.getElem?_eq_some_iff.2 ⟨hil, rfl⟩⟩
      obtain ⟨hinv, hle0, hle, hsame, -⟩ := refineBlock_gen h hB
      obtain ⟨st', hst', hinv', hp', hle0', hle', hsame'⟩ :=
        ih (i + 1) (refineBlock i st) hinv (by omega) (by omega) (hP i st h hil hp)
      refine ⟨st', hst', hinv', hp', hle0.chain hle0', by omega, fun heq => ?_⟩
      have h1 : (refineBlock i st).currSet.length = st.currSet.length := by omega
      obtain ⟨e1, e1', hfull⟩ := hsame h1
      obtain ⟨e2, e2', hrest⟩ := hsame' (by omega)
      refine ⟨e2.trans e1, e2'.trans e1', fun j B' hj hB' => ?_⟩
      by_cases hji : j = i
      · subst hji
        rw [hB] at hB'
        rw [← Option.some.inj hB']
        exact hfull.grow_map hle0'
      · have := hrest j B' (by omega) (by rw [e1]; exact hB')
        rw [e1'] at this
        exact this
    · rw [if_neg hil]
      refine ⟨st, rfl, h, hp, TransLe.same _, le_refl _, fun _ => ⟨rfl, rfl, fun j B hj hB => ?_⟩⟩
      have := (List.getElem?_eq_some_iff.1 hB).1
      omega

/-- The `while` loop of `minimize` on any DFA returns, with every block full. -/
theorem refineLoop_gen {d : DFA} {n : Nat} (P : RefineState → Prop)
    (hP : ∀ i st, GenInv d n st → i < st.currSet.length → P st → P (refineBlock i st)) :
    ∀ (fuel : Nat) (st : RefineState), GenInv d n st → n + 2 < fuel + st.currSet.length →
      P st →
      ∃ st', refineLoop (n + 3) fuel st = some st' ∧ GenInv d n st' ∧ P st' ∧
        ∀ B ∈ st'.currSet, FullBlock d st'.stateSetID st'.original.m_Transitions B := by
  intro fuel
  induction fuel with
  | zero =>
    intro st h hlt _
    have := h.blocks_le
    omega
  | succ fuel ih =>
    intro st h hlt hp
    unfold refineLoop
    obtain ⟨st1, hst1, hinv1, hp1, -, hle1, hsame1⟩ :=
      refinePass_gen P hP (n + 3) 0 st h (Nat.zero_le _) (by omega) hp
    simp only [hst1]
    by_cases hne : (st1.currSet != st.currSet) = true
    · rw [if_pos hne]
      apply ih st1 hinv1 _ hp1
      have hlen : st1.currSet.length ≠ st.currSet.length := by
        intro hc
        have := (hsame1 hc).1
        rw [this] at hne
        simp at hne
      omega
    · rw [if_neg hne]
      have heq : st1.currSet = st.currSet := by simpa using hne
      obtain ⟨-, e', hfull⟩ := hsame1 (by rw [heq])
      refine ⟨st1, rfl, hinv1, hp1, fun B hB => ?_⟩
      rw [heq] at hB
      rw [e']
      obtain ⟨j, hj⟩ := List.mem_iff_getElem?.1 hB
      exact hfull j B (Nat.zero_le _) hj

theorem mem_nonFinal (d : DFA) (q : Nat) :
    q ∈ d.m_States.filter (fun s => !d.m_FinalStates.contains s) ↔
      q ∈ d.m_States ∧ q ∉ d.m_FinalStates := by
  simp [List.mem_filter]

theorem refineStart_ids (d : DFA) (q : Nat) :
    lookupD (refineStart d).stateSetID q = if q ∈ d.m_FinalStates then 1 else 0 := by
  unfold refineStart
  simp only
  rw [lookupD_foldl_cons, lookupD_foldl_cons]
  by_cases hq : q ∈ d.m_FinalStates
  · rw [if_pos hq, if_pos hq]
  · rw [if_neg hq, if_neg hq]
    split_ifs
    · rfl
    · rfl

theorem genInv_init {d : DFA} (hd : d.Closed)
    (hs : (d.m_Transitions.map Prod.fst).Sorted (fun a b => keyLt a b = true)) :
    GenInv d (refineSize d) (refineStart d) := by
  refine ⟨AutExt.of_sorted hs, ?_, ?_, ?_, ?_, ?_, ⟨_, rfl, rfl⟩, ⟨_, rfl, rfl⟩, ?_,
    by simp [refineStart]⟩
  · intro q
    simp only [refineStart, List.mem_cons, List.mem_singleton, List.not_mem_nil, or_false,
      exists_eq_or_imp, exists_eq_left, mem_nonFinal]
    constructor
    · intro hq
      by_cases hqf : q ∈ d.m_FinalStates
      · exact Or.inr hqf
      · exact Or.inl ⟨hq, hqf⟩
    · rintro (⟨h1, _⟩ | h1)
      · exact h1
      · exact hd.finals_sub q h1
  · intro i B hi q hq
    rw [refineStart_ids]
    match i, hi with
    | 0, hi =>
      simp only [refineStart, List.getElem?_cons_zero, Option.some.injEq] at hi
      subst hi
      rw [if_neg ((mem_nonFinal d q).1 hq).2]
    | 1, hi =>
      simp only [refineStart, List.getElem?_cons_succ, List.getElem?_cons_zero,
        Option.some.injEq] at hi
      subst hi
      rw [if_pos hq]
    | (k + 2), hi => simp [refineStart] at hi
  · intro q hq
    rw [refineStart_ids, if_neg (fun hc => hq (hd.finals_sub q hc))]
  · intro B hB p hp q hq
    simp only [refineStart, List.mem_cons, List.mem_singleton, List.not_mem_nil, or_false] at hB
    rcases hB with rfl | rfl
    · simp [((mem_nonFinal d p).1 hp).2, ((mem_nonFinal d q).1 hq).2]
    · simp [hp, hq]
  · intro i B hi h2
    have := (List.getElem?_eq_some_iff.1 hi).1
    simp [refineStart] at this
    omega
  · simp [refineStart, refineSize]

theorem Apart.grow_apart {d : DFA} {T T' : List ((Nat × Nat) × Nat)} {z x y : Nat}
    (hle : TransLe T T') (h : Apart d T z x y) : Apart d T' z x y := by
  induction h with
  | base hb => exact Apart.base hb
  | step ha hx hy _ ih => exact Apart.step ha (hle _ _ hx) (hle _ _ hy) ih

theorem GenInv.head_mem {d : DFA} {n : Nat} {st : RefineState} (h : GenInv d n st) {z : Nat}
    (hz : (d.m_States.filter (fun s => !d.m_FinalStates.contains s)).head? = some z) :
    z ∈ d.m_States ∧ lookupD st.stateSetID z = 0 := by
  obtain ⟨B, hB, hh⟩ := h.head_zero
  rw [hz] at hh
  have hzB : z ∈ B := List.mem_of_mem_head? hh
  exact ⟨h.block_states hB hzB, h.ids 0 B hB z hzB⟩

theorem GenInv.ids_rep {d : DFA} {n : Nat} {st : RefineState} (h : GenInv d n st) {z : Nat}
    (hz : (d.m_States.filter (fun s => !d.m_FinalStates.contains s)).head? = some z) (t : Nat) :
    repState d z t ∈ d.m_States ∧
      lookupD st.stateSetID (repState d z t) = lookupD st.stateSetID t := by
  unfold repState
  by_cases ht : t ∈ d.m_States
  · rw [if_pos ht]; exact ⟨ht, rfl⟩
  · rw [if_neg ht, (h.head_mem hz).2, h.ids_out t ht]
    exact ⟨(h.head_mem hz).1, rfl⟩

theorem apartInv_init (d : DFA) (z : Nat) : ApartInv d z (refineStart d) := by
  intro x _ y _ hne
  rw [refineStart_ids, refineStart_ids] at hne
  apply Apart.base
  intro hc
  apply hne
  by_cases hx : x ∈ d.m_FinalStates
  · rw [if_pos hx, if_pos (hc.1 hx)]
  · rw [if_neg hx, if_neg (fun hy => hx (hc.2 hy))]

/-- A round of the `for i` loop keeps the states of different blocks told apart. -/
theorem refineBlock_apart {d : DFA} {n : Nat} {z : Nat}
    (hz : (d.m_States.filter (fun s => !d.m_FinalStates.contains s)).head? = some z)
    (i : Nat) (st : RefineState) (h : GenInv d n st) (hi : i < st.currSet.length)
    (ha : ApartInv d z st) : ApartInv d z (refineBlock i st) := by
  obtain ⟨B, hB⟩ : ∃ B, st.currSet[i]? = some B :=
    ⟨st.currSet[i], List.getElem?_eq_some_iff.2 ⟨hi, rfl⟩⟩
  obtain ⟨hinv, hle, -, -, hsplit⟩ := refineBlock_gen h hB
  intro x hx y hy hne
  rcases hsplit x hx y hy hne with hold | ⟨a, haS, kx, ky, hdiff⟩
  · exact (ha x hx y hy hold).grow_apart hle
  · have ex := hinv.ext.delta_eq x a
    have ey := hinv.ext.delta_eq y a
    have fx := kx.find_value
    have fy := ky.find_value
    rw [ex] at fx
    rw [ey] at fy
    refine Apart.step haS fx fy ?_
    obtain ⟨m1, i1⟩ := h.ids_rep hz (d.delta x a)
    obtain ⟨m2, i2⟩ := h.ids_rep hz (d.delta y a)
    exact (ha _ m1 _ m2 (by rw [i1, i2]; exact hdiff)).grow_apart hle


/-! ## The automaton `minimize` builds from the blocks -/

theorem numberBlocks_gen (blocks : List (List Nat)) :
    ∀ (c : Nat) (nsm : List (Nat × Nat)) (sm : List (List Nat × Nat)),
      blocks.Pairwise (fun B B' => B ≠ B' ∧ ∀ q, q ∈ B → q ∉ B') →
      (∀ j B, blocks[j]? = some B →
        lookupD (numberBlocks c blocks nsm sm).2 B = c + j ∧
          ∀ q ∈ B, lookupD (numberBlocks c blocks nsm sm).1 q = c + j) ∧
      (∀ q, (∀ B ∈ blocks, q ∉ B) →
        lookupD (numberBlocks c blocks nsm sm).1 q = lookupD nsm q) ∧
      (∀ B', B' ∉ blocks → lookupD (numberBlocks c blocks nsm sm).2 B' = lookupD sm B') := by
  induction blocks with
  | nil =>
    intro c nsm sm _
    refine ⟨fun j B hj => by simp at hj, fun q _ => rfl, fun B' _ => rfl⟩
  | cons B rest ih =>
    intro c nsm sm hp
    have hp' := List.pairwise_cons.1 hp
    obtain ⟨h1, h2, h3⟩ := ih (c + 1) (B.foldl (fun m state => (state, c) :: m) nsm)
      ((B, c) :: sm) hp'.2
    have hBrest : B ∉ rest := fun hc => (hp'.1 B hc).1 rfl
    unfold numberBlocks
    refine ⟨fun j B' hj => ?_, fun q hq => ?_, fun B' hB' => ?_⟩
    · cases j with
      | zero =>
        simp only [List.getElem?_cons_zero, Option.some.injEq] at hj
        subst hj
        refine ⟨?_, fun q hq => ?_⟩
        · rw [h3 B hBrest, lookupD_cons_self]; rfl
        · rw [h2 q (fun B' hB' hc => (hp'.1 B' hB').2 q hq hc), lookupD_foldl_cons, if_pos hq]
          rfl
      | succ j =>
        simp only [List.getElem?_cons_succ] at hj
        have := h1 j B' hj
        refine ⟨by rw [this.1]; omega, fun q hq => by rw [this.2 q hq]; omega⟩
    · rw [h2 q (fun B' hB' => hq B' (by simp [hB'])), lookupD_foldl_cons,
        if_neg (hq B (by simp))]
    · have hB'1 : B' ≠ B := fun hc => hB' (by simp [hc])
      rw [h3 B' (fun hc => hB' (by simp [hc])), lookupD_cons_ne (Ne.symm hB'1)]

theorem copyTransitions_gen (aut : DFA) (nsm : List (Nat × Nat)) (first id : Nat) :
    ∀ (syms : List Nat) (t : List ((Nat × Nat) × Nat)),
      (∀ i a, mapFind (i, a) (copyTransitions aut nsm first id syms t) =
        if i = id ∧ a ∈ syms ∧ (mapFind (first, a) aut.m_Transitions).isSome = true then
          (mapFind (first, a) aut.m_Transitions).map (lookupD nsm)
        else mapFind (i, a) t) ∧
      ((t.map Prod.fst).Sorted (fun a b => keyLt a b = true) →
        ((copyTransitions aut nsm first id syms t).map Prod.fst).Sorted
          (fun a b => keyLt a b = true)) := by
  intro syms
  induction syms with
  | nil => intro t; exact ⟨fun i a => by simp [copyTransitions], fun h => h⟩
  | cons a0 rest ih =>
    intro t
    unfold copyTransitions
    cases h0 : mapFind (first, a0) aut.m_Transitions with
    | none =>
      simp only
      obtain ⟨ih1, ih2⟩ := ih t
      refine ⟨fun i a => ?_, ih2⟩
      rw [ih1]
      by_cases ha : a = a0
      · subst ha
        simp [h0]
      · simp [ha]
    | some target =>
      simp only
      obtain ⟨ih1, ih2⟩ := ih (mapAssign keyLt (id, a0) (lookupD nsm target) t)
      refine ⟨fun i a => ?_, fun hs => ih2 (mapAssign_keys_sorted _ _ _ hs)⟩
      rw [ih1, mapFind_mapAssign]
      by_cases hi : i = id
      · subst hi
        by_cases ha0 : a0 = a
        · subst ha0
          by_cases ha : a0 ∈ rest
          · simp [ha, h0]
          · simp [ha, h0]
        · have hne : a ≠ a0 := fun hc => ha0 hc.symm
          have hk : ¬ (i, a0) = (i, a) := fun hc => ha0 (Prod.mk.inj hc).2
          simp [hne, hk]
      · have : (id, a0) ≠ (i, a) := fun hc => hi (Prod.mk.inj hc).1.symm
        simp [hi, this]

theorem buildBlocksWith_spec (junk : Nat) (aut : DFA) (nsm : List (Nat × Nat))
    (sm : List (List Nat × Nat)) :
    ∀ (blocks : List (List Nat)) (b : Building),
      blocks.Pairwise (fun B B' => lookupD sm B ≠ lookupD sm B') →
        (∀ i, i ∈ (buildBlocksWith junk aut nsm sm blocks b).m_States ↔
          i ∈ b.m_States ∨ ∃ B ∈ blocks, lookupD sm B = i) ∧
        (b.m_States.Sorted (· < ·) →
          (buildBlocksWith junk aut nsm sm blocks b).m_States.Sorted (· < ·)) ∧
        (∀ i, i ∈ (buildBlocksWith junk aut nsm sm blocks b).m_FinalStates ↔
          i ∈ b.m_FinalStates ∨
            ∃ B ∈ blocks, lookupD sm B = i ∧ B.headD junk ∈ aut.m_FinalStates) ∧
        ((∃ B ∈ blocks, aut.m_InitialState ∈ B ∧
            (buildBlocksWith junk aut nsm sm blocks b).m_InitialState = some (lookupD sm B)) ∨
          ((∀ B ∈ blocks, aut.m_InitialState ∉ B) ∧
            (buildBlocksWith junk aut nsm sm blocks b).m_InitialState = b.m_InitialState)) ∧
        (∀ B ∈ blocks, ∀ a ∈ aut.m_Alphabet,
          mapFind (lookupD sm B, a) (buildBlocksWith junk aut nsm sm blocks b).m_Transitions =
            if (mapFind (B.headD junk, a) aut.m_Transitions).isSome = true then
              (mapFind (B.headD junk, a) aut.m_Transitions).map (lookupD nsm)
            else mapFind (lookupD sm B, a) b.m_Transitions) ∧
        (∀ i a, ((∀ B ∈ blocks, lookupD sm B ≠ i) ∨ a ∉ aut.m_Alphabet) →
          mapFind (i, a) (buildBlocksWith junk aut nsm sm blocks b).m_Transitions =
            mapFind (i, a) b.m_Transitions) ∧
        ((b.m_Transitions.map Prod.fst).Sorted (fun a b => keyLt a b = true) →
          ((buildBlocksWith junk aut nsm sm blocks b).m_Transitions.map Prod.fst).Sorted
            (fun a b => keyLt a b = true)) := by
  intro blocks
  induction blocks with
  | nil =>
    intro b _
    exact ⟨by simp [buildBlocksWith], fun h => h, by simp [buildBlocksWith],
      Or.inr ⟨by simp, rfl⟩, by simp, fun _ _ _ => rfl, fun h => h⟩
  | cons B rest ih =>
    intro b hp
    have hp' := List.pairwise_cons.1 hp
    obtain ⟨c1, c2⟩ := copyTransitions_gen aut nsm (B.headD junk) (lookupD sm B)
      aut.m_Alphabet b.m_Transitions
    obtain ⟨s1, s1', s2, s3, s4, s5, s6⟩ := ih
      { m_States := setInsert (lookupD sm B) b.m_States
        m_Transitions :=
          copyTransitions aut nsm (B.headD junk) (lookupD sm B) aut.m_Alphabet b.m_Transitions
        m_InitialState :=
          if aut.m_InitialState ∈ B then some (lookupD sm B) else b.m_InitialState
        m_FinalStates :=
          if B.headD junk ∈ aut.m_FinalStates then setInsert (lookupD sm B) b.m_FinalStates
          else b.m_FinalStates } hp'.2
    have e : buildBlocksWith junk aut nsm sm (B :: rest) b =
        buildBlocksWith junk aut nsm sm rest
          { m_States := setInsert (lookupD sm B) b.m_States
            m_Transitions :=
              copyTransitions aut nsm (B.headD junk) (lookupD sm B) aut.m_Alphabet
                b.m_Transitions
            m_InitialState :=
              if aut.m_InitialState ∈ B then some (lookupD sm B) else b.m_InitialState
            m_FinalStates :=
              if B.headD junk ∈ aut.m_FinalStates then setInsert (lookupD sm B) b.m_FinalStates
              else b.m_FinalStates } := rfl
    rw [e]
    refine ⟨?_, ?_, ?_, ?_, ?_, ?_, ?_⟩
    · intro i
      rw [s1, mem_setInsert]
      simp only [List.mem_cons, exists_eq_or_imp]
      constructor
      · rintro ((h1 | h1) | h1)
        · exact Or.inr (Or.inl h1.symm)
        · exact Or.inl h1
        · exact Or.inr (Or.inr h1)
      · rintro (h1 | h1 | h1)
        · exact Or.inl (Or.inr h1)
        · exact Or.inl (Or.inl h1.symm)
        · exact Or.inr h1
    · intro hs
      exact s1' (setInsert_sorted hs)
    · intro i
      rw [s2]
      simp only [List.mem_cons, exists_eq_or_imp]
      by_cases hf : B.headD junk ∈ aut.m_FinalStates
      · simp only [hf, if_true, mem_setInsert, and_true]
        constructor
        · rintro ((h1 | h1) | h1)
          · exact Or.inr (Or.inl h1.symm)
          · exact Or.inl h1
          · exact Or.inr (Or.inr h1)
        · rintro (h1 | h1 | h1)
          · exact Or.inl (Or.inr h1)
          · exact Or.inl (Or.inl h1.symm)
          · exact Or.inr h1
      · simp only [hf, if_false, and_false, false_or]
    · rcases s3 with ⟨B', hB', h1, h2⟩ | ⟨h1, h2⟩
      · exact Or.inl ⟨B', by simp [hB'], h1, h2⟩
      · by_cases hin : aut.m_InitialState ∈ B
        · refine Or.inl ⟨B, by simp, hin, ?_⟩
          rw [h2, if_pos hin]
        · refine Or.inr ⟨?_, ?_⟩
          · intro B' hB'
            rcases List.mem_cons.1 hB' with rfl | hB'
            · exact hin
            · exact h1 B' hB'
          · rw [h2, if_neg hin]
    · intro B' hB' a ha
      rcases List.mem_cons.1 hB' with rfl | hB'
      · rw [s5 _ a (Or.inl (fun B'' hB'' hc => hp'.1 B'' hB'' hc.symm))]
        simp only
        rw [c1]
        by_cases hs : (mapFind (B'.headD junk, a) aut.m_Transitions).isSome = true
        · rw [if_pos ⟨rfl, ha, hs⟩, if_pos hs]
        · rw [if_neg (fun hc => hs hc.2.2), if_neg hs]
      · rw [s4 B' hB' a ha]
        by_cases hs : (mapFind (B'.headD junk, a) aut.m_Transitions).isSome = true
        · rw [if_pos hs, if_pos hs]
        · rw [if_neg hs, if_neg hs]
          simp only
          rw [c1, if_neg]
          rintro ⟨h1, -, -⟩
          exact hp'.1 B' hB' h1.symm
    · intro i a hia
      rw [s5 i a (by
        rcases hia with h1 | h1
        · exact Or.inl (fun B' hB' => h1 B' (by simp [hB']))
        · exact Or.inr h1)]
      simp only
      rw [c1, if_neg]
      rintro ⟨h1, h2, -⟩
      rcases hia with h3 | h3
      · exact h3 _ (by simp) h1.symm
      · exact h3 h2
    · intro hs
      exact s6 (c2 hs)


theorem GenInv.blocks_pairwise {d : DFA} (hd : d.Closed) {n : Nat} {st : RefineState}
    (h : GenInv d n st) :
    st.currSet.Pairwise (fun B B' => B ≠ B' ∧ ∀ q, q ∈ B → q ∉ B') := by
  apply pairwise_of_index
  intro i j a b hi hj hij
  have hdis : ∀ q, q ∈ a → q ∉ b := by
    intro q hqa hqb
    have e1 := h.ids i a hi q hqa
    have e2 := h.ids j b hj q hqb
    omega
  refine ⟨fun hab => ?_, hdis⟩
  subst hab
  cases a with
  | cons x xs => exact hdis x (by simp) (by simp)
  | nil =>
    by_cases hj2 : 2 ≤ j
    · exact h.late j [] hj hj2 rfl
    · have hi0 : i = 0 := by omega
      have hj1 : j = 1 := by omega
      subst hi0 hj1
      obtain ⟨B0, hB0, hh0⟩ := h.head_zero
      obtain ⟨B1, hB1, hh1⟩ := h.head_one
      rw [hi] at hB0
      rw [hj] at hB1
      rw [← Option.some.inj hB0] at hh0
      rw [← Option.some.inj hB1] at hh1
      have hQ1 : d.m_States.filter (fun s => !d.m_FinalStates.contains s) = [] :=
        List.head?_eq_none_iff.1 hh0.symm
      have hF : d.m_FinalStates = [] := List.head?_eq_none_iff.1 hh1.symm
      have := (mem_nonFinal d d.m_InitialState).2 ⟨hd.initial_mem, by rw [hF]; simp⟩
      rw [hQ1] at this
      exact absurd this (List.not_mem_nil _)

/-- Lines 119-147 of `minimize` on the blocks of any DFA. -/
theorem quot_build {d : DFA} (hd : d.Closed) {n : Nat} {st : RefineState} (h : GenInv d n st)
    (junk : Nat) :
    Quot d junk st
      (buildBlocksWith junk st.original (numberBlocks 0 st.currSet [] []).1
        (numberBlocks 0 st.currSet [] []).2 st.currSet
        { m_States := [], m_Transitions := [], m_InitialState := none, m_FinalStates := [] }) := by
  obtain ⟨n1, n2, -⟩ := numberBlocks_gen st.currSet 0 [] [] (h.blocks_pairwise hd)
  have hsm : ∀ j B, st.currSet[j]? = some B →
      lookupD (numberBlocks 0 st.currSet [] []).2 B = j := by
    intro j B hj
    have := (n1 j B hj).1
    omega
  have hnsm : ∀ t, lookupD (numberBlocks 0 st.currSet [] []).1 t = lookupD st.stateSetID t := by
    intro t
    by_cases ht : t ∈ d.m_States
    · obtain ⟨B, hB, htB⟩ := (h.cover t).1 ht
      obtain ⟨j, hj⟩ := List.mem_iff_getElem?.1 hB
      rw [(n1 j B hj).2 t htB, h.ids j B hj t htB]
      omega
    · rw [n2 t (fun B hB hc => ht ((h.cover t).2 ⟨B, hB, hc⟩)), h.ids_out t ht]
      simp [lookupD, mapFind]
  have hpair : st.currSet.Pairwise (fun B B' =>
      lookupD (numberBlocks 0 st.currSet [] []).2 B ≠
        lookupD (numberBlocks 0 st.currSet [] []).2 B') := by
    apply pairwise_of_index
    intro i j a b hi hj hij
    rw [hsm i a hi, hsm j b hj]
    omega
  obtain ⟨s1, s1', s2, s3, s4, s5, s6⟩ := buildBlocksWith_spec junk st.original
    (numberBlocks 0 st.currSet [] []).1 (numberBlocks 0 st.currSet [] []).2 st.currSet
    { m_States := [], m_Transitions := [], m_InitialState := none, m_FinalStates := [] } hpair
  have idx : ∀ i, (∃ B ∈ st.currSet, lookupD (numberBlocks 0 st.currSet [] []).2 B = i) ↔
      i < st.currSet.length := by
    intro i
    constructor
    · rintro ⟨B, hB, hi⟩
      obtain ⟨j, hj⟩ := List.mem_iff_getElem?.1 hB
      rw [hsm j B hj] at hi
      rw [← hi]
      exact (List.getElem?_eq_some_iff.1 hj).1
    · intro hi
      exact ⟨st.currSet[i], List.getElem_mem _, hsm i _ (List.getElem?_eq_some_iff.2 ⟨hi, rfl⟩)⟩
  refine ⟨?_, s1' List.sorted_nil, ?_, ?_, ?_, ?_, s6 List.sorted_nil⟩
  · intro i
    rw [s1, idx]
    simp
  · intro i
    rw [s2, h.ext.finals_eq]
    simp only [List.not_mem_nil, false_or]
    constructor
    · rintro ⟨B, hB, hi, hf⟩
      obtain ⟨j, hj⟩ := List.mem_iff_getElem?.1 hB
      rw [hsm j B hj] at hi
      exact ⟨B, hi ▸ hj, hf⟩
    · rintro ⟨B, hB, hf⟩
      exact ⟨B, List.mem_iff_getElem?.2 ⟨i, hB⟩, hsm i B hB, hf⟩
  · rw [h.ext.initial_eq] at s3
    rcases s3 with ⟨B, hB, hin, hv⟩ | ⟨hno, -⟩
    · obtain ⟨j, hj⟩ := List.mem_iff_getElem?.1 hB
      rw [hv, hsm j B hj, h.ids j B hj _ hin]
    · obtain ⟨B, hB, hin⟩ := (h.cover _).1 hd.initial_mem
      exact absurd hin (hno B hB)
  · intro i B a hi ha
    have := s4 B (List.mem_iff_getElem?.2 ⟨i, hi⟩) a (h.ext.alphabet_eq.symm ▸ ha)
    rw [hsm i B hi] at this
    rw [this]
    have hfun : lookupD (numberBlocks 0 st.currSet [] []).1 = lookupD st.stateSetID :=
      funext hnsm
    rw [hfun]
    cases hf : mapFind (B.headD junk, a) st.original.m_Transitions with
    | none => simp [mapFind]
    | some v => simp
  · intro i a hia
    rw [s5 i a ?_]
    · simp [mapFind]
    · rcases hia with h1 | h1
      · left
        intro B hB hc
        have := (idx i).1 ⟨B, hB, hc⟩
        omega
      · right
        rw [h.ext.alphabet_eq]
        exact h1

/-! ## The sink scan of `minimize` on a partial automaton -/

/-- The read `m[k]` on any map: the value read is in the map afterwards, the map
only grows, and what it grows by is the key read, with value 0. -/
theorem mapIndex_gen (k : Nat × Nat) (t : List ((Nat × Nat) × Nat)) :
    mapFind k (mapIndex k t).2 = some (mapIndex k t).1 ∧
      TransLe t (mapIndex k t).2 ∧
      ((t.map Prod.fst).Sorted (fun a b => keyLt a b = true) →
        ((mapIndex k t).2.map Prod.fst).Sorted (fun a b => keyLt a b = true)) ∧
      (∀ k' v, mapFind k' (mapIndex k t).2 = some v →
        mapFind k' t = some v ∨ (k' = k ∧ v = 0)) ∧
      ((mapIndex k t).1 = 0 ∨ mapFind k t = some (mapIndex k t).1) := by
  unfold mapIndex
  cases hf : mapFind k t with
  | some v =>
    exact ⟨hf, TransLe.same _, fun h => h, fun k' v' h => Or.inl h, Or.inr rfl⟩
  | none =>
    simp only
    refine ⟨by rw [mapFind_mapAssign, if_pos rfl], ?_, mapAssign_keys_sorted _ _ _, ?_,
      Or.inl trivial⟩
    · intro k' v hk
      rw [mapFind_mapAssign]
      split_ifs with hkk
      · rw [← hkk, hf] at hk
        exact Option.noConfusion hk
      · exact hk
    · intro k' v hk
      rw [mapFind_mapAssign] at hk
      split_ifs at hk with hkk
      · exact Or.inr ⟨hkk.symm, (Option.some.inj hk).symm⟩
      · exact Or.inl hk

/-- Lines 154-159 on any map: the test of state `i`. -/
theorem isSinkLoop_gen (i : Nat) (finals : List Nat) :
    ∀ (syms : List Nat) (t : List ((Nat × Nat) × Nat)),
      TransLe t (isSinkLoop i finals syms t).2 ∧
      ((t.map Prod.fst).Sorted (fun a b => keyLt a b = true) →
        ((isSinkLoop i finals syms t).2.map Prod.fst).Sorted (fun a b => keyLt a b = true)) ∧
      (∀ k v, mapFind k (isSinkLoop i finals syms t).2 = some v →
        mapFind k t = some v ∨ (v = 0 ∧ k.1 = i ∧ k.2 ∈ syms)) ∧
      ((isSinkLoop i finals syms t).1 = true →
        (syms ≠ [] → i ∉ finals) ∧
          ∀ a ∈ syms, mapFind (i, a) (isSinkLoop i finals syms t).2 = some i) ∧
      ((isSinkLoop i finals syms t).1 = false →
        i ∈ finals ∨ ∃ a ∈ syms, ∃ v, v ≠ i ∧
          mapFind (i, a) (isSinkLoop i finals syms t).2 = some v) ∧
      (i = 0 → i ∉ finals → (∀ a v, mapFind (i, a) t = some v → v = i) →
        (isSinkLoop i finals syms t).1 = true) := by
  intro syms
  induction syms with
  | nil =>
    intro t
    simp only [isSinkLoop]
    exact ⟨TransLe.same _, fun h => h, fun k v h => Or.inl h,
      fun _ => ⟨fun hc => absurd rfl hc, fun a ha => absurd ha (List.not_mem_nil a)⟩,
      fun hc => absurd hc (by simp), fun _ _ _ => trivial⟩
  | cons j rest ih =>
    intro t
    obtain ⟨m1, m2, m3, m4, m5⟩ := mapIndex_gen (i, j) t
    obtain ⟨r1, r2, r3, r4, r5, r6⟩ := ih (mapIndex (i, j) t).2
    unfold isSinkLoop
    by_cases hc : ((mapIndex (i, j) t).1 != i || decide (i ∈ finals)) = true
    · simp only [hc, if_true]
      refine ⟨m2, m3, ?_, fun h => absurd h (by simp), fun _ => ?_, fun h0 hnf hall => ?_⟩
      · intro k v hk
        rcases m4 k v hk with h1 | ⟨h1, h2⟩
        · exact Or.inl h1
        · exact Or.inr ⟨h2, by rw [h1], by rw [h1]; simp⟩
      · simp only [Bool.or_eq_true, bne_iff_ne, ne_eq, decide_eq_true_eq] at hc
        rcases hc with h1 | h1
        · exact Or.inr ⟨j, by simp, _, h1, m1⟩
        · exact Or.inl h1
      · exfalso
        simp only [Bool.or_eq_true, bne_iff_ne, ne_eq, decide_eq_true_eq] at hc
        rcases hc with h1 | h1
        · rcases m5 with h2 | h2
          · exact h1 (h2.trans h0.symm)
          · exact h1 (hall j _ h2)
        · exact hnf h1
    · simp only [hc, if_false]
      simp only [Bool.or_eq_true, bne_iff_ne, ne_eq, decide_eq_true_eq, not_or, not_not] at hc
      refine ⟨m2.chain r1, fun h => r2 (m3 h), ?_, fun h => ⟨fun _ => hc.2, ?_⟩, fun h => ?_,
        fun h0 hnf hall => ?_⟩
      · intro k v hk
        rcases r3 k v hk with h1 | ⟨h1, h2, h3⟩
        · rcases m4 k v h1 with h4 | ⟨h4, h5⟩
          · exact Or.inl h4
          · exact Or.inr ⟨h5, by rw [h4], by rw [h4]; simp⟩
        · exact Or.inr ⟨h1, h2, by simp [h3]⟩
      · intro a ha
        rcases List.mem_cons.1 ha with rfl | ha
        · apply r1
          rw [m1, hc.1]
        · exact (r4 h).2 a ha
      · rcases r5 h with h1 | ⟨a, ha, v, hv, hf⟩
        · exact Or.inl h1
        · exact Or.inr ⟨a, by simp [ha], v, hv, hf⟩
      · apply r6 h0 hnf
        intro a v hav
        rcases m4 (i, a) v hav with h1 | ⟨-, h2⟩
        · exact hall a v h1
        · rw [h2, h0]

/-- Lines 151-174 on any map: the scan for the first sink. -/
theorem sinkScan_gen (alphabet finals : List Nat) :
    ∀ (states : List Nat) (t : List ((Nat × Nat) × Nat)),
      TransLe t (sinkScan alphabet finals states t).2 ∧
      ((t.map Prod.fst).Sorted (fun a b => keyLt a b = true) →
        ((sinkScan alphabet finals states t).2.map Prod.fst).Sorted
          (fun a b => keyLt a b = true)) ∧
      (∀ k v, mapFind k (sinkScan alphabet finals states t).2 = some v →
        mapFind k t = some v ∨ (v = 0 ∧ k.2 ∈ alphabet)) ∧
      (∀ s, (sinkScan alphabet finals states t).1 = some s →
        s ∈ states ∧ (alphabet ≠ [] → s ∉ finals) ∧
          ∀ a ∈ alphabet, mapFind (s, a) (sinkScan alphabet finals states t).2 = some s) ∧
      ((sinkScan alphabet finals states t).1 = none →
        ∀ i ∈ states, i ∈ finals ∨ ∃ a ∈ alphabet, ∃ v, v ≠ i ∧
          mapFind (i, a) (sinkScan alphabet finals states t).2 = some v) ∧
      (states.head? = some 0 → 0 ∉ finals → (∀ a v, mapFind (0, a) t = some v → v = 0) →
        (sinkScan alphabet finals states t).1 = some 0) := by
  intro states
  induction states with
  | nil =>
    intro t
    simp only [sinkScan]
    exact ⟨TransLe.same _, fun h => h, fun k v h => Or.inl h, fun s hs => by simp at hs,
      fun _ i hi => absurd hi (List.not_mem_nil i), fun hc => by simp at hc⟩
  | cons i rest ih =>
    intro t
    obtain ⟨l1, l2, l3, l4, l5, l6⟩ := isSinkLoop_gen i finals alphabet t
    obtain ⟨r1, r2, r3, r4, r5, -⟩ := ih (isSinkLoop i finals alphabet t).2
    unfold sinkScan
    by_cases hc : (isSinkLoop i finals alphabet t).1 = true
    · simp only [hc, if_true]
      refine ⟨l1, l2, ?_, ?_, fun h => by simp at h, fun _ _ _ => ?_⟩
      · intro k v hk
        rcases l3 k v hk with h1 | ⟨h1, -, h3⟩
        · exact Or.inl h1
        · exact Or.inr ⟨h1, h3⟩
      · intro s hs
        have hs' : i = s := Option.some.inj hs
        subst hs'
        exact ⟨by simp, (l4 hc).1, (l4 hc).2⟩
      · simp only [List.head?_cons, Option.some.injEq] at *
        subst_vars
        rfl
    · simp only [hc, if_false]
      have hc' : (isSinkLoop i finals alphabet t).1 = false := by simpa using hc
      refine ⟨l1.chain r1, fun h => r2 (l2 h), ?_, ?_, ?_, fun h0 hnf hall => ?_⟩
      · intro k v hk
        rcases r3 k v hk with h1 | h1
        · rcases l3 k v h1 with h2 | ⟨h2, -, h4⟩
          · exact Or.inl h2
          · exact Or.inr ⟨h2, h4⟩
        · exact Or.inr h1
      · intro s hs
        obtain ⟨h1, h2, h3⟩ := r4 s hs
        exact ⟨by simp [h1], h2, h3⟩
      · intro hn j hj
        rcases List.mem_cons.1 hj with rfl | hj
        · rcases l5 hc' with h1 | ⟨a, ha, v, hv, hf⟩
          · exact Or.inl h1
          · exact Or.inr ⟨a, ha, v, hv, r1 _ _ hf⟩
        · exact r5 hn j hj
      · exfalso
        simp only [List.head?_cons, Option.some.injEq] at h0
        exact hc (l6 h0 (h0 ▸ hnf) (by rw [h0]; exact hall))

theorem restInaccessible_of_loops {initial : Nat} {alphabet : List Nat}
    {t : List ((Nat × Nat) × Nat)}
    (h : ∀ a ∈ alphabet, ∀ v, mapFind (initial, a) t = some v → v = initial) :
    restInaccessible initial alphabet t = true := by
  unfold restInaccessible
  rw [List.all_eq_true]
  intro a ha
  cases hf : mapFind (initial, a) t with
  | none => rfl
  | some v => simp [h a ha v hf]

/-- Shape of the result of lines 149-201 of `minimize` on an automaton with at
least two states: either a single state is left, or the alphabet is not empty,
some transition of the initial state leaves it, and the result is the automaton
after the scan, without the sink if one was found. -/
theorem pruneResult_cases (alphabet : List Nat) (b : Building) (i0 : Nat)
    (hinit : b.m_InitialState = some i0)
    (htwo : ∃ x ∈ b.m_States, ∃ y ∈ b.m_States, x ≠ y) :
    ∃ D', pruneResult alphabet b = some D' ∧ D'.m_Alphabet = alphabet ∧
      D'.m_FinalStates = b.m_FinalStates ∧
      (D'.m_States = [D'.m_InitialState] ∨
        (alphabet ≠ [] ∧ (i0 ∈ D'.m_States → D'.m_InitialState = i0) ∧
          restInaccessible D'.m_InitialState alphabet D'.m_Transitions = false ∧
          (((sinkScan alphabet b.m_FinalStates b.m_States b.m_Transitions).1 = none ∧
              D'.m_States = b.m_States ∧
              D'.m_Transitions =
                (sinkScan alphabet b.m_FinalStates b.m_States b.m_Transitions).2) ∨
            ∃ s, (sinkScan alphabet b.m_FinalStates b.m_States b.m_Transitions).1 = some s ∧
              D'.m_States = b.m_States.filter (fun x => x != s) ∧
              D'.m_Transitions =
                (sinkScan alphabet b.m_FinalStates b.m_States b.m_Transitions).2.filter
                  (fun e => e.1.1 != s && e.2 != s)))) := by
  have halpha : ∀ (i : Nat) (t : List ((Nat × Nat) × Nat)),
      ¬ restInaccessible i alphabet t = true → alphabet ≠ [] := by
    intro i t h hc
    apply h
    rw [hc]
    rfl
  obtain ⟨x, hx, y, hy, hxy⟩ := htwo
  unfold pruneResult
  simp only [hinit]
  generalize sinkScan alphabet b.m_FinalStates b.m_States b.m_Transitions = scan
  obtain ⟨s1, s2⟩ := scan
  cases s1 with
  | none =>
    simp only
    obtain ⟨ini, hini, hini'⟩ : ∃ ini, (if i0 ∈ b.m_States then some i0 else b.m_States.head?) =
        some ini ∧ (i0 ∈ b.m_States → ini = i0) := by
      split_ifs with h
      · exact ⟨i0, rfl, fun _ => rfl⟩
      · cases hst : b.m_States with
        | nil => rw [hst] at hx; simp at hx
        | cons z zs => exact ⟨z, rfl, fun hc => absurd (hst ▸ hc) h⟩
    simp only [hini]
    by_cases hr : restInaccessible ini alphabet s2 = true
    · rw [if_pos hr]
      exact ⟨_, rfl, rfl, rfl, Or.inl rfl⟩
    · rw [if_neg hr]
      exact ⟨_, rfl, rfl, rfl, Or.inr ⟨halpha _ _ hr, hini', by simpa using hr,
        Or.inl ⟨trivial, rfl, rfl⟩⟩⟩
  | some s =>
    simp only
    obtain ⟨ini, hini, hini'⟩ : ∃ ini, (if i0 ∈ b.m_States.filter (fun x => x != s) then some i0
        else (b.m_States.filter (fun x => x != s)).head?) = some ini ∧
        (i0 ∈ b.m_States.filter (fun x => x != s) → ini = i0) := by
      split_ifs with h
      · exact ⟨i0, rfl, fun _ => rfl⟩
      · have hz : ∃ z, z ∈ b.m_States.filter (fun x => x != s) := by
          by_cases hxs : x = s
          · exact ⟨y, List.mem_filter.2 ⟨hy, by simpa using fun hc => hxy (hxs.trans hc.symm)⟩⟩
          · exact ⟨x, List.mem_filter.2 ⟨hx, by simpa using hxs⟩⟩
        obtain ⟨z, hz⟩ := hz
        cases hst : b.m_States.filter (fun x => x != s) with
        | nil => rw [hst] at hz; simp at hz
        | cons z zs => exact ⟨z, rfl, fun hc => absurd (hst ▸ hc) h⟩
    simp only [hini]
    by_cases hr : restInaccessible ini alphabet
        (s2.filter (fun e => e.1.1 != s && e.2 != s)) = true
    · rw [if_pos hr]
      exact ⟨_, rfl, rfl, rfl, Or.inl rfl⟩
    · rw [if_neg hr]
      exact ⟨_, rfl, rfl, rfl, Or.inr ⟨halpha _ _ hr, hini', by simpa using hr,
        Or.inr ⟨s, rfl, rfl, rfl⟩⟩⟩

/-! ## `minimize` on any well-formed DFA -/

theorem sorted_head_zero {l : List Nat} (hs : l.Sorted (· < ·)) (h0 : 0 ∈ l) :
    l.head? = some 0 := by
  cases l with
  | nil => simp at h0
  | cons x xs =>
    rcases List.mem_cons.1 h0 with h | h
    · rw [← h]; rfl
    · have := List.rel_of_sorted_cons hs 0 h
      omega

theorem sorted_two {l : List Nat} (hs : l.Sorted (· < ·)) (h : ∀ i, i ∈ l ↔ i < 2) :
    l = [0, 1] := by
  apply sorted_ext hs (by decide)
  intro x
  rw [h]
  simp only [List.mem_cons, List.mem_singleton, List.not_mem_nil, or_false]
  omega

/-- Where no block is empty, `buildBlocks` is defined, with the value of
`buildBlocksWith`. -/
theorem buildBlocks_of_nonempty (junk : Nat) (original : DFA) (nsm : List (Nat × Nat))
    (sm : List (List Nat × Nat)) :
    ∀ (blocks : List (List Nat)) (b : Building), (∀ B ∈ blocks, B ≠ []) →
      buildBlocks original nsm sm blocks b =
        some (buildBlocksWith junk original nsm sm blocks b) := by
  intro blocks
  induction blocks with
  | nil => intro b _; rfl
  | cons set rest ih =>
    intro b h
    cases set with
    | nil => exact absurd rfl (h [] (by simp))
    | cons first tl =>
      simp only [buildBlocks, buildBlocksWith, List.headD_cons]
      exact ih _ (fun B hB => h B (by simp [hB]))

/-- The refinement loop of `minimize` returns on every DFA with closed references
(its transition map is in key order, as every `std::map` is), and lines
119-201 then prune the automaton built from the blocks. A property `P` of the
variables that every round of the loop keeps holds of the blocks. -/
theorem minimizeWith_setup {d : DFA} (hd : d.Closed)
    (hs : (d.m_Transitions.map Prod.fst).Sorted (fun a b => keyLt a b = true))
    (junk : Nat) (P : RefineState → Prop)
    (hP : ∀ i st, GenInv d (refineSize d) st → i < st.currSet.length → P st →
      P (refineBlock i st))
    (hP0 : P (refineStart d)) :
    ∃ st, GenInv d (refineSize d) st ∧ P st ∧
      (∀ B ∈ st.currSet, FullBlock d st.stateSetID st.original.m_Transitions B) ∧
      Quot d junk st
        (buildBlocksWith junk st.original (numberBlocks 0 st.currSet [] []).1
          (numberBlocks 0 st.currSet [] []).2 st.currSet
          { m_States := [], m_Transitions := [], m_InitialState := none,
            m_FinalStates := [] }) ∧
      minimizeWith junk d =
        pruneResult d.m_Alphabet
          (buildBlocksWith junk st.original (numberBlocks 0 st.currSet [] []).1
            (numberBlocks 0 st.currSet [] []).2 st.currSet
            { m_States := [], m_Transitions := [], m_InitialState := none,
              m_FinalStates := [] }) ∧
      ((∀ B ∈ st.currSet, B ≠ []) →
        minimize d =
          pruneResult d.m_Alphabet
            (buildBlocksWith junk st.original (numberBlocks 0 st.currSet [] []).1
              (numberBlocks 0 st.currSet [] []).2 st.currSet
              { m_States := [], m_Transitions := [], m_InitialState := none,
                m_FinalStates := [] })) := by
  have hinit := genInv_init hd hs
  obtain ⟨st, hloop, hinv, hp, hfull⟩ := refineLoop_gen P hP (refineSize d + 2) (refineStart d)
    hinit (by have := hinit.two; omega) hP0
  refine ⟨st, hinv, hp, hfull, quot_build hd hinv junk, ?_, fun hne => ?_⟩
  · rw [minimizeWith_eq_refine, hloop]
  · rw [minimize_eq_refine, hloop]
    simp only
    rw [buildBlocks_of_nonempty junk _ _ _ _ _ hne]

/-- The automaton built from the blocks has the states 0 and 1. -/
theorem Quot.two_states {d : DFA} {junk n : Nat} {st : RefineState} {b : Building}
    (hq : Quot d junk st b) (h : GenInv d n st) :
    ∃ x ∈ b.m_States, ∃ y ∈ b.m_States, x ≠ y := by
  have := h.two
  exact ⟨0, (hq.states_iff 0).2 (by omega), 1, (hq.states_iff 1).2 (by omega), by omega⟩

/-- States that the refinement tells apart have blocks that some word tells apart,
in the automaton built from the blocks and in every automaton with more
transitions. -/
theorem quot_apart {d : DFA} {junk n z : Nat} {st : RefineState} {b : Building}
    (h : GenInv d n st)
    (hz : (d.m_States.filter (fun s => !d.m_FinalStates.contains s)).head? = some z)
    (hfull : ∀ B ∈ st.currSet, FullBlock d st.stateSetID st.original.m_Transitions B)
    (hne : ∀ B ∈ st.currSet, B ≠ []) (hq : Quot d junk st b) (X : DFA)
    (hX : TransLe b.m_Transitions X.m_Transitions) (hXf : X.m_FinalStates = b.m_FinalStates)
    {x y : Nat} (ha : Apart d st.original.m_Transitions z x y) :
    x ∈ d.m_States → y ∈ d.m_States →
      ∃ w, X.acceptsFrom (lookupD st.stateSetID x) w ≠
        X.acceptsFrom (lookupD st.stateSetID y) w := by
  -- the block of a state
  have block_of : ∀ q ∈ d.m_States, ∃ first tl,
      st.currSet[lookupD st.stateSetID q]? = some (first :: tl) ∧ q ∈ first :: tl := by
    intro q hq'
    obtain ⟨B, hB, hqB⟩ := (h.cover q).1 hq'
    obtain ⟨j, hj⟩ := List.mem_iff_getElem?.1 hB
    obtain ⟨first, tl, rfl⟩ := List.exists_cons_of_ne_nil (hne B hB)
    exact ⟨first, tl, by rw [h.ids j _ hj q hqB]; exact hj, hqB⟩
  have final_iff : ∀ q ∈ d.m_States,
      (lookupD st.stateSetID q ∈ X.m_FinalStates ↔ q ∈ d.m_FinalStates) := by
    intro q hq'
    obtain ⟨first, tl, hB, hqB⟩ := block_of q hq'
    rw [hXf, hq.finals_iff]
    constructor
    · rintro ⟨B, hB', hf⟩
      rw [hB] at hB'
      rw [← Option.some.inj hB'] at hf
      exact (h.final_resp _ (List.mem_iff_getElem?.2 ⟨_, hB⟩) first (by simp) q hqB).1 hf
    · intro hf
      exact ⟨_, hB,
        (h.final_resp _ (List.mem_iff_getElem?.2 ⟨_, hB⟩) first (by simp) q hqB).2 hf⟩
  have move : ∀ q ∈ d.m_States, ∀ a ∈ d.m_Alphabet, ∀ q',
      mapFind (q, a) st.original.m_Transitions = some q' →
      mapFind (lookupD st.stateSetID q, a) X.m_Transitions =
        some (lookupD st.stateSetID q') := by
    intro q hq' a ha' q' hf
    obtain ⟨first, tl, hB, hqB⟩ := block_of q hq'
    apply hX
    rw [hq.trans_eq _ _ a hB ha']
    simp only [List.headD_cons]
    by_cases hqf : q = first
    · rw [← hqf, hf]; rfl
    · obtain ⟨hag, hk⟩ := hfull _ (List.mem_iff_getElem?.2 ⟨_, hB⟩) q hqB hqf
      simp only [List.headD_cons] at hag hk
      have h1 := (hk a ha').2.find_value
      rw [h1]
      simp only [Option.map_some']
      have h2 := (agreeOn_iff d _ _ _).1 hag a ha'
      rw [h.ext.delta_eq, ← h2, ← h.ext.delta_eq, lookupD_of_mapFind hf]
  induction ha with
  | base hb =>
    intro hx hy
    refine ⟨[], ?_⟩
    rw [DFA.acceptsFrom_nil, DFA.acceptsFrom_nil]
    intro hc
    apply hb
    rw [← final_iff _ hx, ← final_iff _ hy]
    simpa using hc
  | step ha' hfx hfy _ ih =>
    intro hx hy
    rename_i a x' y' _
    obtain ⟨m1, i1⟩ := h.ids_rep hz x'
    obtain ⟨m2, i2⟩ := h.ids_rep hz y'
    obtain ⟨w, hw⟩ := ih m1 m2
    refine ⟨a :: w, ?_⟩
    rw [DFA.acceptsFrom_cons, DFA.acceptsFrom_cons, move _ hx a ha' _ hfx,
      move _ hy a ha' _ hfy]
    simp only
    rw [← i1, ← i2]
    exact hw


/-- After the sink scan no transition has a symbol outside the alphabet. -/
theorem Quot.scan_symbols {d : DFA} {junk : Nat} {st : RefineState} {b : Building}
    (hq : Quot d junk st b) (i a : Nat) (ha : a ∉ d.m_Alphabet) :
    mapFind (i, a)
      (sinkScan d.m_Alphabet b.m_FinalStates b.m_States b.m_Transitions).2 = none := by
  obtain ⟨-, -, s2, -⟩ := sinkScan_gen d.m_Alphabet b.m_FinalStates b.m_States b.m_Transitions
  cases hf : mapFind (i, a)
      (sinkScan d.m_Alphabet b.m_FinalStates b.m_States b.m_Transitions).2 with
  | none => rfl
  | some v =>
    rcases s2 _ _ hf with h1 | ⟨-, h1⟩
    · rw [hq.trans_none i a (Or.inr ha)] at h1
      exact Option.noConfusion h1
    · exact absurd h1 ha

/-- On a DFA with closed references that has an accepting and a non-accepting
state, total or not, `minimize` returns a DFA whose states are pairwise told apart by some word,
and in which a non-accepting state whose transitions all lead to itself is the
only state. -/
theorem minimize_both_kinds {d : DFA} (hd : d.Closed)
    (hs : (d.m_Transitions.map Prod.fst).Sorted (fun a b => keyLt a b = true))
    (hnf : ∃ q ∈ d.m_States, q ∉ d.m_FinalStates) (hf : d.m_FinalStates ≠ []) (junk : Nat) :
    ∃ D', minimizeWith junk d = some D' ∧ minimize d = some D' ∧
      (∀ p ∈ D'.m_States, ∀ q ∈ D'.m_States, p ≠ q →
        ∃ w, D'.acceptsFrom p w ≠ D'.acceptsFrom q w) ∧
      (∀ t ∈ D'.m_States, t ∉ D'.m_FinalStates →
        (∀ a ∈ D'.m_Alphabet, mapFind (t, a) D'.m_Transitions = some t) →
        D'.m_States = [t]) := by
  obtain ⟨z, hz⟩ : ∃ z,
      (d.m_States.filter (fun s => !d.m_FinalStates.contains s)).head? = some z := by
    obtain ⟨q, hq1, hq2⟩ := hnf
    have hm := (mem_nonFinal d q).2 ⟨hq1, hq2⟩
    cases hl : d.m_States.filter (fun s => !d.m_FinalStates.contains s) with
    | nil => rw [hl] at hm; exact absurd hm (List.not_mem_nil q)
    | cons x xs => exact ⟨x, rfl⟩
  obtain ⟨f, hfh⟩ : ∃ f, d.m_FinalStates.head? = some f := by
    cases hl : d.m_FinalStates with
    | nil => exact absurd hl hf
    | cons x xs => exact ⟨x, rfl⟩
  obtain ⟨st, hinv, hap, hfull, hq, hmw, hmin⟩ := minimizeWith_setup hd hs junk (ApartInv d z)
    (fun i st h hi hp => refineBlock_apart hz i st h hi hp) (apartInv_init d z)
  have hne : ∀ B ∈ st.currSet, B ≠ [] := by
    intro B hB
    obtain ⟨j, hj⟩ := List.mem_iff_getElem?.1 hB
    by_cases hj2 : 2 ≤ j
    · exact hinv.late j B hj hj2
    · rcases Nat.lt_or_ge j 1 with hj0 | hj1
      · have hj0' : j = 0 := by omega
        subst hj0'
        obtain ⟨B0, hB0, hh⟩ := hinv.head_zero
        rw [hj] at hB0
        rw [← Option.some.inj hB0, hz] at hh
        intro hc
        rw [hc] at hh
        simp at hh
      · have hj1' : j = 1 := by omega
        subst hj1'
        obtain ⟨B1, hB1, hh⟩ := hinv.head_one
        rw [hj] at hB1
        rw [← Option.some.inj hB1, hfh] at hh
        intro hc
        rw [hc] at hh
        simp at hh
  have hmin' := hmin hne
  generalize buildBlocksWith junk st.original (numberBlocks 0 st.currSet [] []).1
    (numberBlocks 0 st.currSet [] []).2 st.currSet
    { m_States := [], m_Transitions := [], m_InitialState := none, m_FinalStates := [] } = b
    at hq hmw hmin'
  obtain ⟨D', hD', hal, hfin, hshape⟩ :=
    pruneResult_cases d.m_Alphabet b _ hq.initial_eq (hq.two_states hinv)
  obtain ⟨s0, s1, s2, s3, s4, -⟩ :=
    sinkScan_gen d.m_Alphabet b.m_FinalStates b.m_States b.m_Transitions
  have hnd := keys_nodup_of_sorted (s1 hq.keys_sorted)
  -- distinct states of the automaton built are told apart
  have sep : ∀ X : DFA, TransLe b.m_Transitions X.m_Transitions →
      X.m_FinalStates = b.m_FinalStates → ∀ p ∈ b.m_States, ∀ q ∈ b.m_States, p ≠ q →
      ∃ w, X.acceptsFrom p w ≠ X.acceptsFrom q w := by
    intro X hX hXf p hp q hq' hpq
    have member : ∀ i ∈ b.m_States, ∃ x ∈ d.m_States, lookupD st.stateSetID x = i := by
      intro i hi
      have hil := (hq.states_iff i).1 hi
      have hB : st.currSet[i]? = some st.currSet[i] := List.getElem?_eq_some_iff.2 ⟨hil, rfl⟩
      obtain ⟨x, hx⟩ := List.exists_mem_of_ne_nil _ (hne _ (List.getElem_mem hil))
      exact ⟨x, hinv.block_states hB hx, hinv.ids i _ hB x hx⟩
    obtain ⟨x, hx, hxp⟩ := member p hp
    obtain ⟨y, hy, hyq⟩ := member q hq'
    have := quot_apart hinv hz hfull hne hq X hX hXf
      (hap x hx y hy (by rw [hxp, hyq]; exact hpq)) hx hy
    rw [hxp, hyq] at this
    exact this
  refine ⟨D', by rw [hmw, hD'], by rw [hmin', hD'], fun p hp q hq' hpq => ?_,
    fun t ht1 ht2 ht3 => ?_⟩
  · rcases hshape with h1 | ⟨hα, -, -, ⟨-, h1, h2⟩ | ⟨s, hs, h1, h2⟩⟩
    · rw [h1] at hp hq'
      simp only [List.mem_singleton] at hp hq'
      exact absurd (hp.trans hq'.symm) hpq
    · rw [h1] at hp hq'
      exact sep D' (by rw [h2]; exact s0) hfin p hp q hq' hpq
    · rw [h1] at hp hq'
      obtain ⟨hp1, hp2⟩ := List.mem_filter.1 hp
      obtain ⟨hq1, hq2⟩ := List.mem_filter.1 hq'
      obtain ⟨-, hsnf, hsl⟩ := s3 s hs
      obtain ⟨X, hXt, hXf⟩ : ∃ X : DFA, X.m_Transitions =
          (sinkScan d.m_Alphabet b.m_FinalStates b.m_States b.m_Transitions).2 ∧
          X.m_FinalStates = b.m_FinalStates :=
        ⟨{ m_States := b.m_States, m_Alphabet := d.m_Alphabet,
           m_Transitions :=
             (sinkScan d.m_Alphabet b.m_FinalStates b.m_States b.m_Transitions).2,
           m_InitialState := 0, m_FinalStates := b.m_FinalStates }, rfl, rfl⟩
      obtain ⟨w, hw⟩ := sep X (by rw [hXt]; exact s0) hXf p hp1 q hq1 hpq
      have habs : ∀ a, mapFind (s, a)
            (sinkScan d.m_Alphabet b.m_FinalStates b.m_States b.m_Transitions).2 = some s ∨
          mapFind (s, a)
            (sinkScan d.m_Alphabet b.m_FinalStates b.m_States b.m_Transitions).2 = none := by
        intro a
        by_cases ha : a ∈ d.m_Alphabet
        · exact Or.inl (hsl a ha)
        · exact Or.inr (hq.scan_symbols s a ha)
      refine ⟨w, ?_⟩
      rw [← hXt] at h2 hnd habs
      rw [← hXf] at hfin
      rw [acceptsFrom_remove_sink X D' s h2 hfin hnd habs (by rw [hXf]; exact hsnf hα)
          (by simpa using hp2),
        acceptsFrom_remove_sink X D' s h2 hfin hnd habs (by rw [hXf]; exact hsnf hα)
          (by simpa using hq2)]
      exact hw
  · rw [hal] at ht3
    rw [hfin] at ht2
    rcases hshape with h1 | ⟨hα, -, -, ⟨hs, h1, h2⟩ | ⟨s, hs, h1, h2⟩⟩
    · rw [h1] at ht1 ⊢
      simp only [List.mem_singleton] at ht1
      rw [ht1]
    · exfalso
      rw [h1] at ht1
      rcases s4 hs t ht1 with hc | ⟨a, ha, v, hv, hfv⟩
      · exact ht2 hc
      · have := ht3 a ha
        rw [h2, hfv] at this
        exact hv (Option.some.inj this)
    · exfalso
      rw [h1] at ht1
      obtain ⟨ht1m, hts⟩ := List.mem_filter.1 ht1
      have hts' : t ≠ s := by simpa using hts
      obtain ⟨hsm, hsnf, hsl⟩ := s3 s hs
      have habs : ∀ a, mapFind (s, a)
            (sinkScan d.m_Alphabet b.m_FinalStates b.m_States b.m_Transitions).2 = some s ∨
          mapFind (s, a)
            (sinkScan d.m_Alphabet b.m_FinalStates b.m_States b.m_Transitions).2 = none := by
        intro a
        by_cases ha : a ∈ d.m_Alphabet
        · exact Or.inl (hsl a ha)
        · exact Or.inr (hq.scan_symbols s a ha)
      have habst : ∀ a, mapFind (t, a)
            (sinkScan d.m_Alphabet b.m_FinalStates b.m_States b.m_Transitions).2 = some t ∨
          mapFind (t, a)
            (sinkScan d.m_Alphabet b.m_FinalStates b.m_States b.m_Transitions).2 = none := by
        intro a
        by_cases ha : a ∈ d.m_Alphabet
        · left
          have := ht3 a ha
          rw [h2] at this
          have hm := mapFind_mem this
          exact mapFind_of_mem_nodup hnd (List.mem_filter.1 hm).1
        · exact Or.inr (hq.scan_symbols t a ha)
      obtain ⟨X, hXt, hXf⟩ : ∃ X : DFA, X.m_Transitions =
          (sinkScan d.m_Alphabet b.m_FinalStates b.m_States b.m_Transitions).2 ∧
          X.m_FinalStates = b.m_FinalStates :=
        ⟨{ m_States := b.m_States, m_Alphabet := d.m_Alphabet,
           m_Transitions :=
             (sinkScan d.m_Alphabet b.m_FinalStates b.m_States b.m_Transitions).2,
           m_InitialState := 0, m_FinalStates := b.m_FinalStates }, rfl, rfl⟩
      obtain ⟨w, hw⟩ := sep X (by rw [hXt]; exact s0) hXf t ht1m s hsm hts'
      apply hw
      rw [← hXt] at habs habst
      rw [acceptsFrom_absorbing X t habst (by rw [hXf]; exact ht2) w,
        acceptsFrom_absorbing X s habs (by rw [hXf]; exact hsnf hα) w]


theorem GenInv.length_two {d : DFA} {n : Nat} {st : RefineState} (h : GenInv d n st)
    (hs : ∀ x ∈ d.m_States, lookupD st.stateSetID x < 2) : st.currSet.length = 2 := by
  by_contra hc
  have h2 := h.two
  have hl : 2 < st.currSet.length := by omega
  have hB : st.currSet[2]? = some st.currSet[2] := List.getElem?_eq_some_iff.2 ⟨hl, rfl⟩
  obtain ⟨x, hx⟩ := List.exists_mem_of_ne_nil _ (h.late 2 _ hB (le_refl 2))
  have := hs x (h.block_states hB hx)
  rw [h.ids 2 _ hB x hx] at this
  omega

/-- On a DFA with closed references and without accepting states, `minimize` reads
the first
element of the empty accepting block; whatever that read yields, the DFA returned
has a single state. -/
theorem minimize_no_final {d : DFA} (hd : d.Closed)
    (hs : (d.m_Transitions.map Prod.fst).Sorted (fun a b => keyLt a b = true))
    (hnf : ∃ q ∈ d.m_States, q ∉ d.m_FinalStates) (hf : d.m_FinalStates = []) (junk : Nat) :
    ∃ D' s, minimizeWith junk d = some D' ∧ D'.m_States = [s] := by
  obtain ⟨z, hz⟩ : ∃ z,
      (d.m_States.filter (fun s => !d.m_FinalStates.contains s)).head? = some z := by
    obtain ⟨q, hq1, hq2⟩ := hnf
    have hm := (mem_nonFinal d q).2 ⟨hq1, hq2⟩
    cases hl : d.m_States.filter (fun s => !d.m_FinalStates.contains s) with
    | nil => rw [hl] at hm; exact absurd hm (List.not_mem_nil q)
    | cons x xs => exact ⟨x, rfl⟩
  obtain ⟨st, hinv, hp, -, hq, hmw, -⟩ := minimizeWith_setup hd hs junk
    (fun st => ∀ x, lookupD st.stateSetID x = 0)
    (fun i st h hi hp => by
      obtain ⟨B, hB⟩ : ∃ B, st.currSet[i]? = some B :=
        ⟨st.currSet[i], List.getElem?_eq_some_iff.2 ⟨hi, rfl⟩⟩
      obtain ⟨hinv', -, -, -, hsplit⟩ := refineBlock_gen h hB
      have heq : ∀ x ∈ d.m_States, ∀ y ∈ d.m_States,
          lookupD (refineBlock i st).stateSetID x = lookupD (refineBlock i st).stateSetID y := by
        intro x hx y hy
        by_contra hc
        rcases hsplit x hx y hy hc with h1 | ⟨a, -, -, -, h1⟩
        · exact h1 ((hp x).trans (hp y).symm)
        · exact h1 ((hp _).trans (hp _).symm)
      intro x
      by_cases hx : x ∈ d.m_States
      · rw [heq x hx z (hinv'.head_mem hz).1]
        exact (hinv'.head_mem hz).2
      · exact hinv'.ids_out x hx)
    (fun x => by rw [refineStart_ids, hf]; simp)
  have hlen : st.currSet.length = 2 :=
    hinv.length_two (fun x _ => by rw [hp x]; omega)
  generalize buildBlocksWith junk st.original (numberBlocks 0 st.currSet [] []).1
    (numberBlocks 0 st.currSet [] []).2 st.currSet
    { m_States := [], m_Transitions := [], m_InitialState := none, m_FinalStates := [] } = b
    at hq hmw
  have hstates : b.m_States = [0, 1] :=
    sorted_two hq.states_sorted (fun i => by rw [hq.states_iff, hlen])
  obtain ⟨D', hD', -, -, hshape⟩ :=
    pruneResult_cases d.m_Alphabet b _ hq.initial_eq (hq.two_states hinv)
  obtain ⟨-, -, -, -, -, s5⟩ :=
    sinkScan_gen d.m_Alphabet b.m_FinalStates b.m_States b.m_Transitions
  have hsink : (sinkScan d.m_Alphabet b.m_FinalStates b.m_States b.m_Transitions).1 =
      some 0 := by
    apply s5
    · rw [hstates]; rfl
    · rw [hq.finals_iff]
      rintro ⟨B, -, hc⟩
      rw [hf] at hc
      exact absurd hc (List.not_mem_nil _)
    · intro a v hav
      by_cases ha : a ∈ d.m_Alphabet
      · obtain ⟨B0, hB0, -⟩ := hinv.head_zero
        rw [hq.trans_eq 0 B0 a hB0 ha] at hav
        cases hm : mapFind (B0.headD junk, a) st.original.m_Transitions with
        | none => rw [hm] at hav; exact Option.noConfusion hav
        | some u =>
          rw [hm] at hav
          simp only [Option.map_some', Option.some.injEq] at hav
          rw [← hav, hp u]
      · rw [hq.trans_none 0 a (Or.inr ha)] at hav
        exact Option.noConfusion hav
  have hsingle : ∃ s, D'.m_States = [s] := by
    rcases hshape with h1 | ⟨-, -, -, ⟨hs, -, -⟩ | ⟨s, hs, h1, -⟩⟩
    · exact ⟨_, h1⟩
    · rw [hsink] at hs
      exact Option.noConfusion hs
    · rw [hsink] at hs
      rw [← Option.some.inj hs, hstates] at h1
      exact ⟨1, by rw [h1]; rfl⟩
  obtain ⟨s, hs⟩ := hsingle
  exact ⟨D', s, by rw [hmw, hD'], hs⟩

/-- On a total DFA with closed references all of whose states are accepting,
`minimize` reads
the first element of the empty block of non-accepting states; whatever that read
yields, the DFA returned has a single state. -/
theorem minimize_all_final_total {d : DFA} (hd : d.Closed)
    (hs : (d.m_Transitions.map Prod.fst).Sorted (fun a b => keyLt a b = true))
    (hall : ∀ q ∈ d.m_States, q ∈ d.m_FinalStates) (ht : d.Total) (junk : Nat) :
    ∃ D' s, minimizeWith junk d = some D' ∧ D'.m_States = [s] := by
  obtain ⟨f, hfh⟩ : ∃ f, d.m_FinalStates.head? = some f := by
    have := hall _ hd.initial_mem
    cases hl : d.m_FinalStates with
    | nil => rw [hl] at this; exact absurd this (List.not_mem_nil _)
    | cons x xs => exact ⟨x, rfl⟩
  have head1 : ∀ {n : Nat} {st : RefineState}, GenInv d n st →
      ∃ tl, st.currSet[1]? = some (f :: tl) := by
    intro n st h
    obtain ⟨B1, hB1, hh⟩ := h.head_one
    rw [hfh] at hh
    cases B1 with
    | nil => simp at hh
    | cons x xs =>
      simp only [List.head?_cons, Option.some.injEq] at hh
      exact ⟨xs, hh ▸ hB1⟩
  obtain ⟨st, hinv, hp, -, hq, hmw, -⟩ := minimizeWith_setup hd hs junk
    (fun st => ∀ x ∈ d.m_States, lookupD st.stateSetID x = 1)
    (fun i st h hi hp => by
      obtain ⟨B, hB⟩ : ∃ B, st.currSet[i]? = some B :=
        ⟨st.currSet[i], List.getElem?_eq_some_iff.2 ⟨hi, rfl⟩⟩
      obtain ⟨hinv', -, -, -, hsplit⟩ := refineBlock_gen h hB
      have heq : ∀ x ∈ d.m_States, ∀ y ∈ d.m_States,
          lookupD (refineBlock i st).stateSetID x = lookupD (refineBlock i st).stateSetID y := by
        intro x hx y hy
        by_contra hc
        rcases hsplit x hx y hy hc with h1 | ⟨a, ha, -, -, h1⟩
        · exact h1 ((hp x hx).trans (hp y hy).symm)
        · exact h1 ((hp _ (DFA.delta_mem hd ht hx ha)).trans
            (hp _ (DFA.delta_mem hd ht hy ha)).symm)
      obtain ⟨tl, htl⟩ := head1 hinv'
      intro x hx
      rw [heq x hx f (hinv'.block_states htl (by simp))]
      exact hinv'.ids 1 _ htl f (by simp))
    (fun x hx => by rw [refineStart_ids, if_pos (hall x hx)])
  have hlen : st.currSet.length = 2 :=
    hinv.length_two (fun x hx => by rw [hp x hx]; omega)
  obtain ⟨tl, htl⟩ := head1 hinv
  have hfS : f ∈ d.m_States := hinv.block_states htl (by simp)
  generalize buildBlocksWith junk st.original (numberBlocks 0 st.currSet [] []).1
    (numberBlocks 0 st.currSet [] []).2 st.currSet
    { m_States := [], m_Transitions := [], m_InitialState := none, m_FinalStates := [] } = b
    at hq hmw
  have hstates : b.m_States = [0, 1] :=
    sorted_two hq.states_sorted (fun i => by rw [hq.states_iff, hlen])
  have hfin1 : 1 ∈ b.m_FinalStates := by
    rw [hq.finals_iff]
    exact ⟨_, htl, hall f hfS⟩
  have hloop : ∀ a ∈ d.m_Alphabet, mapFind (1, a) b.m_Transitions = some 1 := by
    intro a ha
    rw [hq.trans_eq 1 _ a htl ha]
    simp only [List.headD_cons]
    have hk := hinv.ext.keep _ _ (ht.find hfS ha)
    rw [hk]
    simp only [Option.map_some']
    rw [hp _ (DFA.delta_mem hd ht hfS ha)]
  have hi0 : b.m_InitialState = some 1 := by
    rw [hq.initial_eq, hp _ hd.initial_mem]
  obtain ⟨D', hD', -, -, hshape⟩ :=
    pruneResult_cases d.m_Alphabet b 1 hi0 (hq.two_states hinv)
  obtain ⟨s0, -, -, s3, -, -⟩ :=
    sinkScan_gen d.m_Alphabet b.m_FinalStates b.m_States b.m_Transitions
  have hsingle : ∃ s, D'.m_States = [s] := by
    rcases hshape with h1 | ⟨hα, hini, hrest, ⟨-, h1, h2⟩ | ⟨s, hs, h1, -⟩⟩
    · exact ⟨_, h1⟩
    · exfalso
      have hin : D'.m_InitialState = 1 := hini (by rw [h1, hstates]; simp)
      rw [hin, h2] at hrest
      have : restInaccessible 1 d.m_Alphabet
          (sinkScan d.m_Alphabet b.m_FinalStates b.m_States b.m_Transitions).2 = true := by
        apply restInaccessible_of_loops
        intro a ha v hv
        rw [s0 _ _ (hloop a ha)] at hv
        exact (Option.some.inj hv).symm
      rw [this] at hrest
      exact Bool.noConfusion hrest
    · obtain ⟨hsm, hsnf, -⟩ := s3 s hs
      have hs0 : s = 0 := by
        rw [hstates] at hsm
        simp only [List.mem_cons, List.mem_singleton, List.not_mem_nil, or_false] at hsm
        rcases hsm with h | h
        · exact h
        · exact absurd (h ▸ hfin1) (hsnf hα)
      rw [hs0, hstates] at h1
      exact ⟨1, by rw [h1]; rfl⟩
  obtain ⟨s, hs⟩ := hsingle
  exact ⟨D', s, by rw [hmw, hD'], hs⟩

/-- On a DFA with closed references all of whose states are accepting, total or not,
`minimize` reads the first element of the empty block of non-accepting states;
whatever that read yields, a non-accepting state of the DFA returned whose
transitions all lead to itself is its only state. -/
theorem minimize_all_final_trap {d : DFA} (hd : d.Closed)
    (hs : (d.m_Transitions.map Prod.fst).Sorted (fun a b => keyLt a b = true))
    (hall : ∀ q ∈ d.m_States, q ∈ d.m_FinalStates) (junk : Nat) :
    ∃ D', minimizeWith junk d = some D' ∧
      ∀ t ∈ D'.m_States, t ∉ D'.m_FinalStates →
        (∀ a ∈ D'.m_Alphabet, mapFind (t, a) D'.m_Transitions = some t) →
        D'.m_States = [t] := by
  obtain ⟨f, hfh⟩ : ∃ f, d.m_FinalStates.head? = some f := by
    have := hall _ hd.initial_mem
    cases hl : d.m_FinalStates with
    | nil => rw [hl] at this; exact absurd this (List.not_mem_nil _)
    | cons x xs => exact ⟨x, rfl⟩
  have hQ1 : d.m_States.filter (fun s => !d.m_FinalStates.contains s) = [] := by
    rw [List.filter_eq_nil_iff]
    intro q hq
    simp [hall q hq]
  obtain ⟨st, hinv, -, -, hq, hmw, -⟩ := minimizeWith_setup hd hs junk (fun _ => True)
    (fun _ _ _ _ _ => trivial) trivial
  have hB0 : st.currSet[0]? = some [] := by
    obtain ⟨B0, hB0, hh⟩ := hinv.head_zero
    rw [hQ1] at hh
    rw [List.head?_eq_none_iff.1 hh] at hB0
    exact hB0
  generalize buildBlocksWith junk st.original (numberBlocks 0 st.currSet [] []).1
    (numberBlocks 0 st.currSet [] []).2 st.currSet
    { m_States := [], m_Transitions := [], m_InitialState := none, m_FinalStates := [] } = b
    at hq hmw
  obtain ⟨D', hD', hal, hfin, hshape⟩ :=
    pruneResult_cases d.m_Alphabet b _ hq.initial_eq (hq.two_states hinv)
  obtain ⟨-, -, -, -, -, s5⟩ :=
    sinkScan_gen d.m_Alphabet b.m_FinalStates b.m_States b.m_Transitions
  refine ⟨D', by rw [hmw, hD'], fun t ht1 ht2 ht3 => ?_⟩
  rw [hfin] at ht2
  rcases hshape with h1 | ⟨-, -, -, hcase⟩
  · rw [h1] at ht1 ⊢
    simp only [List.mem_singleton] at ht1
    rw [ht1]
  · exfalso
    have htb : t ∈ b.m_States := by
      rcases hcase with ⟨-, h1, -⟩ | ⟨s, -, h1, -⟩
      · rw [h1] at ht1; exact ht1
      · rw [h1] at ht1; exact (List.mem_filter.1 ht1).1
    have htl := (hq.states_iff t).1 htb
    -- the state is block 0, the one that is empty
    have ht0 : t = 0 := by
      by_contra hne
      apply ht2
      rw [hq.finals_iff]
      have hB : st.currSet[t]? = some st.currSet[t] := List.getElem?_eq_some_iff.2 ⟨htl, rfl⟩
      have hBne : st.currSet[t] ≠ [] := by
        by_cases ht2' : 2 ≤ t
        · exact hinv.late t _ hB ht2'
        · have ht1' : t = 1 := by omega
          subst ht1'
          obtain ⟨B1, hB1, hh⟩ := hinv.head_one
          rw [hB] at hB1
          rw [← Option.some.inj hB1, hfh] at hh
          intro hc
          rw [hc] at hh
          simp at hh
      obtain ⟨x, xs, hxs⟩ := List.exists_cons_of_ne_nil hBne
      refine ⟨_, hB, ?_⟩
      rw [hxs, List.headD_cons]
      exact hall x (hinv.block_states hB (by rw [hxs]; simp))
    subst ht0
    have hjunk : junk ∉ d.m_States := by
      intro hc
      apply ht2
      rw [hq.finals_iff]
      exact ⟨[], hB0, hall junk hc⟩
    have hsink : (sinkScan d.m_Alphabet b.m_FinalStates b.m_States b.m_Transitions).1 =
        some 0 := by
      apply s5 (sorted_head_zero hq.states_sorted htb) ht2
      intro a v hav
      exfalso
      by_cases ha : a ∈ d.m_Alphabet
      · rw [hq.trans_eq 0 [] a hB0 ha] at hav
        simp only [List.headD_nil] at hav
        cases hm : mapFind (junk, a) st.original.m_Transitions with
        | none => rw [hm] at hav; exact Option.noConfusion hav
        | some u =>
          rcases hinv.ext.added _ _ hm with h1 | ⟨-, h1, -⟩
          · exact hjunk (hd.trans_src _ (mapFind_mem h1))
          · exact hjunk h1
      · rw [hq.trans_none 0 a (Or.inr ha)] at hav
        exact Option.noConfusion hav
    rcases hcase with ⟨hs, -, -⟩ | ⟨s, hs, h1, -⟩
    · rw [hsink] at hs
      exact Option.noConfusion hs
    · rw [hsink] at hs
      rw [← Option.some.inj hs] at h1
      rw [h1] at ht1
      have := (List.mem_filter.1 ht1).2
      simp at this

/-! ## Minimality and traps of the result of `minimize` -/

/-- On a well-formed DFA that has a non-accepting state or is total, `minimize`
returns a DFA whose states are pairwise told apart by some word. Where a block is
empty (no accepting state, or no non-accepting one) this holds whatever the read
of its first element yields; otherwise nothing undefined is read. -/
theorem minimize_distinguishes (d : DFA) (hd : d.WF)
    (h : (∃ q ∈ d.m_States, q ∉ d.m_FinalStates) ∨ d.Total) (junk : Nat) :
    ∃ R, minimizeWith junk d = some R ∧
      ((∃ q ∈ d.m_States, q ∉ d.m_FinalStates) → d.m_FinalStates ≠ [] →
        minimize d = some R) ∧
      ∀ p ∈ R.m_States, ∀ q ∈ R.m_States, p ≠ q →
        ∃ w, R.acceptsFrom p w ≠ R.acceptsFrom q w := by
  have single : (∃ D' s, minimizeWith junk d = some D' ∧ D'.m_States = [s]) →
      ((∃ q ∈ d.m_States, q ∉ d.m_FinalStates) → d.m_FinalStates ≠ [] → False) →
      ∃ R, minimizeWith junk d = some R ∧
        ((∃ q ∈ d.m_States, q ∉ d.m_FinalStates) → d.m_FinalStates ≠ [] →
          minimize d = some R) ∧
        ∀ p ∈ R.m_States, ∀ q ∈ R.m_States, p ≠ q →
          ∃ w, R.acceptsFrom p w ≠ R.acceptsFrom q w := by
    rintro ⟨D', s, hD', hs⟩ hno
    refine ⟨D', hD', fun h1 h2 => (hno h1 h2).elim, fun p hp q hq hpq => ?_⟩
    rw [hs] at hp hq
    simp only [List.mem_singleton] at hp hq
    exact absurd (hp.trans hq.symm) hpq
  by_cases hnf : ∃ q ∈ d.m_States, q ∉ d.m_FinalStates
  · by_cases hf : d.m_FinalStates = []
    · exact single (minimize_no_final hd.closed hd.keys_sorted hnf hf junk) (fun _ h2 => h2 hf)
    · obtain ⟨D', h1, h2, h3, -⟩ := minimize_both_kinds hd.closed hd.keys_sorted hnf hf junk
      exact ⟨D', h1, fun _ _ => h2, h3⟩
  · have hall : ∀ q ∈ d.m_States, q ∈ d.m_FinalStates := by
      intro q hq
      by_contra hc
      exact hnf ⟨q, hq, hc⟩
    rcases h with h | h
    · exact absurd h hnf
    · exact single (minimize_all_final_total hd.closed hd.keys_sorted hall h junk) (fun h1 _ => hnf h1)

/-- The theorem `minimize_distinguishes` at the partial DFA `partialDfa`. -/
theorem minimize_distinguishes_witness :
    partialDfa.WF ∧ ((∃ q ∈ partialDfa.m_States, q ∉ partialDfa.m_FinalStates) ∨
        partialDfa.Total) ∧
      ∃ R, minimizeWith 0 partialDfa = some R ∧
        ((∃ q ∈ partialDfa.m_States, q ∉ partialDfa.m_FinalStates) →
          partialDfa.m_FinalStates ≠ [] → minimize partialDfa = some R) ∧
        ∀ p ∈ R.m_States, ∀ q ∈ R.m_States, p ≠ q →
          ∃ w, R.acceptsFrom p w ≠ R.acceptsFrom q w :=
  ⟨partialDfa_wf, Or.inl ⟨0, by decide, by decide⟩,
    minimize_distinguishes partialDfa partialDfa_wf (Or.inl ⟨0, by decide, by decide⟩) 0⟩

/-- C13, evaluated on the code: `loneDfa` is a well-formed DFA with the single
state 0, accepting, and no transition. `minimize` starts from the blocks
`[{}, {0}]` and reads the first element of the empty block of non-accepting states
(lines 137 and 142), which is undefined. When that read yields 0, the DFA returned
has the states 0 and 1, both accepting and both with the transition to 0 on `a`
that the sink scan inserts: two distinct states that accept the same words. When
the read yields another number, the DFA returned has the single state 1. -/
theorem minimize_equivalent_states :
    loneDfa.WF ∧ minimize loneDfa = none ∧
      (∃ R, minimizeWith 0 loneDfa = some R ∧
        R = { m_States := [0, 1], m_Alphabet := [97],
              m_Transitions := [((0, 97), 0), ((1, 97), 0)], m_InitialState := 1,
              m_FinalStates := [0, 1] } ∧
        0 ∈ R.m_States ∧ 1 ∈ R.m_States ∧ ∀ w, R.acceptsFrom 0 w = R.acceptsFrom 1 w) ∧
      ∀ junk, junk ≠ 0 →
        minimizeWith junk loneDfa =
          some { m_States := [1], m_Alphabet := [97], m_Transitions := [],
                 m_InitialState := 1, m_FinalStates := [1] } := by
  refine ⟨loneDfa_wf, by decide, ⟨_, by decide, rfl, by decide, by decide, fun w => ?_⟩,
    fun junk hj => ?_⟩
  · cases w with
    | nil => rfl
    | cons a w =>
      rw [DFA.acceptsFrom_cons, DFA.acceptsFrom_cons]
      by_cases ha : a = 97
      · subst ha; rfl
      · have h0 : mapFind (0, a) [((0, 97), 0), ((1, 97), 0)] = none := by
          simp [mapFind, Ne.symm ha]
        have h1 : mapFind (1, a) [((0, 97), 0), ((1, 97), 0)] = none := by
          simp [mapFind, Ne.symm ha]
        simp only [h0, h1]
  · have hsame : minimizeWith junk loneDfa = minimizeWith 1 loneDfa := by
      have hloop : refineLoop (refineSize loneDfa + 3) (refineSize loneDfa + 2)
          (refineStart loneDfa) = some (RefineState.mk [[], [0]] [(0, 1)] loneDfa) := by
        decide
      rw [minimizeWith_eq_refine, minimizeWith_eq_refine, hloop]
      simp only
      rw [buildBlocksWith_congr junk 1 loneDfa _ _ (fun s => rfl) (by
        simp only [loneDfa, List.mem_singleton]
        omega)]
    rw [hsame]
    decide


/-- C14: for every well-formed DFA `d`, total or not, `minimize` returns a DFA in
which a non-accepting state whose transitions on all symbols of the alphabet lead
to itself is the only state. Where `d` has an accepting and a non-accepting state
no block is empty and `R` is the result of `minimize`; where a block is empty, the
statement holds whatever the read of its first element (lines 137 and 142)
yields. -/
theorem minimize_no_trap (d : DFA) (hd : d.WF) (junk : Nat) :
    ∃ R, minimizeWith junk d = some R ∧
      ((∃ q ∈ d.m_States, q ∉ d.m_FinalStates) → d.m_FinalStates ≠ [] →
        minimize d = some R) ∧
      ∀ t ∈ R.m_States, t ∉ R.m_FinalStates →
        (∀ a ∈ R.m_Alphabet, mapFind (t, a) R.m_Transitions = some t) →
        R.m_States = [t] := by
  by_cases hnf : ∃ q ∈ d.m_States, q ∉ d.m_FinalStates
  · by_cases hf : d.m_FinalStates = []
    · obtain ⟨D', s, hD', hs⟩ := minimize_no_final hd.closed hd.keys_sorted hnf hf junk
      refine ⟨D', hD', fun _ h2 => absurd hf h2, fun t ht _ _ => ?_⟩
      rw [hs] at ht ⊢
      simp only [List.mem_singleton] at ht
      rw [ht]
    · obtain ⟨D', h1, h2, -, h4⟩ := minimize_both_kinds hd.closed hd.keys_sorted hnf hf junk
      exact ⟨D', h1, fun _ _ => h2, h4⟩
  · have hall : ∀ q ∈ d.m_States, q ∈ d.m_FinalStates := by
      intro q hq
      by_contra hc
      exact hnf ⟨q, hq, hc⟩
    obtain ⟨D', h1, h2⟩ := minimize_all_final_trap hd.closed hd.keys_sorted hall junk
    exact ⟨D', h1, fun h3 _ => absurd h3 hnf, h2⟩

/-- The theorem `minimize_no_trap` at the DFA `gapDfa`, whose state 0 is a
non-accepting sink. -/
theorem minimize_no_trap_witness :
    gapDfa.WF ∧
      ∃ R, minimizeWith 0 gapDfa = some R ∧
        ((∃ q ∈ gapDfa.m_States, q ∉ gapDfa.m_FinalStates) → gapDfa.m_FinalStates ≠ [] →
          minimize gapDfa = some R) ∧
        ∀ t ∈ R.m_States, t ∉ R.m_FinalStates →
          (∀ a ∈ R.m_Alphabet, mapFind (t, a) R.m_Transitions = some t) →
          R.m_States = [t] :=
  ⟨gapDfa_wf, minimize_no_trap gapDfa gapDfa_wf 0⟩

/-! ## `intersect` with the operands exchanged -/

theorem parallelRun_keys_sorted {a b R : DFA} (h : parallelRun a b = some R) :
    (R.m_Transitions.map Prod.fst).Sorted (fun x y => keyLt x y = true) := by
  unfold parallelRun at h
  simp only at h
  cases hl : parallelLoop a b
      (parallelFuel (setInsertAll b.m_Alphabet (setInsertAll a.m_Alphabet [])).length
        (a.m_States.length * b.m_States.length) + 1)
      { result :=
          { m_States := [0]
            m_Alphabet := setInsertAll b.m_Alphabet (setInsertAll a.m_Alphabet [])
            m_Transitions := []
            m_InitialState := 1
            m_FinalStates := [] }
        tempTransitions :=
          (setInsertAll b.m_Alphabet (setInsertAll a.m_Alphabet [])).foldl
            (fun t symbol => mapAssign vecKeyLt ([], symbol) [] t) []
        pairID := [([], 0)]
        queue := [[a.m_InitialState, b.m_InitialState]]
        stateCounter := 1 } with
  | none => rw [hl] at h; exact Option.noConfusion h
  | some st =>
    rw [hl] at h
    simp only [Option.some.injEq] at h
    rw [← h]
    exact foldl_assign_keys_sorted
      (fun e : (List Nat × Nat) × List Nat =>
        ((lookupD st.pairID e.1.1, e.1.2), lookupD st.pairID e.2))
      st.tempTransitions [] List.sorted_nil

/-- For well-formed NFAs with fewer than 32 states together whose alphabets share a
symbol, `intersect` returns a DFA, also where the intersection is empty and
`minimize` reads the first element of the empty accepting block, whatever that
read yields. -/
theorem intersectWith_returns {a b : NFA} (ha : a.WF) (hb : b.WF)
    (hN : a.m_States.length + b.m_States.length < 32)
    (hshare : ∃ c, c ∈ a.m_Alphabet ∧ c ∈ b.m_Alphabet) (junk : Nat) :
    ∃ D, intersectWith junk a b = some D := by
  obtain ⟨da, hda, hca, hta, haa, -, -⟩ :=
    determine_output ha (NFA.fewSubsets_of_length ha (by omega))
  obtain ⟨db, hdb, hcb, htb, hab, -, -⟩ :=
    determine_output hb (NFA.fewSubsets_of_length hb (by omega))
  obtain ⟨R, hR, hRc, -, -, -, h0, h0f, -⟩ := parallelRun_spec hca hcb hta htb
    (determine_product_bound ha hb hN hda hdb) (by rw [haa, hab]; exact hshare)
  have hks := parallelRun_keys_sorted hR
  have hm : ∃ D, minimizeWith junk R = some D := by
    by_cases hf : R.m_FinalStates = []
    · obtain ⟨D, -, hD, -⟩ := minimize_no_final hRc hks ⟨0, h0, h0f⟩ hf junk
      exact ⟨D, hD⟩
    · obtain ⟨D, hD, -⟩ := minimize_both_kinds hRc hks ⟨0, h0, h0f⟩ hf junk
      exact ⟨D, hD⟩
  obtain ⟨D, hD⟩ := hm
  refine ⟨D, ?_⟩
  unfold intersectWith
  simp only [hda, hdb, hR]
  exact hD

/-- C23, amended: for well-formed DFAs `A` and `B` with `|Q_A| * |Q_B| + 1 < 2 ^ 32`,
`parallelRun A B` and `parallelRun B A` return the same record: the same states,
alphabet, transitions, initial state and accepting states. Hence for well-formed
NFAs `a` and `b` with fewer than 32 states together `intersect a b` and
`intersect b a` are the same, whatever the read of an empty block in `minimize`
yields; when `a` and `b` share a symbol both calls return a DFA, the same one,
and when they also accept a common word no empty block is read. -/
theorem parallelRun_commutative (A B : DFA) (hA : A.WF) (hB : B.WF)
    (hN : A.m_States.length * B.m_States.length + 1 < 2 ^ 32) (a b : NFA) (ha : a.WF)
    (hb : b.WF) (hn : a.m_States.length + b.m_States.length < 32) :
    (∃ R, parallelRun A B = some R ∧ parallelRun B A = some R) ∧
      (∀ junk, intersectWith junk a b = intersectWith junk b a) ∧
      ((∃ c, c ∈ a.m_Alphabet ∧ c ∈ b.m_Alphabet) →
        (∀ junk, ∃ D, intersectWith junk a b = some D ∧ intersectWith junk b a = some D) ∧
          ((∃ w, a.accepts w = true ∧ b.accepts w = true) →
            ∃ D, intersect a b = some D ∧ intersect b a = some D)) := by
  obtain ⟨R, hR, -⟩ := parallelRun_returns hA.closed hB.closed
  refine ⟨⟨R, hR, by rw [parallelRun_comm hA.closed hB.closed hN, hR]⟩,
    fun junk => (intersectWith_comm ha hb hn junk).symm, fun hshare => ⟨fun junk => ?_,
      fun hacc => ?_⟩⟩
  · obtain ⟨D, hD⟩ := intersectWith_returns ha hb hn hshare junk
    exact ⟨D, hD, by rw [intersectWith_comm ha hb hn junk, hD]⟩
  · obtain ⟨D, hD, -⟩ := intersect_spec ha hb hn hshare hacc
    exact ⟨D, hD, by rw [intersect_comm ha hb hn, hD]⟩

/-- The amended C23 on the partial DFA `partialDfa` and the one-state DFA `loneDfa`,
and on the NFAs `a1` and `a2` of `main`, which share the symbol `a` and both accept
`aa`. -/
theorem parallelRun_commutative_witness :
    partialDfa.WF ∧ loneDfa.WF ∧
      partialDfa.m_States.length * loneDfa.m_States.length + 1 < 2 ^ 32 ∧
      sampleA1.WF ∧ sampleA2.WF ∧ sampleA1.m_States.length + sampleA2.m_States.length < 32 ∧
      (∃ R, parallelRun partialDfa loneDfa = some R ∧ parallelRun loneDfa partialDfa = some R) ∧
      (∀ junk, intersectWith junk sampleA1 sampleA2 = intersectWith junk sampleA2 sampleA1) ∧
      (∀ junk, ∃ D, intersectWith junk sampleA1 sampleA2 = some D ∧
        intersectWith junk sampleA2 sampleA1 = some D) ∧
      ∃ D, intersect sampleA1 sampleA2 = some D ∧ intersect sampleA2 sampleA1 = some D :=
  ⟨partialDfa_wf, loneDfa_wf, by decide, sampleA1_wf, sampleA2_wf, by decide,
    (parallelRun_commutative partialDfa loneDfa partialDfa_wf loneDfa_wf (by decide)
      sampleA1 sampleA2 sampleA1_wf sampleA2_wf (by decide)).1,
    (parallelRun_commutative partialDfa loneDfa partialDfa_wf loneDfa_wf (by decide)
      sampleA1 sampleA2 sampleA1_wf sampleA2_wf (by decide)).2.1,
    ((parallelRun_commutative partialDfa loneDfa partialDfa_wf loneDfa_wf (by decide)
      sampleA1 sampleA2 sampleA1_wf sampleA2_wf (by decide)).2.2
      ⟨97, by decide, by decide⟩).1,
    ((parallelRun_commutative partialDfa loneDfa partialDfa_wf loneDfa_wf (by decide)
      sampleA1 sampleA2 sampleA1_wf sampleA2_wf (by decide)).2.2
      ⟨97, by decide, by decide⟩).2 ⟨[97, 97], by decide, by decide⟩⟩

end Automata
